import Mathlib

/-! # The engines of rchk (`balance.cpp`, `callocators.cpp`, `fficheck.cpp`)

A shallow embedding of the balance transfer functions, of the allocator
engine with the closure of the call graph, and of the FFI checker, over a
small model of the SSA intermediate representation, followed by theorems
about them.

Conventions of the embedding

* An instruction is identified by a number (`InstId`); the value an
  instruction defines is `Value.inst id`.  Pointer equality of LLVM values is
  equality of `Value`s.
* The handlers of the source mutate their reference parameters.  Here they
  take and return an `Env` record holding everything they may write: the
  balance state, the two recognizer caches, the message log, the counter of
  refinable infos, and the done-set and worklist that `add()` writes.
* An `assert` of the source that fails is the result `none`.
-/

namespace Rchk

/-! ## The SSA view used by the balance engine -/

abbrev InstId := Nat
abbrev FuncId := Nat
abbrev GlobalId := Nat
abbrev BlockId := Nat

/-- An operand of an instruction.  `constInt w bits` is a `ConstantInt` of
`w` bits with bit pattern `bits % 2^w`; `constOther` is any other constant
that is neither a global variable nor a function. -/
inductive Value where
  | constInt (width : Nat) (bits : Nat)
  | constOther (tag : Nat)
  | global (g : GlobalId)
  | func (f : FuncId)
  | argument (idx : Nat)
  | inst (id : InstId)
  deriving DecidableEq, Repr

/-- Integer comparison predicates of `CmpInst`.  The engine only inspects
comparisons one of whose operands is a load of an integer stack slot, which
LLVM compares with `icmp`. -/
inductive Predicate where
  | ICMP_EQ | ICMP_NE
  | ICMP_UGT | ICMP_UGE | ICMP_ULT | ICMP_ULE
  | ICMP_SGT | ICMP_SGE | ICMP_SLT | ICMP_SLE
  deriving DecidableEq, Repr

/-- Opcodes of `BinaryOperator`; only `Add` is told apart by the engine. -/
inductive Opcode where
  | Add | Sub | Mul | Other (code : Nat)
  deriving DecidableEq, Repr

/-- Instruction kinds.  `alloca (some w) arr` allocates an integer of `w` bits,
`alloca none arr` something of another type; `arr` is `isArrayAllocation()`. -/
inductive Instr where
  | alloca (intWidth : Option Nat) (isArray : Bool)
  | load (ptr : Value)
  | store (val : Value) (ptr : Value)
  | call (callee : Value) (args : List Value)
  | binop (op : Opcode) (lhs : Value) (rhs : Value)
  | cmp (pred : Predicate) (lhs : Value) (rhs : Value)
  | br (dest : BlockId)
  | condBr (cond : Value) (ifTrue : BlockId) (ifFalse : BlockId)
  | ret (val : Option Value)
  | otherTerminator (ops : List Value) (succs : List BlockId)
  | other (ops : List Value)
  deriving DecidableEq, Repr

/-- An instruction together with its identity (the `Instruction*`). -/
structure Instruction where
  id : InstId
  op : Instr
  deriving DecidableEq, Repr

/-- A function body: its basic blocks, `BlockId` being the position. -/
structure FunctionIR where
  blocks : List (List Instruction)
  deriving DecidableEq, Repr

/-- The operands of an instruction, one entry per use. -/
def Instr.operands : Instr → List Value
  | .alloca _ _ => []
  | .load p => [p]
  | .store v p => [v, p]
  | .call c args => args ++ [c]
  | .binop _ a b => [a, b]
  | .cmp _ a b => [a, b]
  | .br _ => []
  | .condBr c _ _ => [c]
  | .ret none => []
  | .ret (some v) => [v]
  | .otherTerminator ops _ => ops
  | .other ops => ops

/-- All instructions of the function, in block order. -/
def FunctionIR.insts (F : FunctionIR) : List Instruction :=
  F.blocks.flatten

/-- The instruction that defines `Value.inst id`. -/
def FunctionIR.find (F : FunctionIR) (id : InstId) : Option Instr :=
  (F.insts.find? (fun i => i.id = id)).map (fun i => i.op)

/-- The instructions of one basic block (`begin()` .. `end()`). -/
def FunctionIR.block (F : FunctionIR) (bb : BlockId) : List Instruction :=
  F.blocks.getD bb []

/-- The uses of a value among the instructions of a list: each user once per
operand that is the value. -/
def usersIn (l : List Instruction) (v : Value) : List Instruction :=
  l.flatMap (fun i => List.replicate (i.op.operands.count v) i)

/-- The use list of a value. -/
def FunctionIR.users (F : FunctionIR) (v : Value) : List Instruction :=
  usersIn F.insts v

/-- The test `v->hasOneUse()`. -/
def FunctionIR.hasOneUse (F : FunctionIR) (v : Value) : Bool :=
  (F.users v).length = 1

/-- The call `v->user_back()`, the first entry of the use list. -/
def FunctionIR.user_back (F : FunctionIR) (v : Value) : Option Instruction :=
  (F.users v).head?

/-- The test `LoadInst::classof(v)`, giving the pointer operand. -/
def FunctionIR.asLoad (F : FunctionIR) : Value → Option Value
  | .inst id =>
    match F.find id with
    | some (.load p) => some p
    | _ => none
  | _ => none

/-- The test `AllocaInst::classof(v)`, giving the stack slot. -/
def FunctionIR.asAlloca (F : FunctionIR) : Value → Option InstId
  | .inst id =>
    match F.find id with
    | some (.alloca _ _) => some id
    | _ => none
  | _ => none

/-- The test `BinaryOperator::classof(v)`, giving opcode and operands. -/
def FunctionIR.asBinaryOperator (F : FunctionIR) : Value → Option (Opcode × Value × Value)
  | .inst id =>
    match F.find id with
    | some (.binop op a b) => some (op, a, b)
    | _ => none
  | _ => none

/-- The test `CmpInst::classof(v)`, giving predicate and operands. -/
def FunctionIR.asCmp (F : FunctionIR) : Value → Option (Predicate × Value × Value)
  | .inst id =>
    match F.find id with
    | some (.cmp p a b) => some (p, a, b)
    | _ => none
  | _ => none

/-- The test `ConstantInt::classof(v)`. -/
def Value.isConstantInt : Value → Bool
  | .constInt _ _ => true
  | _ => false

/-- The test `Constant::classof(v)`: constants, global variables, functions. -/
def Value.isConstant : Value → Bool
  | .constInt _ _ => true
  | .constOther _ => true
  | .global _ => true
  | .func _ => true
  | _ => false

/-- The call `cs.getCalledFunction()`: the callee of a direct call. -/
def getCalledFunction : Value → Option FuncId
  | .func f => some f
  | _ => none

/-! ## Integer constants -/

/-- The call `getZExtValue()`: the bit pattern as an unsigned number; LLVM
asserts that it fits 64 bits. -/
def getZExtValue (width bits : Nat) : Option Nat :=
  if bits % 2 ^ width < 2 ^ 64 then some (bits % 2 ^ width) else none

/-- The two's-complement value of a `width`-bit pattern. -/
def signedValue (width bits : Nat) : Int :=
  if width = 0 then 0
  else if bits % 2 ^ width < 2 ^ (width - 1) then ((bits % 2 ^ width : Nat) : Int)
  else ((bits % 2 ^ width : Nat) : Int) - ((2 ^ width : Nat) : Int)

/-- The call `getSExtValue()`; LLVM asserts that the value fits 64 bits. -/
def getSExtValue (width bits : Nat) : Option Int :=
  if -(2 ^ 63 : Int) ≤ signedValue width bits ∧ signedValue width bits < (2 ^ 63 : Int)
  then some (signedValue width bits) else none

/-- The cast `(int) arg` of a `uint64_t`: reduction to 32 bits, two's complement. -/
def castToInt (arg : Nat) : Int :=
  if arg % 2 ^ 32 < 2 ^ 31 then ((arg % 2 ^ 32 : Nat) : Int)
  else ((arg % 2 ^ 32 : Nat) : Int) - ((2 ^ 32 : Nat) : Int)

/-- The bit pattern of `ConstantInt::getSigned(type, v)` for a `width`-bit type. -/
def getSigned (width : Nat) (v : Int) : Nat :=
  (v % ((2 ^ width : Nat) : Int)).toNat

/-- The constant folding of `icmp pred l r` on two `width`-bit patterns. -/
def evalICmp (p : Predicate) (width l r : Nat) : Bool :=
  match p with
  | .ICMP_EQ => decide (l % 2 ^ width = r % 2 ^ width)
  | .ICMP_NE => decide (l % 2 ^ width ≠ r % 2 ^ width)
  | .ICMP_UGT => decide (l % 2 ^ width > r % 2 ^ width)
  | .ICMP_UGE => decide (l % 2 ^ width ≥ r % 2 ^ width)
  | .ICMP_ULT => decide (l % 2 ^ width < r % 2 ^ width)
  | .ICMP_ULE => decide (l % 2 ^ width ≤ r % 2 ^ width)
  | .ICMP_SGT => decide (signedValue width l > signedValue width r)
  | .ICMP_SGE => decide (signedValue width l ≥ signedValue width r)
  | .ICMP_SLT => decide (signedValue width l < signedValue width r)
  | .ICMP_SLE => decide (signedValue width l ≤ signedValue width r)

/-- The test `ci->isEquality()`. -/
def Predicate.isEquality : Predicate → Bool
  | .ICMP_EQ => true
  | .ICMP_NE => true
  | _ => false

/-- The test `ci->isTrueWhenEqual()`. -/
def Predicate.isTrueWhenEqual : Predicate → Bool
  | .ICMP_EQ => true
  | .ICMP_UGE => true
  | .ICMP_ULE => true
  | .ICMP_SGE => true
  | .ICMP_SLE => true
  | _ => false

/-! ## Balance state, globals, messages -/

/-- The enumeration `CountState`. -/
inductive CountState where
  | CS_NONE | CS_EXACT | CS_DIFF
  deriving DecidableEq, Repr

/-- Modelled from the spec: the record `BalanceStateTy` is declared in
`balance.h`, which is not among the sources.  The fields are those of the
data model (depth, saved depth, count state, count, counter variable), the
numbers being integers as the data model has them.  The unset `savedDepth` and
`count` are `-1` and the unbound `counterVar` is the null pointer, as `dump`
and the test `savedDepth < 0` of `handleStore` show. -/
structure BalanceStateTy where
  depth : Int
  savedDepth : Int
  count : Int
  countState : CountState
  counterVar : Option InstId
  deriving DecidableEq, Repr

/-- Modelled from the spec: the state at function entry (depth 0, no saved
depth, no counter). -/
def BalanceStateTy.entry : BalanceStateTy :=
  { depth := 0, savedDepth := -1, count := -1, countState := .CS_NONE, counterVar := none }

/-- Modelled from the spec: the bounds `MAX_COUNT` and `MAX_DEPTH` are
constants of `balance.h`; they are parameters here. -/
structure Limits where
  MAX_COUNT : Int
  MAX_DEPTH : Int
  deriving DecidableEq, Repr

/-- Modelled from the spec: the recognized runtime symbols (`GlobalsTy`), each
of which may be absent from the module (a null pointer). -/
structure GlobalsTy where
  protectFunction : Option FuncId
  protectWithIndexFunction : Option FuncId
  unprotectFunction : Option FuncId
  unprotectPtrFunction : Option FuncId
  ppStackTopVariable : Option GlobalId
  deriving DecidableEq, Repr

/-- Levels of the diagnostics channel. -/
inductive Level where
  | debug | trace | info
  deriving DecidableEq, Repr

/-- One emitted message: level, text and the instruction it is reported at. -/
structure Message where
  level : Level
  text : String
  loc : InstId
  deriving DecidableEq, Repr

/-- The cache type `VarBoolCacheTy`, a map from stack slots to booleans. -/
abbrev VarBoolCacheTy := List (InstId × Bool)

/-- The call `cache.insert({var, res})`, which keeps an existing entry. -/
def cacheInsert (cache : VarBoolCacheTy) (var : InstId) (res : Bool) : VarBoolCacheTy :=
  match cache.lookup var with
  | some _ => cache
  | none => (var, res) :: cache

/-- Modelled from the spec: a state of the worklist, the balance state cloned
to a basic block (`s.clone(succ)`).  Guard facts are left out; no function of
`balance.cpp` reads or writes them. -/
structure StateTy where
  bb : BlockId
  balance : BalanceStateTy
  deriving DecidableEq, Repr

/-- Everything the handlers can write through their parameters. -/
structure Env where
  b : BalanceStateTy
  counterVarsCache : VarBoolCacheTy
  saveVarsCache : VarBoolCacheTy
  msg : List Message
  refinableInfos : Nat
  doneSet : List StateTy
  workList : List StateTy
  deriving DecidableEq, Repr

/-- The call `msg.debug(text, in)`. -/
def Env.debug (e : Env) (text : String) (loc : InstId) : Env :=
  { e with msg := e.msg ++ [⟨.debug, text, loc⟩] }

/-- The call `msg.trace(text, in)`. -/
def Env.trace (e : Env) (text : String) (loc : InstId) : Env :=
  { e with msg := e.msg ++ [⟨.trace, text, loc⟩] }

/-- The call `msg.info(text, in)`. -/
def Env.info (e : Env) (text : String) (loc : InstId) : Env :=
  { e with msg := e.msg ++ [⟨.info, text, loc⟩] }

/-- The statement `refinableInfos++`. -/
def Env.incRefinable (e : Env) : Env :=
  { e with refinableInfos := e.refinableInfos + 1 }

/-- The info-level messages of a log. -/
def infos (msgs : List Message) : List Message :=
  msgs.filter (fun m => m.level = .info)

/-- Modelled from the spec: `state->add()` absorbs the state into the
deduplicating done-set and enqueues it, or discards it if already present;
the result tells whether it was added. -/
def Env.add (e : Env) (s : StateTy) : Bool × Env :=
  if s ∈ e.doneSet then (false, e)
  else (true, { e with doneSet := s :: e.doneSet, workList := s :: e.workList })

/-! ## Pattern recognizers -/

/-- The loop over the users of `var` in `isProtectionStackTopSaveVariable`:
`none` when some other use is met (the early `return false`), otherwise the
final value of `usesPPStackTop`. -/
def saveVariableLoop (F : FunctionIR) (ppStackTopVariable : GlobalId) :
    List Instruction → Bool → Option Bool
  | [], usesPPStackTop => some usesPPStackTop
  | u :: rest, _ =>
    let storeCase : Bool :=
      match u.op with
      | .store v _ =>
        -- savestack = R_PPStackTop
        F.asLoad v = some (.global ppStackTopVariable) && F.hasOneUse v
      | _ => false
    let loadCase : Bool :=
      match u.op with
      | .load _ =>
        -- R_PPStackTop = savestack
        F.hasOneUse (.inst u.id) &&
          (match F.user_back (.inst u.id) with
           | some ⟨_, .store _ p⟩ => p = .global ppStackTopVariable
           | _ => false)
      | _ => false
    if storeCase then saveVariableLoop F ppStackTopVariable rest true
    else if loadCase then saveVariableLoop F ppStackTopVariable rest true
    else none

/-- The function `isProtectionStackTopSaveVariable(var, ppStackTopVariable, cache)`. -/
def isProtectionStackTopSaveVariable (F : FunctionIR) (var : InstId)
    (ppStackTopVariable : Option GlobalId) (cache : VarBoolCacheTy) : Bool × VarBoolCacheTy :=
  match ppStackTopVariable with
  | none => (false, cache)
  | some pp =>
    match cache.lookup var with
    | some r => (r, cache)
    | none =>
      match saveVariableLoop F pp (F.users (.inst var)) false with
      | none => (false, cacheInsert cache var false)
      | some usesPPStackTop => (usesPPStackTop, cacheInsert cache var true)

/-- The loop over the users of `var` in `isProtectionCounterVariable`, with
the running value of `passedToUnprotect`. -/
def counterVariableLoop (F : FunctionIR) (var : InstId) (unprotectFunction : FuncId) :
    List Instruction → Bool → Bool
  | [], passedToUnprotect => passedToUnprotect
  | u :: rest, passedToUnprotect =>
    match u.op with
    | .store v _ =>
      if v.isConstantInt then
        -- nprotect = 3
        counterVariableLoop F var unprotectFunction rest passedToUnprotect
      else
        match F.asBinaryOperator v with
        | some (opcode, op0, op1) =>
          -- nprotect += 3;
          if opcode ≠ .Add then false
          else
            let nonConst : Option Value :=
              if op0.isConstantInt then some op1
              else if op1.isConstantInt then some op0
              else none
            match nonConst with
            | none => false
            | some nc =>
              if F.asLoad nc = some (.inst var) then
                counterVariableLoop F var unprotectFunction rest passedToUnprotect
              else false
        | none => false
    | .load _ =>
      if !F.hasOneUse (.inst u.id) then false
      else
        let isUnprotect : Bool :=
          match F.user_back (.inst u.id) with
          | some ⟨_, .call callee _⟩ => getCalledFunction callee = some unprotectFunction
          | _ => false
        counterVariableLoop F var unprotectFunction rest (isUnprotect || passedToUnprotect)
    | _ => false

/-- The function `isProtectionCounterVariable(var, unprotectFunction)`. -/
def isProtectionCounterVariable (F : FunctionIR) (var : InstId)
    (unprotectFunction : Option FuncId) : Bool :=
  match unprotectFunction with
  | none => false
  | some unprotect =>
    match F.find var with
    | some (.alloca (some _) false) =>
      counterVariableLoop F var unprotect (F.users (.inst var)) false
    | _ => false

/-- The memoized `isProtectionCounterVariable(var, unprotectFunction, cache)`. -/
def isProtectionCounterVariableCached (F : FunctionIR) (var : InstId)
    (unprotectFunction : Option FuncId) (cache : VarBoolCacheTy) : Bool × VarBoolCacheTy :=
  match unprotectFunction with
  | none => (false, cache)
  | some _ =>
    match cache.lookup var with
    | some r => (r, cache)
    | none =>
      let res := isProtectionCounterVariable F var unprotectFunction
      (res, cacheInsert cache var res)

/-! ## Transfer functions for non-terminators -/

/-- The function `handleCall`. -/
def handleCall (F : FunctionIR) (g : GlobalsTy) (i : Instruction) (e : Env) : Option Env :=
  match i.op with
  | .call callee args =>
    match getCalledFunction callee with
    | none => some e
    | some targetFunc =>
      if some targetFunc = g.protectFunction ∨ some targetFunc = g.protectWithIndexFunction then
        -- PROTECT(x)
        some (({ e with b := { e.b with depth := e.b.depth + 1 } } : Env).debug "protect call" i.id)
      else if some targetFunc = g.unprotectFunction then
        match args with
        | [] => none
        | unprotectValue :: _ =>
          match unprotectValue with
          | .constInt width bits =>
            -- e.g. UNPROTECT(3)
            match getZExtValue width bits with
            | none => none
            | some arg =>
              let e1 := ({ e with b := { e.b with depth := e.b.depth - castToInt arg } } : Env).debug
                "unprotect call using constant" i.id
              if e1.b.countState ≠ .CS_DIFF ∧ e1.b.depth < 0 then
                some ((e1.info "has negative depth" i.id).incRefinable)
              else some e1
          | _ =>
            match F.asLoad unprotectValue with
            | none => some e
            | some varValue =>
              -- e.g. UNPROTECT(numProtects)
              match F.asAlloca varValue with
              | none => some e
              | some var =>
                let r := isProtectionCounterVariableCached F var g.unprotectFunction e.counterVarsCache
                let e0 : Env := { e with counterVarsCache := r.2 }
                if !r.1 then
                  some (e0.info
                    "has an unsupported form of unprotect with a variable (results will be incorrect)" i.id)
                else
                  if e0.b.counterVar.isSome ∧ e0.b.counterVar ≠ some var then
                    some (e0.info
                      "has an unsupported form of unprotect with a variable - multiple counter variables (results will be incorrect)"
                      i.id)
                  else
                    let e1 : Env := { e0 with b := { e0.b with counterVar := some var } }
                    if e1.b.countState = .CS_NONE then
                      some ((e1.info "passes uninitialized counter of protects in a call to unprotect"
                        i.id).incRefinable)
                    else if e1.b.countState = .CS_EXACT then
                      let e2 := ({ e1 with b := { e1.b with depth := e1.b.depth - e1.b.count } } : Env).debug
                        "unprotect call using counter in exact state" i.id
                      if e2.b.depth < 0 then
                        some ((e2.info "has negative depth" i.id).incRefinable)
                      else some e2
                    else if e1.b.countState ≠ .CS_DIFF then none
                    else
                      -- countState == CS_DIFF
                      let e2 := ({ (e1.debug "unprotect call using counter in diff state" i.id) with
                        b := { e1.b with countState := .CS_NONE } } : Env)
                      -- depth keeps its value - it now becomes exact depth again
                      if e2.b.depth < 0 then
                        some ((e2.info "has negative depth after UNPROTECT(<counter>)" i.id).incRefinable)
                      else some e2
      else if some targetFunc = g.unprotectPtrFunction then
        -- UNPROTECT_PTR(x)
        let e1 := ({ (e.debug "unprotect_ptr call" i.id) with
          b := { e.b with depth := e.b.depth - 1 } } : Env)
        if e1.b.countState ≠ .CS_DIFF ∧ e1.b.depth < 0 then
          some ((e1.info "has negative depth" i.id).incRefinable)
        else some e1
      else some e
  | _ => some e

/-- The function `handleLoad`. -/
def handleLoad (F : FunctionIR) (g : GlobalsTy) (i : Instruction) (e : Env) : Option Env :=
  match i.op with
  | .load ptr =>
    if some ptr = g.ppStackTopVariable.map Value.global then
      -- savestack = R_PPStackTop
      if F.hasOneUse (.inst i.id) then
        match F.user_back (.inst i.id) with
        | some ⟨_, .store _ topStorePtr⟩ =>
          match F.asAlloca topStorePtr with
          | none => some e
          | some topStore =>
            let r := isProtectionStackTopSaveVariable F topStore g.ppStackTopVariable e.saveVarsCache
            let e0 : Env := { e with saveVarsCache := r.2 }
            if r.1 then
              if e0.b.countState = .CS_DIFF then
                some ((e0.info
                  "saving value of PPStackTop while in differential count state (results will be incorrect)"
                  i.id).incRefinable)
              else
                some (({ e0 with b := { e0.b with savedDepth := e0.b.depth } } : Env).debug
                  "saving value of PPStackTop" i.id)
            else some e0
        | _ => some e
      else some e
    else some e
  | _ => some e

/-- The counter part of `handleStore`, entered once `storePointerVar` is a
recognized counter slot. -/
def handleCounterStore (F : FunctionIR) (i : Instruction) (storeValueOp : Value)
    (storePointerVar : InstId) (e0 : Env) : Option Env :=
  if e0.b.counterVar.isSome ∧ e0.b.counterVar ≠ some storePointerVar then
    some (e0.info "uses multiple pointer protection counters (results will be incorrect)" i.id)
  else
    let e1 : Env := { e0 with b := { e0.b with counterVar := some storePointerVar } }
    match storeValueOp with
    | .constInt width bits =>
      -- nprotect = 3
      if e1.b.countState = .CS_DIFF then
        some ((e1.info "setting counter value while in differential mode (forgetting protects)?"
          i.id).incRefinable)
      else
        match getSExtValue width bits with
        | none => none
        | some arg =>
          let e2 := ({ e1 with b := { e1.b with count := arg, countState := .CS_EXACT } } : Env).debug
            "setting counter to a constant" i.id
          if e2.b.count < 0 then
            some (e2.info "protection counter set to a negative value" i.id)
          else some e2
    | _ =>
      match F.asBinaryOperator storeValueOp with
      | some (.Add, op0, op1) =>
        -- nprotect += 3;
        let ops : Option (Value × Value) :=
          if op0.isConstantInt then some (op0, op1)
          else if op1.isConstantInt then some (op1, op0)
          else none
        match ops with
        | some (.constInt width bits, nonConstOp) =>
          if F.asLoad nonConstOp = some (.inst storePointerVar) then
            if e1.b.countState = .CS_NONE then
              some ((e1.info "adds a constant to an uninitialized counter variable" i.id).incRefinable)
            else
              match getSExtValue width bits with
              | none => none
              | some arg =>
                let e2 := e1.debug "adding a constant to counter" i.id
                if e2.b.countState = .CS_EXACT then
                  let e3 : Env := { e2 with b := { e2.b with count := e2.b.count + arg } }
                  if e3.b.count < 0 then
                    some ((e3.info "protection counter went negative after add" i.id).incRefinable)
                  else some e3
                else if e2.b.countState ≠ .CS_DIFF then none
                else
                  -- countState == CS_DIFF: fewer protects on top of counter than before
                  some ({ e2 with b := { e2.b with depth := e2.b.depth - arg } } : Env)
          else some e1
        | _ => some e1
      | _ => some e1

/-- The function `handleStore`. -/
def handleStore (F : FunctionIR) (g : GlobalsTy) (i : Instruction) (e : Env) : Option Env :=
  match i.op with
  | .store storeValueOp storePointerOp =>
    if some storePointerOp = g.ppStackTopVariable.map Value.global then
      -- R_PPStackTop = savestack
      let saveVar : Option InstId := (F.asLoad storeValueOp).bind F.asAlloca
      let r : Bool × VarBoolCacheTy :=
        match saveVar with
        | none => (false, e.saveVarsCache)
        | some var => isProtectionStackTopSaveVariable F var g.ppStackTopVariable e.saveVarsCache
      let e0 : Env := { e with saveVarsCache := r.2 }
      if r.1 then
        if e0.b.countState = .CS_DIFF then
          some (e0.info
            "restoring value of PPStackTop while in differential count state (results will be incorrect)"
            i.id)
        else
          let e1 := e0.debug "restoring value of PPStackTop" i.id
          if e1.b.savedDepth < 0 then
            some ((e1.info "restores PPStackTop from uninitialized local variable" i.id).incRefinable)
          else
            some ({ e1 with b := { e1.b with depth := e1.b.savedDepth } } : Env)
      else
        some (e0.info "manipulates PPStackTop directly (results will be incorrect)" i.id)
    else
      match F.asAlloca storePointerOp with
      | none => some e
      | some storePointerVar =>
        let r := isProtectionCounterVariableCached F storePointerVar g.unprotectFunction
          e.counterVarsCache
        let e0 : Env := { e with counterVarsCache := r.2 }
        if r.1 then
          -- nprotect = ...
          handleCounterStore F i storeValueOp storePointerVar e0
        else some e0
  | _ => some e

/-- The function `handleBalanceForNonTerminator`: the three transfers in sequence. -/
def handleBalanceForNonTerminator (F : FunctionIR) (g : GlobalsTy) (i : Instruction)
    (e : Env) : Option Env :=
  (handleCall F g i e).bind (fun e1 => (handleLoad F g i e1).bind (handleStore F g i))

/-! ## Transfer function for terminators -/

/-- The saturation step of `handleBalanceForTerminator`: the counter is turned
to differential state when it exceeds `MAX_COUNT`. -/
def saturate (L : Limits) (e : Env) : Option Env :=
  if e.b.count > L.MAX_COUNT then
    -- turn the counter to differential state
    if e.b.countState ≠ .CS_EXACT then none
    else some { e with b := { e.b with countState := .CS_DIFF,
                                        depth := e.b.depth - e.b.count,
                                        count := -1 } }
  else some e

/-- The operands of a comparison with a constant: the load and the constant,
in whichever order they stand. -/
def splitCompareOperands (F : FunctionIR) (op0 op1 : Value) : Option (Value × Value) :=
  if op0.isConstant ∧ (F.asLoad op1).isSome then some (op1, op0)
  else if (F.asLoad op0).isSome ∧ op1.isConstant then some (op0, op1)
  else none

/-- The width of the integer type a stack slot allocates. -/
def FunctionIR.allocatedWidth (F : FunctionIR) (var : InstId) : Option Nat :=
  match F.find var with
  | some (.alloca w _) => w
  | _ => none

/-- The value of `ConstantExpr::getCompare(pred, getSigned(type, count), constOp)`
as the source uses it: `none` when the result is not known to be a
`ConstantInt` (the assertion of the source). -/
def foldCompare (F : FunctionIR) (pred : Predicate) (counterVar : InstId) (count : Int)
    (constOp : Value) : Option Bool :=
  match F.allocatedWidth counterVar, constOp with
  | some w, .constInt cw cbits =>
    if cw = w then some (evalICmp pred w (getSigned w count) cbits) else none
  | _, _ => none

/-- The shape test of the differential case: the block starts with a load of
`var`, a call of unprotect on that load, and an unconditional branch to
`joinSucc`. -/
def isUnprotectBlock (g : GlobalsTy) (var : InstId) (joinSucc : BlockId) :
    List Instruction → Bool
  | ⟨loadId, .load p⟩ :: rest =>
    if p ≠ .inst var then false
    else
      match rest with
      | ⟨_, .call callee args⟩ :: rest2 =>
        if getCalledFunction callee ≠ g.unprotectFunction ∨ args.head? ≠ some (.inst loadId) then
          false
        else
          match rest2 with
          | ⟨_, .br dest⟩ :: _ => decide (dest = joinSucc)
          | _ => false
      | _ => false
  | _ => false

/-- The branch-folding part of `handleBalanceForTerminator`, entered with a
conditional branch on the comparison `pred op0 op1`. -/
def foldCounterBranch (F : FunctionIR) (g : GlobalsTy) (t : Instruction)
    (pred : Predicate) (op0 op1 : Value) (succ0 succ1 : BlockId) (e : Env) :
    Option (Bool × Env) :=
  -- comparison with constant
  match splitCompareOperands F op0 op1 with
  | none => some (false, e)
  | some (li, constOp) =>
    match (F.asLoad li).bind F.asAlloca with
    | none => some (false, e)
    | some var =>
      -- if (nprotect) UNPROTECT(nprotect)
      let r := isProtectionCounterVariableCached F var g.unprotectFunction e.counterVarsCache
      let e0 : Env := { e with counterVarsCache := r.2 }
      if !r.1 then some (false, e0)
      else if e0.b.counterVar.isSome ∧ e0.b.counterVar ≠ some var then
        some (false, (e0.info "uses multiple pointer protection counters (results will be incorrect)"
          t.id).incRefinable)
      else
        let e1 : Env := { e0 with b := { e0.b with counterVar := some var } }
        if e1.b.countState = .CS_NONE then
          some (false, (e1.info
            "branches based on an uninitialized value of the protection counter variable"
            t.id).incRefinable)
        else if e1.b.countState = .CS_EXACT then
          -- if (nprotect??const) { .... }
          match foldCompare F pred var e1.b.count constOp with
          | none => none
          | some res =>
            -- add only the relevant successor
            let e2 := e1.debug "folding out branch on counter value" t.id
            let succ := if res then succ0 else succ1
            let a := e2.add ⟨succ, e2.b⟩
            if a.1 then some (true, a.2.trace "added folded successor of" t.id)
            else some (true, a.2)
        else if e1.b.countState ≠ .CS_DIFF then none
        else
          -- countState == CS_DIFF
          let isZero : Bool :=
            match constOp with
            | .constInt w bits => bits % 2 ^ w = 0
            | _ => false
          if !pred.isEquality ∨ !isZero then some (false, e1)
          else
            let unprotectSucc := if pred.isTrueWhenEqual then succ1 else succ0
            let joinSucc := if pred.isTrueWhenEqual then succ0 else succ1
            if !isUnprotectBlock g var joinSucc (F.block unprotectSucc) then some (false, e1)
            else
              -- interpret UNPROTECT(nprotect)
              let e2 := ({ (e1.debug "simplifying unprotect conditional on counter value (diff state)"
                t.id) with b := { e1.b with countState := .CS_NONE } } : Env)
              if e2.b.depth < 0 then
                some (false, (e2.info "has negative depth after UNPROTECT(<counter>)" t.id).incRefinable)
              else
                -- next process the code after the if
                let a := e2.add ⟨joinSucc, e2.b⟩
                if a.1 then
                  some (true, a.2.trace "added folded successor (diff counter state) of" t.id)
                else some (true, a.2)

/-- The function `handleBalanceForTerminator`; the boolean tells the caller
that the successors were taken care of. -/
def handleBalanceForTerminator (F : FunctionIR) (L : Limits) (g : GlobalsTy)
    (t : Instruction) (e : Env) : Option (Bool × Env) :=
  match t.op with
  | .ret _ =>
    if e.b.countState = .CS_DIFF ∨ e.b.depth ≠ 0 then
      some (true, (e.info "has possible protection stack imbalance" t.id).incRefinable)
    else some (true, e) -- no successors
  | _ =>
    match saturate L e with
    | none => none
    | some e1 =>
      if e1.b.depth > L.MAX_DEPTH then
        -- stop generating more states at this point
        some (true, (e1.info "has too high protection stack depth" t.id).incRefinable)
      else if e1.b.countState ≠ .CS_DIFF ∧ e1.b.depth < 0 then
        -- do not propagate negative depth to successors
        some (true, e1)
      else
        match t.op with
        | .condBr cond succ0 succ1 =>
          match F.asCmp cond with
          | none => some (false, e1)
          | some (pred, op0, op1) => foldCounterBranch F g t pred op0 op1 succ0 succ1 e1
        | _ => some (false, e1)

/-! ## The per-function worklist loop -/

/-- The successors of a terminator, in order. -/
def Instr.successors : Instr → List BlockId
  | .br dest => [dest]
  | .condBr _ ifTrue ifFalse => [ifTrue, ifFalse]
  | .otherTerminator _ succs => succs
  | _ => []

/-- Modelled from the spec: the instructions of a basic block before its
terminator are run through `handleBalanceForNonTerminator` in order. -/
def runBody (F : FunctionIR) (g : GlobalsTy) : List Instruction → Env → Option Env
  | [], e => some e
  | i :: rest, e => (handleBalanceForNonTerminator F g i e).bind (runBody F g rest)

/-- Modelled from the spec: generic successor enumeration clones the state to
every successor and adds each clone. -/
def addSuccessors : List BlockId → Env → Env
  | [], e => e
  | succ :: rest, e => addSuccessors rest (e.add ⟨succ, e.b⟩).2

/-- Modelled from the spec: one state of the worklist is processed by running
the body of its block, then the terminator transfer, then, unless the
terminator transfer took care of the successors, generic successor
enumeration.  The driver of the source is not among the files; guard facts
are left out. -/
def processState (F : FunctionIR) (L : Limits) (g : GlobalsTy) (s : StateTy) (e : Env) :
    Option Env :=
  match runBody F g (F.block s.bb).dropLast { e with b := s.balance } with
  | none => none
  | some e1 =>
    match (F.block s.bb).getLast? with
    | none => some e1
    | some t =>
      match handleBalanceForTerminator F L g t e1 with
      | none => none
      | some (true, e2) => some e2
      | some (false, e2) => some (addSuccessors t.op.successors e2)

/-- Modelled from the spec: the worklist loop, last in first out, run for at
most `fuel` states; `none` when an assertion fails or the fuel runs out
before the worklist is empty. -/
def analyze (F : FunctionIR) (L : Limits) (g : GlobalsTy) : Nat → Env → Option Env
  | 0, e => if e.workList = [] then some e else none
  | fuel + 1, e =>
    match e.workList with
    | [] => some e
    | s :: rest => (processState F L g s { e with workList := rest }).bind (analyze F L g fuel)

/-- Modelled from the spec: the environment at function entry, the entry
state of block 0 being on the worklist and in the done-set. -/
def Env.entry : Env :=
  { b := BalanceStateTy.entry, counterVarsCache := [], saveVarsCache := [], msg := [],
    refinableInfos := 0, doneSet := [⟨0, BalanceStateTy.entry⟩],
    workList := [⟨0, BalanceStateTy.entry⟩] }

/-- The messages a step from `e` to `e1` has appended to the log. -/
def emitted (e e1 : Env) : List Message :=
  e1.msg.drop e.msg.length

/-! ## Input shapes named in the theorems -/

/-- A direct call of the protect or the protect-with-index primitive. -/
def isProtectCall (g : GlobalsTy) (i : Instruction) : Bool :=
  match i.op with
  | .call (.func f) _ => some f = g.protectFunction || some f = g.protectWithIndexFunction
  | _ => false

/-- A function of one basic block. -/
def singleBlock (insts : List Instruction) : FunctionIR :=
  ⟨[insts]⟩

/-- The recognized runtime symbols of the examples: protect is function 1,
protect-with-index 2, unprotect 3, unprotect-pointer 4, and the stack-top
global is global 0. -/
def exampleGlobals : GlobalsTy :=
  ⟨some 1, some 2, some 3, some 4, some 0⟩

/-- A function with two counters,
`int n = 0; int m = 0; UNPROTECT(n); UNPROTECT(m); return;`. -/
def twoCounters : FunctionIR :=
  ⟨[[⟨0, .alloca (some 32) false⟩,
     ⟨1, .alloca (some 32) false⟩,
     ⟨2, .store (.constInt 32 0) (.inst 0)⟩,
     ⟨3, .store (.constInt 32 0) (.inst 1)⟩,
     ⟨4, .load (.inst 0)⟩,
     ⟨5, .call (.func 3) [.inst 4]⟩,
     ⟨6, .load (.inst 1)⟩,
     ⟨7, .call (.func 3) [.inst 6]⟩,
     ⟨8, .ret none⟩]]⟩

/-- The instructions of `PROTECT(a); n++;` numbered from `base`, the counter
`n` being stack slot 0. -/
def protectIncrement (base : InstId) : List Instruction :=
  [⟨base, .call (.func 1) [.argument 0]⟩,
   ⟨base + 1, .load (.inst 0)⟩,
   ⟨base + 2, .binop .Add (.inst (base + 1)) (.constInt 32 1)⟩,
   ⟨base + 3, .store (.inst (base + 2)) (.inst 0)⟩]

/-- The instructions of `k` repetitions of `PROTECT(a); n++;`. -/
def protectIncrements (base : InstId) : Nat → List Instruction
  | 0 => []
  | k + 1 => protectIncrement base ++ protectIncrements (base + 4) k

/-- The function
`int n = 0; (PROTECT(a); n++;) k times; if (n) UNPROTECT(n); return a;`
with the symbols of `exampleGlobals`: block 0 ends in the branch on `n != 0`,
block 1 is `UNPROTECT(n)`, block 2 the return. -/
def counterIdiom (k : Nat) : FunctionIR :=
  ⟨[[⟨0, .alloca (some 32) false⟩, ⟨1, .store (.constInt 32 0) (.inst 0)⟩]
      ++ protectIncrements 2 k
      ++ [⟨4 * k + 2, .load (.inst 0)⟩,
          ⟨4 * k + 3, .cmp .ICMP_NE (.inst (4 * k + 2)) (.constInt 32 0)⟩,
          ⟨4 * k + 4, .condBr (.inst (4 * k + 3)) 1 2⟩],
     [⟨4 * k + 5, .load (.inst 0)⟩,
      ⟨4 * k + 6, .call (.func 3) [.inst (4 * k + 5)]⟩,
      ⟨4 * k + 7, .br 2⟩],
     [⟨4 * k + 8, .ret (some (.argument 0))⟩]]⟩

/-- The function `int n = 1; PROTECT(a); if (0 < n) UNPROTECT(n); return a;`,
the constant being the left operand of the comparison. -/
def constantOnLeft : FunctionIR :=
  ⟨[[⟨0, .alloca (some 32) false⟩,
     ⟨1, .store (.constInt 32 1) (.inst 0)⟩,
     ⟨2, .call (.func 1) [.argument 0]⟩,
     ⟨3, .load (.inst 0)⟩,
     ⟨4, .cmp .ICMP_SLT (.constInt 32 0) (.inst 3)⟩,
     ⟨5, .condBr (.inst 4) 1 2⟩],
    [⟨6, .load (.inst 0)⟩,
     ⟨7, .call (.func 3) [.inst 6]⟩,
     ⟨8, .br 2⟩],
    [⟨9, .ret (some (.argument 0))⟩]]⟩

/-- The instructions of `counterIdiom k` after the repetitions: the end of
block 0, then blocks 1 and 2. -/
def counterIdiomTail (k : Nat) : List Instruction :=
  [⟨4 * k + 2, .load (.inst 0)⟩,
   ⟨4 * k + 3, .cmp .ICMP_NE (.inst (4 * k + 2)) (.constInt 32 0)⟩,
   ⟨4 * k + 4, .condBr (.inst (4 * k + 3)) 1 2⟩,
   ⟨4 * k + 5, .load (.inst 0)⟩,
   ⟨4 * k + 6, .call (.func 3) [.inst (4 * k + 5)]⟩,
   ⟨4 * k + 7, .br 2⟩,
   ⟨4 * k + 8, .ret (some (.argument 0))⟩]

/-- A finite sequence of balance transfers on the function `F`: each step is
the non-terminator transfer on some instruction or the terminator transfer on
some terminator. -/
inductive Transfers (F : FunctionIR) (L : Limits) (g : GlobalsTy) : Env → Env → Prop where
  | refl (e : Env) : Transfers F L g e e
  | nonTerminator (e e1 e2 : Env) (i : Instruction) :
      Transfers F L g e e1 → handleBalanceForNonTerminator F g i e1 = some e2 →
      Transfers F L g e e2
  | terminator (e e1 e2 : Env) (t : Instruction) (r : Bool) :
      Transfers F L g e e1 → handleBalanceForTerminator F L g t e1 = some (r, e2) →
      Transfers F L g e e2

/-- The function `int n = 65; if (n) UNPROTECT(n); return;`: with
`MAX_COUNT = 64` the counter is turned to differential state at the branch,
where the depth is then negative. -/
def saturatedIdiom : FunctionIR :=
  ⟨[[⟨0, .alloca (some 32) false⟩,
     ⟨1, .store (.constInt 32 65) (.inst 0)⟩,
     ⟨2, .load (.inst 0)⟩,
     ⟨3, .cmp .ICMP_NE (.inst 2) (.constInt 32 0)⟩,
     ⟨4, .condBr (.inst 3) 1 2⟩],
    [⟨5, .load (.inst 0)⟩,
     ⟨6, .call (.func 3) [.inst 5]⟩,
     ⟨7, .br 2⟩],
    [⟨8, .ret none⟩]]⟩

/-- The instructions of `k` calls `PROTECT(a)`, numbered from `base`. -/
def protectCalls (base : InstId) : Nat → List Instruction
  | 0 => []
  | k + 1 => ⟨base, .call (.func 1) [.argument 0]⟩ :: protectCalls (base + 1) k

/-- The function
`save = R_PPStackTop; PROTECT(a) k times; R_PPStackTop = save; return a;`
of one block, the save slot being stack slot 0. -/
def saveRestore (k : Nat) : FunctionIR :=
  ⟨[[⟨0, .alloca (some 32) false⟩,
     ⟨1, .load (.global 0)⟩,
     ⟨2, .store (.inst 1) (.inst 0)⟩]
      ++ protectCalls 3 k
      ++ [⟨k + 3, .load (.inst 0)⟩,
          ⟨k + 4, .store (.inst (k + 3)) (.global 0)⟩,
          ⟨k + 5, .ret (some (.argument 0))⟩]]⟩

/-- The function
`UNPROTECT(2); save = R_PPStackTop; PROTECT(a); R_PPStackTop = save; return a;`
in which the save captures the depth -2. -/
def negativeSave : FunctionIR :=
  ⟨[[⟨0, .alloca (some 32) false⟩,
     ⟨1, .call (.func 3) [.constInt 32 2]⟩,
     ⟨2, .load (.global 0)⟩,
     ⟨3, .store (.inst 2) (.inst 0)⟩,
     ⟨4, .call (.func 1) [.argument 0]⟩,
     ⟨5, .load (.inst 0)⟩,
     ⟨6, .store (.inst 5) (.global 0)⟩,
     ⟨7, .ret (some (.argument 0))⟩]]⟩

/-- The function `int n = -5; UNPROTECT(n); return;`. -/
def negativeCounter : FunctionIR :=
  ⟨[[⟨0, .alloca (some 32) false⟩,
     ⟨1, .store (.constInt 32 4294967291) (.inst 0)⟩,
     ⟨2, .load (.inst 0)⟩,
     ⟨3, .call (.func 3) [.inst 2]⟩,
     ⟨4, .ret none⟩]]⟩

/-- The function `int n = 0; foo(n); UNPROTECT(n); return;`, `foo` being
function 7: one load of `n` is the argument of a call that is not unprotect. -/
def counterPassedOn : FunctionIR :=
  ⟨[[⟨0, .alloca (some 32) false⟩,
     ⟨1, .store (.constInt 32 0) (.inst 0)⟩,
     ⟨2, .load (.inst 0)⟩,
     ⟨3, .call (.func 7) [.inst 2]⟩,
     ⟨4, .load (.inst 0)⟩,
     ⟨5, .call (.func 3) [.inst 4]⟩,
     ⟨6, .ret none⟩]]⟩

/-- A function with the two counters `n` (slot 0) and `m` (slot 1) that
branches on `m`:
`int n = 0; int m = 0; if (m) { UNPROTECT(n); UNPROTECT(m); } return;`. -/
def twoCountersBranch : FunctionIR :=
  ⟨[[⟨0, .alloca (some 32) false⟩,
     ⟨1, .alloca (some 32) false⟩,
     ⟨2, .store (.constInt 32 0) (.inst 0)⟩,
     ⟨3, .store (.constInt 32 0) (.inst 1)⟩,
     ⟨4, .load (.inst 1)⟩,
     ⟨5, .cmp .ICMP_NE (.inst 4) (.constInt 32 0)⟩,
     ⟨6, .condBr (.inst 5) 1 2⟩],
    [⟨7, .load (.inst 0)⟩,
     ⟨8, .call (.func 3) [.inst 7]⟩,
     ⟨9, .load (.inst 1)⟩,
     ⟨10, .call (.func 3) [.inst 9]⟩,
     ⟨11, .br 2⟩],
    [⟨12, .ret none⟩]]⟩

/-- The function
`int n = 0; int m = 0; UNPROTECT(1); if (m) { UNPROTECT(n); UNPROTECT(m); } return;`:
the branch on the second counter `m` (slot 1) is reached with depth -1. -/
def twoCountersCut : FunctionIR :=
  ⟨[[⟨0, .alloca (some 32) false⟩,
     ⟨1, .alloca (some 32) false⟩,
     ⟨2, .store (.constInt 32 0) (.inst 0)⟩,
     ⟨3, .store (.constInt 32 0) (.inst 1)⟩,
     ⟨4, .call (.func 3) [.constInt 32 1]⟩,
     ⟨5, .load (.inst 1)⟩,
     ⟨6, .cmp .ICMP_NE (.inst 5) (.constInt 32 0)⟩,
     ⟨7, .condBr (.inst 6) 1 2⟩],
    [⟨8, .load (.inst 0)⟩,
     ⟨9, .call (.func 3) [.inst 8]⟩,
     ⟨10, .load (.inst 1)⟩,
     ⟨11, .call (.func 3) [.inst 10]⟩,
     ⟨12, .br 2⟩],
    [⟨13, .ret none⟩]]⟩

/-- The entry environment with the counter bound to slot 0 in exact state
with count 0, as after `int n = 0;`. -/
def boundToSlotZero : Env :=
  { Env.entry with b := ⟨0, -1, 0, .CS_EXACT, some 0⟩ }

/-- The invariant of the balance state that every transfer keeps: in count
state exact the counter variable is bound; in every other count state the
count is -1; in count state differential the counter variable is bound. -/
def BalanceStateTy.Invariant (b : BalanceStateTy) : Prop :=
  (b.countState = .CS_EXACT → b.counterVar.isSome = true) ∧
  (b.countState ≠ .CS_EXACT → b.count = -1) ∧
  (b.countState = .CS_DIFF → b.counterVar.isSome = true)

/-! ## The recognizers in the words of the specification -/

/-- Use (a) of a protection counter: a store to the slot of a constant
integer, or of `load(slot) + const` or `const + load(slot)`. -/
def isCounterStoreUse (F : FunctionIR) (var : InstId) (u : Instruction) : Bool :=
  match u.op with
  | .store v p =>
    p = .inst var &&
      (v.isConstantInt ||
        (match F.asBinaryOperator v with
         | some (.Add, a, b) =>
           (b.isConstantInt && F.asLoad a = some (.inst var)) ||
           (a.isConstantInt && F.asLoad b = some (.inst var))
         | _ => false))
  | _ => false

/-- Use (b) of a protection counter as the code has it: a load of the slot
that has exactly one use. -/
def isSingleUseLoad (F : FunctionIR) (var : InstId) (u : Instruction) : Bool :=
  match u.op with
  | .load p => p = .inst var && F.hasOneUse (.inst u.id)
  | _ => false

/-- Use (c) of a protection counter: a load of the slot whose one use is in a
direct call of the unprotect primitive. -/
def isLoadPassedToUnprotect (F : FunctionIR) (var : InstId) (unprotectFunction : FuncId)
    (u : Instruction) : Bool :=
  match u.op with
  | .load p =>
    p = .inst var && F.hasOneUse (.inst u.id) &&
      (match F.user_back (.inst u.id) with
       | some ⟨_, .call callee _⟩ => getCalledFunction callee = some unprotectFunction
       | _ => false)
  | _ => false

/-- Use (a) of a stack-top save slot: a store into the slot of a single-use
load of the stack-top global. -/
def isSaveStoreUse (F : FunctionIR) (var : InstId) (pp : GlobalId) (u : Instruction) : Bool :=
  match u.op with
  | .store v p => p = .inst var && F.asLoad v = some (.global pp) && F.hasOneUse v
  | _ => false

/-- Use (b) of a stack-top save slot: a load of the slot whose single user is
a store into the stack-top global. -/
def isRestoreLoadUse (F : FunctionIR) (var : InstId) (pp : GlobalId) (u : Instruction) : Bool :=
  match u.op with
  | .load p =>
    p = .inst var && F.hasOneUse (.inst u.id) &&
      (match F.user_back (.inst u.id) with
       | some ⟨_, .store _ q⟩ => q = .global pp
       | _ => false)
  | _ => false

/-! ## Caches filled by the recognizers -/

/-- The cache that the memoized `isProtectionCounterVariable` has filled when
it was called, starting from the empty cache, on the slots `vars` in order. -/
def counterCacheAfter (F : FunctionIR) (unprotectFunction : Option FuncId)
    (vars : List InstId) : VarBoolCacheTy :=
  vars.foldl (fun c v => (isProtectionCounterVariableCached F v unprotectFunction c).2) []

/-- The cache that `isProtectionStackTopSaveVariable` has filled when it was
called, starting from the empty cache, on the slots `vars` in order. -/
def saveCacheAfter (F : FunctionIR) (ppStackTopVariable : Option GlobalId)
    (vars : List InstId) : VarBoolCacheTy :=
  vars.foldl (fun c v => (isProtectionStackTopSaveVariable F v ppStackTopVariable c).2) []

/-- A function with a local variable that is never used:
`SEXP save; return;`. -/
def unusedSlot : FunctionIR :=
  ⟨[[⟨0, .alloca none false⟩,
     ⟨1, .ret none⟩]]⟩

/-! ## Closure of the call graph (`callocators.cpp`) -/

/-- The type `BoolMatrixTy`, a vector of vectors of bits. -/
abbrev BoolMatrixTy := List (List Bool)

/-- The type `AdjacencyListRow`. -/
abbrev AdjacencyListRow := List Nat

/-- The type `AdjacencyListTy`. -/
abbrev AdjacencyListTy := List AdjacencyListRow

/-- The read `mat[i][k]`; an index out of range is undefined behaviour in the
source and `none` here. -/
def matGet (mat : BoolMatrixTy) (i k : Nat) : Option Bool :=
  match mat[i]? with
  | none => none
  | some row => row[k]?

/-- The write `mat[i][k] = true`; `none` when an index is out of range. -/
def matSetTrue (mat : BoolMatrixTy) (i k : Nat) : Option BoolMatrixTy :=
  match mat[i]? with
  | none => none
  | some row => if k < row.length then some (mat.set i (row.set k true)) else none

/-- The call `list[i].push_back(k)`; `none` when `i` is out of range. -/
def pushBack (list : AdjacencyListTy) (i k : Nat) : Option AdjacencyListTy :=
  match list[i]? with
  | none => none
  | some row => some (list.set i (row ++ [k]))

/-- The variables `buildClosure` works on: the matrix, the adjacency lists and
the flag `added`. -/
structure ClosureState where
  mat : BoolMatrixTy
  list : AdjacencyListTy
  added : Bool
  deriving DecidableEq, Repr

/-- The innermost loop of `buildClosure`, over `kidx`.  It runs with `i ≠ j`
and writes only `list[i]`, so `list[j]` keeps the value `ks` it has when the
loop is entered, and the loop visits the elements of `ks` in order. -/
def buildClosureInner (i j : Nat) : List Nat → ClosureState → Option ClosureState
  | [], st => some st
  | k :: rest, st =>
    if j = k then buildClosureInner i j rest st
    else
      match matGet st.mat i k with
      | none => none
      | some true => buildClosureInner i j rest st
      | some false =>
        match matSetTrue st.mat i k, pushBack st.list i k with
        | some m, some l => buildClosureInner i j rest ⟨m, l, true⟩
        | _, _ => none

/-- The loop of `buildClosure` over `jidx`, for one `i`.  The bound
`list[i].size()` is read anew in every round, and `list[i]` grows while the
loop runs.  `none` when the fuel runs out or an index is out of range. -/
def buildClosureRow (i : Nat) : Nat → Nat → ClosureState → Option ClosureState
  | 0, _, _ => none
  | fuel + 1, jidx, st =>
    match st.list[i]? with
    | none => none
    | some row =>
      match row[jidx]? with
      | none => some st
      | some j =>
        if i = j then buildClosureRow i fuel (jidx + 1) st
        else
          match st.list[j]? with
          | none => none
          | some ks =>
            match buildClosureInner i j ks st with
            | none => none
            | some st1 => buildClosureRow i fuel (jidx + 1) st1

/-- The loop of `buildClosure` over `i`, from `i` up to `n`: `todo` is the
number of rows still to visit. -/
def buildClosurePass (rowFuel n : Nat) : Nat → ClosureState → Option ClosureState
  | 0, st => some st
  | todo + 1, st =>
    match buildClosureRow (n - (todo + 1)) rowFuel 0 st with
    | none => none
    | some st1 => buildClosurePass rowFuel n todo st1

/-- The loop `while(added)` of `buildClosure`. -/
def buildClosureLoop (rowFuel n : Nat) : Nat → BoolMatrixTy → AdjacencyListTy →
    Option (BoolMatrixTy × AdjacencyListTy)
  | 0, _, _ => none
  | fuel + 1, mat, list =>
    match buildClosurePass rowFuel n n ⟨mat, list, false⟩ with
    | none => none
    | some st =>
      if st.added then buildClosureLoop rowFuel n fuel st.mat st.list
      else some (st.mat, st.list)

/-- The function `buildClosure(mat, list, n)`; `fuel` bounds the number of
rounds of the outer loop and of each loop over `jidx`. -/
def buildClosure (fuel : Nat) (mat : BoolMatrixTy) (list : AdjacencyListTy) (n : Nat) :
    Option (BoolMatrixTy × AdjacencyListTy) :=
  buildClosureLoop fuel n fuel mat list

/-- The edges of the relation that matrix and lists hold: `k` occurs in
`list[i]`. -/
def edge (list : AdjacencyListTy) (i k : Nat) : Prop :=
  k ∈ list.getD i []

instance (list : AdjacencyListTy) (i k : Nat) : Decidable (edge list i k) :=
  inferInstanceAs (Decidable (k ∈ list.getD i []))

/-- The input of `buildClosure` is well-formed: an `n × n` matrix, `n`
adjacency lists with entries below `n`, and `mat[i][j]` holds if and only if
`j` occurs in `list[i]`. -/
def Consistent (n : Nat) (mat : BoolMatrixTy) (list : AdjacencyListTy) : Prop :=
  mat.length = n ∧ (∀ row ∈ mat, row.length = n) ∧ list.length = n ∧
  (∀ row ∈ list, ∀ k ∈ row, k < n) ∧
  (∀ i k, i < n → k < n → (matGet mat i k = some true ↔ edge list i k))

/-- The relation 0 → 1 → 2 → 0 on three indices, as matrix. -/
def cycleMat : BoolMatrixTy :=
  [[false, true, false], [false, false, true], [true, false, false]]

/-- The relation 0 → 1 → 2 → 0 on three indices, as adjacency lists. -/
def cycleList : AdjacencyListTy := [[1], [2], [0]]

/-- The columns of row `i` in which the matrix does not hold a set bit. -/
def falseRow (n : Nat) (mat : BoolMatrixTy) (i : Nat) : Finset Nat :=
  (Finset.range n).filter (fun k => matGet mat i k ≠ some true)

/-- The places below `n` in which the matrix does not hold a set bit. -/
def falsePairs (n : Nat) (mat : BoolMatrixTy) : Finset (Nat × Nat) :=
  (Finset.range n ×ˢ Finset.range n).filter (fun p => matGet mat p.1 p.2 ≠ some true)

/-- The invariant of the loops of `buildClosure`, `R` being the relation on
entry: matrix and lists are consistent, they hold every edge of `R`, and every
edge they hold is a path of `R`. -/
def ClosureInv (n : Nat) (R : Nat → Nat → Prop) (st : ClosureState) : Prop :=
  Consistent n st.mat st.list ∧
  (∀ i k, R i k → edge st.list i k) ∧
  (∀ i k, edge st.list i k → Relation.TransGen R i k)

/-- What a part of `buildClosure` does to the state: nothing, or it sets
`added` and less places of the matrix are left unset. -/
def ClosureStep (n : Nat) (st st1 : ClosureState) : Prop :=
  st1 = st ∨ (st1.added = true ∧ (falsePairs n st1.mat).card < (falsePairs n st.mat).card)

/-- Row `i` needs no further edge: for every `j ≠ i` in `list[i]` and every
`k ≠ j` in `list[j]`, `k` is in `list[i]`. -/
def RowClosed (list : AdjacencyListTy) (i : Nat) : Prop :=
  ∀ j, edge list i j → j ≠ i → ∀ k, edge list j k → k ≠ j → edge list i k

/-- The length of `list[a]` plus the number of unset bits of row `a`: a bound
on the rounds of the loop over `jidx` for row `a`. -/
def slack (n : Nat) (st : ClosureState) (a : Nat) : Nat :=
  (st.list.getD a []).length + (falseRow n st.mat a).card

/-- The relation on the indices below `n` that the matrix holds. -/
def relationOf (n : Nat) (mat : BoolMatrixTy) (i k : Nat) : Prop :=
  i < n ∧ k < n ∧ matGet mat i k = some true

/-! ## The call graph of the module (`computeCalledAllocators`) -/

/-- The parts of `CalledModuleTy` that `computeCalledAllocators` uses and that
the source files do not hold (the intern table of `callocators.h`, the coarse
pass of `allocators.cpp`), over a module state `σ`.  A signature is its index
`idx` in the intern table.  `getCalledAndWrappedFunctions` stands for the
engine of the same name: it may intern new signatures, which changes the
module state, and fills the ordered sets `called` and `wrapped`. -/
structure CalledModuleOps (σ : Type) where
  /-- The number of interned signatures. -/
  getNumberOfCalledFunctions : σ → Nat
  /-- The test `f->fun && f->fun->size() && isAllocating(f->fun)` on
  signature `i`. -/
  hasAllocatingBody : σ → Nat → Bool
  /-- The engine, run on signature `i`: the new module state and the elements
  of `called` and `wrapped` in the order of iteration. -/
  getCalledAndWrappedFunctions : σ → Nat → σ × List Nat × List Nat
  /-- The test `isKnownNonAllocator(tgt->fun)` on signature `i`. -/
  isKnownNonAllocator : σ → Nat → Bool
  /-- The index `gcFunction->idx`. -/
  gcidx : Nat

/-- The call `v.resize(n)` of a vector, new elements being `d`. -/
def vectorResize {α : Type} (v : List α) (n : Nat) (d : α) : List α :=
  (v ++ List.replicate (n - v.length) d).take n

/-- The function `resize(AdjacencyListTy&, n)`. -/
def resizeList (list : AdjacencyListTy) (n : Nat) : AdjacencyListTy :=
  vectorResize list n []

/-- The function `resize(BoolMatrixTy&, n)`. -/
def resizeMatrix (matrix : BoolMatrixTy) (n : Nat) : BoolMatrixTy :=
  if n ≤ matrix.length then matrix
  else (vectorResize matrix n []).map (fun row => vectorResize row n false)

/-- The loop `mat[f->idx][cf->idx] = true; list[f->idx].push_back(cf->idx)`
over the elements of `called` (or of `wrapped`). -/
def recordRow (fidx : Nat) : List Nat → BoolMatrixTy → AdjacencyListTy →
    Option (BoolMatrixTy × AdjacencyListTy)
  | [], mat, list => some (mat, list)
  | cf :: rest, mat, list =>
    match matSetTrue mat fidx cf, pushBack list fidx cf with
    | some m, some l => recordRow fidx rest m l
    | _, _ => none

/-- The local variables of `computeCalledAllocators`. -/
structure CallGraph where
  nfuncs : Nat
  callsMat : BoolMatrixTy
  callsList : AdjacencyListTy
  wrapsMat : BoolMatrixTy
  wrapsList : AdjacencyListTy
  deriving DecidableEq, Repr

/-- The first loop of `computeCalledAllocators`, from signature `i` on: every
signature with an allocating body is analysed and its edges are recorded.
The bound `getNumberOfCalledFunctions()` is read anew in every round. -/
def recordEdges {σ : Type} (ops : CalledModuleOps σ) :
    Nat → Nat → σ → CallGraph → Option (σ × CallGraph)
  | 0, _, _, _ => none
  | fuel + 1, i, s, cg =>
    if i < ops.getNumberOfCalledFunctions s then
      if !ops.hasAllocatingBody s i then recordEdges ops fuel (i + 1) s cg
      else
        let r := ops.getCalledAndWrappedFunctions s i
        -- get the current size
        let nfuncs := ops.getNumberOfCalledFunctions r.1
        let callsList := resizeList cg.callsList nfuncs
        let wrapsList := resizeList cg.wrapsList nfuncs
        let callsMat := resizeMatrix cg.callsMat nfuncs
        let wrapsMat := resizeMatrix cg.wrapsMat nfuncs
        match recordRow i r.2.1 callsMat callsList, recordRow i r.2.2 wrapsMat wrapsList with
        | some c, some w => recordEdges ops fuel (i + 1) r.1 ⟨nfuncs, c.1, c.2, w.1, w.2⟩
        | _, _ => none
    else some (s, cg)

/-- The call `set->insert(x)` on a set of signatures. -/
def setInsert (set : List Nat) (x : Nat) : List Nat :=
  if x ∈ set then set else set ++ [x]

/-- The loop of `computeCalledAllocators` that fills in the results, from
signature `nfuncs - todo` on: the sets `allocatingCFunctions` and
`possibleCAllocators`. -/
def fillResults {σ : Type} (ops : CalledModuleOps σ) (s : σ) (cg : CallGraph) :
    Nat → List Nat × List Nat → Option (List Nat × List Nat)
  | 0, res => some res
  | todo + 1, res =>
    let i := cg.nfuncs - (todo + 1)
    match matGet cg.callsMat i ops.gcidx, matGet cg.wrapsMat i ops.gcidx with
    | some c, some w =>
      let allocating := if c then setInsert res.1 i else res.1
      let possible :=
        if w then (if !ops.isKnownNonAllocator s i then setInsert res.2 i else res.2)
        else res.2
      fillResults ops s cg todo (allocating, possible)
    | _, _ => none

/-- The call graph when `computeCalledAllocators` starts: `nfuncs × nfuncs`
matrices without a set bit and `nfuncs` empty lists. -/
def CallGraph.init (nfuncs : Nat) : CallGraph :=
  ⟨nfuncs, List.replicate nfuncs (List.replicate nfuncs false), List.replicate nfuncs [],
    List.replicate nfuncs (List.replicate nfuncs false), List.replicate nfuncs []⟩

/-- The function `CalledModuleTy::computeCalledAllocators`, on its first call:
the sets `allocatingCFunctions` and `possibleCAllocators`. -/
def computeCalledAllocators {σ : Type} (ops : CalledModuleOps σ) (fuel : Nat) (s : σ) :
    Option (List Nat × List Nat) :=
  match recordEdges ops fuel 0 s (CallGraph.init (ops.getNumberOfCalledFunctions s)) with
  | none => none
  | some (s1, cg) =>
    -- calculate transitive closure
    match buildClosure fuel cg.callsMat cg.callsList cg.nfuncs,
          buildClosure fuel cg.wrapsMat cg.wrapsList cg.nfuncs with
    | some c, some w =>
      match fillResults ops s1 ⟨cg.nfuncs, c.1, c.2, w.1, w.2⟩ cg.nfuncs ([], []) with
      | none => none
      | some res => some (setInsert res.1 ops.gcidx, setInsert res.2 ops.gcidx)
    | _, _ => none

/-- A module of four signatures: 0 is the GC function, 1 is `g`, which calls
the GC function and returns its result, 2 is `f`, which returns the result of
calling `g`, and 3 is `h`, which calls `g` and returns a constant.  The
signatures in `deny` are known non-allocators. -/
def fourSignatures (deny : List Nat) : CalledModuleOps Unit where
  getNumberOfCalledFunctions := fun _ => 4
  hasAllocatingBody := fun _ i => decide (i = 1 ∨ i = 2 ∨ i = 3)
  getCalledAndWrappedFunctions := fun _ i =>
    if i = 1 then ((), [0], [0])
    else if i = 2 then ((), [1], [1])
    else if i = 3 then ((), [1], [])
    else ((), [], [])
  isKnownNonAllocator := fun _ i => decide (i ∈ deny)
  gcidx := 0

/-- The call graph fits the module state: it has room for every interned
signature, and each relation is held consistently. -/
def CallGraph.WellFormed {σ : Type} (ops : CalledModuleOps σ) (s : σ) (cg : CallGraph) : Prop :=
  cg.nfuncs = ops.getNumberOfCalledFunctions s ∧
  Consistent cg.nfuncs cg.callsMat cg.callsList ∧
  Consistent cg.nfuncs cg.wrapsMat cg.wrapsList

/-- What the intern table guarantees: the engine never removes a signature,
every signature it puts into `called` or `wrapped` is interned, and no more
than `N` signatures are ever interned. -/
def CalledModuleOps.Interning {σ : Type} (ops : CalledModuleOps σ) (N : Nat) : Prop :=
  (∀ s, ops.getNumberOfCalledFunctions s ≤ N) ∧
  (∀ s i, ops.getNumberOfCalledFunctions s
      ≤ ops.getNumberOfCalledFunctions (ops.getCalledAndWrappedFunctions s i).1) ∧
  (∀ s i, ∀ j ∈ (ops.getCalledAndWrappedFunctions s i).2.1,
      j < ops.getNumberOfCalledFunctions (ops.getCalledAndWrappedFunctions s i).1) ∧
  (∀ s i, ∀ j ∈ (ops.getCalledAndWrappedFunctions s i).2.2,
      j < ops.getNumberOfCalledFunctions (ops.getCalledAndWrappedFunctions s i).1)

/-- A module of two signatures: 0 is the GC function, which has a body and
calls `g` (and returns nothing), and 1 is `g`, which calls the GC function and
returns its result. -/
def gcCallsBack : CalledModuleOps Unit where
  getNumberOfCalledFunctions := fun _ => 2
  hasAllocatingBody := fun _ i => decide (i = 0 ∨ i = 1)
  getCalledAndWrappedFunctions := fun _ i =>
    if i = 0 then ((), [1], [])
    else if i = 1 then ((), [0], [0])
    else ((), [], [])
  isKnownNonAllocator := fun _ _ => false
  gcidx := 0

/-! ## The allocator engine (`getCalledAndWrappedFunctions`) -/

/-- An `ArgInfoTy*`: `none` is the null pointer (nothing is known about the
argument), `some name` is a `SymbolArgInfoTy` with that symbol name. -/
abbrev ArgInfoTy := Option String

/-- The type `CalledFunctionTy`: a function together with what is known about
its arguments.  Signatures and argument vectors are interned, so that equal
pointers are equal records. -/
structure CalledFunctionTy where
  fn : FuncId
  argInfo : List ArgInfoTy
  deriving DecidableEq, Repr

/-- Modelled from the spec: the fact about one SEXP-guard variable (the type
is declared in `guards.h`, which is not among the sources). -/
inductive SEXPGuardTy where
  | SGS_NIL | SGS_NONNIL | SGS_SYMBOL (symbolName : String) | SGS_UNKNOWN
  deriving DecidableEq, Repr

/-- Modelled from the spec: the fact about one integer-guard variable. -/
inductive IntGuardState where
  | IGS_ZERO | IGS_NONZERO | IGS_UNKNOWN
  deriving DecidableEq, Repr

/-- The type `SEXPGuardsTy`, a map from stack slots to guard facts. -/
abbrev SEXPGuardsTy := List (InstId × SEXPGuardTy)

/-- The type `IntGuardsTy`, a map from stack slots to guard facts. -/
abbrev IntGuardsTy := List (InstId × IntGuardState)

/-- The type `CalledFunctionsOrderedSetTy`, its elements in the order of
insertion. -/
abbrev CalledFunctionsOrderedSetTy := List CalledFunctionTy

/-- The call `set.insert(x)` on a set of signatures. -/
def CalledFunctionsOrderedSetTy.insert (set : CalledFunctionsOrderedSetTy)
    (x : CalledFunctionTy) : CalledFunctionsOrderedSetTy :=
  if x ∈ set then set else set ++ [x]

/-- The call `set.insert(begin, end)` with the elements of another set. -/
def CalledFunctionsOrderedSetTy.insertAll (set : CalledFunctionsOrderedSetTy)
    (xs : List CalledFunctionTy) : CalledFunctionsOrderedSetTy :=
  xs.foldl CalledFunctionsOrderedSetTy.insert set

/-- The type `VarOriginsTy`, a `std::map` from stack slots to sets of
signatures: the entries in the order of their keys. -/
abbrev VarOriginsTy := List (InstId × CalledFunctionsOrderedSetTy)

/-- The call `varOrigins.find(var)`: the set of the entry, if there is one. -/
def VarOriginsTy.find (m : VarOriginsTy) (var : InstId) : Option CalledFunctionsOrderedSetTy :=
  match m with
  | [] => none
  | (k, v) :: rest => if k = var then some v else VarOriginsTy.find rest var

/-- The call `varOrigins.erase(var)`. -/
def VarOriginsTy.erase (m : VarOriginsTy) (var : InstId) : VarOriginsTy :=
  m.filter (fun e => e.1 ≠ var)

/-- The place of a new entry among the entries in the order of their keys. -/
def VarOriginsTy.place (var : InstId) (origins : CalledFunctionsOrderedSetTy) :
    VarOriginsTy → VarOriginsTy
  | [] => [(var, origins)]
  | (k, v) :: rest =>
    if var < k then (var, origins) :: (k, v) :: rest
    else (k, v) :: VarOriginsTy.place var origins rest

/-- The call `varOrigins.insert({var, origins})`, which keeps an existing
entry. -/
def VarOriginsTy.insert (m : VarOriginsTy) (var : InstId)
    (origins : CalledFunctionsOrderedSetTy) : VarOriginsTy :=
  match VarOriginsTy.find m var with
  | some _ => m
  | none => VarOriginsTy.place var origins m

/-- The parts of `CalledModuleTy` that the engine reads.  The symbol table,
the coarse sets of allocating functions and of possible allocators, and the
helper `isInstallConstantCall` are computed by files that are not among the
sources; they are parameters. -/
structure CalledModuleTy where
  /-- The map `symbolsMap` from global variables to symbol names. -/
  symbolsMap : List (GlobalId × String)
  /-- The helper `isInstallConstantCall(arg, symbolName)`: the symbol name
  when `arg` is a call of the symbol-intern primitive with a constant. -/
  isInstallConstantCall : Value → Option String
  /-- The set `allocatingFunctions` of the coarse pass. -/
  allocatingFunctions : List FuncId
  /-- The set `possibleAllocators` of the coarse pass. -/
  possibleAllocators : List FuncId
  /-- The function `getGCFunction(m)`. -/
  gcFunction : FuncId
  /-- The number of formal parameters `f->arg_size()` of a function. -/
  arg_size : FuncId → Nat

/-- The test `cm->isAllocating(f)`. -/
def CalledModuleTy.isAllocating (cm : CalledModuleTy) (f : FuncId) : Bool :=
  decide (f ∈ cm.allocatingFunctions)

/-- The test `cm->isPossibleAllocator(f)`. -/
def CalledModuleTy.isPossibleAllocator (cm : CalledModuleTy) (f : FuncId) : Bool :=
  decide (f ∈ cm.possibleAllocators)

/-- The function `CalledModuleTy::getCalledFunction(Function *f)`: the
signature of `f` with nothing known about its arguments. -/
def CalledModuleTy.getCalledFunctionOf (cm : CalledModuleTy) (f : FuncId) : CalledFunctionTy :=
  ⟨f, List.replicate (cm.arg_size f) none⟩

/-- The call `cm->getCalledGCFunction()`. -/
def CalledModuleTy.getCalledGCFunction (cm : CalledModuleTy) : CalledFunctionTy :=
  cm.getCalledFunctionOf cm.gcFunction

/-- Modelled from the spec: `getSEXPGuardState(sexpGuards, var, symbolName)`
tells whether the fact about `var` is a symbol, and which. -/
def getSEXPGuardState (g : SEXPGuardTy) : Option String :=
  match g with
  | .SGS_SYMBOL name => some name
  | _ => none

/-- The body of the loop over the arguments in `getCalledFunction`: the
argument-info of one actual argument. -/
def CalledModuleTy.argInfoOf (cm : CalledModuleTy) (F : FunctionIR)
    (sexpGuards : Option SEXPGuardsTy) (arg : Value) : ArgInfoTy :=
  let fromLoad : Option String :=
    match F.asLoad arg with
    | none => none
    | some src =>
      -- R_XSymbol
      let fromGlobal : Option String :=
        match src with
        | .global gv => cm.symbolsMap.lookup gv
        | _ => none
      match fromGlobal with
      | some name => some name
      | none =>
        match sexpGuards, F.asAlloca src with
        | some guards, some var =>
          match guards.lookup var with
          | some g => getSEXPGuardState g
          | none => none
        | _, _ => none
  match fromLoad with
  | some name => some name
  | none =>
    -- install("X"); otherwise not a symbol, argInfo stays NULL
    cm.isInstallConstantCall arg

/-- The function
`CalledModuleTy::getCalledFunction(Value *inst, SEXPGuardsTy *sexpGuards, bool registerCallSite)`;
`none` is the null pointer.  The table `callSiteTargets`, which no function of
the file reads, is left out. -/
def CalledModuleTy.getCalledFunction (cm : CalledModuleTy) (F : FunctionIR) (inst : Value)
    (sexpGuards : Option SEXPGuardsTy) : Option CalledFunctionTy :=
  match inst with
  | .inst id =>
    match F.find id with
    | some (.call callee args) =>
      match Rchk.getCalledFunction callee with
      | none => none
      | some f =>
        -- build arginfo
        some ⟨f, args.map (cm.argInfoOf F sexpGuards)⟩
    | _ => none
  | _ => none

/-- The state `CAllocStateTy`; packing and unpacking (the interning of guards
and origin sets) do not change what it holds. -/
structure CAllocStateTy where
  bb : BlockId
  intGuards : IntGuardsTy
  sexpGuards : SEXPGuardsTy
  called : CalledFunctionsOrderedSetTy
  varOrigins : VarOriginsTy
  deriving DecidableEq, Repr

/-- The comparison `CAllocPackedStateTy_equal`, which leaves `called` out. -/
def CAllocPackedStateTy_equal (lhs rhs : CAllocStateTy) : Bool :=
  decide (lhs.bb = rhs.bb) && decide (lhs.intGuards = rhs.intGuards) &&
    decide (lhs.sexpGuards = rhs.sexpGuards) && decide (lhs.varOrigins = rhs.varOrigins)

/-- The guard handlers of `guards.cpp`, which is not among the sources, over a
state `γ` of their own (their caches).  A handler of a terminator gets the
block and the guards of the state; it returns whether it took care of the
successors, the guards it leaves in the state, and the states it has cloned
and added, each with its block and guards. -/
structure GuardHandlers (γ : Type) where
  handleIntGuardsForNonTerminator : γ → Instruction → IntGuardsTy → γ × IntGuardsTy
  handleSEXPGuardsForNonTerminator : γ → Instruction → SEXPGuardsTy → γ × SEXPGuardsTy
  handleSEXPGuardsForTerminator : γ → Instruction → BlockId → IntGuardsTy → SEXPGuardsTy →
    γ × Bool × (IntGuardsTy × SEXPGuardsTy) × List (BlockId × IntGuardsTy × SEXPGuardsTy)
  handleIntGuardsForTerminator : γ → Instruction → BlockId → IntGuardsTy → SEXPGuardsTy →
    γ × Bool × (IntGuardsTy × SEXPGuardsTy) × List (BlockId × IntGuardsTy × SEXPGuardsTy)

/-- What is fixed while `getCalledAndWrappedFunctions` analyses one function:
its body, the module, and the results of helpers that are not among the
sources (`isSEXP` of the return type, `findErrorBasicBlocks`,
`findPossiblyReturnedVariables`, the guard handlers, the constant
`CALLOCATORS_MAX_STATES`). -/
structure AnalysisTy (γ : Type) where
  F : FunctionIR
  fn : FuncId
  trackOrigins : Bool
  errorBasicBlocks : List BlockId
  possiblyReturnedVars : List InstId
  cm : CalledModuleTy
  guards : GuardHandlers γ
  MAX_STATES : Nat

/-- The variables of `getCalledAndWrappedFunctions`: the worklist (a stack),
the done-set, the sets `called` and `wrapped`, and the state of the guard
handlers. -/
structure EngineTy (γ : Type) where
  workList : List CAllocStateTy
  doneSet : List CAllocStateTy
  called : CalledFunctionsOrderedSetTy
  wrapped : CalledFunctionsOrderedSetTy
  guardState : γ

/-- The function `CAllocStateTy::add`: the state goes into the done-set and
onto the worklist unless the done-set holds an equal state. -/
def EngineTy.add {γ : Type} (e : EngineTy γ) (s : CAllocStateTy) : EngineTy γ :=
  if e.doneSet.any (fun d => CAllocPackedStateTy_equal d s) then e
  else { e with doneSet := s :: e.doneSet, workList := s :: e.workList }

/-- The handling of stores in `getCalledAndWrappedFunctions` (the block under
`// handle stores`): the new origins, and whether the `continue` was
reached. -/
def handleStoreOrigins {γ : Type} (a : AnalysisTy γ) (i : Instruction) (s : CAllocStateTy) :
    VarOriginsTy × Bool :=
  match i.op with
  | .store valueOperand pointerOperand =>
    if !a.trackOrigins then (s.varOrigins, false)
    else
      match a.F.asAlloca pointerOperand with
      | none => (s.varOrigins, false)
      | some dst =>
        if dst ∉ a.possiblyReturnedVars then (s.varOrigins, false)
        else
          -- dropping origins of dst at variable overwrite
          let erased := VarOriginsTy.erase s.varOrigins dst
          -- dst is a variable to be tracked
          match a.F.asLoad valueOperand with
          | some src =>
            match a.F.asAlloca src with
            | some srcVar =>
              -- copy all var origins of src into dst
              match VarOriginsTy.find erased srcVar with
              | some srcOrigs => (VarOriginsTy.insert erased dst srcOrigs, true)
              | none => (erased, true)
            | none => (erased, true)
          | none =>
            match a.cm.getCalledFunction a.F valueOperand (some s.sexpGuards) with
            | some tgt =>
              if a.cm.isPossibleAllocator tgt.fn then
                -- storing a value gotten from a (possibly allocator) function
                (VarOriginsTy.insert erased dst [tgt], true)
              else (erased, false)
            | none => (erased, false)
  | _ => (s.varOrigins, false)

/-- The body of the loop over the instructions of a block in
`getCalledAndWrappedFunctions`: guards, stores, calls.  The messages are left
out. -/
def visitInstruction {γ : Type} (a : AnalysisTy γ) (i : Instruction)
    (st : CAllocStateTy × CalledFunctionsOrderedSetTy × γ) :
    CAllocStateTy × CalledFunctionsOrderedSetTy × γ :=
  let s := st.1
  let r1 := a.guards.handleIntGuardsForNonTerminator st.2.2 i s.intGuards
  let r2 := a.guards.handleSEXPGuardsForNonTerminator r1.1 i s.sexpGuards
  let s1 : CAllocStateTy := { s with intGuards := r1.2, sexpGuards := r2.2 }
  -- handle stores
  let o := handleStoreOrigins a i s1
  let s2 : CAllocStateTy := { s1 with varOrigins := o.1 }
  if o.2 then (s2, st.2.1, r2.1)
  else
    -- handle calls
    match a.cm.getCalledFunction a.F (.inst i.id) (some s2.sexpGuards) with
    | some tgt =>
      if a.cm.isAllocating tgt.fn then (s2, CalledFunctionsOrderedSetTy.insert st.2.1 tgt, r2.1)
      else (s2, st.2.1, r2.1)
    | none => (s2, st.2.1, r2.1)

/-- The handling of the return statement in `getCalledAndWrappedFunctions`:
the new set `wrapped`.  `none` when the return has no operand, which the
source reads without a test. -/
def handleReturn {γ : Type} (a : AnalysisTy γ) (t : Instruction) (s : CAllocStateTy)
    (wrapped : CalledFunctionsOrderedSetTy) : Option CalledFunctionsOrderedSetTy :=
  match t.op with
  | .ret returnValue =>
    if !a.trackOrigins then some wrapped
    else
      match returnValue with
      | none => none
      | some returnOperand =>
        let w1 : CalledFunctionsOrderedSetTy :=
          -- return(var)
          match (a.F.asLoad returnOperand).bind a.F.asAlloca with
          | some src =>
            match VarOriginsTy.find s.varOrigins src with
            | some knownOrigins =>
              -- copy origins as result
              CalledFunctionsOrderedSetTy.insertAll wrapped knownOrigins
            | none => wrapped
          | none => wrapped
        match a.cm.getCalledFunction a.F returnOperand (some s.sexpGuards) with
        | some tgt =>
          -- return(foo())
          if a.cm.isPossibleAllocator tgt.fn then some (CalledFunctionsOrderedSetTy.insert w1 tgt)
          else some w1
        | none => some w1
  | _ => some wrapped

/-- The test that an instruction is a terminator. -/
def Instr.isTerminator : Instr → Bool
  | .br _ => true
  | .condBr _ _ _ => true
  | .ret _ => true
  | .otherTerminator _ _ => true
  | _ => false

/-- The call `bb->getTerminator()`: the last instruction of the block when it
is a terminator. -/
def getTerminator (block : List Instruction) : Option Instruction :=
  match block.getLast? with
  | some t => if t.op.isTerminator then some t else none
  | none => none

/-- The loop that adds the clones of the state to the done-set. -/
def addStates {γ : Type} (s : CAllocStateTy) :
    List (BlockId × IntGuardsTy × SEXPGuardsTy) → EngineTy γ → EngineTy γ
  | [], e => e
  | (bb, ig, sg) :: rest, e =>
    addStates s rest (e.add { s with bb := bb, intGuards := ig, sexpGuards := sg })

/-- The flow-insensitive sweep over all instructions of the function that
`getCalledAndWrappedFunctions` falls back to: `none` when the assertion
`assert(ct)` fails. -/
def fallbackSweep {γ : Type} (a : AnalysisTy γ) (originAllocating originAllocator : Bool) :
    List (BlockId × Instruction) →
    CalledFunctionsOrderedSetTy × CalledFunctionsOrderedSetTy →
    Option (CalledFunctionsOrderedSetTy × CalledFunctionsOrderedSetTy)
  | [], res => some res
  | (parent, i) :: rest, res =>
    if parent ∈ a.errorBasicBlocks then fallbackSweep a originAllocating originAllocator rest res
    else
      match i.op with
      | .call callee _ =>
        match a.cm.getCalledFunction a.F (.inst i.id) none, getCalledFunction callee with
        | some ct, some t =>
          let called :=
            if originAllocating && a.cm.isAllocating t then
              CalledFunctionsOrderedSetTy.insert res.1 ct
            else res.1
          let wrapped :=
            if originAllocator && a.cm.isPossibleAllocator t then
              CalledFunctionsOrderedSetTy.insert res.2 ct
            else res.2
          fallbackSweep a originAllocating originAllocator rest (called, wrapped)
        | _, _ => none
      | _ => fallbackSweep a originAllocating originAllocator rest res

/-- The instructions of the function with the block each is in, in the order
of `inst_begin` .. `inst_end`. -/
def FunctionIR.instsWithParent (F : FunctionIR) : List (BlockId × Instruction) :=
  (F.blocks.enum.map (fun b => b.2.map (fun i => (b.1, i)))).flatten

/-- What one round of the worklist loop ends in. -/
inductive RoundTy (γ : Type) where
  /-- The loop goes on. -/
  | next (e : EngineTy γ)
  /-- The function has returned with `called` and `wrapped`. -/
  | returned (called wrapped : CalledFunctionsOrderedSetTy)
  /-- An assertion has failed or a null pointer was read. -/
  | aborted

/-- The end of a round of the worklist loop, after the return statement has
been handled: the guard handlers of the terminator, then, unless one of them
took care of them, the successors. -/
def addSuccessorStates {γ : Type} (a : AnalysisTy γ) (t : Instruction) (s : CAllocStateTy)
    (e1 : EngineTy γ) : EngineTy γ :=
  let r1 := a.guards.handleSEXPGuardsForTerminator e1.guardState t s.bb s.intGuards s.sexpGuards
  let s1 : CAllocStateTy := { s with intGuards := r1.2.2.1.1, sexpGuards := r1.2.2.1.2 }
  let e2 := addStates s1 r1.2.2.2 { e1 with guardState := r1.1 }
  if r1.2.1 then e2
  else
    let r2 := a.guards.handleIntGuardsForTerminator e2.guardState t s1.bb s1.intGuards
      s1.sexpGuards
    let s2 : CAllocStateTy := { s1 with intGuards := r2.2.2.1.1, sexpGuards := r2.2.2.1.2 }
    let e3 := addStates s2 r2.2.2.2 { e2 with guardState := r2.1 }
    if r2.2.1 then e3
    else
      -- add conservatively all cfg successors
      addStates s2 (t.op.successors.map (fun succ => (succ, s2.intGuards, s2.sexpGuards))) e3

/-- One round of the loop `while(!workList.empty())` of
`getCalledAndWrappedFunctions`, the exit of the loop included. -/
def engineRound {γ : Type} (a : AnalysisTy γ) (e : EngineTy γ) : RoundTy γ :=
  match e.workList with
  | [] =>
    -- the GC function is an exception
    if a.trackOrigins && decide (a.cm.getCalledGCFunction ∈ e.called) then
      .returned e.called (CalledFunctionsOrderedSetTy.insert e.wrapped a.cm.getCalledGCFunction)
    else .returned e.called e.wrapped
  | s :: rest =>
    let e0 : EngineTy γ := { e with workList := rest }
    if s.bb ∈ a.errorBasicBlocks then
      -- ignoring basic block on error path
      .next e0
    else if e0.doneSet.length > a.MAX_STATES then
      -- too many states (abstraction error?)
      let originAllocating := a.cm.isAllocating a.fn
      let originAllocator := a.cm.isPossibleAllocator a.fn
      if !originAllocating && !originAllocator then .returned e0.called e0.wrapped
      else
        match fallbackSweep a originAllocating originAllocator a.F.instsWithParent
            (e0.called, e0.wrapped) with
        | some res => .returned res.1 res.2
        | none => .aborted
    else
      -- process a single basic block
      let block := a.F.block s.bb
      let v := block.foldl (fun st i => visitInstruction a i st) (s, e0.called, e0.guardState)
      match getTerminator block with
      | none => .aborted
      | some t =>
        match handleReturn a t v.1 e0.wrapped with
        | none => .aborted
        | some wrapped =>
          .next (addSuccessorStates a t v.1
            { e0 with called := v.2.1, wrapped := wrapped, guardState := v.2.2 })

/-- The state of the engine after `n` rounds, when the loop is still running
then. -/
def engineAfter {γ : Type} (a : AnalysisTy γ) : Nat → EngineTy γ → Option (EngineTy γ)
  | 0, e => some e
  | n + 1, e =>
    match engineRound a e with
    | .next e1 => engineAfter a n e1
    | _ => none

/-- The result of the worklist loop run for at most `fuel` rounds: `none` when
the fuel runs out, `some none` when the run is aborted, and the sets `called`
and `wrapped` when the function returns. -/
def engineLoop {γ : Type} (a : AnalysisTy γ) :
    Nat → EngineTy γ →
    Option (Option (CalledFunctionsOrderedSetTy × CalledFunctionsOrderedSetTy))
  | 0, _ => none
  | fuel + 1, e =>
    match engineRound a e with
    | .next e1 => engineLoop a fuel e1
    | .returned called wrapped => some (some (called, wrapped))
    | .aborted => some none

/-- The engine when the loop is entered: the state of the entry block is in
the done-set and on the worklist, `called` and `wrapped` are empty. -/
def EngineTy.init {γ : Type} (g : γ) : EngineTy γ :=
  let initState : CAllocStateTy := ⟨0, [], [], [], []⟩
  (⟨[], [], [], [], g⟩ : EngineTy γ).add initState

/-- The function `getCalledAndWrappedFunctions(f, msg, called, wrapped)`,
called with empty sets. -/
def getCalledAndWrappedFunctions {γ : Type} (a : AnalysisTy γ) (fuel : Nat) (g : γ) :
    Option (Option (CalledFunctionsOrderedSetTy × CalledFunctionsOrderedSetTy)) :=
  if a.F.blocks.length = 0 then some (some ([], []))
  else engineLoop a fuel (EngineTy.init g)

/-! ## Inputs of the allocator engine named in the theorems -/

/-- Guard handlers that know no guard variable: they leave the guards as they
are, add no state and leave the successors to the engine. -/
def noGuards : GuardHandlers Unit where
  handleIntGuardsForNonTerminator := fun g _ ig => (g, ig)
  handleSEXPGuardsForNonTerminator := fun g _ sg => (g, sg)
  handleSEXPGuardsForTerminator := fun g _ _ ig sg => (g, false, (ig, sg), [])
  handleIntGuardsForTerminator := fun g _ _ ig sg => (g, false, (ig, sg), [])

/-- The module of the examples: function 9 is the GC function (one
parameter), function 10 is `allocVector`, an allocating function and a
possible allocator, and function 20 is the analysed function, which the
coarse pass has flagged as allocating but not as a possible allocator. -/
def exampleModule : CalledModuleTy where
  symbolsMap := []
  isInstallConstantCall := fun _ => none
  allocatingFunctions := [9, 10, 20]
  possibleAllocators := [10]
  gcFunction := 9
  arg_size := fun f => if f = 9 then 1 else 0

/-- The analysis of function 20 with body `F`, which returns an SEXP, without
error blocks, every stack slot possibly returned. -/
def exampleAnalysis (F : FunctionIR) (maxStates : Nat) : AnalysisTy Unit where
  F := F
  fn := 20
  trackOrigins := true
  errorBasicBlocks := []
  possiblyReturnedVars := [0, 1]
  cm := exampleModule
  guards := noGuards
  MAX_STATES := maxStates

/-- The function `SEXP x = allocVector(); x = x; return x;`. -/
def selfAssign : FunctionIR :=
  ⟨[[⟨0, .alloca none false⟩,
     ⟨1, .call (.func 10) []⟩,
     ⟨2, .store (.inst 1) (.inst 0)⟩,
     ⟨3, .load (.inst 0)⟩,
     ⟨4, .store (.inst 3) (.inst 0)⟩,
     ⟨5, .load (.inst 0)⟩,
     ⟨6, .ret (some (.inst 5))⟩]]⟩

/-- The function `SEXP x = allocVector(); SEXP y = x; return y;`. -/
def copyAssign : FunctionIR :=
  ⟨[[⟨0, .alloca none false⟩,
     ⟨1, .alloca none false⟩,
     ⟨2, .call (.func 10) []⟩,
     ⟨3, .store (.inst 2) (.inst 0)⟩,
     ⟨4, .load (.inst 0)⟩,
     ⟨5, .store (.inst 4) (.inst 1)⟩,
     ⟨6, .load (.inst 1)⟩,
     ⟨7, .ret (some (.inst 6))⟩]]⟩

/-- The signature of `allocVector()` in the examples. -/
def allocVectorSig : CalledFunctionTy := ⟨10, []⟩

/-- A bound on the states one round of the worklist loop can add: what the two
guard handlers of a terminator add, plus the successors of the terminator. -/
def AnalysisTy.AddsAtMost {γ : Type} (a : AnalysisTy γ) (B : Nat) : Prop :=
  ∀ t, t ∈ a.F.insts → ∀ g bb ig sg g2 bb2 ig2 sg2,
    (a.guards.handleSEXPGuardsForTerminator g t bb ig sg).2.2.2.length +
      (a.guards.handleIntGuardsForTerminator g2 t bb2 ig2 sg2).2.2.2.length +
      t.op.successors.length ≤ B

/-- The measure of the worklist loop: the room left in the done-set below
`MAX_STATES + 1`, then the length of the worklist. -/
def engineMeasure {γ : Type} (a : AnalysisTy γ) (e : EngineTy γ) : Nat × Nat :=
  (a.MAX_STATES + 1 - e.doneSet.length, e.workList.length)

/-- The signature of the GC function in the examples. -/
def gcSig : CalledFunctionTy := ⟨9, [none]⟩

/-- The function
`gc(0); allocVector(); goto L1; L1: goto L2; ... ; LM: return arg0;`
of `M + 1` basic blocks in a row, for `1 ≤ M`: it calls the GC function and
`allocVector` in its entry block and returns its argument. -/
def chain (M : Nat) : FunctionIR :=
  ⟨[⟨0, .call (.func 9) [.constInt 32 0]⟩, ⟨1, .call (.func 10) []⟩, ⟨2, .br 1⟩] ::
    ((List.range' 1 (M - 1)).map (fun k => [(⟨k + 2, .br (k + 1)⟩ : Instruction)]) ++
      [[⟨M + 2, .ret (some (.argument 0))⟩]])⟩

/-- The state of the engine at block `k` of `chain M`: no guards, no origins. -/
def chainState (k : Nat) : CAllocStateTy := ⟨k, [], [], [], []⟩

/-- The done-set of the engine on `chain M` after `k` rounds: the states of
the blocks `k`, ..., `0`. -/
def chainDone : Nat → List CAllocStateTy
  | 0 => [chainState 0]
  | k + 1 => chainState (k + 1) :: chainDone k

/-- The signature `x` is that of a direct call instruction of the list that is
outside the error basic blocks and whose target passes `test`; the signature
is the one `getCalledFunction` gives without guards. -/
def SweptCall {γ : Type} (a : AnalysisTy γ) (l : List (BlockId × Instruction))
    (test : FuncId → Bool) (x : CalledFunctionTy) : Prop :=
  ∃ p i f args, (p, i) ∈ l ∧ p ∉ a.errorBasicBlocks ∧ i.op = .call (.func f) args ∧
    test f = true ∧ x = ⟨f, args.map (a.cm.argInfoOf a.F none)⟩

/-- The function
`gc(0); if (arg0) { mkString(); error(); } return allocVector();`:
block 1 is the error path. -/
def errorBranch : FunctionIR :=
  ⟨[[⟨0, .call (.func 9) [.constInt 32 0]⟩, ⟨1, .condBr (.argument 0) 1 2⟩],
    [⟨2, .call (.func 11) []⟩, ⟨3, .otherTerminator [] []⟩],
    [⟨4, .call (.func 10) []⟩, ⟨5, .ret (some (.inst 4))⟩]]⟩

/-- The analysis of function 20 with body `errorBranch`: block 1 is an error
basic block; the coarse pass has flagged the functions 10 (`allocVector`),
11 (`mkString`) and 20 as allocating and as possible allocators. -/
def errorBranchAnalysis : AnalysisTy Unit where
  F := errorBranch
  fn := 20
  trackOrigins := true
  errorBasicBlocks := [1]
  possiblyReturnedVars := []
  cm := { exampleModule with
    allocatingFunctions := [9, 10, 11, 20], possibleAllocators := [10, 11, 20] }
  guards := noGuards
  MAX_STATES := 1

/-- The function
`gc(0); fp(); goto L1; L1: goto L2; ... ; LM: return arg0;`
of `M + 1` basic blocks in a row, for `1 ≤ M`: `chain M` with the call of
`allocVector` replaced by a call through the function pointer `fp`, its second
argument. -/
def indirectChain (M : Nat) : FunctionIR :=
  ⟨[⟨0, .call (.func 9) [.constInt 32 0]⟩, ⟨1, .call (.argument 1) []⟩, ⟨2, .br 1⟩] ::
    ((List.range' 1 (M - 1)).map (fun k => [(⟨k + 2, .br (k + 1)⟩ : Instruction)]) ++
      [[⟨M + 2, .ret (some (.argument 0))⟩]])⟩

/-! ## The argument-info in the words of the specification -/

/-- Rule (1) of the argument-info in the words of the specification: the
actual is a load of a global that is in the symbol table; the result is the
symbol name of that global. -/
def symbolOfGlobalLoad (cm : CalledModuleTy) (F : FunctionIR) (arg : Value) : Option String :=
  match F.asLoad arg with
  | some (.global gv) => cm.symbolsMap.lookup gv
  | _ => none

/-- Rule (2) of the argument-info in the words of the specification: the
actual is a load of a stack slot whose SEXP-guard fact is `Symbol(name)`. -/
def symbolOfGuardedSlot (F : FunctionIR) (guards : SEXPGuardsTy) (arg : Value) :
    Option String :=
  match (F.asLoad arg).bind F.asAlloca with
  | some var =>
    match guards.lookup var with
    | some (.SGS_SYMBOL name) => some name
    | _ => none
  | none => none

/-- The argument-info of an actual in the words of the specification: the
first rule that applies, in the order (1) load of a global of the symbol
table, (2) load of a stack slot guarded as a symbol, (3) call of the
symbol-intern primitive with a constant string, (4) unknown. -/
def argInfoByRules (cm : CalledModuleTy) (F : FunctionIR) (guards : SEXPGuardsTy)
    (arg : Value) : ArgInfoTy :=
  match symbolOfGlobalLoad cm F arg with
  | some name => some name
  | none =>
    match symbolOfGuardedSlot F guards arg with
    | some name => some name
    | none => cm.isInstallConstantCall arg

/-- The module of the examples with a variadic function: function 12
(`Rprintf(fmt, ...)`) has one formal parameter. -/
def variadicModule : CalledModuleTy :=
  { exampleModule with arg_size := fun f => if f = 9 ∨ f = 12 then 1 else 0 }

/-- The function `Rprintf(fmt, n); return;` with a call of the variadic
function 12 that passes two actuals. -/
def variadicCall : FunctionIR :=
  ⟨[[⟨0, .call (.func 12) [.argument 0, .argument 1]⟩, ⟨1, .ret none⟩]]⟩

/-! ## Further inputs and states of the balance engine -/

/-- The function
`int m = arg0; int n = 1; UNPROTECT(m); UNPROTECT(n + 1); return;`:
`m` (slot 0) is no counter, because a value that is not a constant is stored
to it, and the argument of the second call is a sum. -/
def unprotectForms : FunctionIR :=
  ⟨[[⟨0, .alloca (some 32) false⟩,
     ⟨1, .alloca (some 32) false⟩,
     ⟨2, .store (.argument 0) (.inst 0)⟩,
     ⟨3, .store (.constInt 32 1) (.inst 1)⟩,
     ⟨4, .load (.inst 0)⟩,
     ⟨5, .call (.func 3) [.inst 4]⟩,
     ⟨6, .load (.inst 1)⟩,
     ⟨7, .binop .Add (.inst 6) (.constInt 32 1)⟩,
     ⟨8, .call (.func 3) [.inst 7]⟩,
     ⟨9, .ret none⟩]]⟩

/-- The state `sat(s)` in the words of the claim: the depth is lowered by the
count, the count state is differential, the count is -1. -/
def BalanceStateTy.sat (b : BalanceStateTy) : BalanceStateTy :=
  { b with depth := b.depth - b.count, countState := .CS_DIFF, count := -1 }

/-- The environment whose balance state is saturated. -/
def Env.sat (e : Env) : Env :=
  { e with b := e.b.sat }

/-- The state in count state exact with depth 5 and count 2, the counter
being slot 0. -/
def exactFiveTwo : Env :=
  { Env.entry with b := ⟨5, -1, 2, .CS_EXACT, some 0⟩ }

/-! ## The FFI checker (`fficheck.cpp`) -/

/-- The loop `for(i = 0; s[i] != 0; i++) if (s[i] == '/') sep = i;` of `main`,
from position `i` on: the final value of `sep`.  A C string is the list of
its characters before the terminating NUL. -/
def lastSeparator : List Char → Nat → Int → Int
  | [], _, sep => sep
  | c :: rest, i, sep => lastSeparator rest (i + 1) (if c = '/' then (i : Int) else sep)

/-- The suffix `.so`. -/
def soSuffix : List Char := ['.', 's', 'o']

/-- The suffix `.bc`. -/
def bcSuffix : List Char := ['.', 'b', 'c']

/-- The suffix `.so.bc`. -/
def sobcSuffix : List Char := ['.', 's', 'o', '.', 'b', 'c']

/-- The loop of `main` that copies `s` to `pkgname` until what is left of `s`
is `.so`, `.bc` or `.so.bc` (the three `strcmp`): the characters copied. -/
def copyName : List Char → List Char
  | [] => []
  | c :: rest =>
    if c :: rest = soSuffix ∨ c :: rest = bcSuffix ∨ c :: rest = sobcSuffix then []
    else c :: copyName rest

/-- The library name that `main` derives from its last argument.  `none`
when an `int` index overflows or the name does not fit the buffer
`pkgname[PATH_MAX]`, its terminating NUL included. -/
def libraryName (PATH_MAX : Nat) (arg : List Char) : Option (List Char) :=
  if arg.length ≥ 2 ^ 31 then none
  else
    let sep := lastSeparator arg 0 (-1)
    let s := if sep ≠ -1 then arg.drop (sep + 1).toNat else arg
    let pkgname := copyName s
    if pkgname.length < PATH_MAX then some pkgname else none

/-- The text after the last `/` of a text, the whole text if it has none, in
the words of the specification. -/
def afterLastSlash (text : List Char) : List Char :=
  text.rtakeWhile (fun c => c ≠ '/')

/-- A text with the first suffix of the list that it ends with removed, and
the text unchanged if it ends with none of them, in the words of the
specification. -/
def removeFirstSuffix (suffixes : List (List Char)) (text : List Char) : List Char :=
  match suffixes.find? (fun suf => suf.isSuffixOf text) with
  | some suf => text.take (text.length - suf.length)
  | none => text

/-- A type as `checkTable` sees it: an identifier.  The test `isSEXP` is
declared in `common.h`, which is not among the sources; it is a parameter. -/
abbrev TypeId := Nat

/-- A `Function` as `checkTable` reads it: its name (`funName`), its return
type and the types of its parameters. -/
structure FunctionSig where
  name : String
  returnType : TypeId
  paramTypes : List TypeId
  deriving DecidableEq, Repr

/-- The first operand of a `ConstantExpr`, as far as `checkTable` tells values
apart: a global variable (with the C string its initializer holds when that is
a `ConstantDataArray`), a function, or something else. -/
inductive TableOperand where
  | globalString (cstring : Option String)
  | function (f : FunctionSig)
  | other
  deriving DecidableEq, Repr

/-- An element of an entry of the table: a `ConstantInt`, a `ConstantExpr`
with its first operand, or something else. -/
inductive TableField where
  | constantInt (width bits : Nat)
  | constantExpr (operand0 : TableOperand)
  | other
  deriving DecidableEq, Repr

/-- An element of the table: a `ConstantStruct` with its elements 0, 1, 2
(name, function, arity), or something else, such as the `zeroinitializer` of
the terminating NULL entry. -/
inductive TableEntry where
  | constantStruct (name fn arity : TableField)
  | other
  deriving DecidableEq, Repr

/-- The value passed to `checkTable`: a `ConstantExpr` whose first operand is a
global variable, with the number of elements of its array type (`none` when
its type is not an array type) and the elements of its initializer (`none`
when that is not a `ConstantArray`), or something else. -/
inductive TableValue where
  | constantExprOfGlobal (numElements : Option Nat) (initializer : Option (List TableEntry))
  | other
  deriving DecidableEq, Repr

/-- The lines `checkTable` writes to `errs()`:
"ERROR: did not get the number of elements in function table",
"Functions: n",
"ERROR: invalid entry in function table",
"ERROR: invalid arity in function table",
"ERROR: invalid function name string in function table",
"ERROR: invalid function in function table",
"ERROR: function fname (funName) does not return SEXP",
"ERROR: function fname (funName) has arity real_arity but registered arity arity",
"ERROR: function fname (funName) parameter k is not SEXP". -/
inductive TableMessage where
  | noElementCount
  | functions (nfuns : Int)
  | invalidEntry
  | invalidArity
  | invalidName
  | invalidFunction
  | notSEXPReturn (fname funName : String)
  | arityMismatch (fname funName : String) (real_arity arity : Int)
  | paramNotSEXP (fname funName : String) (param : Nat)
  deriving DecidableEq, Repr

/-- The loop of `checkTable` over the parameters of a function, from
parameter `i` on. -/
def checkParams (isSEXP : TypeId → Bool) (fname funName : String) :
    Nat → List TypeId → List TableMessage
  | _, [] => []
  | i, t :: rest =>
    (if !isSEXP t then [TableMessage.paramNotSEXP fname funName (i + 1)] else [])
      ++ checkParams isSEXP fname funName (i + 1) rest

/-- The name `fname` that `checkTable` reads from element 0 of an entry; it
stays empty unless the element is a `ConstantExpr` over a global variable
initialized with a C string. -/
def entryName : TableField → String
  | .constantExpr (.globalString (some s)) => s
  | _ => ""

/-- The function `fun` that `checkTable` reads from element 1 of an entry;
`none` is the null pointer. -/
def entryFunction : TableField → Option FunctionSig
  | .constantExpr (.function f) => some f
  | _ => none

/-- The body of the loop of `checkTable` for an entry that is a
`ConstantStruct`: `none` when `getSExtValue` fails, otherwise whether the loop
goes on (`false` is `return false`) and the lines written. -/
def checkEntry (isSEXP : TypeId → Bool) (name fn arity : TableField) :
    Option (Bool × List TableMessage) :=
  match arity with
  | .constantInt width bits =>
    match getSExtValue width bits with
    | none => none
    | some arity =>
      let fname := entryName name
      if fname.length = 0 then some (false, [.invalidName])
      else
        match entryFunction fn with
        | none => some (false, [.invalidFunction])
        | some f =>
          let real_arity : Int := (f.paramTypes.length : Int)
          some (true,
            (if !isSEXP f.returnType then [TableMessage.notSEXPReturn fname f.name] else [])
            ++ (if arity > -1 ∧ arity ≠ real_arity then
                  [TableMessage.arityMismatch fname f.name real_arity arity] else [])
            ++ checkParams isSEXP fname f.name 0 f.paramTypes)
  | _ => some (false, [.invalidArity])

/-- The loop `for(unsigned i = 0; i < nfuns; i++)` of `checkTable`, from index
`i` on, over the elements of the array that are left; `none` when an element
is read past the end of the array or `getSExtValue` fails. -/
def checkTableLoop (isSEXP : TypeId → Bool) (nfuns : Nat) :
    Nat → List TableEntry → List TableMessage → Option (Bool × List TableMessage)
  | i, [], log => if i < nfuns then none else some (true, log)
  | i, entry :: rest, log =>
    if ¬ i < nfuns then some (true, log)
    else
      match entry with
      | .other =>
        if i = nfuns - 1 then some (true, log)
        else
          -- could check it is NULL
          some (false, log ++ [.invalidEntry])
      | .constantStruct name fn arity =>
        match checkEntry isSEXP name fn arity with
        | none => none
        | some (true, msgs) => checkTableLoop isSEXP nfuns (i + 1) rest (log ++ msgs)
        | some (false, msgs) => some (false, log ++ msgs)

/-- The function `checkTable`: the value returned and the lines written;
`nfuns` is an `int`, the loop counts in `unsigned`. -/
def checkTable (isSEXP : TypeId → Bool) (v : TableValue) : Option (Bool × List TableMessage) :=
  match v with
  | .constantExprOfGlobal numElements initializer =>
    match numElements with
    | none => some (false, [.noElementCount])
    | some n =>
      let nfuns := castToInt n
      if nfuns = -1 then some (false, [.noElementCount])
      else
        match initializer with
        | some ca => checkTableLoop isSEXP (n % 2 ^ 32) 0 ca [.functions nfuns]
        | none => some (true, [.functions nfuns])
  | .other => some (true, []) -- successful parsing

/-- A well-formed entry `{name, function, arity}` of a `.Call` table, in the
words of the specification: a name, a function and the constant of the
declared arity. -/
structure CallEntry where
  name : String
  fn : FunctionSig
  width : Nat
  bits : Nat
  deriving DecidableEq, Repr

/-- The declared arity of a well-formed entry. -/
def CallEntry.arity (c : CallEntry) : Int :=
  (getSExtValue c.width c.bits).getD 0

/-- The element of the constant array that a well-formed entry is. -/
def CallEntry.toEntry (c : CallEntry) : TableEntry :=
  .constantStruct (.constantExpr (.globalString (some c.name)))
    (.constantExpr (.function c.fn)) (.constantInt c.width c.bits)

/-- The reports on a well-formed entry in the words of the specification: a
return-type error if and only if the return type is not SEXP, an arity error
if and only if the declared arity is at least 0 and differs from the number of
parameters, and a parameter error for exactly each parameter that is not
SEXP-typed. -/
def entryReports (isSEXP : TypeId → Bool) (c : CallEntry) : List TableMessage :=
  (if isSEXP c.fn.returnType = false then [TableMessage.notSEXPReturn c.name c.fn.name] else [])
  ++ (if 0 ≤ c.arity ∧ c.arity ≠ (c.fn.paramTypes.length : Int) then
        [TableMessage.arityMismatch c.name c.fn.name (c.fn.paramTypes.length : Int) c.arity]
      else [])
  ++ (c.fn.paramTypes.enum.filter (fun p => isSEXP p.2 = false)).map
      (fun p => TableMessage.paramNotSEXP c.name c.fn.name (p.1 + 1))

/-- A malformed entry at position `i` of a table of `nfuns` elements, in the
words of the specification: a non-struct entry before the last position, a
non-constant arity, an empty name, or a missing function. -/
def TableEntry.Malformed (nfuns i : Nat) : TableEntry → Prop
  | .other => i ≠ nfuns - 1
  | .constantStruct name fn arity =>
    (∀ w bits, arity ≠ .constantInt w bits) ∨ (entryName name).length = 0 ∨
      entryFunction fn = none

/-- A `.Call` table of two entries and the terminating NULL entry: `good`
(function `do_good`, two SEXP parameters, declared arity 2, returns SEXP) and
`bad` (function `do_bad`, parameters of the types 1 and 0, declared arity 3,
returns type 0); type 1 is SEXP. -/
def exampleTable : List CallEntry :=
  [⟨"good", ⟨"do_good", 1, [1, 1]⟩, 32, 2⟩, ⟨"bad", ⟨"do_bad", 0, [1, 0]⟩, 32, 3⟩]

/-! ## Theorems -/

/-! ### Auxiliary facts -/

theorem castToInt_of_lt (k : Nat) (h : k < 2 ^ 31) : castToInt k = (k : Int) := by
  have h1 : k % 2 ^ 32 = k := Nat.mod_eq_of_lt (by omega)
  unfold castToInt
  rw [h1, if_pos h]

theorem runBody_append (F : FunctionIR) (g : GlobalsTy) (xs ys : List Instruction) (e : Env) :
    runBody F g (xs ++ ys) e = (runBody F g xs e).bind (runBody F g ys) := by
  induction xs generalizing e with
  | nil => simp [runBody]
  | cons x xs ih =>
    simp only [List.cons_append, runBody]
    cases h : handleBalanceForNonTerminator F g x e with
    | none => simp
    | some e1 => simp [ih]

theorem nonTerminator_call (F : FunctionIR) (g : GlobalsTy) (id : InstId) (callee : Value)
    (args : List Value) (e : Env) :
    handleBalanceForNonTerminator F g ⟨id, .call callee args⟩ e
      = handleCall F g ⟨id, .call callee args⟩ e := by
  cases h : handleCall F g ⟨id, .call callee args⟩ e with
  | none => simp [handleBalanceForNonTerminator, h]
  | some e1 => simp [handleBalanceForNonTerminator, h, handleLoad, handleStore]

theorem handleCall_protect (F : FunctionIR) (g : GlobalsTy) (c : Instruction) (e : Env)
    (h : isProtectCall g c = true) :
    handleCall F g c e
      = some (({ e with b := { e.b with depth := e.b.depth + 1 } } : Env).debug "protect call" c.id) := by
  obtain ⟨id, op⟩ := c
  cases op with
  | call callee args =>
    cases callee with
    | func f =>
      simp only [isProtectCall, Bool.or_eq_true, decide_eq_true_eq] at h
      simp [handleCall, getCalledFunction, h]
    | _ => simp [isProtectCall] at h
  | _ => simp [isProtectCall] at h

theorem handleCall_unprotect_const (F : FunctionIR) (g : GlobalsTy) (u : FuncId) (id : InstId)
    (w bits k : Nat) (rest : List Value) (e : Env)
    (hu : g.unprotectFunction = some u) (hp : g.protectFunction ≠ some u)
    (hpi : g.protectWithIndexFunction ≠ some u)
    (hk : getZExtValue w bits = some k) (hlt : k < 2 ^ 31) :
    handleCall F g ⟨id, .call (.func u) (.constInt w bits :: rest)⟩ e
      = some (if e.b.countState ≠ .CS_DIFF ∧ e.b.depth - (k : Int) < 0 then
          { e with b := { e.b with depth := e.b.depth - (k : Int) },
                   msg := e.msg ++ [⟨.debug, "unprotect call using constant", id⟩,
                                     ⟨.info, "has negative depth", id⟩],
                   refinableInfos := e.refinableInfos + 1 }
        else
          { e with b := { e.b with depth := e.b.depth - (k : Int) },
                   msg := e.msg ++ [⟨.debug, "unprotect call using constant", id⟩] }) := by
  have hp1 : ¬ (some u = g.protectFunction) := fun h => hp h.symm
  have hp2 : ¬ (some u = g.protectWithIndexFunction) := fun h => hpi h.symm
  simp only [handleCall, getCalledFunction, hp1, hp2, hu, hk, castToInt_of_lt k hlt, or_self,
    if_false, if_true, Env.debug, Env.info, Env.incRefinable]
  split <;> simp


/-- C1: on a return instruction `handleBalanceForTerminator` reports that there
are no successors (returns true), leaves the balance state, the done-set and
the worklist as they were, and appends to the log exactly the imbalance info
when `countState = CS_DIFF` or `depth ≠ 0`, and nothing otherwise. -/
theorem terminator_return (F : FunctionIR) (L : Limits) (g : GlobalsTy) (id : InstId)
    (v : Option Value) (e : Env) :
    ∃ e1, handleBalanceForTerminator F L g ⟨id, .ret v⟩ e = some (true, e1) ∧
      e1.b = e.b ∧ e1.doneSet = e.doneSet ∧ e1.workList = e.workList ∧
      e1.msg = e.msg ++ emitted e e1 ∧
      (⟨.info, "has possible protection stack imbalance", id⟩ ∈ emitted e e1 ↔
        (e.b.countState = .CS_DIFF ∨ e.b.depth ≠ 0)) ∧
      (∀ m ∈ emitted e e1, m = ⟨.info, "has possible protection stack imbalance", id⟩) := by
  by_cases h : e.b.countState = .CS_DIFF ∨ e.b.depth ≠ 0
  · refine ⟨(e.info "has possible protection stack imbalance" id).incRefinable, ?_⟩
    simp [handleBalanceForTerminator, h, emitted, Env.info, Env.incRefinable]
  · refine ⟨e, ?_⟩
    simp [handleBalanceForTerminator, h, emitted]

theorem runBody_protects (F : FunctionIR) (g : GlobalsTy) (calls : List Instruction) (e : Env)
    (h : ∀ c ∈ calls, isProtectCall g c = true) :
    ∃ e1, runBody F g calls e = some e1 ∧
      e1.b = { e.b with depth := e.b.depth + (calls.length : Int) } ∧
      infos e1.msg = infos e.msg ∧ e1.refinableInfos = e.refinableInfos ∧
      e1.doneSet = e.doneSet ∧ e1.workList = e.workList ∧
      e1.counterVarsCache = e.counterVarsCache ∧ e1.saveVarsCache = e.saveVarsCache := by
  induction calls generalizing e with
  | nil => exact ⟨e, by simp [runBody]⟩
  | cons c cs ih =>
    have hc : isProtectCall g c = true := h c (List.mem_cons_self _ _)
    have hcs : ∀ x ∈ cs, isProtectCall g x = true := fun x hx => h x (List.mem_cons_of_mem _ hx)
    have hnt : handleBalanceForNonTerminator F g c e = handleCall F g c e := by
      obtain ⟨id, op⟩ := c
      cases op with
      | call callee args => exact nonTerminator_call F g id callee args e
      | _ => simp [isProtectCall] at hc
    obtain ⟨e1, h1, hb, hm, hr, hd, hw, hcc, hsc⟩ :=
      ih (({ e with b := { e.b with depth := e.b.depth + 1 } } : Env).debug "protect call" c.id) hcs
    refine ⟨e1, ?_, ?_, ?_, ?_, ?_, ?_, ?_, ?_⟩
    · simp [runBody, hnt, handleCall_protect F g c e hc, h1]
    · rw [hb]
      simp [Env.debug]
      omega
    · rw [hm]
      simp [Env.debug, infos, List.filter_append]
    · rw [hr]; rfl
    · rw [hd]; rfl
    · rw [hw]; rfl
    · rw [hcc]; rfl
    · rw [hsc]; rfl

/-- C2: a single-block function that makes `k` calls of protect or
protect-with-index, then calls unprotect with the constant `k`, then returns,
analysed from the entry state: the return is reached with depth 0, the
analysis ends with an empty worklist and without any info message, and every
protect call adds exactly 1 to the depth and changes no other field of the
balance state.  The constant is an argument of type `int`, so `k < 2^31`. -/
theorem balanced_constants (L : Limits) (g : GlobalsTy) (u : FuncId)
    (calls : List Instruction) (w bits : Nat) (rest : List Value) (uid rid : InstId)
    (rv : Option Value)
    (hcalls : ∀ c ∈ calls, isProtectCall g c = true)
    (hu : g.unprotectFunction = some u) (hp : g.protectFunction ≠ some u)
    (hpi : g.protectWithIndexFunction ≠ some u)
    (hk : getZExtValue w bits = some calls.length) (hlt : calls.length < 2 ^ 31) :
    (∃ e1, runBody (singleBlock (calls ++ [⟨uid, .call (.func u) (.constInt w bits :: rest)⟩,
              ⟨rid, .ret rv⟩])) g
            (calls ++ [⟨uid, .call (.func u) (.constInt w bits :: rest)⟩]) Env.entry = some e1 ∧
        e1.b.depth = 0 ∧ infos e1.msg = []) ∧
    (∀ fuel, ∃ e2, analyze (singleBlock (calls ++ [⟨uid, .call (.func u) (.constInt w bits :: rest)⟩,
              ⟨rid, .ret rv⟩])) L g (fuel + 1) Env.entry = some e2 ∧
        e2.workList = [] ∧ infos e2.msg = [] ∧ e2.refinableInfos = 0 ∧ e2.b.depth = 0) ∧
    (∀ (F : FunctionIR) (c : Instruction) (e : Env), isProtectCall g c = true →
        ∃ e1, handleBalanceForNonTerminator F g c e = some e1 ∧
          e1.b = { e.b with depth := e.b.depth + 1 }) := by
  have key : ∀ (F : FunctionIR) (e : Env), e.b = BalanceStateTy.entry → infos e.msg = [] →
      e.refinableInfos = 0 →
      ∃ e1, runBody F g (calls ++ [⟨uid, .call (.func u) (.constInt w bits :: rest)⟩]) e = some e1 ∧
        e1.b = BalanceStateTy.entry ∧ infos e1.msg = [] ∧ e1.refinableInfos = 0 ∧
        e1.workList = e.workList := by
    intro F e hb hm hr
    obtain ⟨e1, h1, hb1, hm1, hr1, -, hw1, -, -⟩ := runBody_protects F g calls e hcalls
    have hd : e1.b.depth - (calls.length : Int) = 0 := by
      rw [hb1, hb]; simp [BalanceStateTy.entry]
    have hcs : e1.b.countState = .CS_NONE := by rw [hb1, hb]; rfl
    refine ⟨{ e1 with b := { e1.b with depth := e1.b.depth - (calls.length : Int) },
                      msg := e1.msg ++ [⟨.debug, "unprotect call using constant", uid⟩] },
      ?_, ?_, ?_, ?_, ?_⟩
    · rw [runBody_append, h1]
      simp only [Option.bind, runBody, nonTerminator_call,
        handleCall_unprotect_const F g u uid w bits calls.length rest e1 hu hp hpi hk hlt, hd]
      simp only [lt_self_iff_false, and_false, if_false]
    · simp only [hd]
      rw [hb1, hb]; simp [BalanceStateTy.entry]
    · simp only [infos, List.filter_append] at hm1 hm ⊢
      rw [hm1, hm]; simp
    · simp [hr1, hr]
    · simp [hw1]
  refine ⟨?_, ?_, ?_⟩
  · obtain ⟨e1, h1, hb1, hm1, -, -⟩ := key _ Env.entry rfl rfl rfl
    exact ⟨e1, h1, by rw [hb1]; rfl, hm1⟩
  · intro fuel
    obtain ⟨e1, h1, hb1, hm1, hr1, hw1⟩ :=
      key (singleBlock (calls ++ [⟨uid, .call (.func u) (.constInt w bits :: rest)⟩,
        ⟨rid, .ret rv⟩])) ({ Env.entry with workList := [] } : Env) rfl rfl rfl
    have hblock : (singleBlock (calls ++ [⟨uid, .call (.func u) (.constInt w bits :: rest)⟩,
        ⟨rid, .ret rv⟩])).block 0
        = (calls ++ [⟨uid, .call (.func u) (.constInt w bits :: rest)⟩]) ++ [⟨rid, .ret rv⟩] := by
      simp [singleBlock, FunctionIR.block]
    have hdepth : e1.b.depth = 0 := by rw [hb1]; rfl
    have hcs : e1.b.countState ≠ .CS_DIFF := by rw [hb1]; simp [BalanceStateTy.entry]
    refine ⟨e1, ?_, hw1, hm1, hr1, hdepth⟩
    have hproc : processState (singleBlock (calls ++ [⟨uid, .call (.func u) (.constInt w bits :: rest)⟩,
        ⟨rid, .ret rv⟩])) L g ⟨0, BalanceStateTy.entry⟩ ({ Env.entry with workList := [] } : Env)
        = some e1 := by
      unfold processState
      simp only [hblock, List.dropLast_concat, List.getLast?_concat]
      have : ({ ({ Env.entry with workList := [] } : Env) with b := BalanceStateTy.entry } : Env)
          = ({ Env.entry with workList := [] } : Env) := rfl
      rw [this, h1]
      simp [handleBalanceForTerminator, hdepth, hcs]
    have hwl : Env.entry.workList = [⟨0, BalanceStateTy.entry⟩] := rfl
    simp only [analyze, hwl, hproc, Option.bind]
    cases fuel with
    | zero => simp [analyze, hw1]
    | succ n => simp [analyze, hw1]
  · intro F c e hc
    obtain ⟨id, op⟩ := c
    cases op with
    | call callee args =>
      refine ⟨({ e with b := { e.b with depth := e.b.depth + 1 } } : Env).debug "protect call" id,
        ?_, ?_⟩
      · rw [nonTerminator_call, handleCall_protect F g _ e hc]
      · simp [Env.debug]
    | _ => simp [isProtectCall] at hc

/-- Witness of C2 with two protect calls, the second through protect-with-index. -/
theorem balanced_constants_witness :
    ∃ e2, analyze (singleBlock [⟨10, .call (.func 1) [.argument 0]⟩,
              ⟨11, .call (.func 2) [.argument 1, .argument 2]⟩,
              ⟨12, .call (.func 3) [.constInt 32 2]⟩, ⟨13, .ret (some (.argument 0))⟩])
            ⟨64, 64⟩ ⟨some 1, some 2, some 3, some 4, some 0⟩ 1 Env.entry = some e2 ∧
        e2.workList = [] ∧ infos e2.msg = [] ∧ e2.refinableInfos = 0 ∧ e2.b.depth = 0 :=
  (balanced_constants ⟨64, 64⟩ ⟨some 1, some 2, some 3, some 4, some 0⟩ 3
    [⟨10, .call (.func 1) [.argument 0]⟩, ⟨11, .call (.func 2) [.argument 1, .argument 2]⟩]
    32 2 [] 12 13 (some (.argument 0)) (by decide) rfl (by decide) (by decide) (by decide)
    (by decide)).2.1 0

/-- C3: the call transfer for `unprotect(k)` with a constant `0 ≤ k < 2^31`
sets the depth to `depth - k`, changes no other field of the balance state,
and appends the info "has negative depth" at the call exactly when the new
depth is negative and the count state is not differential.  In particular a
protect call followed by `UNPROTECT(2)` from the entry state yields exactly
one negative-depth info, at the unprotect call. -/
theorem unprotect_constant (F : FunctionIR) (g : GlobalsTy) (u : FuncId) (id : InstId)
    (w bits k : Nat) (rest : List Value) (e : Env)
    (hu : g.unprotectFunction = some u) (hp : g.protectFunction ≠ some u)
    (hpi : g.protectWithIndexFunction ≠ some u)
    (hk : getZExtValue w bits = some k) (hlt : k < 2 ^ 31) :
    (∃ e1, handleCall F g ⟨id, .call (.func u) (.constInt w bits :: rest)⟩ e = some e1 ∧
        e1.b = { e.b with depth := e.b.depth - (k : Int) } ∧
        e1.msg = e.msg ++ emitted e e1 ∧
        infos (emitted e e1) =
          (if e.b.depth - (k : Int) < 0 ∧ e.b.countState ≠ .CS_DIFF
           then [⟨.info, "has negative depth", id⟩] else []) ∧
        e1.doneSet = e.doneSet ∧ e1.workList = e.workList) ∧
    (∀ (pc : Instruction) (uid : InstId), isProtectCall g pc = true →
      ∃ e2, runBody F g [pc, ⟨uid, .call (.func u) [.constInt 32 2]⟩] Env.entry = some e2 ∧
        infos e2.msg = [⟨.info, "has negative depth", uid⟩] ∧ e2.b.depth = -1) := by
  constructor
  · by_cases hc : e.b.countState ≠ .CS_DIFF ∧ e.b.depth - (k : Int) < 0
    · refine ⟨_, (handleCall_unprotect_const F g u id w bits k rest e hu hp hpi hk hlt).trans
        (by rw [if_pos hc]), ?_⟩
      have hc2 : e.b.depth - (k : Int) < 0 ∧ e.b.countState ≠ .CS_DIFF := ⟨hc.2, hc.1⟩
      simp [emitted, infos, hc2]
    · refine ⟨_, (handleCall_unprotect_const F g u id w bits k rest e hu hp hpi hk hlt).trans
        (by rw [if_neg hc]), ?_⟩
      have hc2 : ¬ (e.b.depth - (k : Int) < 0 ∧ e.b.countState ≠ .CS_DIFF) :=
        fun h => hc ⟨h.2, h.1⟩
      simp only [emitted, infos, if_neg hc2]
      simp
  · intro pc uid hpc
    have hnt : handleBalanceForNonTerminator F g pc Env.entry = handleCall F g pc Env.entry := by
      obtain ⟨pid, op⟩ := pc
      cases op with
      | call callee args => exact nonTerminator_call F g pid callee args _
      | _ => simp [isProtectCall] at hpc
    have h2 : getZExtValue 32 2 = some 2 := by decide
    have hrun : runBody F g [pc, ⟨uid, .call (.func u) [.constInt 32 2]⟩] Env.entry
        = some { Env.entry with
            b := { BalanceStateTy.entry with depth := -1 },
            msg := [⟨.debug, "protect call", pc.id⟩, ⟨.debug, "unprotect call using constant", uid⟩,
                    ⟨.info, "has negative depth", uid⟩],
            refinableInfos := 1 } := by
      simp only [runBody, hnt, handleCall_protect F g pc _ hpc, Option.bind, nonTerminator_call,
        handleCall_unprotect_const F g u uid 32 2 2 [] _ hu hp hpi h2 (by norm_num)]
      simp [Env.entry, BalanceStateTy.entry, Env.debug]
    exact ⟨_, hrun, by simp [infos], rfl⟩

/-- Witness of C3: `UNPROTECT(3)` in the entry state. -/
theorem unprotect_constant_witness :
    ∃ e1, handleCall (singleBlock []) ⟨some 1, some 2, some 3, some 4, some 0⟩
          ⟨7, .call (.func 3) [.constInt 32 3]⟩ Env.entry = some e1 ∧
        e1.b = { Env.entry.b with depth := Env.entry.b.depth - ((3 : Nat) : Int) } ∧
        e1.msg = Env.entry.msg ++ emitted Env.entry e1 ∧
        infos (emitted Env.entry e1) =
          (if Env.entry.b.depth - ((3 : Nat) : Int) < 0 ∧ Env.entry.b.countState ≠ .CS_DIFF
           then [⟨.info, "has negative depth", 7⟩] else []) ∧
        e1.doneSet = Env.entry.doneSet ∧ e1.workList = Env.entry.workList :=
  (unprotect_constant (singleBlock []) ⟨some 1, some 2, some 3, some 4, some 0⟩ 3 7 32 3 3 []
    Env.entry rfl (by decide) (by decide) (by decide) (by norm_num)).1

theorem handleCall_unprotect_counter (F : FunctionIR) (g : GlobalsTy) (u : FuncId)
    (id lid v : InstId) (rest : List Value) (ty : Option Nat) (arr : Bool) (e : Env)
    (hu : g.unprotectFunction = some u) (hp : g.protectFunction ≠ some u)
    (hpi : g.protectWithIndexFunction ≠ some u)
    (hl : F.find lid = some (.load (.inst v))) (ha : F.find v = some (.alloca ty arr))
    (hr : (isProtectionCounterVariableCached F v g.unprotectFunction e.counterVarsCache).1 = true)
    (hcv : e.b.counterVar = none ∨ e.b.counterVar = some v) :
    handleCall F g ⟨id, .call (.func u) (.inst lid :: rest)⟩ e =
      (if e.b.countState = .CS_NONE then
        some { e with
          counterVarsCache :=
            (isProtectionCounterVariableCached F v g.unprotectFunction e.counterVarsCache).2,
          b := { e.b with counterVar := some v },
          msg := e.msg ++ [⟨.info, "passes uninitialized counter of protects in a call to unprotect", id⟩],
          refinableInfos := e.refinableInfos + 1 }
      else if e.b.countState = .CS_EXACT then
        (if e.b.depth - e.b.count < 0 then
          some { e with
            counterVarsCache :=
              (isProtectionCounterVariableCached F v g.unprotectFunction e.counterVarsCache).2,
            b := { e.b with counterVar := some v, depth := e.b.depth - e.b.count },
            msg := e.msg ++ [⟨.debug, "unprotect call using counter in exact state", id⟩,
                              ⟨.info, "has negative depth", id⟩],
            refinableInfos := e.refinableInfos + 1 }
        else
          some { e with
            counterVarsCache :=
              (isProtectionCounterVariableCached F v g.unprotectFunction e.counterVarsCache).2,
            b := { e.b with counterVar := some v, depth := e.b.depth - e.b.count },
            msg := e.msg ++ [⟨.debug, "unprotect call using counter in exact state", id⟩] })
      else
        (if e.b.depth < 0 then
          some { e with
            counterVarsCache :=
              (isProtectionCounterVariableCached F v g.unprotectFunction e.counterVarsCache).2,
            b := { e.b with counterVar := some v, countState := .CS_NONE },
            msg := e.msg ++ [⟨.debug, "unprotect call using counter in diff state", id⟩,
                              ⟨.info, "has negative depth after UNPROTECT(<counter>)", id⟩],
            refinableInfos := e.refinableInfos + 1 }
        else
          some { e with
            counterVarsCache :=
              (isProtectionCounterVariableCached F v g.unprotectFunction e.counterVarsCache).2,
            b := { e.b with counterVar := some v, countState := .CS_NONE },
            msg := e.msg ++ [⟨.debug, "unprotect call using counter in diff state", id⟩] })) := by
  have hp1 : ¬ (some u = g.protectFunction) := fun h => hp h.symm
  have hp2 : ¬ (some u = g.protectWithIndexFunction) := fun h => hpi h.symm
  have hcv2 : ¬ (e.b.counterVar.isSome ∧ e.b.counterVar ≠ some v) := by
    rcases hcv with h | h <;> simp [h]
  rw [hu] at hr
  simp only [handleCall, getCalledFunction, hp1, hp2, or_self, if_false, hu, if_true,
    FunctionIR.asLoad, hl, FunctionIR.asAlloca, ha, hr, Bool.not_true, hcv2,
    Env.debug, Env.info, Env.incRefinable]
  cases hcs : e.b.countState <;> simp

/-- C4: in count state exact, with the counter variable unbound or equal to
`v`, the call transfer for `unprotect(load(v))` on a recognized counter slot
`v` sets the depth to `depth - count`, keeps the count state exact and the
count (and the saved depth) unchanged, and appends the info "has negative
depth" exactly when the new depth is negative. -/
theorem unprotect_counter_exact (F : FunctionIR) (g : GlobalsTy) (u : FuncId)
    (id lid v : InstId) (rest : List Value) (ty : Option Nat) (arr : Bool) (e : Env)
    (hu : g.unprotectFunction = some u) (hp : g.protectFunction ≠ some u)
    (hpi : g.protectWithIndexFunction ≠ some u)
    (hl : F.find lid = some (.load (.inst v))) (ha : F.find v = some (.alloca ty arr))
    (hr : (isProtectionCounterVariableCached F v g.unprotectFunction e.counterVarsCache).1 = true)
    (hcv : e.b.counterVar = none ∨ e.b.counterVar = some v)
    (hcs : e.b.countState = .CS_EXACT) :
    ∃ e1, handleCall F g ⟨id, .call (.func u) (.inst lid :: rest)⟩ e = some e1 ∧
      e1.b = { e.b with depth := e.b.depth - e.b.count, counterVar := some v } ∧
      e1.b.countState = .CS_EXACT ∧ e1.b.count = e.b.count ∧
      e1.msg = e.msg ++ emitted e e1 ∧
      infos (emitted e e1) =
        (if e.b.depth - e.b.count < 0 then [⟨.info, "has negative depth", id⟩] else []) := by
  have h := handleCall_unprotect_counter F g u id lid v rest ty arr e hu hp hpi hl ha hr hcv
  simp only [hcs, if_true, reduceCtorEq, if_false] at h
  by_cases hd : e.b.depth - e.b.count < 0
  · rw [if_pos hd] at h
    exact ⟨_, h, by simp [emitted, infos, hd, hcs]⟩
  · rw [if_neg hd] at h
    refine ⟨_, h, ?_⟩
    simp only [emitted, infos, if_neg hd]
    simp [hcs]

/-- Witness of C4: `UNPROTECT(n)` in `twoCounters` with `n = 2` at depth 2. -/
theorem unprotect_counter_exact_witness :
    ∃ e1, handleCall twoCounters exampleGlobals ⟨5, .call (.func 3) [.inst 4]⟩
          { Env.entry with b := ⟨2, -1, 2, .CS_EXACT, none⟩ } = some e1 ∧
        e1.b = ⟨2 - 2, -1, 2, .CS_EXACT, some 0⟩ ∧
        e1.b.countState = .CS_EXACT ∧ e1.b.count = 2 :=
  let ⟨e1, h1, h2, h3, h4, _⟩ :=
    unprotect_counter_exact twoCounters exampleGlobals 3 5 4 0 [] (some 32) false
      { Env.entry with b := ⟨2, -1, 2, .CS_EXACT, none⟩ }
      rfl (by decide) (by decide) (by decide) (by decide) (by decide) (Or.inl rfl) rfl
  ⟨e1, h1, h2, h3, h4⟩

/-- C5: in count state differential, with the counter variable unbound or
equal to `v`, the call transfer for `unprotect(load(v))` on a recognized
counter slot `v` sets the count state to none and leaves the depth, the count
and the saved depth unchanged. -/
theorem unprotect_counter_diff (F : FunctionIR) (g : GlobalsTy) (u : FuncId)
    (id lid v : InstId) (rest : List Value) (ty : Option Nat) (arr : Bool) (e : Env)
    (hu : g.unprotectFunction = some u) (hp : g.protectFunction ≠ some u)
    (hpi : g.protectWithIndexFunction ≠ some u)
    (hl : F.find lid = some (.load (.inst v))) (ha : F.find v = some (.alloca ty arr))
    (hr : (isProtectionCounterVariableCached F v g.unprotectFunction e.counterVarsCache).1 = true)
    (hcv : e.b.counterVar = none ∨ e.b.counterVar = some v)
    (hcs : e.b.countState = .CS_DIFF) :
    ∃ e1, handleCall F g ⟨id, .call (.func u) (.inst lid :: rest)⟩ e = some e1 ∧
      e1.b = { e.b with countState := .CS_NONE, counterVar := some v } ∧
      e1.b.countState = .CS_NONE ∧ e1.b.depth = e.b.depth ∧ e1.b.count = e.b.count ∧
      e1.b.savedDepth = e.b.savedDepth := by
  have h := handleCall_unprotect_counter F g u id lid v rest ty arr e hu hp hpi hl ha hr hcv
  simp only [hcs, if_true, reduceCtorEq, if_false] at h
  by_cases hd : e.b.depth < 0
  · rw [if_pos hd] at h
    exact ⟨_, h, by simp⟩
  · rw [if_neg hd] at h
    exact ⟨_, h, by simp⟩

/-- Witness of C5: `UNPROTECT(n)` in `twoCounters` in differential state. -/
theorem unprotect_counter_diff_witness :
    ∃ e1, handleCall twoCounters exampleGlobals ⟨5, .call (.func 3) [.inst 4]⟩
          { Env.entry with b := ⟨0, -1, -1, .CS_DIFF, some 0⟩ } = some e1 ∧
        e1.b = ⟨0, -1, -1, .CS_NONE, some 0⟩ :=
  let ⟨e1, h1, h2, _⟩ :=
    unprotect_counter_diff twoCounters exampleGlobals 3 5 4 0 [] (some 32) false
      { Env.entry with b := ⟨0, -1, -1, .CS_DIFF, some 0⟩ }
      rfl (by decide) (by decide) (by decide) (by decide) (by decide) (Or.inr rfl) rfl
  ⟨e1, h1, h2⟩

/-- C6 as stated fails: in `twoCounters`, in count state none with the counter
variable bound to the other counter `m`, the call `UNPROTECT(n)` on the
recognized counter slot `n` logs the multiple-counters info and not the
uninitialized-counter info. -/
theorem unprotect_counter_none_counterexample :
    (isProtectionCounterVariableCached twoCounters 0 exampleGlobals.unprotectFunction []).1 = true ∧
    (⟨0, -1, -1, .CS_NONE, some 1⟩ : BalanceStateTy).countState = .CS_NONE ∧
    ∃ e1, handleCall twoCounters exampleGlobals ⟨5, .call (.func 3) [.inst 4]⟩
          { Env.entry with b := ⟨0, -1, -1, .CS_NONE, some 1⟩ } = some e1 ∧
        infos e1.msg = [⟨.info,
          "has an unsupported form of unprotect with a variable - multiple counter variables (results will be incorrect)",
          5⟩] ∧
        (⟨.info, "passes uninitialized counter of protects in a call to unprotect", 5⟩ : Message)
          ∉ e1.msg := by
  refine ⟨by decide, rfl, _, rfl, ?_, ?_⟩
  · decide
  · decide

/-- C6 amended: in count state none, with the counter variable unbound or
equal to `v`, the call transfer for `unprotect(load(v))` on a recognized
counter slot `v` appends exactly the info "passes uninitialized counter of
protects in a call to unprotect" and leaves depth, count, count state and saved
depth unchanged; the only change of the balance state is that the counter
variable is `v` afterwards. -/
theorem unprotect_counter_none (F : FunctionIR) (g : GlobalsTy) (u : FuncId)
    (id lid v : InstId) (rest : List Value) (ty : Option Nat) (arr : Bool) (e : Env)
    (hu : g.unprotectFunction = some u) (hp : g.protectFunction ≠ some u)
    (hpi : g.protectWithIndexFunction ≠ some u)
    (hl : F.find lid = some (.load (.inst v))) (ha : F.find v = some (.alloca ty arr))
    (hr : (isProtectionCounterVariableCached F v g.unprotectFunction e.counterVarsCache).1 = true)
    (hcv : e.b.counterVar = none ∨ e.b.counterVar = some v)
    (hcs : e.b.countState = .CS_NONE) :
    ∃ e1, handleCall F g ⟨id, .call (.func u) (.inst lid :: rest)⟩ e = some e1 ∧
      e1.b = { e.b with counterVar := some v } ∧
      e1.msg = e.msg ++
        [⟨.info, "passes uninitialized counter of protects in a call to unprotect", id⟩] ∧
      e1.refinableInfos = e.refinableInfos + 1 := by
  have h := handleCall_unprotect_counter F g u id lid v rest ty arr e hu hp hpi hl ha hr hcv
  simp only [hcs, if_true] at h
  exact ⟨_, h, by simp [hcs]⟩

/-- Witness of amended C6: `UNPROTECT(n)` in `twoCounters` from the entry state. -/
theorem unprotect_counter_none_witness :
    ∃ e1, handleCall twoCounters exampleGlobals ⟨5, .call (.func 3) [.inst 4]⟩ Env.entry
          = some e1 ∧
        e1.b = { Env.entry.b with counterVar := some 0 } ∧
        e1.msg = Env.entry.msg ++
          [⟨.info, "passes uninitialized counter of protects in a call to unprotect", 5⟩] ∧
        e1.refinableInfos = Env.entry.refinableInfos + 1 :=
  unprotect_counter_none twoCounters exampleGlobals 3 5 4 0 [] (some 32) false Env.entry
    rfl (by decide) (by decide) (by decide) (by decide) (by decide) (Or.inl rfl) rfl

theorem handleStore_counter (F : FunctionIR) (g : GlobalsTy) (id v : InstId) (val : Value)
    (ty : Option Nat) (arr : Bool) (e : Env)
    (ha : F.find v = some (.alloca ty arr))
    (hr : (isProtectionCounterVariableCached F v g.unprotectFunction e.counterVarsCache).1 = true) :
    handleStore F g ⟨id, .store val (.inst v)⟩ e
      = handleCounterStore F ⟨id, .store val (.inst v)⟩ val v
          { e with counterVarsCache :=
              (isProtectionCounterVariableCached F v g.unprotectFunction e.counterVarsCache).2 } := by
  have hpp : ¬ (some (Value.inst v) = g.ppStackTopVariable.map Value.global) := by
    cases g.ppStackTopVariable <;> simp
  simp only [handleStore, hpp, if_false, FunctionIR.asAlloca, ha, hr, if_true]

/-- C7: a store of a constant `c` to a recognized counter slot `v`, the counter
variable being unbound or `v`.  In count state differential the transfer
appends exactly the info "setting counter value while in differential mode"
and leaves depth, count and count state unchanged.  Otherwise it sets the count
to `c` and the count state to exact, leaves the depth unchanged, and appends
the info "protection counter set to a negative value" exactly when `c < 0`. -/
theorem store_constant_to_counter (F : FunctionIR) (g : GlobalsTy) (id v : InstId)
    (w bits : Nat) (c : Int) (ty : Option Nat) (arr : Bool) (e : Env)
    (ha : F.find v = some (.alloca ty arr))
    (hr : (isProtectionCounterVariableCached F v g.unprotectFunction e.counterVarsCache).1 = true)
    (hcv : e.b.counterVar = none ∨ e.b.counterVar = some v)
    (hc : getSExtValue w bits = some c) :
    ∃ e1, handleStore F g ⟨id, .store (.constInt w bits) (.inst v)⟩ e = some e1 ∧
      e1.msg = e.msg ++ emitted e e1 ∧ e1.b.counterVar = some v ∧
      e1.b.savedDepth = e.b.savedDepth ∧ e1.b.depth = e.b.depth ∧
      (e.b.countState = .CS_DIFF →
        e1.b.count = e.b.count ∧ e1.b.countState = .CS_DIFF ∧
        infos (emitted e e1) = [⟨.info,
          "setting counter value while in differential mode (forgetting protects)?", id⟩]) ∧
      (e.b.countState ≠ .CS_DIFF →
        e1.b.count = c ∧ e1.b.countState = .CS_EXACT ∧
        infos (emitted e e1) =
          (if c < 0 then [⟨.info, "protection counter set to a negative value", id⟩] else [])) := by
  have hcv2 : ¬ (e.b.counterVar.isSome ∧ e.b.counterVar ≠ some v) := by
    rcases hcv with h | h <;> simp [h]
  rw [handleStore_counter F g id v _ ty arr e ha hr]
  simp only [handleCounterStore, hcv2, if_false, hc, Env.debug, Env.info, Env.incRefinable]
  by_cases hd : e.b.countState = .CS_DIFF
  · simp [hd, emitted, infos]
  · by_cases hneg : c < 0
    · simp [hd, hneg, emitted, infos]
    · simp [hd, hneg, emitted, infos]

/-- Witness of C7: `n = -1` in `twoCounters` from the entry state. -/
theorem store_constant_to_counter_witness :
    ∃ e1, handleStore twoCounters exampleGlobals ⟨2, .store (.constInt 32 4294967295) (.inst 0)⟩
          Env.entry = some e1 ∧
        e1.b.count = -1 ∧ e1.b.countState = .CS_EXACT ∧
        infos (emitted Env.entry e1) =
          (if (-1 : Int) < 0 then [⟨.info, "protection counter set to a negative value", 2⟩]
           else []) :=
  let ⟨e1, h1, _, _, _, _, _, h3⟩ :=
    store_constant_to_counter twoCounters exampleGlobals 2 0 32 4294967295 (-1) (some 32) false
      Env.entry (by decide) (by decide) (Or.inl rfl) (by decide)
  ⟨e1, h1, h3 (by decide)⟩

/-- C8: a store to the bound counter slot `v` of `load(v) + c` (`swap = false`)
or `c + load(v)` (`swap = true`).  In count state none the transfer appends
exactly the info "adds a constant to an uninitialized counter variable" and
leaves the balance state unchanged; in count state exact it sets the count to
`count + c`, changes nothing else, and appends the info "protection counter
went negative after add" exactly when the new count is negative; in count
state differential it sets the depth to `depth - c` and changes nothing else.
The result does not depend on the operand order. -/
theorem add_constant_to_counter (F : FunctionIR) (g : GlobalsTy) (id addId lid v : InstId)
    (w bits : Nat) (c : Int) (ty : Option Nat) (arr : Bool) (swap : Bool) (e : Env)
    (ha : F.find v = some (.alloca ty arr))
    (hr : (isProtectionCounterVariableCached F v g.unprotectFunction e.counterVarsCache).1 = true)
    (hcv : e.b.counterVar = some v)
    (hadd : F.find addId = some (if swap then .binop .Add (.constInt w bits) (.inst lid)
                                 else .binop .Add (.inst lid) (.constInt w bits)))
    (hl : F.find lid = some (.load (.inst v)))
    (hc : getSExtValue w bits = some c) :
    ∃ e1, handleStore F g ⟨id, .store (.inst addId) (.inst v)⟩ e = some e1 ∧
      e1.msg = e.msg ++ emitted e e1 ∧
      (e.b.countState = .CS_NONE →
        e1.b = e.b ∧
        infos (emitted e e1) =
          [⟨.info, "adds a constant to an uninitialized counter variable", id⟩]) ∧
      (e.b.countState = .CS_EXACT →
        e1.b = { e.b with count := e.b.count + c } ∧
        infos (emitted e e1) =
          (if e.b.count + c < 0
           then [⟨.info, "protection counter went negative after add", id⟩] else [])) ∧
      (e.b.countState = .CS_DIFF →
        e1.b = { e.b with depth := e.b.depth - c } ∧ infos (emitted e e1) = []) := by
  rw [handleStore_counter F g id v _ ty arr e ha hr]
  obtain ⟨b, cc, sc, msg, ri, ds, wl⟩ := e
  obtain ⟨d, sd, cnt, cs, cv⟩ := b
  simp only at hcv
  subst hcv
  have hab : F.asBinaryOperator (.inst addId)
      = some (if swap then (.Add, .constInt w bits, .inst lid)
              else (.Add, .inst lid, .constInt w bits)) := by
    cases swap <;> simp [FunctionIR.asBinaryOperator, hadd]
  have hlo : F.asLoad (.inst lid) = some (.inst v) := by simp [FunctionIR.asLoad, hl]
  cases swap <;> cases cs <;> by_cases hneg : cnt + c < 0 <;>
    simp [handleCounterStore, hab, Value.isConstantInt, hlo, hc, Env.debug, Env.info,
      Env.incRefinable, emitted, infos, hneg]

/-- Witness of C8: the first `n++` of `counterIdiom 1` with `n = 0`. -/
theorem add_constant_to_counter_witness :
    ∃ e1, handleStore (counterIdiom 1) exampleGlobals ⟨5, .store (.inst 4) (.inst 0)⟩
          { Env.entry with b := ⟨1, -1, 0, .CS_EXACT, some 0⟩ } = some e1 ∧
        e1.b = ⟨1, -1, 0 + 1, .CS_EXACT, some 0⟩ :=
  let ⟨e1, h1, _, _, h3, _⟩ :=
    add_constant_to_counter (counterIdiom 1) exampleGlobals 5 4 3 0 32 1 1 (some 32) false false
      { Env.entry with b := ⟨1, -1, 0, .CS_EXACT, some 0⟩ }
      (by decide) (by decide) rfl (by decide) (by decide) (by decide)
  ⟨e1, h1, (h3 rfl).1⟩

/-- C10 fails on the code: in `constantOnLeft` the branch condition is
`0 < n` with the load of the counter as right operand.  With `n = 1` the
comparison, evaluated with the count in the position of the load, is true; the
terminator transfer, which always places the count on the left, enqueues only
the false successor (block 2), and the analysis of the balanced function ends
with an imbalance info at the return. -/
theorem counter_branch_constant_left :
    evalICmp .ICMP_SLT 32 0 (getSigned 32 1) = true ∧
    (∃ e1, handleBalanceForTerminator constantOnLeft ⟨64, 64⟩ exampleGlobals
          ⟨5, .condBr (.inst 4) 1 2⟩
          { Env.entry with b := ⟨1, -1, 1, .CS_EXACT, some 0⟩, workList := [] } = some (true, e1) ∧
        e1.workList = [⟨2, ⟨1, -1, 1, .CS_EXACT, some 0⟩⟩]) ∧
    (∃ e, analyze constantOnLeft ⟨64, 64⟩ exampleGlobals 3 Env.entry = some e ∧
        e.workList = [] ∧
        infos e.msg = [⟨.info, "has possible protection stack imbalance", 9⟩]) := by
  refine ⟨by decide, ⟨_, rfl, ?_⟩, ⟨_, rfl, ?_, ?_⟩⟩
  · decide
  · decide
  · decide

/-! ### The counter idiom -/

theorem mem_protectIncrements (base k : Nat) (x : Instruction)
    (h : x ∈ protectIncrements base k) :
    ∃ j, j < k ∧ x ∈ protectIncrement (base + 4 * j) := by
  induction k generalizing base with
  | zero => simp [protectIncrements] at h
  | succ k ih =>
    simp only [protectIncrements, List.mem_append] at h
    rcases h with h | h
    · exact ⟨0, by omega, by simpa using h⟩
    · obtain ⟨j, hj, hx⟩ := ih (base + 4) h
      refine ⟨j + 1, by omega, ?_⟩
      have : base + 4 * (j + 1) = base + 4 + 4 * j := by ring
      rw [this]; exact hx

theorem find_append_of_ne (xs rest : List Instruction) (id : InstId)
    (h : ∀ x ∈ xs, x.id ≠ id) :
    (xs ++ rest).find? (fun i => decide (i.id = id)) = rest.find? (fun i => decide (i.id = id)) := by
  induction xs with
  | nil => rfl
  | cons x xs ih =>
    have hx : x.id ≠ id := h x (List.mem_cons_self _ _)
    simp only [List.cons_append, List.find?_cons, hx, decide_False]
    exact ih (fun y hy => h y (List.mem_cons_of_mem _ hy))

theorem id_of_mem_protectIncrement (base : Nat) (x : Instruction)
    (h : x ∈ protectIncrement base) : base ≤ x.id ∧ x.id < base + 4 := by
  simp only [protectIncrement, List.mem_cons, List.mem_singleton, List.not_mem_nil, or_false] at h
  rcases h with h | h | h | h <;> subst h <;> simp

theorem id_of_mem_protectIncrements (base k : Nat) (x : Instruction)
    (h : x ∈ protectIncrements base k) : base ≤ x.id ∧ x.id < base + 4 * k := by
  obtain ⟨j, hj, hx⟩ := mem_protectIncrements base k x h
  have := id_of_mem_protectIncrement (base + 4 * j) x hx
  unfold InstId at *
  omega

theorem find_protectIncrements (base k j : Nat) (hj : j < k) (rest : List Instruction) :
    (protectIncrements base k ++ rest).find? (fun i => decide (i.id = base + 4 * j + 1))
        = some ⟨base + 4 * j + 1, .load (.inst 0)⟩ ∧
    (protectIncrements base k ++ rest).find? (fun i => decide (i.id = base + 4 * j + 2))
        = some ⟨base + 4 * j + 2, .binop .Add (.inst (base + 4 * j + 1)) (.constInt 32 1)⟩ := by
  induction k generalizing base j with
  | zero => omega
  | succ k ih =>
    cases j with
    | zero =>
      simp [protectIncrements, protectIncrement, List.find?_cons]
    | succ j =>
      have h1 : base + 4 * (j + 1) + 1 = base + 4 + 4 * j + 1 := by ring
      have h2 : base + 4 * (j + 1) + 2 = base + 4 + 4 * j + 2 := by ring
      have hne : ∀ m, base + 4 ≤ m → ∀ x ∈ protectIncrement base, x.id ≠ m := by
        intro m hm x hx
        have := id_of_mem_protectIncrement base x hx
        unfold InstId at *
        omega
      simp only [protectIncrements, List.append_assoc]
      rw [find_append_of_ne _ _ _ (hne _ (by omega)), find_append_of_ne _ _ _ (hne _ (by omega)),
        h1, h2]
      exact ih (base + 4) j (by omega)

theorem usersIn_append (xs ys : List Instruction) (v : Value) :
    usersIn (xs ++ ys) v = usersIn xs v ++ usersIn ys v := by
  simp [usersIn, List.flatMap_append]

theorem usersIn_eq_nil (l : List Instruction) (v : Value)
    (h : ∀ x ∈ l, v ∉ x.op.operands) : usersIn l v = [] := by
  induction l with
  | nil => rfl
  | cons x xs ih =>
    have hx : x.op.operands.count v = 0 := List.count_eq_zero.mpr (h x (List.mem_cons_self _ _))
    have hxs := ih (fun y hy => h y (List.mem_cons_of_mem _ hy))
    simp only [usersIn, List.flatMap_cons, hx, List.replicate_zero, List.nil_append] at hxs ⊢
    exact hxs

theorem mem_usersIn (l : List Instruction) (v : Value) (x : Instruction) :
    x ∈ usersIn l v ↔ x ∈ l ∧ v ∈ x.op.operands := by
  simp only [usersIn, List.mem_flatMap, List.mem_replicate]
  constructor
  · rintro ⟨y, hy, hc, rfl⟩
    exact ⟨hy, List.count_pos_iff.mp (Nat.pos_of_ne_zero hc)⟩
  · rintro ⟨hx, hv⟩
    exact ⟨x, hx, Nat.ne_of_gt (List.count_pos_iff.mpr hv), rfl⟩

theorem operand_of_mem_protectIncrement (base m : Nat) (x : Instruction)
    (h : x ∈ protectIncrement base) (hm : Value.inst m ∈ x.op.operands) :
    m = 0 ∨ m = base + 1 ∨ m = base + 2 := by
  simp only [protectIncrement, List.mem_cons, List.mem_singleton, List.not_mem_nil, or_false] at h
  rcases h with h | h | h | h <;> subst h <;> simp [Instr.operands] at hm <;>
    (unfold InstId at *; omega)

theorem operand_of_mem_protectIncrements (base k m : Nat) (x : Instruction)
    (h : x ∈ protectIncrements base k) (hm : Value.inst m ∈ x.op.operands) :
    m = 0 ∨ (base < m ∧ m < base + 4 * k) := by
  obtain ⟨j, hj, hx⟩ := mem_protectIncrements base k x h
  have := operand_of_mem_protectIncrement (base + 4 * j) m x hx hm
  omega

theorem usersIn_protectIncrements (base k j : Nat) (hj : j < k) :
    usersIn (protectIncrements base k) (.inst (base + 4 * j + 1))
      = [⟨base + 4 * j + 2, .binop .Add (.inst (base + 4 * j + 1)) (.constInt 32 1)⟩] := by
  induction k generalizing base j with
  | zero => omega
  | succ k ih =>
    simp only [protectIncrements, usersIn_append]
    cases j with
    | zero =>
      have hrest : usersIn (protectIncrements (base + 4) k) (.inst (base + 4 * 0 + 1)) = [] := by
        apply usersIn_eq_nil
        intro x hx hm
        have := operand_of_mem_protectIncrements (base + 4) k _ x hx hm
        omega
      rw [hrest]
      simp [usersIn, protectIncrement, Instr.operands]
    | succ j =>
      have h1 : base + 4 * (j + 1) + 1 = base + 4 + 4 * j + 1 := by ring
      have h2 : base + 4 * (j + 1) + 2 = base + 4 + 4 * j + 2 := by ring
      have hfirst : usersIn (protectIncrement base) (.inst (base + 4 * (j + 1) + 1)) = [] := by
        apply usersIn_eq_nil
        intro x hx hm
        have := operand_of_mem_protectIncrement base _ x hx hm
        omega
      rw [hfirst, h1, h2, ih (base + 4) j (by omega)]
      rfl

theorem counterIdiom_insts (k : Nat) :
    (counterIdiom k).insts
      = [⟨0, .alloca (some 32) false⟩, ⟨1, .store (.constInt 32 0) (.inst 0)⟩]
          ++ (protectIncrements 2 k ++ counterIdiomTail k) := by
  simp [counterIdiom, FunctionIR.insts, counterIdiomTail]

theorem counterIdiom_find_alloca (k : Nat) :
    (counterIdiom k).find 0 = some (.alloca (some 32) false) := by
  simp [FunctionIR.find, counterIdiom_insts]

theorem counterIdiom_find_increment (k j : Nat) (hj : j < k) :
    (counterIdiom k).find (2 + 4 * j + 1) = some (.load (.inst 0)) ∧
    (counterIdiom k).find (2 + 4 * j + 2)
      = some (.binop .Add (.inst (2 + 4 * j + 1)) (.constInt 32 1)) := by
  have h := find_protectIncrements 2 k j hj (counterIdiomTail k)
  have h1 : (0 : Nat) ≠ 2 + 4 * j + 1 := by omega
  have h2 : (1 : Nat) ≠ 2 + 4 * j + 1 := by omega
  have h3 : (0 : Nat) ≠ 2 + 4 * j + 2 := by omega
  have h4 : (1 : Nat) ≠ 2 + 4 * j + 2 := by omega
  simp only [FunctionIR.find, counterIdiom_insts, List.cons_append, List.nil_append,
    List.find?_cons, h1, h2, h3, h4, decide_False, h.1, h.2, Option.map_some']
  simp

theorem counterIdiom_find_tail (k : Nat) :
    (counterIdiom k).find (4 * k + 2) = some (.load (.inst 0)) ∧
    (counterIdiom k).find (4 * k + 3)
      = some (.cmp .ICMP_NE (.inst (4 * k + 2)) (.constInt 32 0)) ∧
    (counterIdiom k).find (4 * k + 5) = some (.load (.inst 0)) := by
  have hskip : ∀ m, 4 * k + 2 ≤ m → ∀ x ∈ protectIncrements 2 k, x.id ≠ m := by
    intro m hm x hx
    have := id_of_mem_protectIncrements 2 k x hx
    unfold InstId at *
    omega
  have h1 : ∀ m, 4 * k + 2 ≤ m → (0 : Nat) ≠ m ∧ (1 : Nat) ≠ m := by
    intro m hm; omega
  refine ⟨?_, ?_, ?_⟩
  · simp only [FunctionIR.find, counterIdiom_insts, List.cons_append, List.nil_append,
      List.find?_cons, (h1 (4 * k + 2) (by omega)).1, (h1 (4 * k + 2) (by omega)).2, decide_False,
      find_append_of_ne _ _ _ (hskip (4 * k + 2) (by omega))]
    simp [counterIdiomTail]
  · simp only [FunctionIR.find, counterIdiom_insts, List.cons_append, List.nil_append,
      List.find?_cons, (h1 (4 * k + 3) (by omega)).1, (h1 (4 * k + 3) (by omega)).2, decide_False,
      find_append_of_ne _ _ _ (hskip (4 * k + 3) (by omega))]
    simp [counterIdiomTail]
  · simp only [FunctionIR.find, counterIdiom_insts, List.cons_append, List.nil_append,
      List.find?_cons, (h1 (4 * k + 5) (by omega)).1, (h1 (4 * k + 5) (by omega)).2, decide_False,
      find_append_of_ne _ _ _ (hskip (4 * k + 5) (by omega))]
    simp [counterIdiomTail]

theorem counterIdiom_users_increment (k j : Nat) (hj : j < k) :
    (counterIdiom k).users (.inst (2 + 4 * j + 1))
      = [⟨2 + 4 * j + 2, .binop .Add (.inst (2 + 4 * j + 1)) (.constInt 32 1)⟩] := by
  have htail : usersIn (counterIdiomTail k) (.inst (2 + 4 * j + 1)) = [] := by
    apply usersIn_eq_nil
    intro x hx hm
    simp only [counterIdiomTail, List.mem_cons, List.mem_singleton, List.not_mem_nil,
      or_false] at hx
    rcases hx with h | h | h | h | h | h | h <;> subst h <;> simp [Instr.operands] at hm <;>
      (unfold InstId at *; omega)
  have hpre : usersIn [⟨0, .alloca (some 32) false⟩, ⟨1, .store (.constInt 32 0) (.inst 0)⟩]
      (.inst (2 + 4 * j + 1)) = [] := by
    apply usersIn_eq_nil
    intro x hx hm
    simp only [List.mem_cons, List.mem_singleton, List.not_mem_nil, or_false] at hx
    rcases hx with h | h <;> subst h <;> simp [Instr.operands] at hm
  rw [FunctionIR.users, counterIdiom_insts, usersIn_append, usersIn_append, hpre, htail,
    usersIn_protectIncrements 2 k j hj]
  rfl

theorem counterIdiom_users_tail (k : Nat) :
    (counterIdiom k).users (.inst (4 * k + 2))
      = [⟨4 * k + 3, .cmp .ICMP_NE (.inst (4 * k + 2)) (.constInt 32 0)⟩] ∧
    (counterIdiom k).users (.inst (4 * k + 5))
      = [⟨4 * k + 6, .call (.func 3) [.inst (4 * k + 5)]⟩] := by
  have hinc : ∀ m, 4 * k + 2 ≤ m → usersIn (protectIncrements 2 k) (.inst m) = [] := by
    intro m hm
    apply usersIn_eq_nil
    intro x hx hmem
    have := operand_of_mem_protectIncrements 2 k m x hx hmem
    omega
  have hpre : ∀ m, 4 * k + 2 ≤ m →
      usersIn [⟨0, .alloca (some 32) false⟩, ⟨1, .store (.constInt 32 0) (.inst 0)⟩]
        (.inst m) = [] := by
    intro m hm
    apply usersIn_eq_nil
    intro x hx hmem
    simp only [List.mem_cons, List.mem_singleton, List.not_mem_nil, or_false] at hx
    rcases hx with h | h <;> subst h <;> simp [Instr.operands] at hmem
    unfold InstId at *
    omega
  constructor
  · rw [FunctionIR.users, counterIdiom_insts, usersIn_append, usersIn_append,
      hpre _ (by omega), hinc _ (by omega)]
    simp [usersIn, counterIdiomTail, Instr.operands]
  · rw [FunctionIR.users, counterIdiom_insts, usersIn_append, usersIn_append,
      hpre _ (by omega), hinc _ (by omega)]
    simp [usersIn, counterIdiomTail, Instr.operands]

theorem counterVariableLoop_true (F : FunctionIR) (var : InstId) (unp : FuncId)
    (users : List Instruction) (passed : Bool)
    (hgood : ∀ u ∈ users,
      (∃ w b p, u.op = .store (.constInt w b) p) ∨
      (∃ a lid w b p, u.op = .store (.inst a) p ∧
        F.find a = some (.binop .Add (.inst lid) (.constInt w b)) ∧
        F.find lid = some (.load (.inst var))) ∨
      (∃ p, u.op = .load p ∧ F.hasOneUse (.inst u.id) = true))
    (hpass : passed = true ∨
      ∃ u ∈ users, ∃ p c args, u.op = .load p ∧
        F.user_back (.inst u.id) = some ⟨c, .call (.func unp) args⟩) :
    counterVariableLoop F var unp users passed = true := by
  induction users generalizing passed with
  | nil =>
    rcases hpass with h | ⟨u, hu, _⟩
    · simpa [counterVariableLoop] using h
    · simp at hu
  | cons u us ih =>
    have hus : ∀ x ∈ us, _ := fun x hx => hgood x (List.mem_cons_of_mem _ hx)
    rcases hgood u (List.mem_cons_self _ _) with ⟨w, b, p, hop⟩ | ⟨a, lid, w, b, p, hop, ha, hl⟩ |
        ⟨p, hop, hone⟩
    · have hp2 : passed = true ∨ ∃ x ∈ us, ∃ p c args, x.op = .load p ∧
          F.user_back (.inst x.id) = some ⟨c, .call (.func unp) args⟩ := by
        rcases hpass with h | ⟨x, hx, p2, c, args, hxo, hxb⟩
        · exact Or.inl h
        · rcases List.mem_cons.mp hx with rfl | hx
          · rw [hop] at hxo; cases hxo
          · exact Or.inr ⟨x, hx, p2, c, args, hxo, hxb⟩
      simp only [counterVariableLoop, hop, Value.isConstantInt, if_true]
      exact ih passed hus hp2
    · have hp2 : passed = true ∨ ∃ x ∈ us, ∃ p c args, x.op = .load p ∧
          F.user_back (.inst x.id) = some ⟨c, .call (.func unp) args⟩ := by
        rcases hpass with h | ⟨x, hx, p2, c, args, hxo, hxb⟩
        · exact Or.inl h
        · rcases List.mem_cons.mp hx with rfl | hx
          · rw [hop] at hxo; cases hxo
          · exact Or.inr ⟨x, hx, p2, c, args, hxo, hxb⟩
      simp only [counterVariableLoop, hop, Value.isConstantInt, Bool.false_eq_true, if_false,
        FunctionIR.asBinaryOperator, ha, ne_eq, not_true_eq_false, if_true, FunctionIR.asLoad, hl]
      exact ih passed hus hp2
    · simp only [counterVariableLoop, hop, hone, Bool.not_true, Bool.false_eq_true, if_false]
      apply ih _ hus
      rcases hpass with h | ⟨x, hx, p2, c, args, hxo, hxb⟩
      · exact Or.inl (by simp [h])
      · rcases List.mem_cons.mp hx with rfl | hx
        · exact Or.inl (by simp [hxb, getCalledFunction])
        · exact Or.inr ⟨x, hx, p2, c, args, hxo, hxb⟩

/-- In `counterIdiom k` the slot `n` is classified as a protection counter. -/
theorem counterIdiom_counter (k : Nat) :
    isProtectionCounterVariable (counterIdiom k) 0 (some 3) = true := by
  simp only [isProtectionCounterVariable, counterIdiom_find_alloca]
  apply counterVariableLoop_true
  · intro u hu
    rw [FunctionIR.users, mem_usersIn, counterIdiom_insts] at hu
    obtain ⟨hmem, hop⟩ := hu
    simp only [List.mem_append, List.mem_cons, List.mem_singleton, List.not_mem_nil,
      or_false] at hmem
    rcases hmem with (h | h) | h | h
    · subst h; simp [Instr.operands] at hop
    · subst h; exact Or.inl ⟨32, 0, .inst 0, rfl⟩
    · obtain ⟨j, hj, hx⟩ := mem_protectIncrements 2 k u h
      simp only [protectIncrement, List.mem_cons, List.mem_singleton, List.not_mem_nil,
        or_false] at hx
      rcases hx with h | h | h | h
      · subst h; simp [Instr.operands] at hop
      · subst h
        refine Or.inr (Or.inr ⟨.inst 0, rfl, ?_⟩)
        simp [FunctionIR.hasOneUse, counterIdiom_users_increment k j hj]
      · subst h; simp [Instr.operands] at hop
      · subst h
        exact Or.inr (Or.inl ⟨2 + 4 * j + 2, 2 + 4 * j + 1, 32, 1, .inst 0, rfl,
          (counterIdiom_find_increment k j hj).2, (counterIdiom_find_increment k j hj).1⟩)
    · simp only [counterIdiomTail, List.mem_cons, List.mem_singleton, List.not_mem_nil,
        or_false] at h
      rcases h with h | h | h | h | h | h | h
      · subst h
        refine Or.inr (Or.inr ⟨.inst 0, rfl, ?_⟩)
        simp [FunctionIR.hasOneUse, (counterIdiom_users_tail k).1]
      · subst h; simp [Instr.operands] at hop
      · subst h; simp [Instr.operands] at hop
      · subst h
        refine Or.inr (Or.inr ⟨.inst 0, rfl, ?_⟩)
        simp [FunctionIR.hasOneUse, (counterIdiom_users_tail k).2]
      · subst h; simp [Instr.operands] at hop
      · subst h; simp [Instr.operands] at hop
      · subst h; simp [Instr.operands] at hop
  · refine Or.inr ⟨⟨4 * k + 5, .load (.inst 0)⟩, ?_, .inst 0, 4 * k + 6, [.inst (4 * k + 5)], rfl, ?_⟩
    · rw [FunctionIR.users, mem_usersIn, counterIdiom_insts]
      simp [counterIdiomTail, Instr.operands]
    · simp [FunctionIR.user_back, (counterIdiom_users_tail k).2]

theorem cached_hit (F : FunctionIR) (var : InstId) (u : FuncId) (r : Bool)
    (rest : VarBoolCacheTy) :
    isProtectionCounterVariableCached F var (some u) ((var, r) :: rest) = (r, (var, r) :: rest) := by
  simp [isProtectionCounterVariableCached, List.lookup]

theorem runBody_protectIncrement (F : FunctionIR) (base : Nat) (e : Env)
    (hF0 : F.find 0 = some (.alloca (some 32) false))
    (hF1 : F.find (base + 1) = some (.load (.inst 0)))
    (hF2 : F.find (base + 2) = some (.binop .Add (.inst (base + 1)) (.constInt 32 1)))
    (hc : e.counterVarsCache = [(0, true)]) (hcs : e.b.countState = .CS_EXACT)
    (hcv : e.b.counterVar = some 0) (hcount : 0 ≤ e.b.count) :
    runBody F exampleGlobals (protectIncrement base) e
      = some { e with
          b := { e.b with depth := e.b.depth + 1, count := e.b.count + 1 },
          msg := e.msg ++ [⟨.debug, "protect call", base⟩,
                            ⟨.debug, "adding a constant to counter", base + 3⟩] } := by
  obtain ⟨b, cc, sc, msg, ri, ds, wl⟩ := e
  obtain ⟨d, sd, cnt, cs, cv⟩ := b
  simp only at hc hcs hcv hcount
  subst hc hcs hcv
  have hprot : isProtectCall exampleGlobals ⟨base, .call (.func 1) [.argument 0]⟩ = true := rfl
  have h32 : getSExtValue 32 1 = some 1 := by decide
  have hneg : ¬ (cnt + 1 < 0) := by omega
  have hab : F.asBinaryOperator (.inst (base + 2))
      = some (.Add, .inst (base + 1), .constInt 32 1) := by
    simp [FunctionIR.asBinaryOperator, hF2]
  have hlo : F.asLoad (.inst (base + 1)) = some (.inst 0) := by simp [FunctionIR.asLoad, hF1]
  have hal : F.asAlloca (.inst 0) = some 0 := by simp [FunctionIR.asAlloca, hF0]
  simp only [protectIncrement, runBody, nonTerminator_call, handleCall_protect _ _ _ _ hprot,
    Option.bind]
  simp [handleBalanceForNonTerminator, handleCall, handleLoad, handleStore, exampleGlobals,
    hal, cached_hit, handleCounterStore, hab, hlo, Value.isConstantInt, h32, hneg, Env.debug,
    Env.info, Env.incRefinable]

theorem runBody_protectIncrements (F : FunctionIR) (base k : Nat) (e : Env)
    (hF0 : F.find 0 = some (.alloca (some 32) false))
    (hF : ∀ j, j < k → F.find (base + 4 * j + 1) = some (.load (.inst 0)) ∧
      F.find (base + 4 * j + 2)
        = some (.binop .Add (.inst (base + 4 * j + 1)) (.constInt 32 1)))
    (hc : e.counterVarsCache = [(0, true)]) (hcs : e.b.countState = .CS_EXACT)
    (hcv : e.b.counterVar = some 0) (hcount : 0 ≤ e.b.count) :
    ∃ e1, runBody F exampleGlobals (protectIncrements base k) e = some e1 ∧
      e1.b = { e.b with depth := e.b.depth + (k : Int), count := e.b.count + (k : Int) } ∧
      e1.counterVarsCache = [(0, true)] ∧ e1.saveVarsCache = e.saveVarsCache ∧
      infos e1.msg = infos e.msg ∧ e1.refinableInfos = e.refinableInfos ∧
      e1.doneSet = e.doneSet ∧ e1.workList = e.workList := by
  induction k generalizing base e with
  | zero => exact ⟨e, by simp [protectIncrements, runBody, hc]⟩
  | succ k ih =>
    have h0 := hF 0 (by omega)
    simp only [Nat.mul_zero, Nat.add_zero] at h0
    have hstep := runBody_protectIncrement F base e hF0 h0.1 h0.2 hc hcs hcv hcount
    have hF' : ∀ j, j < k → F.find (base + 4 + 4 * j + 1) = some (.load (.inst 0)) ∧
        F.find (base + 4 + 4 * j + 2)
          = some (.binop .Add (.inst (base + 4 + 4 * j + 1)) (.constInt 32 1)) := by
      intro j hj
      have := hF (j + 1) (by omega)
      have e1 : base + 4 * (j + 1) + 1 = base + 4 + 4 * j + 1 := by ring
      have e2 : base + 4 * (j + 1) + 2 = base + 4 + 4 * j + 2 := by ring
      rw [e1, e2] at this
      exact this
    obtain ⟨e1, h1, hb1, hc1, hs1, hm1, hr1, hd1, hw1⟩ :=
      ih (base + 4)
        { e with
          b := { e.b with depth := e.b.depth + 1, count := e.b.count + 1 },
          msg := e.msg ++ [⟨.debug, "protect call", base⟩,
                            ⟨.debug, "adding a constant to counter", base + 3⟩] }
        hF' hc hcs hcv (by simp only; omega)
    refine ⟨e1, ?_, ?_, hc1, ?_, ?_, ?_, ?_, ?_⟩
    · simp only [protectIncrements, runBody_append, hstep, Option.bind, h1]
    · rw [hb1]
      simp only [BalanceStateTy.mk.injEq, Nat.cast_add, Nat.cast_one, true_and, and_true]
      constructor <;> ring
    · rw [hs1]
    · rw [hm1]; simp [infos, List.filter_append]
    · rw [hr1]
    · rw [hd1]
    · rw [hw1]

theorem getSigned_of_lt (w k : Nat) (h : k < 2 ^ w) : getSigned w (k : Int) = k := by
  unfold getSigned
  rw [Int.emod_eq_of_lt (by positivity) (by exact_mod_cast h)]
  simp

theorem terminator_fold_exact (F : FunctionIR) (L : Limits) (g : GlobalsTy)
    (tid cid lid v : InstId) (pred : Predicate) (w cbits : Nat) (arr : Bool)
    (succ0 succ1 : BlockId) (e : Env)
    (hcmp : F.find cid = some (.cmp pred (.inst lid) (.constInt w cbits)))
    (hl : F.find lid = some (.load (.inst v)))
    (ha : F.find v = some (.alloca (some w) arr))
    (hr : (isProtectionCounterVariableCached F v g.unprotectFunction e.counterVarsCache).1 = true)
    (hcv : e.b.counterVar = none ∨ e.b.counterVar = some v)
    (hcs : e.b.countState = .CS_EXACT)
    (hcount : e.b.count ≤ L.MAX_COUNT) (hdepth : e.b.depth ≤ L.MAX_DEPTH)
    (hnn : 0 ≤ e.b.depth) :
    handleBalanceForTerminator F L g ⟨tid, .condBr (.inst cid) succ0 succ1⟩ e =
      some (true,
        if (⟨if evalICmp pred w (getSigned w e.b.count) cbits then succ0 else succ1,
              { e.b with counterVar := some v }⟩ : StateTy) ∈ e.doneSet then
          { e with
            counterVarsCache :=
              (isProtectionCounterVariableCached F v g.unprotectFunction e.counterVarsCache).2,
            b := { e.b with counterVar := some v },
            msg := e.msg ++ [⟨.debug, "folding out branch on counter value", tid⟩] }
        else
          { e with
            counterVarsCache :=
              (isProtectionCounterVariableCached F v g.unprotectFunction e.counterVarsCache).2,
            b := { e.b with counterVar := some v },
            msg := e.msg ++ [⟨.debug, "folding out branch on counter value", tid⟩,
                              ⟨.trace, "added folded successor of", tid⟩],
            doneSet := ⟨if evalICmp pred w (getSigned w e.b.count) cbits then succ0 else succ1,
              { e.b with counterVar := some v }⟩ :: e.doneSet,
            workList := ⟨if evalICmp pred w (getSigned w e.b.count) cbits then succ0 else succ1,
              { e.b with counterVar := some v }⟩ :: e.workList }) := by
  obtain ⟨b, cc, sc, msg, ri, ds, wl⟩ := e
  obtain ⟨d, sd, cnt, cs, cv⟩ := b
  simp only at hr hcv hcs hcount hdepth hnn
  subst hcs
  have hcv2 : ¬ (cv.isSome ∧ cv ≠ some v) := by
    rcases hcv with h | h <;> simp [h]
  have hd1 : ¬ (d > L.MAX_DEPTH) := not_lt.mpr hdepth
  have hd2 : ¬ (d < 0) := not_lt.mpr hnn
  have hc1 : ¬ (cnt > L.MAX_COUNT) := not_lt.mpr hcount
  have hsplit : splitCompareOperands F (.inst lid) (.constInt w cbits)
      = some (.inst lid, .constInt w cbits) := by
    simp [splitCompareOperands, Value.isConstant, FunctionIR.asLoad, hl]
  have hvar : (F.asLoad (.inst lid)).bind F.asAlloca = some v := by
    simp [FunctionIR.asLoad, hl, FunctionIR.asAlloca, ha]
  have hfold : foldCompare F pred v cnt (.constInt w cbits)
      = some (evalICmp pred w (getSigned w cnt) cbits) := by
    simp [foldCompare, FunctionIR.allocatedWidth, ha]
  by_cases hmem : (⟨if evalICmp pred w (getSigned w cnt) cbits then succ0 else succ1,
      ⟨d, sd, cnt, .CS_EXACT, some v⟩⟩ : StateTy) ∈ ds
  · simp [handleBalanceForTerminator, saturate, hc1, hd1, hd2, FunctionIR.asCmp, hcmp,
      foldCounterBranch, hsplit, hvar, hr, hcv2, hfold, Env.debug, Env.add, Env.trace, hmem]
  · simp [handleBalanceForTerminator, saturate, hc1, hd1, hd2, FunctionIR.asCmp, hcmp,
      foldCounterBranch, hsplit, hvar, hr, hcv2, hfold, Env.debug, Env.add, Env.trace, hmem]

theorem analyze_done (F : FunctionIR) (L : Limits) (g : GlobalsTy) (fuel : Nat) (e : Env)
    (h : e.workList = []) : analyze F L g fuel e = some e := by
  cases fuel <;> simp [analyze, h]

theorem counterIdiom_block0 (k : Nat) (L : Limits) (hc : (k : Int) ≤ L.MAX_COUNT)
    (hd : (k : Int) ≤ L.MAX_DEPTH) (h32 : k < 2 ^ 32) (e : Env)
    (hb : e.b = BalanceStateTy.entry) (hcc : e.counterVarsCache = [])
    (hds : e.doneSet = [⟨0, BalanceStateTy.entry⟩]) (hwl : e.workList = [])
    (hm : infos e.msg = []) (hri : e.refinableInfos = 0) :
    ∃ e1, processState (counterIdiom k) L exampleGlobals ⟨0, BalanceStateTy.entry⟩ e = some e1 ∧
      e1.workList = [⟨if k = 0 then 2 else 1, ⟨k, -1, k, .CS_EXACT, some 0⟩⟩] ∧
      e1.doneSet = [⟨if k = 0 then 2 else 1, ⟨k, -1, k, .CS_EXACT, some 0⟩⟩,
                    ⟨0, BalanceStateTy.entry⟩] ∧
      e1.counterVarsCache = [(0, true)] ∧ infos e1.msg = [] ∧ e1.refinableInfos = 0 := by
  have hblock : (counterIdiom k).block 0
      = ([⟨0, .alloca (some 32) false⟩, ⟨1, .store (.constInt 32 0) (.inst 0)⟩]
          ++ (protectIncrements 2 k
          ++ [⟨4 * k + 2, .load (.inst 0)⟩,
              ⟨4 * k + 3, .cmp .ICMP_NE (.inst (4 * k + 2)) (.constInt 32 0)⟩]))
        ++ [⟨4 * k + 4, .condBr (.inst (4 * k + 3)) 1 2⟩] := by
    simp [counterIdiom, FunctionIR.block]
  have hal : (counterIdiom k).asAlloca (.inst 0) = some 0 := by
    simp [FunctionIR.asAlloca, counterIdiom_find_alloca]
  have hrec : isProtectionCounterVariableCached (counterIdiom k) 0 (some 3) [] = (true, [(0, true)]) := by
    simp [isProtectionCounterVariableCached, counterIdiom_counter, cacheInsert, List.lookup]
  have h0 : getSExtValue 32 0 = some 0 := by decide
  obtain ⟨b, cc, sc, msg, ri, ds, wl⟩ := e
  simp only at hb hcc hds hwl hm hri
  subst hb hcc hds hwl hri
  -- the two instructions before the repetitions
  have hpre : runBody (counterIdiom k) exampleGlobals
      [⟨0, .alloca (some 32) false⟩, ⟨1, .store (.constInt 32 0) (.inst 0)⟩]
      ⟨BalanceStateTy.entry, [], sc, msg, 0, [⟨0, BalanceStateTy.entry⟩], []⟩
      = some ⟨⟨0, -1, 0, .CS_EXACT, some 0⟩, [(0, true)], sc,
          msg ++ [⟨.debug, "setting counter to a constant", 1⟩], 0,
          [⟨0, BalanceStateTy.entry⟩], []⟩ := by
    simp [runBody, handleBalanceForNonTerminator, handleCall, handleLoad, handleStore,
      exampleGlobals, hal, hrec, handleCounterStore, BalanceStateTy.entry, h0, Env.debug]
  -- the repetitions
  obtain ⟨e2, h2, hb2, hc2, hs2, hm2, hr2, hd2, hw2⟩ :=
    runBody_protectIncrements (counterIdiom k) 2 k
      ⟨⟨0, -1, 0, .CS_EXACT, some 0⟩, [(0, true)], sc,
        msg ++ [⟨.debug, "setting counter to a constant", 1⟩], 0,
        [⟨0, BalanceStateTy.entry⟩], []⟩
      (counterIdiom_find_alloca k) (counterIdiom_find_increment k) rfl rfl rfl (le_refl _)
  simp only [zero_add] at hb2
  -- the load and the comparison
  have hpost : runBody (counterIdiom k) exampleGlobals
      [⟨4 * k + 2, .load (.inst 0)⟩,
       ⟨4 * k + 3, .cmp .ICMP_NE (.inst (4 * k + 2)) (.constInt 32 0)⟩] e2 = some e2 := by
    simp [runBody, handleBalanceForNonTerminator, handleCall, handleLoad, handleStore,
      exampleGlobals]
  have hbody : runBody (counterIdiom k) exampleGlobals
      ([⟨0, .alloca (some 32) false⟩, ⟨1, .store (.constInt 32 0) (.inst 0)⟩]
          ++ (protectIncrements 2 k
          ++ [⟨4 * k + 2, .load (.inst 0)⟩,
              ⟨4 * k + 3, .cmp .ICMP_NE (.inst (4 * k + 2)) (.constInt 32 0)⟩]))
      ⟨BalanceStateTy.entry, [], sc, msg, 0, [⟨0, BalanceStateTy.entry⟩], []⟩ = some e2 := by
    rw [runBody_append, hpre]
    simp only [Option.bind]
    rw [runBody_append, h2]
    simp only [Option.bind, hpost]
  -- the branch
  have hterm := terminator_fold_exact (counterIdiom k) L exampleGlobals (4 * k + 4) (4 * k + 3)
    (4 * k + 2) 0 .ICMP_NE 32 0 false 1 2 e2 (counterIdiom_find_tail k).2.1
    (counterIdiom_find_tail k).1 (counterIdiom_find_alloca k)
    (by rw [hc2]; simp [exampleGlobals, cached_hit])
    (Or.inr (by rw [hb2])) (by rw [hb2]) (by rw [hb2]; exact hc) (by rw [hb2]; exact hd)
    (by rw [hb2]; positivity)
  have hcmp : evalICmp .ICMP_NE 32 (getSigned 32 e2.b.count) 0 = decide (k ≠ 0) := by
    rw [hb2]
    simp only [getSigned_of_lt 32 k h32, evalICmp, Nat.zero_mod, Nat.mod_eq_of_lt h32]
  have hmem : ¬ ((⟨if decide (k ≠ 0) = true then 1 else 2,
      { e2.b with counterVar := some 0 }⟩ : StateTy) ∈ e2.doneSet) := by
    rw [hd2, hb2]
    simp [BalanceStateTy.entry]
  rw [hcmp, if_neg hmem] at hterm
  have hT : ∃ e3, handleBalanceForTerminator (counterIdiom k) L exampleGlobals
        ⟨4 * k + 4, .condBr (.inst (4 * k + 3)) 1 2⟩ e2 = some (true, e3) ∧
      e3.workList = [⟨if k = 0 then 2 else 1, ⟨k, -1, k, .CS_EXACT, some 0⟩⟩] ∧
      e3.doneSet = [⟨if k = 0 then 2 else 1, ⟨k, -1, k, .CS_EXACT, some 0⟩⟩,
                    ⟨0, BalanceStateTy.entry⟩] ∧
      e3.counterVarsCache = [(0, true)] ∧ infos e3.msg = [] ∧ e3.refinableInfos = 0 := by
    refine ⟨_, hterm, ?_, ?_, ?_, ?_, ?_⟩
    · simp only [hw2, hb2]
      by_cases hk : k = 0 <;> simp [hk]
    · simp only [hd2, hb2]
      by_cases hk : k = 0 <;> simp [hk]
    · simp only [exampleGlobals, hc2, cached_hit]
    · simp only [infos, List.filter_append] at hm2 hm ⊢
      rw [hm2, hm]
      simp
    · exact hr2
  obtain ⟨e3, ht3, hrest⟩ := hT
  refine ⟨e3, ?_, hrest⟩
  unfold processState
  simp only [hblock, List.dropLast_concat, List.getLast?_concat]
  have : ({ (⟨BalanceStateTy.entry, [], sc, msg, 0, [⟨0, BalanceStateTy.entry⟩], []⟩ : Env) with
      b := BalanceStateTy.entry } : Env)
      = ⟨BalanceStateTy.entry, [], sc, msg, 0, [⟨0, BalanceStateTy.entry⟩], []⟩ := rfl
  rw [this, hbody]
  simp only [ht3]

theorem counterIdiom_block1 (k : Nat) (L : Limits) (hk : k ≠ 0) (hc : (k : Int) ≤ L.MAX_COUNT)
    (hd : (k : Int) ≤ L.MAX_DEPTH) (e : Env)
    (hcc : e.counterVarsCache = [(0, true)])
    (hds : e.doneSet = [⟨1, ⟨k, -1, k, .CS_EXACT, some 0⟩⟩, ⟨0, BalanceStateTy.entry⟩])
    (hwl : e.workList = []) (hm : infos e.msg = []) (hri : e.refinableInfos = 0) :
    ∃ e1, processState (counterIdiom k) L exampleGlobals
        ⟨1, ⟨k, -1, k, .CS_EXACT, some 0⟩⟩ e = some e1 ∧
      e1.workList = [⟨2, ⟨0, -1, k, .CS_EXACT, some 0⟩⟩] ∧
      e1.doneSet = [⟨2, ⟨0, -1, k, .CS_EXACT, some 0⟩⟩, ⟨1, ⟨k, -1, k, .CS_EXACT, some 0⟩⟩,
                    ⟨0, BalanceStateTy.entry⟩] ∧
      infos e1.msg = [] ∧ e1.refinableInfos = 0 := by
  have hblock : (counterIdiom k).block 1
      = [⟨4 * k + 5, .load (.inst 0)⟩, ⟨4 * k + 6, .call (.func 3) [.inst (4 * k + 5)]⟩]
        ++ [⟨4 * k + 7, .br 2⟩] := by
    simp [counterIdiom, FunctionIR.block]
  obtain ⟨b, cc, sc, msg, ri, ds, wl⟩ := e
  simp only at hcc hds hwl hm hri
  subst hcc hds hwl hri
  have hcall := handleCall_unprotect_counter (counterIdiom k) exampleGlobals 3 (4 * k + 6)
    (4 * k + 5) 0 [] (some 32) false
    ⟨⟨k, -1, k, .CS_EXACT, some 0⟩, [(0, true)], sc, msg, 0,
      [⟨1, ⟨k, -1, k, .CS_EXACT, some 0⟩⟩, ⟨0, BalanceStateTy.entry⟩], []⟩
    rfl (by decide) (by decide) (counterIdiom_find_tail k).2.2 (counterIdiom_find_alloca k)
    (by simp [exampleGlobals, cached_hit]) (Or.inr rfl)
  simp only [reduceCtorEq, if_false, if_true, sub_self, lt_self_iff_false, exampleGlobals,
    cached_hit] at hcall
  have hc1 : ¬ ((k : Int) > L.MAX_COUNT) := not_lt.mpr hc
  have hd1 : ¬ ((0 : Int) > L.MAX_DEPTH) := by
    have : (0 : Int) ≤ (k : Int) := by positivity
    omega
  have hproc : processState (counterIdiom k) L exampleGlobals
      ⟨1, ⟨k, -1, k, .CS_EXACT, some 0⟩⟩
      ⟨b, [(0, true)], sc, msg, 0,
        [⟨1, ⟨k, -1, k, .CS_EXACT, some 0⟩⟩, ⟨0, BalanceStateTy.entry⟩], []⟩
      = some ⟨⟨0, -1, k, .CS_EXACT, some 0⟩, [(0, true)], sc,
          msg ++ [⟨.debug, "unprotect call using counter in exact state", 4 * k + 6⟩], 0,
          [⟨2, ⟨0, -1, k, .CS_EXACT, some 0⟩⟩, ⟨1, ⟨k, -1, k, .CS_EXACT, some 0⟩⟩,
            ⟨0, BalanceStateTy.entry⟩],
          [⟨2, ⟨0, -1, k, .CS_EXACT, some 0⟩⟩]⟩ := by
    unfold processState
    simp only [hblock, List.dropLast_concat, List.getLast?_concat, runBody, nonTerminator_call]
    have hload : ∀ e : Env, handleBalanceForNonTerminator (counterIdiom k)
        ⟨some 1, some 2, some 3, some 4, some 0⟩ ⟨4 * k + 5, .load (.inst 0)⟩ e = some e := by
      intro e
      simp [handleBalanceForNonTerminator, handleCall, handleLoad, handleStore]
    simp only [exampleGlobals, hload, Option.bind, hcall]
    simp [handleBalanceForTerminator, saturate, hc1, hd1, Instr.successors, addSuccessors,
      Env.add, BalanceStateTy.entry, hk]
  refine ⟨_, hproc, rfl, rfl, ?_, rfl⟩
  simp only [infos, List.filter_append] at hm ⊢
  rw [hm]
  simp

theorem counterIdiom_block2 (k : Nat) (L : Limits) (c : Int) (e : Env) :
    processState (counterIdiom k) L exampleGlobals ⟨2, ⟨0, -1, c, .CS_EXACT, some 0⟩⟩ e
      = some { e with b := ⟨0, -1, c, .CS_EXACT, some 0⟩ } := by
  have hblock : (counterIdiom k).block 2 = [] ++ [⟨4 * k + 8, .ret (some (.argument 0))⟩] := by
    simp [counterIdiom, FunctionIR.block]
  unfold processState
  simp only [hblock, List.dropLast_concat, List.getLast?_concat, runBody]
  simp [handleBalanceForTerminator]

/-- C9: for `0 ≤ k ≤ min(MAX_COUNT, MAX_DEPTH)` (the bound `MAX_COUNT` being
an `int`), the function
`int n = 0; (PROTECT(a); n++;) k times; if (n) UNPROTECT(n); return a;`
analysed from the entry state: `n` is classified as a protection counter, the
analysis ends with an empty worklist after at most three states without any
info message, the branch on `n` is folded to one successor (the done-set holds
only the states listed), and every state at the return block has depth 0 and a
count state other than differential. -/
theorem counter_idiom (k : Nat) (L : Limits) (hc : (k : Int) ≤ L.MAX_COUNT)
    (hd : (k : Int) ≤ L.MAX_DEPTH) (hL : L.MAX_COUNT < 2 ^ 31) :
    isProtectionCounterVariable (counterIdiom k) 0 exampleGlobals.unprotectFunction = true ∧
    ∀ fuel, ∃ e, analyze (counterIdiom k) L exampleGlobals (fuel + 3) Env.entry = some e ∧
      e.workList = [] ∧ infos e.msg = [] ∧ e.refinableInfos = 0 ∧
      e.doneSet = (if k = 0 then
          [⟨2, ⟨0, -1, 0, .CS_EXACT, some 0⟩⟩, ⟨0, BalanceStateTy.entry⟩]
        else
          [⟨2, ⟨0, -1, k, .CS_EXACT, some 0⟩⟩, ⟨1, ⟨k, -1, k, .CS_EXACT, some 0⟩⟩,
            ⟨0, BalanceStateTy.entry⟩]) ∧
      (∀ s ∈ e.doneSet, s.bb = 2 → s.balance.depth = 0 ∧ s.balance.countState ≠ .CS_DIFF) := by
  refine ⟨counterIdiom_counter k, ?_⟩
  intro fuel
  have h32 : k < 2 ^ 32 := by
    have : (k : Int) < 2 ^ 31 := lt_of_le_of_lt hc hL
    have : k < 2 ^ 31 := by exact_mod_cast this
    omega
  obtain ⟨e1, h1, hw1, hd1, hc1, hm1, hr1⟩ :=
    counterIdiom_block0 k L hc hd h32 ({ Env.entry with workList := [] } : Env) rfl rfl rfl rfl
      rfl rfl
  have hstart : analyze (counterIdiom k) L exampleGlobals (fuel + 3) Env.entry
      = analyze (counterIdiom k) L exampleGlobals (fuel + 2) e1 := by
    have hwl : Env.entry.workList = [⟨0, BalanceStateTy.entry⟩] := rfl
    simp only [analyze, hwl, h1, Option.bind]
  by_cases hk : k = 0
  · subst hk
    simp only [if_true, Nat.cast_zero] at hw1 hd1
    have h2 := counterIdiom_block2 0 L 0 ({ e1 with workList := [] } : Env)
    refine ⟨{ ({ e1 with workList := [] } : Env) with b := ⟨0, -1, 0, .CS_EXACT, some 0⟩ },
      ?_, ?_, ?_, ?_, ?_, ?_⟩
    · rw [hstart]
      simp only [analyze, hw1, h2, Option.bind]
    · rfl
    · exact hm1
    · exact hr1
    · simp [hd1]
    · simp [hd1, BalanceStateTy.entry]
  · simp only [if_neg hk] at hw1 hd1
    obtain ⟨e2, h2, hw2, hd2, hm2, hr2⟩ :=
      counterIdiom_block1 k L hk hc hd ({ e1 with workList := [] } : Env) hc1 hd1 rfl hm1 hr1
    have h3 := counterIdiom_block2 k L k ({ e2 with workList := [] } : Env)
    refine ⟨{ ({ e2 with workList := [] } : Env) with b := ⟨0, -1, k, .CS_EXACT, some 0⟩ },
      ?_, ?_, ?_, ?_, ?_, ?_⟩
    · rw [hstart]
      simp only [analyze, hw1, h2, Option.bind, hw2, h3]
      exact analyze_done _ _ _ _ _ rfl
    · rfl
    · exact hm2
    · exact hr2
    · simp [hd2, hk]
    · simp [hd2, BalanceStateTy.entry]

/-- Witness of C9 with two repetitions and both bounds 64. -/
theorem counter_idiom_witness :
    ∃ e, analyze (counterIdiom 2) ⟨64, 64⟩ exampleGlobals 3 Env.entry = some e ∧
      e.workList = [] ∧ infos e.msg = [] ∧ e.refinableInfos = 0 :=
  let ⟨e, h1, h2, h3, h4, _⟩ :=
    (counter_idiom 2 ⟨64, 64⟩ (by decide) (by decide) (by decide)).2 0
  ⟨e, h1, h2, h3, h4⟩

/-! ### Frame properties of the terminator transfer -/

theorem foldCounterBranch_frame (F : FunctionIR) (g : GlobalsTy) (t : Instruction)
    (pred : Predicate) (op0 op1 : Value) (succ0 succ1 : BlockId) (e e1 : Env) (r : Bool)
    (h : foldCounterBranch F g t pred op0 op1 succ0 succ1 e = some (r, e1)) :
    e1.b.depth = e.b.depth ∧ e1.b.count = e.b.count ∧ e1.b.savedDepth = e.b.savedDepth ∧
    (e1.b.countState = e.b.countState ∨
      (e.b.countState = .CS_DIFF ∧ e1.b.countState = .CS_NONE)) ∧
    (e1.b.counterVar = e.b.counterVar ∨
      (e.b.counterVar = none ∧ e1.b.counterVar.isSome = true)) ∧
    (e1.b.countState ≠ e.b.countState → e1.b.counterVar.isSome = true) ∧
    ((e1.workList = e.workList ∧ e1.doneSet = e.doneSet) ∨
      (r = true ∧ ∃ succ, e1.workList = ⟨succ, e1.b⟩ :: e.workList ∧
        e1.doneSet = ⟨succ, e1.b⟩ :: e.doneSet)) := by
  obtain ⟨b, cc, sc, msg, ri, ds, wl⟩ := e
  obtain ⟨d, sd, cnt, cs, cv⟩ := b
  have hcvor : ∀ v : InstId, ¬ (cv.isSome = true ∧ cv ≠ some v) →
      (some v = cv ∨ (cv = none ∧ (some v).isSome = true)) := by
    intro v hv
    cases cv with
    | none => exact Or.inr ⟨rfl, rfl⟩
    | some w =>
      left
      by_contra hne
      exact hv ⟨rfl, fun h => hne h.symm⟩
  unfold foldCounterBranch at h
  cases hs : splitCompareOperands F op0 op1 with
  | none =>
    simp only [hs, Option.some.injEq, Prod.mk.injEq] at h
    obtain ⟨rfl, rfl⟩ := h
    simp
  | some p =>
    obtain ⟨li, constOp⟩ := p
    simp only [hs] at h
    cases hv : (F.asLoad li).bind F.asAlloca with
    | none =>
      simp only [hv, Option.some.injEq, Prod.mk.injEq] at h
      obtain ⟨rfl, rfl⟩ := h
      simp
    | some var =>
      simp only [hv] at h
      cases hr : (isProtectionCounterVariableCached F var g.unprotectFunction cc).1
      case false =>
        simp only [hr, Bool.not_false, if_true, Option.some.injEq, Prod.mk.injEq] at h
        obtain ⟨rfl, rfl⟩ := h
        simp
      simp only [hr, Bool.not_true, Bool.false_eq_true, if_false] at h
      by_cases hcv : cv.isSome = true ∧ cv ≠ some var
      · rw [if_pos hcv] at h
        simp only [Env.info, Env.incRefinable, Option.some.injEq, Prod.mk.injEq] at h
        obtain ⟨rfl, rfl⟩ := h
        simp
      rw [if_neg hcv] at h
      have hcv' := hcvor var hcv
      cases cs with
      | CS_NONE =>
        simp only [if_true, Env.info, Env.incRefinable, Option.some.injEq, Prod.mk.injEq] at h
        obtain ⟨rfl, rfl⟩ := h
        simpa using hcv'
      | CS_EXACT =>
        simp only [reduceCtorEq, if_false, if_true] at h
        cases hf : foldCompare F pred var cnt constOp with
        | none => simp [hf] at h
        | some res =>
          simp only [hf, Env.debug, Env.add, Env.trace] at h
          by_cases hmem : (⟨if res = true then succ0 else succ1,
              ⟨d, sd, cnt, .CS_EXACT, some var⟩⟩ : StateTy) ∈ ds
          · simp only [hmem, if_true, Bool.false_eq_true, if_false, Option.some.injEq,
              Prod.mk.injEq] at h
            obtain ⟨rfl, rfl⟩ := h
            simpa using hcv'
          · simp only [hmem, if_false, if_true, Option.some.injEq, Prod.mk.injEq] at h
            obtain ⟨rfl, rfl⟩ := h
            simpa using hcv'
      | CS_DIFF =>
        simp only [reduceCtorEq, if_false, ne_eq, not_true_eq_false] at h
        generalize hus : (if pred.isTrueWhenEqual = true then succ1 else succ0) = us at h
        generalize hjs : (if pred.isTrueWhenEqual = true then succ0 else succ1) = js at h
        split at h
        · simp only [Option.some.injEq, Prod.mk.injEq] at h
          obtain ⟨rfl, rfl⟩ := h
          simpa using hcv'
        · cases hblk : isUnprotectBlock g var js (F.block us)
          · simp only [hblk, Bool.not_false, if_true, Option.some.injEq, Prod.mk.injEq] at h
            obtain ⟨rfl, rfl⟩ := h
            simpa using hcv'
          · simp only [hblk, Bool.not_true, Bool.false_eq_true, if_false, Env.debug, Env.info,
              Env.incRefinable, Env.add, Env.trace] at h
            by_cases hd : d < 0
            · simp only [hd, if_true, Option.some.injEq, Prod.mk.injEq] at h
              obtain ⟨rfl, rfl⟩ := h
              simpa using hcv'
            · simp only [hd, if_false] at h
              by_cases hmem : (⟨js, ⟨d, sd, cnt, .CS_NONE, some var⟩⟩ : StateTy) ∈ ds
              · simp only [hmem, if_true, Bool.false_eq_true, if_false, Option.some.injEq,
                  Prod.mk.injEq] at h
                obtain ⟨rfl, rfl⟩ := h
                simpa using hcv'
              · simp only [hmem, if_false, if_true, Option.some.injEq, Prod.mk.injEq] at h
                obtain ⟨rfl, rfl⟩ := h
                simpa using hcv'

theorem saturate_cases (L : Limits) (e es : Env) (h : saturate L e = some es) :
    es.workList = e.workList ∧ es.doneSet = e.doneSet ∧ es.msg = e.msg ∧
    es.refinableInfos = e.refinableInfos ∧ es.counterVarsCache = e.counterVarsCache ∧
    es.saveVarsCache = e.saveVarsCache ∧
    es.b.savedDepth = e.b.savedDepth ∧ es.b.counterVar = e.b.counterVar ∧
    ((¬ (e.b.count > L.MAX_COUNT) ∧ es = e) ∨
     (e.b.count > L.MAX_COUNT ∧ e.b.countState = .CS_EXACT ∧ es.b.countState = .CS_DIFF ∧
        es.b.depth = e.b.depth - e.b.count ∧ es.b.count = -1)) := by
  unfold saturate at h
  by_cases hc : e.b.count > L.MAX_COUNT
  · rw [if_pos hc] at h
    by_cases hx : e.b.countState = .CS_EXACT
    · simp only [hx, ne_eq, not_true_eq_false, if_false, Option.some.injEq] at h
      subst h
      simp [hc, hx]
    · simp [hx] at h
  · rw [if_neg hc] at h
    simp only [Option.some.injEq] at h
    subst h
    simp [hc]

theorem foldCounterBranch_none (F : FunctionIR) (g : GlobalsTy) (t : Instruction)
    (pred : Predicate) (op0 op1 : Value) (succ0 succ1 : BlockId) (e : Env)
    (h : foldCounterBranch F g t pred op0 op1 succ0 succ1 e = none) :
    e.b.countState = .CS_EXACT := by
  obtain ⟨b, cc, sc, msg, ri, ds, wl⟩ := e
  obtain ⟨d, sd, cnt, cs, cv⟩ := b
  unfold foldCounterBranch at h
  cases hs : splitCompareOperands F op0 op1 with
  | none => simp [hs] at h
  | some p =>
    obtain ⟨li, constOp⟩ := p
    simp only [hs] at h
    cases hv : (F.asLoad li).bind F.asAlloca with
    | none => simp [hv] at h
    | some var =>
      simp only [hv] at h
      cases hr : (isProtectionCounterVariableCached F var g.unprotectFunction cc).1
      case false => simp [hr] at h
      simp only [hr, Bool.not_true, Bool.false_eq_true, if_false] at h
      by_cases hcv : cv.isSome = true ∧ cv ≠ some var
      · rw [if_pos hcv] at h; simp at h
      rw [if_neg hcv] at h
      cases cs with
      | CS_NONE => simp at h
      | CS_EXACT => rfl
      | CS_DIFF =>
        simp only [reduceCtorEq, if_false, ne_eq, not_true_eq_false] at h
        generalize hus : (if pred.isTrueWhenEqual = true then succ1 else succ0) = us at h
        generalize hjs : (if pred.isTrueWhenEqual = true then succ0 else succ1) = js at h
        split at h
        · simp at h
        · cases hblk : isUnprotectBlock g var js (F.block us)
          · simp [hblk] at h
          · simp only [hblk, Bool.not_true, Bool.false_eq_true, if_false, Env.debug, Env.info,
              Env.incRefinable, Env.add, Env.trace] at h
            by_cases hd : d < 0
            · simp [hd] at h
            · simp only [hd, if_false] at h
              by_cases hmem : (⟨js, ⟨d, sd, cnt, .CS_NONE, some var⟩⟩ : StateTy) ∈ ds
              · simp [hmem] at h
              · simp [hmem] at h

theorem terminator_unfold (F : FunctionIR) (L : Limits) (g : GlobalsTy) (t : Instruction)
    (e es : Env) (hret : ∀ v, t.op ≠ .ret v) (hs : saturate L e = some es) :
    handleBalanceForTerminator F L g t e =
      (if es.b.depth > L.MAX_DEPTH then
        some (true, (es.info "has too high protection stack depth" t.id).incRefinable)
      else if es.b.countState ≠ .CS_DIFF ∧ es.b.depth < 0 then some (true, es)
      else
        match t.op with
        | .condBr cond succ0 succ1 =>
          match F.asCmp cond with
          | none => some (false, es)
          | some (pred, op0, op1) => foldCounterBranch F g t pred op0 op1 succ0 succ1 es
        | _ => some (false, es)) := by
  obtain ⟨id, op⟩ := t
  cases op with
  | ret v => exact absurd rfl (hret v)
  | _ => simp only [handleBalanceForTerminator, hs] <;> rfl

theorem terminator_frame (F : FunctionIR) (L : Limits) (g : GlobalsTy) (t : Instruction)
    (e e1 : Env) (r : Bool) (hret : ∀ v, t.op ≠ .ret v)
    (h : handleBalanceForTerminator F L g t e = some (r, e1)) :
    ∃ es, saturate L e = some es ∧
      e1.b.depth = es.b.depth ∧ e1.b.count = es.b.count ∧ e1.b.savedDepth = es.b.savedDepth ∧
      (e1.b.countState = es.b.countState ∨
        (es.b.countState = .CS_DIFF ∧ e1.b.countState = .CS_NONE)) ∧
      (e1.b.counterVar = es.b.counterVar ∨
        (es.b.counterVar = none ∧ e1.b.counterVar.isSome = true)) ∧
      (e1.b.countState ≠ es.b.countState → e1.b.counterVar.isSome = true) ∧
      ((e1.workList = e.workList ∧ e1.doneSet = e.doneSet) ∨
        (r = true ∧ ∃ succ, e1.workList = ⟨succ, e1.b⟩ :: e.workList ∧
          e1.doneSet = ⟨succ, e1.b⟩ :: e.doneSet)) := by
  cases hs : saturate L e with
  | none =>
    obtain ⟨id, op⟩ := t
    cases op <;> simp_all [handleBalanceForTerminator]
  | some es =>
    obtain ⟨hw, hd, -, -, -, -, -, -, -⟩ := saturate_cases L e es hs
    refine ⟨es, rfl, ?_⟩
    rw [terminator_unfold F L g t e es hret hs] at h
    have triv : ∀ r' : Bool, some (r', es) = some (r, e1) →
        e1.b.depth = es.b.depth ∧ e1.b.count = es.b.count ∧
        e1.b.savedDepth = es.b.savedDepth ∧
        (e1.b.countState = es.b.countState ∨
          (es.b.countState = .CS_DIFF ∧ e1.b.countState = .CS_NONE)) ∧
        (e1.b.counterVar = es.b.counterVar ∨
          (es.b.counterVar = none ∧ e1.b.counterVar.isSome = true)) ∧
        (e1.b.countState ≠ es.b.countState → e1.b.counterVar.isSome = true) ∧
        ((e1.workList = e.workList ∧ e1.doneSet = e.doneSet) ∨
          (r = true ∧ ∃ succ, e1.workList = ⟨succ, e1.b⟩ :: e.workList ∧
            e1.doneSet = ⟨succ, e1.b⟩ :: e.doneSet)) := by
      intro r' h'
      simp only [Option.some.injEq, Prod.mk.injEq] at h'
      obtain ⟨-, rfl⟩ := h'
      simp [hw, hd]
    by_cases h1 : es.b.depth > L.MAX_DEPTH
    · rw [if_pos h1] at h
      simp only [Env.info, Env.incRefinable, Option.some.injEq, Prod.mk.injEq] at h
      obtain ⟨-, rfl⟩ := h
      simp [hw, hd]
    rw [if_neg h1] at h
    by_cases h2 : es.b.countState ≠ .CS_DIFF ∧ es.b.depth < 0
    · rw [if_pos h2] at h
      exact triv _ h
    rw [if_neg h2] at h
    obtain ⟨id, op⟩ := t
    cases op with
    | condBr cond s0 s1 =>
      simp only at h
      cases hc : F.asCmp cond with
      | none =>
        simp only [hc] at h
        exact triv _ h
      | some p =>
        obtain ⟨pred, op0, op1⟩ := p
        simp only [hc] at h
        have := foldCounterBranch_frame F g _ pred op0 op1 s0 s1 es e1 r h
        rw [hw, hd] at this
        exact this
    | _ => exact triv _ h

theorem terminator_return_frame (F : FunctionIR) (L : Limits) (g : GlobalsTy) (id : InstId)
    (v : Option Value) (e e1 : Env) (r : Bool)
    (h : handleBalanceForTerminator F L g ⟨id, .ret v⟩ e = some (r, e1)) :
    e1.b = e.b ∧ e1.workList = e.workList ∧ e1.doneSet = e.doneSet := by
  simp only [handleBalanceForTerminator] at h
  split at h <;>
    (simp only [Env.info, Env.incRefinable, Option.some.injEq, Prod.mk.injEq] at h
     obtain ⟨-, rfl⟩ := h
     simp)

theorem terminator_some_of_diff (F : FunctionIR) (L : Limits) (g : GlobalsTy) (t : Instruction)
    (e es : Env) (hret : ∀ v, t.op ≠ .ret v) (hs : saturate L e = some es)
    (hne : es.b.countState ≠ .CS_EXACT) :
    ∃ r e1, handleBalanceForTerminator F L g t e = some (r, e1) := by
  rw [terminator_unfold F L g t e es hret hs]
  by_cases h1 : es.b.depth > L.MAX_DEPTH
  · rw [if_pos h1]; exact ⟨_, _, rfl⟩
  rw [if_neg h1]
  by_cases h2 : es.b.countState ≠ .CS_DIFF ∧ es.b.depth < 0
  · rw [if_pos h2]; exact ⟨_, _, rfl⟩
  rw [if_neg h2]
  obtain ⟨id, op⟩ := t
  cases op with
  | condBr cond s0 s1 =>
    simp only
    cases hc : F.asCmp cond with
    | none => exact ⟨_, _, rfl⟩
    | some p =>
      obtain ⟨pred, op0, op1⟩ := p
      simp only
      cases hf : foldCounterBranch F g ⟨id, .condBr cond s0 s1⟩ pred op0 op1 s0 s1 es with
      | none => exact absurd (foldCounterBranch_none F g _ pred op0 op1 s0 s1 es hf) hne
      | some p => exact ⟨p.1, p.2, rfl⟩
  | _ => exact ⟨_, _, rfl⟩

/-- C11 fails on the code: in `saturatedIdiom` with both bounds 64 and the state
`count_state = Diff`, `depth = -65` at the branch `if (n) UNPROTECT(n)`, whose
nonzero successor is the three-instruction unprotect block, the terminator
transfer sets the count state to none, logs the negative depth, enqueues
nothing and returns false, so that generic successor enumeration adds the
unprotect block as well as the join block; the analysis from the entry state
explores the unprotect block and logs an uninitialized-counter info there. -/
theorem diff_unprotect_negative_depth :
    isUnprotectBlock exampleGlobals 0 2 (saturatedIdiom.block 1) = true ∧
    (∃ e1, handleBalanceForTerminator saturatedIdiom ⟨64, 64⟩ exampleGlobals
          ⟨4, .condBr (.inst 3) 1 2⟩
          { Env.entry with b := ⟨-65, -1, -1, .CS_DIFF, some 0⟩, workList := [] }
            = some (false, e1) ∧
        e1.b = ⟨-65, -1, -1, .CS_NONE, some 0⟩ ∧ e1.workList = [] ∧
        infos e1.msg = [⟨.info, "has negative depth after UNPROTECT(<counter>)", 4⟩] ∧
        (addSuccessors (Instr.condBr (.inst 3) 1 2).successors e1).workList
          = [⟨2, ⟨-65, -1, -1, .CS_NONE, some 0⟩⟩, ⟨1, ⟨-65, -1, -1, .CS_NONE, some 0⟩⟩]) ∧
    (∃ e, analyze saturatedIdiom ⟨64, 64⟩ exampleGlobals 3 Env.entry = some e ∧
        e.workList = [] ∧
        (⟨1, ⟨-65, -1, -1, .CS_NONE, some 0⟩⟩ : StateTy) ∈ e.doneSet ∧
        (⟨.info, "passes uninitialized counter of protects in a call to unprotect", 6⟩ : Message)
          ∈ e.msg) := by
  refine ⟨by decide, ⟨_, rfl, rfl, rfl, ?_, ?_⟩, ⟨_, rfl, rfl, ?_, ?_⟩⟩
  · decide
  · decide
  · decide
  · decide

/-- C12: on a terminator that is not a return, if `count > MAX_COUNT` in count
state exact on entry, `handleBalanceForTerminator` returns a result whose state
has `depth = depth - count`, `count = -1` and a count state that is
differential (or none, after the rewrite of the differential case), and every
state it has put on the worklist carries that state.  For every entry state,
neither the state it returns nor a state it has put on the worklist has count
state exact with `count > MAX_COUNT`. -/
theorem saturation_before_successors (F : FunctionIR) (L : Limits) (g : GlobalsTy)
    (t : Instruction) (e : Env) (hret : ∀ v, t.op ≠ .ret v) :
    (e.b.count > L.MAX_COUNT → e.b.countState = .CS_EXACT →
      saturate L e = some { e with b := { e.b with countState := .CS_DIFF,
                                                   depth := e.b.depth - e.b.count,
                                                   count := -1 } } ∧
      ∃ r e1, handleBalanceForTerminator F L g t e = some (r, e1) ∧
        e1.b.depth = e.b.depth - e.b.count ∧ e1.b.count = -1 ∧
        (e1.b.countState = .CS_DIFF ∨ e1.b.countState = .CS_NONE) ∧
        ∀ s ∈ e1.workList, s ∈ e.workList ∨ s.balance = e1.b) ∧
    (∀ r e1, handleBalanceForTerminator F L g t e = some (r, e1) →
      ¬ (e1.b.countState = .CS_EXACT ∧ e1.b.count > L.MAX_COUNT) ∧
      ∀ s ∈ e1.workList, s ∈ e.workList ∨
        ¬ (s.balance.countState = .CS_EXACT ∧ s.balance.count > L.MAX_COUNT)) := by
  have key : ∀ r e1, handleBalanceForTerminator F L g t e = some (r, e1) →
      ∃ es, saturate L e = some es ∧ e1.b.depth = es.b.depth ∧ e1.b.count = es.b.count ∧
        (e1.b.countState = es.b.countState ∨
          (es.b.countState = .CS_DIFF ∧ e1.b.countState = .CS_NONE)) ∧
        ∀ s ∈ e1.workList, s ∈ e.workList ∨ s.balance = e1.b := by
    intro r e1 h
    obtain ⟨es, hsat, hd, hc, -, hcs, -, -, hw⟩ := terminator_frame F L g t e e1 r hret h
    refine ⟨es, hsat, hd, hc, hcs, ?_⟩
    intro s hs
    rcases hw with ⟨hw, -⟩ | ⟨-, succ, hw, -⟩
    · left; rw [← hw]; exact hs
    · rw [hw] at hs
      rcases List.mem_cons.mp hs with rfl | hs
      · right; rfl
      · left; exact hs
  constructor
  · intro hgt hex
    have hsat : saturate L e = some
        { e with b := ⟨e.b.depth - e.b.count, e.b.savedDepth, -1, .CS_DIFF, e.b.counterVar⟩ } := by
      simp [saturate, hgt, hex]
    refine ⟨hsat, ?_⟩
    obtain ⟨r, e1, h⟩ := terminator_some_of_diff F L g t e _ hret hsat (by simp)
    obtain ⟨es, hs2, hd, hc, hcs, hw⟩ := key r e1 h
    rw [hsat] at hs2
    simp only [Option.some.injEq] at hs2
    subst hs2
    refine ⟨r, e1, h, hd, hc, ?_, hw⟩
    rcases hcs with h1 | ⟨-, h1⟩
    · exact Or.inl h1
    · exact Or.inr h1
  · intro r e1 h
    obtain ⟨es, hs2, hd, hc, hcs, hw⟩ := key r e1 h
    obtain ⟨-, -, -, -, -, -, -, -, h3⟩ := saturate_cases L e es hs2
    have hb : ¬ (e1.b.countState = .CS_EXACT ∧ e1.b.count > L.MAX_COUNT) := by
      rintro ⟨hx, hgt⟩
      rcases h3 with ⟨hle, rfl⟩ | ⟨-, -, hdiff, -, -⟩
      · rw [hc] at hgt; exact hle hgt
      · rcases hcs with h4 | ⟨-, h4⟩
        · rw [h4, hdiff] at hx; cases hx
        · rw [h4] at hx; cases hx
    refine ⟨hb, ?_⟩
    intro s hs
    rcases hw s hs with h5 | h5
    · exact Or.inl h5
    · right; rw [h5]; exact hb

/-- Witness of C12: the branch of `saturatedIdiom` with `count = 65`. -/
theorem saturation_before_successors_witness :
    ∃ r e1, handleBalanceForTerminator saturatedIdiom ⟨64, 64⟩ exampleGlobals
        ⟨4, .condBr (.inst 3) 1 2⟩ { Env.entry with b := ⟨0, -1, 65, .CS_EXACT, some 0⟩ }
          = some (r, e1) ∧
      e1.b.depth = (0 : Int) - 65 ∧ e1.b.count = -1 ∧
      (e1.b.countState = .CS_DIFF ∨ e1.b.countState = .CS_NONE) :=
  let ⟨r, e1, h, hd, hc, hcs, _⟩ :=
    ((saturation_before_successors saturatedIdiom ⟨64, 64⟩ exampleGlobals
      ⟨4, .condBr (.inst 3) 1 2⟩ { Env.entry with b := ⟨0, -1, 65, .CS_EXACT, some 0⟩ }
      (by intro v; simp)).1 (by decide) rfl).2
  ⟨r, e1, h, hd, hc, hcs⟩

/-- C13: on a terminator that is not a return, `es` being the state after
saturation: if `depth > MAX_DEPTH` the transfer returns true, puts no state on
the worklist or into the done-set and appends exactly the info "has too high
protection stack depth"; if `depth < 0` in a count state other than
differential (and `MAX_DEPTH` is not negative) it returns true with the state
after saturation unchanged, so it enqueues and emits nothing. -/
theorem terminator_cut (F : FunctionIR) (L : Limits) (g : GlobalsTy) (t : Instruction)
    (e es : Env) (hret : ∀ v, t.op ≠ .ret v) (hs : saturate L e = some es) :
    (es.b.depth > L.MAX_DEPTH →
      ∃ e1, handleBalanceForTerminator F L g t e = some (true, e1) ∧
        e1.b = es.b ∧ e1.workList = e.workList ∧ e1.doneSet = e.doneSet ∧
        e1.msg = e.msg ++ [⟨.info, "has too high protection stack depth", t.id⟩] ∧
        e1.refinableInfos = e.refinableInfos + 1) ∧
    (0 ≤ L.MAX_DEPTH → es.b.depth < 0 → es.b.countState ≠ .CS_DIFF →
      handleBalanceForTerminator F L g t e = some (true, es) ∧
        es.workList = e.workList ∧ es.doneSet = e.doneSet ∧ es.msg = e.msg ∧
        es.refinableInfos = e.refinableInfos) := by
  obtain ⟨hw, hd, hm, hr, -, -, -, -, -⟩ := saturate_cases L e es hs
  constructor
  · intro h1
    refine ⟨(es.info "has too high protection stack depth" t.id).incRefinable, ?_, ?_⟩
    · rw [terminator_unfold F L g t e es hret hs, if_pos h1]
    · simp [Env.info, Env.incRefinable, hw, hd, hm, hr]
  · intro hL hneg hcs
    have h1 : ¬ (es.b.depth > L.MAX_DEPTH) := by
      intro h; exact absurd (lt_of_le_of_lt hL h) (not_lt.mpr (le_of_lt hneg))
    refine ⟨?_, hw, hd, hm, hr⟩
    rw [terminator_unfold F L g t e es hret hs, if_neg h1, if_pos ⟨hcs, hneg⟩]

/-- Witness of C13: an unconditional branch at depth 65 with `MAX_DEPTH = 64`. -/
theorem terminator_cut_witness :
    ∃ e1, handleBalanceForTerminator saturatedIdiom ⟨64, 64⟩ exampleGlobals ⟨7, .br 2⟩
        { Env.entry with b := ⟨65, -1, -1, .CS_NONE, none⟩ } = some (true, e1) ∧
      e1.b = ⟨65, -1, -1, .CS_NONE, none⟩ ∧ e1.workList = Env.entry.workList ∧
      e1.doneSet = Env.entry.doneSet ∧
      e1.msg = [] ++ [⟨.info, "has too high protection stack depth", 7⟩] ∧
      e1.refinableInfos = 0 + 1 :=
  (terminator_cut saturatedIdiom ⟨64, 64⟩ exampleGlobals ⟨7, .br 2⟩
    { Env.entry with b := ⟨65, -1, -1, .CS_NONE, none⟩ }
    { Env.entry with b := ⟨65, -1, -1, .CS_NONE, none⟩ }
    (by intro v; simp) (by decide)).1 (by decide)

/-! ### Saving and restoring the stack top -/

theorem handleLoad_save (F : FunctionIR) (g : GlobalsTy) (pp : GlobalId) (id sid slot : InstId)
    (v : Value) (ty : Option Nat) (arr : Bool) (e : Env)
    (hpp : g.ppStackTopVariable = some pp)
    (hu : F.users (.inst id) = [⟨sid, .store v (.inst slot)⟩])
    (ha : F.find slot = some (.alloca ty arr))
    (hr : (isProtectionStackTopSaveVariable F slot (some pp) e.saveVarsCache).1 = true) :
    handleLoad F g ⟨id, .load (.global pp)⟩ e =
      (if e.b.countState = .CS_DIFF then
        some { e with
          saveVarsCache := (isProtectionStackTopSaveVariable F slot (some pp) e.saveVarsCache).2,
          msg := e.msg ++ [⟨.info,
            "saving value of PPStackTop while in differential count state (results will be incorrect)",
            id⟩],
          refinableInfos := e.refinableInfos + 1 }
      else
        some { e with
          saveVarsCache := (isProtectionStackTopSaveVariable F slot (some pp) e.saveVarsCache).2,
          b := { e.b with savedDepth := e.b.depth },
          msg := e.msg ++ [⟨.debug, "saving value of PPStackTop", id⟩] }) := by
  have hal : F.asAlloca (.inst slot) = some slot := by simp [FunctionIR.asAlloca, ha]
  simp only [handleLoad, hpp, Option.map_some', if_true, FunctionIR.hasOneUse, hu,
    List.length_singleton, decide_True, FunctionIR.user_back, List.head?_cons, hal, hr,
    Env.info, Env.incRefinable, Env.debug]

/-- C14 as stated fails: in differential count state the load transfer on the
save `save = R_PPStackTop` of `saveRestore 0` (the slot is a recognized save
slot, the load's sole user is the store into it) logs the info and returns
without capturing the depth: `savedDepth` stays -1 although the depth is 3. -/
theorem save_in_diff_state_counterexample :
    (saveRestore 0).users (.inst 1) = [⟨2, .store (.inst 1) (.inst 0)⟩] ∧
    (isProtectionStackTopSaveVariable (saveRestore 0) 0 exampleGlobals.ppStackTopVariable []).1
      = true ∧
    ∃ e1, handleLoad (saveRestore 0) exampleGlobals ⟨1, .load (.global 0)⟩
          { Env.entry with b := ⟨3, -1, -1, .CS_DIFF, some 7⟩ } = some e1 ∧
        e1.b.savedDepth = -1 ∧ e1.b.depth = 3 ∧ e1.b.savedDepth ≠ e1.b.depth := by
  refine ⟨by decide, by decide, _, rfl, ?_, ?_, ?_⟩ <;> decide

/-- C14 amended: for a load of the stack-top global whose sole user is a store
into a recognized save slot, the load transfer leaves depth, count, count state
and counter variable unchanged; in a count state other than differential it
sets the saved depth to the current depth and appends no info; in
differential count state it appends exactly the info "saving value of
PPStackTop while in differential count state" and leaves the saved depth
unchanged. -/
theorem save_stack_top (F : FunctionIR) (g : GlobalsTy) (pp : GlobalId) (id sid slot : InstId)
    (v : Value) (ty : Option Nat) (arr : Bool) (e : Env)
    (hpp : g.ppStackTopVariable = some pp)
    (hu : F.users (.inst id) = [⟨sid, .store v (.inst slot)⟩])
    (ha : F.find slot = some (.alloca ty arr))
    (hr : (isProtectionStackTopSaveVariable F slot (some pp) e.saveVarsCache).1 = true) :
    ∃ e1, handleLoad F g ⟨id, .load (.global pp)⟩ e = some e1 ∧
      e1.msg = e.msg ++ emitted e e1 ∧
      e1.b.depth = e.b.depth ∧ e1.b.count = e.b.count ∧
      e1.b.countState = e.b.countState ∧ e1.b.counterVar = e.b.counterVar ∧
      (e.b.countState ≠ .CS_DIFF →
        e1.b.savedDepth = e.b.depth ∧ infos (emitted e e1) = []) ∧
      (e.b.countState = .CS_DIFF →
        e1.b.savedDepth = e.b.savedDepth ∧
        infos (emitted e e1) = [⟨.info,
          "saving value of PPStackTop while in differential count state (results will be incorrect)",
          id⟩]) := by
  have h := handleLoad_save F g pp id sid slot v ty arr e hpp hu ha hr
  by_cases hd : e.b.countState = .CS_DIFF
  · rw [if_pos hd] at h
    exact ⟨_, h, by simp [emitted, infos, hd]⟩
  · rw [if_neg hd] at h
    exact ⟨_, h, by simp [emitted, infos, hd]⟩

/-- Witness of amended C14: the save of `saveRestore 0` at depth 3. -/
theorem save_stack_top_witness :
    ∃ e1, handleLoad (saveRestore 0) exampleGlobals ⟨1, .load (.global 0)⟩
          { Env.entry with b := ⟨3, -1, -1, .CS_NONE, none⟩ } = some e1 ∧
        e1.b.savedDepth = 3 ∧ e1.b.depth = 3 :=
  let ⟨e1, h1, _, h3, _, _, _, h7, _⟩ :=
    save_stack_top (saveRestore 0) exampleGlobals 0 1 2 0 (.inst 1) (some 32) false
      { Env.entry with b := ⟨3, -1, -1, .CS_NONE, none⟩ } rfl (by decide) (by decide) (by decide)
  ⟨e1, h1, (h7 (by decide)).1, h3⟩

theorem handleStore_restore (F : FunctionIR) (g : GlobalsTy) (pp : GlobalId) (id lid slot : InstId)
    (ty : Option Nat) (arr : Bool) (e : Env)
    (hpp : g.ppStackTopVariable = some pp)
    (hl : F.find lid = some (.load (.inst slot)))
    (ha : F.find slot = some (.alloca ty arr))
    (hr : (isProtectionStackTopSaveVariable F slot (some pp) e.saveVarsCache).1 = true) :
    handleStore F g ⟨id, .store (.inst lid) (.global pp)⟩ e =
      (if e.b.countState = .CS_DIFF then
        some { e with
          saveVarsCache := (isProtectionStackTopSaveVariable F slot (some pp) e.saveVarsCache).2,
          msg := e.msg ++ [⟨.info,
            "restoring value of PPStackTop while in differential count state (results will be incorrect)",
            id⟩] }
      else if e.b.savedDepth < 0 then
        some { e with
          saveVarsCache := (isProtectionStackTopSaveVariable F slot (some pp) e.saveVarsCache).2,
          msg := e.msg ++ [⟨.debug, "restoring value of PPStackTop", id⟩,
            ⟨.info, "restores PPStackTop from uninitialized local variable", id⟩],
          refinableInfos := e.refinableInfos + 1 }
      else
        some { e with
          saveVarsCache := (isProtectionStackTopSaveVariable F slot (some pp) e.saveVarsCache).2,
          b := { e.b with depth := e.b.savedDepth },
          msg := e.msg ++ [⟨.debug, "restoring value of PPStackTop", id⟩] }) := by
  have hsv : (F.asLoad (.inst lid)).bind F.asAlloca = some slot := by
    simp [FunctionIR.asLoad, hl, FunctionIR.asAlloca, ha]
  simp only [handleStore, hpp, Option.map_some', if_true, hsv, hr, Env.info, Env.incRefinable,
    Env.debug]
  split
  · rfl
  · split <;> simp

/-- C15 fails on the code: in `negativeSave` the save transfer captures the
depth -2; at the restore `R_PPStackTop = save`, in count state none, the store
transfer takes the captured value for an unset one: it logs "restores
PPStackTop from uninitialized local variable" and leaves the depth at -1
instead of setting it to the saved depth -2. -/
theorem restore_negative_saved_depth :
    (∃ e1, runBody negativeSave exampleGlobals
          [⟨0, .alloca (some 32) false⟩, ⟨1, .call (.func 3) [.constInt 32 2]⟩,
           ⟨2, .load (.global 0)⟩, ⟨3, .store (.inst 2) (.inst 0)⟩,
           ⟨4, .call (.func 1) [.argument 0]⟩, ⟨5, .load (.inst 0)⟩] Env.entry = some e1 ∧
        e1.b = ⟨-1, -2, -1, .CS_NONE, none⟩ ∧
        (⟨.debug, "saving value of PPStackTop", 2⟩ : Message) ∈ e1.msg ∧
        ∃ e2, handleStore negativeSave exampleGlobals ⟨6, .store (.inst 5) (.global 0)⟩ e1
              = some e2 ∧
          e2.b.depth = -1 ∧ e2.b.savedDepth = -2 ∧
          (⟨.info, "restores PPStackTop from uninitialized local variable", 6⟩ : Message)
            ∈ e2.msg) := by
  refine ⟨_, rfl, rfl, ?_, _, rfl, rfl, rfl, ?_⟩ <;> decide

theorem mem_protectCalls (base k : Nat) (x : Instruction) (h : x ∈ protectCalls base k) :
    x.op = .call (.func 1) [.argument 0] ∧ base ≤ x.id ∧ x.id < base + k := by
  induction k generalizing base with
  | zero => simp [protectCalls] at h
  | succ k ih =>
    simp only [protectCalls, List.mem_cons] at h
    rcases h with rfl | h
    · simp
    · obtain ⟨h1, h2, h3⟩ := ih (base + 1) h
      unfold InstId at *
      exact ⟨h1, by omega, by omega⟩

theorem length_protectCalls (base k : Nat) : (protectCalls base k).length = k := by
  induction k generalizing base with
  | zero => rfl
  | succ k ih => simp [protectCalls, ih]

theorem usersIn_protectCalls (base k m : Nat) :
    usersIn (protectCalls base k) (.inst m) = [] := by
  apply usersIn_eq_nil
  intro x hx hm
  rw [(mem_protectCalls base k x hx).1] at hm
  simp [Instr.operands] at hm

theorem saveRestore_insts (k : Nat) :
    (saveRestore k).insts
      = [⟨0, .alloca (some 32) false⟩, ⟨1, .load (.global 0)⟩, ⟨2, .store (.inst 1) (.inst 0)⟩]
          ++ (protectCalls 3 k
          ++ [⟨k + 3, .load (.inst 0)⟩, ⟨k + 4, .store (.inst (k + 3)) (.global 0)⟩,
              ⟨k + 5, .ret (some (.argument 0))⟩]) := by
  simp [saveRestore, FunctionIR.insts]

theorem saveRestore_find (k : Nat) :
    (saveRestore k).find 0 = some (.alloca (some 32) false) ∧
    (saveRestore k).find 1 = some (.load (.global 0)) ∧
    (saveRestore k).find (k + 3) = some (.load (.inst 0)) := by
  have hskip : ∀ x ∈ protectCalls 3 k, x.id ≠ k + 3 := by
    intro x hx
    have := (mem_protectCalls 3 k x hx).2
    unfold InstId at *
    omega
  have h0 : (0 : Nat) ≠ k + 3 := by omega
  have h1 : (1 : Nat) ≠ k + 3 := by omega
  have h2 : (2 : Nat) ≠ k + 3 := by omega
  refine ⟨?_, ?_, ?_⟩
  · simp [FunctionIR.find, saveRestore_insts]
  · simp [FunctionIR.find, saveRestore_insts, List.find?_cons]
  · simp only [FunctionIR.find, saveRestore_insts, List.cons_append, List.nil_append,
      List.find?_cons, h0, h1, h2, decide_False, find_append_of_ne _ _ _ hskip]
    simp

theorem saveRestore_users (k : Nat) :
    (saveRestore k).users (.inst 0)
      = [⟨2, .store (.inst 1) (.inst 0)⟩, ⟨k + 3, .load (.inst 0)⟩] ∧
    (saveRestore k).users (.inst 1) = [⟨2, .store (.inst 1) (.inst 0)⟩] ∧
    (saveRestore k).users (.inst (k + 3))
      = [⟨k + 4, .store (.inst (k + 3)) (.global 0)⟩] := by
  refine ⟨?_, ?_, ?_⟩
  · rw [FunctionIR.users, saveRestore_insts, usersIn_append, usersIn_append,
      usersIn_protectCalls]
    simp [usersIn, Instr.operands]
  · rw [FunctionIR.users, saveRestore_insts, usersIn_append, usersIn_append,
      usersIn_protectCalls]
    simp [usersIn, Instr.operands]
  · rw [FunctionIR.users, saveRestore_insts, usersIn_append, usersIn_append,
      usersIn_protectCalls]
    simp [usersIn, Instr.operands]

theorem saveRestore_saveSlot (k : Nat) :
    isProtectionStackTopSaveVariable (saveRestore k) 0 (some 0) [] = (true, [(0, true)]) := by
  obtain ⟨hu0, hu1, hu3⟩ := saveRestore_users k
  obtain ⟨hf0, hf1, hf3⟩ := saveRestore_find k
  simp only [isProtectionStackTopSaveVariable, List.lookup]
  rw [hu0]
  simp only [saveVariableLoop,
    FunctionIR.asLoad, hf1, FunctionIR.hasOneUse, hu1, hu3, FunctionIR.user_back, cacheInsert,
    List.length_singleton, decide_True, Bool.and_self, if_true, List.head?_cons,
    Bool.false_eq_true, if_false]
  rfl

theorem saveRestore_notCounter (k : Nat) :
    isProtectionCounterVariableCached (saveRestore k) 0 (some 3) [] = (false, [(0, false)]) := by
  obtain ⟨hu0, hu1, hu3⟩ := saveRestore_users k
  obtain ⟨hf0, hf1, hf3⟩ := saveRestore_find k
  simp only [isProtectionCounterVariableCached, List.lookup, isProtectionCounterVariable, hf0]
  rw [hu0]
  simp only [counterVariableLoop, Value.isConstantInt, FunctionIR.asBinaryOperator, hf1, cacheInsert,
    Bool.false_eq_true, if_false]
  rfl

theorem nonTerminator_load (F : FunctionIR) (g : GlobalsTy) (id : InstId) (p : Value)
    (e : Env) :
    handleBalanceForNonTerminator F g ⟨id, .load p⟩ e = handleLoad F g ⟨id, .load p⟩ e := by
  cases h : handleLoad F g ⟨id, .load p⟩ e with
  | none => simp [handleBalanceForNonTerminator, handleCall, h]
  | some e1 => simp [handleBalanceForNonTerminator, handleCall, h, handleStore]

theorem nonTerminator_store (F : FunctionIR) (g : GlobalsTy) (id : InstId) (v p : Value)
    (e : Env) :
    handleBalanceForNonTerminator F g ⟨id, .store v p⟩ e = handleStore F g ⟨id, .store v p⟩ e := by
  simp [handleBalanceForNonTerminator, handleCall, handleLoad]

theorem protectCalls_isProtectCall (base k : Nat) :
    ∀ c ∈ protectCalls base k, isProtectCall exampleGlobals c = true := by
  intro c hc
  obtain ⟨id, op⟩ := c
  have := (mem_protectCalls base k _ hc).1
  simp only at this
  subst this
  rfl

/-- C16: for every `k`, the function
`save = R_PPStackTop; PROTECT(a) k times; R_PPStackTop = save; return a;`
analysed from the entry state: the save captures the depth 0, the `k` calls
raise the depth to `k`, the restore sets the depth back to the saved depth 0,
and the analysis ends with an empty worklist without any info message. -/
theorem save_restore_round_trip (k : Nat) (L : Limits) :
    (∃ e1 e2 e3,
      runBody (saveRestore k) exampleGlobals
        [⟨0, .alloca (some 32) false⟩, ⟨1, .load (.global 0)⟩, ⟨2, .store (.inst 1) (.inst 0)⟩]
        Env.entry = some e1 ∧ e1.b.savedDepth = 0 ∧
      runBody (saveRestore k) exampleGlobals (protectCalls 3 k) e1 = some e2 ∧
        e2.b.depth = k ∧
      runBody (saveRestore k) exampleGlobals
        [⟨k + 3, .load (.inst 0)⟩, ⟨k + 4, .store (.inst (k + 3)) (.global 0)⟩] e2 = some e3 ∧
        e3.b.depth = e1.b.savedDepth ∧ e3.b.depth = 0 ∧ infos e3.msg = []) ∧
    (∀ fuel, ∃ e, analyze (saveRestore k) L exampleGlobals (fuel + 1) Env.entry = some e ∧
      e.workList = [] ∧ infos e.msg = [] ∧ e.refinableInfos = 0 ∧ e.b.depth = 0) := by
  obtain ⟨hf0, hf1, hf3⟩ := saveRestore_find k
  obtain ⟨hu0, hu1, hu3⟩ := saveRestore_users k
  have hal : (saveRestore k).asAlloca (.inst 0) = some 0 := by
    simp [FunctionIR.asAlloca, hf0]
  -- the save
  have hpre : ∀ e : Env, e.b = BalanceStateTy.entry → e.saveVarsCache = [] →
      e.counterVarsCache = [] →
      runBody (saveRestore k) exampleGlobals
        [⟨0, .alloca (some 32) false⟩, ⟨1, .load (.global 0)⟩, ⟨2, .store (.inst 1) (.inst 0)⟩] e
      = some { e with b := ⟨0, 0, -1, .CS_NONE, none⟩, saveVarsCache := [(0, true)],
                      counterVarsCache := [(0, false)],
                      msg := e.msg ++ [⟨.debug, "saving value of PPStackTop", 1⟩] } := by
    intro e hb hs hc
    obtain ⟨b, cc, sc, msg, ri, ds, wl⟩ := e
    simp only at hb hs hc
    subst hb hs hc
    have hload := handleLoad_save (saveRestore k) exampleGlobals 0 1 2 0 (.inst 1) (some 32) false
      ⟨BalanceStateTy.entry, [], [], msg, ri, ds, wl⟩ rfl hu1 hf0
      (by simp [exampleGlobals, saveRestore_saveSlot])
    have hne : ¬ (BalanceStateTy.entry.countState = .CS_DIFF) := by decide
    simp only [if_neg hne, saveRestore_saveSlot] at hload
    have halloca : ∀ e : Env, handleBalanceForNonTerminator (saveRestore k) exampleGlobals
        ⟨0, .alloca (some 32) false⟩ e = some e := by
      intro e
      simp [handleBalanceForNonTerminator, handleCall, handleLoad, handleStore]
    simp only [runBody, halloca, nonTerminator_load, nonTerminator_store, Option.bind, hload]
    simp [handleStore, exampleGlobals, hal, saveRestore_notCounter, BalanceStateTy.entry]
  -- the restore
  have hpost : ∀ e : Env, e.b.countState = .CS_NONE → e.b.savedDepth = 0 →
      e.saveVarsCache = [(0, true)] →
      runBody (saveRestore k) exampleGlobals
        [⟨k + 3, .load (.inst 0)⟩, ⟨k + 4, .store (.inst (k + 3)) (.global 0)⟩] e
      = some { e with b := { e.b with depth := 0 },
                      msg := e.msg ++ [⟨.debug, "restoring value of PPStackTop", k + 4⟩] } := by
    intro e hcs hsd hsv
    obtain ⟨b, cc, sc, msg, ri, ds, wl⟩ := e
    obtain ⟨d, sd, cnt, cs, cv⟩ := b
    simp only at hcs hsd hsv
    subst hcs hsd hsv
    have hrec : (isProtectionStackTopSaveVariable (saveRestore k) 0 (some 0) [(0, true)])
        = (true, [(0, true)]) := by
      simp [isProtectionStackTopSaveVariable, List.lookup]
    have hst := handleStore_restore (saveRestore k) exampleGlobals 0 (k + 4) (k + 3) 0
      (some 32) false ⟨⟨d, 0, cnt, .CS_NONE, cv⟩, cc, [(0, true)], msg, ri, ds, wl⟩ rfl hf3 hf0
      (by rw [hrec])
    simp only [reduceCtorEq, if_false, lt_self_iff_false, hrec] at hst
    have hld : ∀ e : Env, handleBalanceForNonTerminator (saveRestore k) exampleGlobals
        ⟨k + 3, .load (.inst 0)⟩ e = some e := by
      intro e
      simp [handleBalanceForNonTerminator, handleCall, handleLoad, handleStore, exampleGlobals]
    simp only [runBody, hld, Option.bind, nonTerminator_store, hst]
  -- the whole block
  have hall : ∀ e : Env, e.b = BalanceStateTy.entry → e.saveVarsCache = [] →
      e.counterVarsCache = [] → infos e.msg = [] →
      ∃ e1 e2 e3,
        runBody (saveRestore k) exampleGlobals
          [⟨0, .alloca (some 32) false⟩, ⟨1, .load (.global 0)⟩,
           ⟨2, .store (.inst 1) (.inst 0)⟩] e = some e1 ∧ e1.b.savedDepth = 0 ∧
        runBody (saveRestore k) exampleGlobals (protectCalls 3 k) e1 = some e2 ∧
          e2.b.depth = k ∧
        runBody (saveRestore k) exampleGlobals
          [⟨k + 3, .load (.inst 0)⟩, ⟨k + 4, .store (.inst (k + 3)) (.global 0)⟩] e2
            = some e3 ∧
          e3.b.depth = e1.b.savedDepth ∧ e3.b.depth = 0 ∧ infos e3.msg = [] ∧
          e3.b.countState = .CS_NONE ∧ e3.workList = e.workList ∧
          e3.refinableInfos = e.refinableInfos := by
    intro e hb hs hc hm
    obtain ⟨e2, h2, hb2, hm2, hr2, hd2, hw2, hcc2, hsc2⟩ :=
      runBody_protects (saveRestore k) exampleGlobals (protectCalls 3 k)
        { e with b := ⟨0, 0, -1, .CS_NONE, none⟩, saveVarsCache := [(0, true)],
                 counterVarsCache := [(0, false)],
                 msg := e.msg ++ [⟨.debug, "saving value of PPStackTop", 1⟩] }
        (protectCalls_isProtectCall 3 k)
    simp only [length_protectCalls, zero_add] at hb2
    have hp := hpost e2 (by rw [hb2]) (by rw [hb2]) (by rw [hsc2])
    refine ⟨_, e2, _, hpre e hb hs hc, rfl, h2, by rw [hb2], hp, rfl, rfl, ?_, ?_, ?_, ?_⟩
    · simp only [infos, List.filter_append] at hm2 hm ⊢
      rw [hm2, hm]
      simp
    · simp [hb2]
    · simp [hw2]
    · simp [hr2]
  constructor
  · obtain ⟨e1, e2, e3, h1, h2, h3, h4, h5, h6, h7, h8, -, -, -⟩ :=
      hall Env.entry rfl rfl rfl rfl
    exact ⟨e1, e2, e3, h1, h2, h3, h4, h5, h6, h7, h8⟩
  · intro fuel
    obtain ⟨e1, e2, e3, h1, -, h3, -, h5, -, h7, h8, h9, h10, h11⟩ :=
      hall ({ Env.entry with workList := [] } : Env) rfl rfl rfl rfl
    have hblock : (saveRestore k).block 0
        = ([⟨0, .alloca (some 32) false⟩, ⟨1, .load (.global 0)⟩,
            ⟨2, .store (.inst 1) (.inst 0)⟩]
            ++ (protectCalls 3 k
            ++ [⟨k + 3, .load (.inst 0)⟩, ⟨k + 4, .store (.inst (k + 3)) (.global 0)⟩]))
          ++ [⟨k + 5, .ret (some (.argument 0))⟩] := by
      simp [saveRestore, FunctionIR.block]
    have hbody : runBody (saveRestore k) exampleGlobals
        ([⟨0, .alloca (some 32) false⟩, ⟨1, .load (.global 0)⟩,
            ⟨2, .store (.inst 1) (.inst 0)⟩]
            ++ (protectCalls 3 k
            ++ [⟨k + 3, .load (.inst 0)⟩, ⟨k + 4, .store (.inst (k + 3)) (.global 0)⟩]))
        ({ Env.entry with workList := [] } : Env) = some e3 := by
      rw [runBody_append, h1]
      simp only [Option.bind]
      rw [runBody_append, h3]
      simp only [Option.bind, h5]
    have hproc : processState (saveRestore k) L exampleGlobals ⟨0, BalanceStateTy.entry⟩
        ({ Env.entry with workList := [] } : Env) = some e3 := by
      unfold processState
      simp only [hblock, List.dropLast_concat, List.getLast?_concat]
      have : ({ ({ Env.entry with workList := [] } : Env) with b := BalanceStateTy.entry } : Env)
          = ({ Env.entry with workList := [] } : Env) := rfl
      rw [this, hbody]
      simp [handleBalanceForTerminator, h7, h9]
    refine ⟨e3, ?_, h10, h8, h11, h7⟩
    have hwl : Env.entry.workList = [⟨0, BalanceStateTy.entry⟩] := rfl
    simp only [analyze, hwl, hproc, Option.bind]
    exact analyze_done _ _ _ _ _ h10

/-! ### Frame properties of the non-terminator transfers -/

theorem handleLoad_frame (F : FunctionIR) (g : GlobalsTy) (i : Instruction) (e e1 : Env)
    (h : handleLoad F g i e = some e1) :
    e1.b.depth = e.b.depth ∧ e1.b.count = e.b.count ∧ e1.b.countState = e.b.countState ∧
    e1.b.counterVar = e.b.counterVar ∧ e1.workList = e.workList ∧ e1.doneSet = e.doneSet := by
  unfold handleLoad at h
  simp only [Env.info, Env.incRefinable, Env.debug] at h
  repeat' split at h
  all_goals
    first
    | (simp only [Option.some.injEq] at h; subst h; simp)
    | cases h

theorem handleCall_frame (F : FunctionIR) (g : GlobalsTy) (i : Instruction) (e e1 : Env)
    (h : handleCall F g i e = some e1) :
    e1.b.savedDepth = e.b.savedDepth ∧ e1.b.count = e.b.count ∧
    (e1.b.countState = e.b.countState ∨
      (e.b.countState = .CS_DIFF ∧ e1.b.countState = .CS_NONE)) ∧
    (e1.b.counterVar = e.b.counterVar ∨
      (e.b.counterVar = none ∧ e1.b.counterVar.isSome = true)) ∧
    e1.workList = e.workList ∧ e1.doneSet = e.doneSet := by
  obtain ⟨b, cc, sc, msg, ri, ds, wl⟩ := e
  obtain ⟨d, sd, cnt, cs, cv⟩ := b
  unfold handleCall at h
  simp only [Env.info, Env.incRefinable, Env.debug] at h
  repeat' split at h
  all_goals
    first
    | (simp only [Option.some.injEq] at h; subst h; simp; done)
    | (cases h; done)
    | (simp only [Option.some.injEq] at h; subst h; cases cv <;> cases cs <;> simp_all; done)

theorem handleCounterStore_frame (F : FunctionIR) (i : Instruction) (v : Value) (var : InstId)
    (e e1 : Env) (h : handleCounterStore F i v var e = some e1) :
    e1.b.savedDepth = e.b.savedDepth ∧
    (e1.b.counterVar = e.b.counterVar ∨
      (e.b.counterVar = none ∧ e1.b.counterVar.isSome = true)) ∧
    ((e1.b.countState = e.b.countState ∧ e1.b.count = e.b.count) ∨
      (e1.b.countState = .CS_EXACT ∧ e1.b.counterVar.isSome = true)) ∧
    e1.workList = e.workList ∧ e1.doneSet = e.doneSet := by
  obtain ⟨b, cc, sc, msg, ri, ds, wl⟩ := e
  obtain ⟨d, sd, cnt, cs, cv⟩ := b
  unfold handleCounterStore at h
  simp only [Env.info, Env.incRefinable, Env.debug] at h
  repeat' split at h
  all_goals
    first
    | (simp only [Option.some.injEq] at h; subst h; simp; done)
    | (cases h; done)
    | (simp only [Option.some.injEq] at h; subst h; cases cv <;> cases cs <;> simp_all; done)

theorem handleStore_frame (F : FunctionIR) (g : GlobalsTy) (i : Instruction) (e e1 : Env)
    (h : handleStore F g i e = some e1) :
    e1.b.savedDepth = e.b.savedDepth ∧
    (e1.b.counterVar = e.b.counterVar ∨
      (e.b.counterVar = none ∧ e1.b.counterVar.isSome = true)) ∧
    ((e1.b.countState = e.b.countState ∧ e1.b.count = e.b.count) ∨
      (e1.b.countState = .CS_EXACT ∧ e1.b.counterVar.isSome = true)) ∧
    e1.workList = e.workList ∧ e1.doneSet = e.doneSet := by
  unfold handleStore at h
  simp only [Env.info, Env.incRefinable, Env.debug] at h
  repeat' split at h
  all_goals
    first
    | (simp only [Option.some.injEq] at h; subst h; simp; done)
    | (cases h; done)
    | (exact handleCounterStore_frame F i _ _ _ e1 h)
    | (have hcs := handleCounterStore_frame F i _ _ _ e1 h; simpa using hcs)

theorem nonTerminator_frame (F : FunctionIR) (g : GlobalsTy) (i : Instruction) (e e1 : Env)
    (h : handleBalanceForNonTerminator F g i e = some e1) :
    (e1.b.counterVar = e.b.counterVar ∨
      (e.b.counterVar = none ∧ e1.b.counterVar.isSome = true)) ∧
    ((e1.b.count = e.b.count ∧
        (e1.b.countState = e.b.countState ∨
          (e.b.countState = .CS_DIFF ∧ e1.b.countState = .CS_NONE))) ∨
      (e1.b.countState = .CS_EXACT ∧ e1.b.counterVar.isSome = true)) ∧
    e1.workList = e.workList ∧ e1.doneSet = e.doneSet := by
  unfold handleBalanceForNonTerminator at h
  cases hc : handleCall F g i e with
  | none => simp [hc] at h
  | some ea =>
    simp only [hc, Option.bind] at h
    cases hl : handleLoad F g i ea with
    | none => simp [hl] at h
    | some eb =>
      simp only [hl] at h
      obtain ⟨-, c2, c3, c4, c5, c6⟩ := handleCall_frame F g i e ea hc
      obtain ⟨-, l2, l3, l4, l5, l6⟩ := handleLoad_frame F g i ea eb hl
      obtain ⟨-, s2, s3, s4, s5⟩ := handleStore_frame F g i eb e1 h
      rw [l4] at s2
      rw [l5] at s4
      rw [l6] at s5
      rw [l3, l2] at s3
      refine ⟨?_, ?_, by rw [s4, c5], by rw [s5, c6]⟩
      · rcases s2 with s2 | ⟨s2, s2'⟩
        · rw [s2]; exact c4
        · rcases c4 with c4 | ⟨c4, c4'⟩
          · exact Or.inr ⟨by rw [← c4]; exact s2, s2'⟩
          · rw [s2] at c4'; cases c4'
      · rcases s3 with ⟨s3, s3'⟩ | s3
        · left
          rw [s3', s3]
          exact ⟨c2, c3⟩
        · exact Or.inr s3

/-! ### Invariants along sequences of transfers -/

theorem nonTerminator_invariant (F : FunctionIR) (g : GlobalsTy) (i : Instruction) (e e1 : Env)
    (h : handleBalanceForNonTerminator F g i e = some e1) (hinv : e.b.Invariant) :
    e1.b.Invariant := by
  obtain ⟨hcv, hst, -, -⟩ := nonTerminator_frame F g i e e1 h
  obtain ⟨i1, i2, i3⟩ := hinv
  have hmono : e.b.counterVar.isSome = true → e1.b.counterVar.isSome = true := by
    intro hs
    rcases hcv with h1 | ⟨h1, -⟩
    · rw [h1]; exact hs
    · rw [h1] at hs; cases hs
  rcases hst with ⟨hc, hs | ⟨hd, hn⟩⟩ | ⟨hx, hb⟩
  · refine ⟨fun h1 => hmono (i1 (by rw [← hs]; exact h1)), fun h1 => ?_, fun h1 => ?_⟩
    · rw [hc]; exact i2 (by rw [← hs]; exact h1)
    · exact hmono (i3 (by rw [← hs]; exact h1))
  · refine ⟨fun h1 => ?_, fun _ => ?_, fun h1 => ?_⟩
    · rw [hn] at h1; cases h1
    · rw [hc]; exact i2 (by rw [hd]; simp)
    · rw [hn] at h1; cases h1
  · exact ⟨fun _ => hb, fun h1 => absurd hx h1, fun _ => hb⟩

theorem saturate_invariant (L : Limits) (e es : Env) (h : saturate L e = some es)
    (hinv : e.b.Invariant) : es.b.Invariant := by
  obtain ⟨-, -, -, -, -, -, -, hcv, hc⟩ := saturate_cases L e es h
  rcases hc with ⟨-, rfl⟩ | ⟨-, hx, hd, -, hm⟩
  · exact hinv
  · have hb : es.b.counterVar.isSome = true := by rw [hcv]; exact hinv.1 hx
    exact ⟨fun _ => hb, fun _ => hm, fun _ => hb⟩

theorem terminator_invariant (F : FunctionIR) (L : Limits) (g : GlobalsTy) (t : Instruction)
    (e e1 : Env) (r : Bool) (h : handleBalanceForTerminator F L g t e = some (r, e1))
    (hinv : e.b.Invariant) : e1.b.Invariant := by
  by_cases hret : ∀ v, t.op ≠ .ret v
  · obtain ⟨es, hs, -, hc, -, hcs, hcv, -, -⟩ := terminator_frame F L g t e e1 r hret h
    obtain ⟨i1, i2, i3⟩ := saturate_invariant L e es hs hinv
    have hmono : es.b.counterVar.isSome = true → e1.b.counterVar.isSome = true := by
      intro hs
      rcases hcv with h1 | ⟨h1, -⟩
      · rw [h1]; exact hs
      · rw [h1] at hs; cases hs
    rcases hcs with hs2 | ⟨hd, hn⟩
    · refine ⟨fun h1 => hmono (i1 (by rw [← hs2]; exact h1)), fun h1 => ?_, fun h1 => ?_⟩
      · rw [hc]; exact i2 (by rw [← hs2]; exact h1)
      · exact hmono (i3 (by rw [← hs2]; exact h1))
    · refine ⟨fun h1 => ?_, fun _ => ?_, fun h1 => ?_⟩
      · rw [hn] at h1; cases h1
      · rw [hc]; exact i2 (by rw [hd]; simp)
      · rw [hn] at h1; cases h1
  · push_neg at hret
    obtain ⟨v, hv⟩ := hret
    obtain ⟨id, op⟩ := t
    simp only at hv
    subst hv
    rw [(terminator_return_frame F L g id v e e1 r h).1]
    exact hinv

theorem transfers_invariant (F : FunctionIR) (L : Limits) (g : GlobalsTy) (e0 e : Env)
    (h : Transfers F L g e0 e) (hinv : e0.b.Invariant) : e.b.Invariant := by
  induction h with
  | refl => exact hinv
  | nonTerminator e1 e2 i _ hstep ih => exact nonTerminator_invariant F g i e1 e2 hstep ih
  | terminator e1 e2 t r _ hstep ih => exact terminator_invariant F L g t e1 e2 r hstep ih

theorem entry_invariant : BalanceStateTy.entry.Invariant := by
  refine ⟨?_, ?_, ?_⟩ <;> simp [BalanceStateTy.entry]

/-- C17 as stated fails: `int n = -5;` in `negativeCounter` leads from the
entry state, by one non-terminator transfer, to a state in count state exact
with `count = -5`, which is below -1. -/
theorem negative_count_counterexample :
    ∃ e, Transfers negativeCounter ⟨64, 64⟩ exampleGlobals Env.entry e ∧
      e.b.countState = .CS_EXACT ∧ e.b.count = -5 ∧ ¬ (e.b.count ≥ -1) :=
  ⟨_, Transfers.nonTerminator Env.entry Env.entry _
      ⟨1, .store (.constInt 32 4294967291) (.inst 0)⟩ (Transfers.refl _) rfl,
    rfl, by decide, by decide⟩

/-- C17 amended: every balance state reached from the entry state by a finite
sequence of non-terminator and terminator transfers satisfies: in count state
exact the counter variable is bound; in count state differential the counter
variable is bound and the count is -1.  (The count of an exact state may be
any integer: a negative constant stored to the counter is kept.) -/
theorem reachable_state_invariant (F : FunctionIR) (L : Limits) (g : GlobalsTy) (e0 e : Env)
    (h0 : e0.b = BalanceStateTy.entry) (h : Transfers F L g e0 e) :
    (e.b.countState = .CS_EXACT → e.b.counterVar.isSome = true) ∧
    (e.b.countState = .CS_DIFF → e.b.counterVar.isSome = true ∧ e.b.count = -1) := by
  have hinv := transfers_invariant F L g e0 e h (by rw [h0]; exact entry_invariant)
  exact ⟨hinv.1, fun hd => ⟨hinv.2.2 hd, hinv.2.1 (by rw [hd]; simp)⟩⟩

/-- Witness of amended C17: the state after `int n = -5;` in `negativeCounter`
is reached from the entry state, is in count state exact, and has the counter
variable bound. -/
theorem reachable_state_invariant_witness :
    Env.entry.b = BalanceStateTy.entry ∧
    ((handleBalanceForNonTerminator negativeCounter exampleGlobals
        ⟨1, .store (.constInt 32 4294967291) (.inst 0)⟩ Env.entry).getD Env.entry).b.countState
        = .CS_EXACT ∧
    ((handleBalanceForNonTerminator negativeCounter exampleGlobals
        ⟨1, .store (.constInt 32 4294967291) (.inst 0)⟩ Env.entry).getD Env.entry).b.counterVar.isSome
        = true :=
  ⟨rfl, by decide,
   (reachable_state_invariant negativeCounter ⟨64, 64⟩ exampleGlobals Env.entry _ rfl
    (Transfers.nonTerminator Env.entry Env.entry _
      ⟨1, .store (.constInt 32 4294967291) (.inst 0)⟩ (Transfers.refl _) rfl)).1 (by decide)⟩

/-! ### The recognizers -/

theorem ne_inst_of_isConstantInt (v : Value) (var : InstId) (h : v.isConstantInt = true) :
    v ≠ .inst var := by
  rintro rfl; cases h

theorem ne_inst_of_asBinaryOperator (F : FunctionIR) (v : Value) (var : InstId)
    (ty : Option Nat) (arr : Bool) (hvar : F.find var = some (.alloca ty arr))
    (x : Opcode × Value × Value) (h : F.asBinaryOperator v = some x) : v ≠ .inst var := by
  rintro rfl
  simp [FunctionIR.asBinaryOperator, hvar] at h

theorem ne_inst_of_asLoad (F : FunctionIR) (v : Value) (var : InstId)
    (ty : Option Nat) (arr : Bool) (hvar : F.find var = some (.alloca ty arr))
    (x : Value) (h : F.asLoad v = some x) : v ≠ .inst var := by
  rintro rfl
  simp [FunctionIR.asLoad, hvar] at h

theorem asLoad_of_isConstantInt (F : FunctionIR) (v : Value) (h : v.isConstantInt = true) :
    F.asLoad v = none := by
  cases v <;> first | rfl | cases h

theorem store_pointer_of_user (v p : Value) (var : InstId)
    (hu : Value.inst var ∈ (Instr.store v p).operands) (hv : v ≠ .inst var) :
    p = .inst var := by
  simp only [Instr.operands, List.mem_cons, List.mem_singleton, List.not_mem_nil, or_false] at hu
  rcases hu with h | h
  · exact absurd h.symm hv
  · exact h.symm

theorem load_pointer_of_user (p : Value) (var : InstId)
    (hu : Value.inst var ∈ (Instr.load p).operands) : p = .inst var := by
  simp only [Instr.operands, List.mem_singleton] at hu
  exact hu.symm

/-- One round of the loop of `isProtectionCounterVariable` on a user of the
slot, in the words of the specification. -/
theorem counterVariableLoop_cons (F : FunctionIR) (var : InstId) (unp : FuncId)
    (ty : Option Nat) (arr : Bool) (hvar : F.find var = some (.alloca ty arr))
    (u : Instruction) (rest : List Instruction) (acc : Bool)
    (hu : Value.inst var ∈ u.op.operands) :
    counterVariableLoop F var unp (u :: rest) acc =
      if isCounterStoreUse F var u = true then counterVariableLoop F var unp rest acc
      else if isSingleUseLoad F var u = true then
        counterVariableLoop F var unp rest (isLoadPassedToUnprotect F var unp u || acc)
      else false := by
  obtain ⟨id, op⟩ := u
  cases op with
  | store v p =>
    simp only at hu
    simp only [counterVariableLoop, isCounterStoreUse, isSingleUseLoad]
    by_cases hc : v.isConstantInt = true
    · have hp := store_pointer_of_user v p var hu (ne_inst_of_isConstantInt v var hc)
      simp [hc, hp]
    · cases hb : F.asBinaryOperator v with
      | none => simp [hc]
      | some x =>
        obtain ⟨opc, a, b⟩ := x
        have hp := store_pointer_of_user v p var hu
          (ne_inst_of_asBinaryOperator F v var ty arr hvar _ hb)
        subst hp
        cases opc <;> by_cases ha : a.isConstantInt = true <;>
          by_cases hb2 : b.isConstantInt = true <;>
          by_cases hla : F.asLoad a = some (.inst var) <;>
          by_cases hlb : F.asLoad b = some (.inst var) <;>
          first
          | (simp [hc, ha, hb2, hla, hlb]; done)
          | (have h1 := asLoad_of_isConstantInt F a
             have h2 := asLoad_of_isConstantInt F b
             simp_all)
  | load p =>
    simp only at hu
    have hp := load_pointer_of_user p var hu
    subst hp
    simp only [counterVariableLoop, isCounterStoreUse, isSingleUseLoad, isLoadPassedToUnprotect]
    cases h1 : F.hasOneUse (.inst id) <;> simp
  | _ => simp [counterVariableLoop, isCounterStoreUse, isSingleUseLoad]

theorem counterVariableLoop_iff (F : FunctionIR) (var : InstId) (unp : FuncId)
    (ty : Option Nat) (arr : Bool) (hvar : F.find var = some (.alloca ty arr))
    (l : List Instruction) (hl : ∀ u ∈ l, Value.inst var ∈ u.op.operands) (acc : Bool) :
    counterVariableLoop F var unp l acc = true ↔
      (∀ u ∈ l, isCounterStoreUse F var u = true ∨ isSingleUseLoad F var u = true) ∧
      (acc = true ∨ ∃ u ∈ l, isLoadPassedToUnprotect F var unp u = true) := by
  induction l generalizing acc with
  | nil => simp [counterVariableLoop]
  | cons u rest ih =>
    have hu := hl u (List.mem_cons_self _ _)
    have hrest : ∀ x ∈ rest, Value.inst var ∈ x.op.operands :=
      fun x hx => hl x (List.mem_cons_of_mem _ hx)
    rw [counterVariableLoop_cons F var unp ty arr hvar u rest acc hu]
    have hexcl : isCounterStoreUse F var u = true → isLoadPassedToUnprotect F var unp u = false := by
      intro h
      obtain ⟨id, op⟩ := u
      cases op <;> simp_all [isCounterStoreUse, isLoadPassedToUnprotect]
    by_cases h1 : isCounterStoreUse F var u = true
    · rw [if_pos h1, ih hrest acc]
      have h3 := hexcl h1
      simp only [List.forall_mem_cons, List.exists_mem_cons_iff, h1, h3, true_or, true_and,
        Bool.false_eq_true, false_or]
    · rw [if_neg h1]
      by_cases h2 : isSingleUseLoad F var u = true
      · rw [if_pos h2, ih hrest]
        simp only [List.forall_mem_cons, List.exists_mem_cons_iff, h2, or_true, true_and,
          Bool.or_eq_true]
        constructor
        · rintro ⟨ha, (hb | hb) | hb⟩
          · exact ⟨ha, Or.inr (Or.inl hb)⟩
          · exact ⟨ha, Or.inl hb⟩
          · exact ⟨ha, Or.inr (Or.inr hb)⟩
        · rintro ⟨ha, hb | hb | hb⟩
          · exact ⟨ha, Or.inl (Or.inr hb)⟩
          · exact ⟨ha, Or.inl (Or.inl hb)⟩
          · exact ⟨ha, Or.inr hb⟩
      · rw [if_neg h2]
        simp only [List.forall_mem_cons, h1, h2, or_self, false_and, Bool.false_eq_true]

/-- C19 as stated fails: in `counterPassedOn` (`int n = 0; foo(n);
UNPROTECT(n);`) the slot is recognized as a protection counter, although
the one user of its load 2 is a call of `foo`, which is not a store, not a
call of the unprotect primitive and not a comparison. -/
theorem counter_load_user_counterexample :
    isProtectionCounterVariable counterPassedOn 0 (some 3) = true ∧
    counterPassedOn.find 2 = some (.load (.inst 0)) ∧
    counterPassedOn.users (.inst 2) = [⟨3, .call (.func 7) [.inst 2]⟩] ∧
    getCalledFunction (.func 7) ≠ some 3 := by
  decide

/-- C19 amended: for a stack slot of integer type that is not
array-allocated and a non-null unprotect function,
`isProtectionCounterVariable` returns true if and only if every use of the
slot is (a) a store to it of a constant integer or of `load(slot) + const`
or `const + load(slot)`, or (b) a load of it that has exactly one use
(whatever that user is), and (c) at least one load of it has its one use in a
call of the unprotect function. -/
theorem counter_variable_shape (F : FunctionIR) (var : InstId) (w : Nat) (unp : FuncId)
    (hvar : F.find var = some (.alloca (some w) false)) :
    isProtectionCounterVariable F var (some unp) = true ↔
      (∀ u ∈ F.users (.inst var),
          isCounterStoreUse F var u = true ∨ isSingleUseLoad F var u = true) ∧
      (∃ u ∈ F.users (.inst var), isLoadPassedToUnprotect F var unp u = true) := by
  simp only [isProtectionCounterVariable, hvar]
  rw [counterVariableLoop_iff F var unp (some w) false hvar (F.users (.inst var))
    (fun u hu => ((mem_usersIn _ _ _).mp hu).2) false]
  simp

/-- Witness of amended C19 on `counterPassedOn`, slot 0. -/
theorem counter_variable_shape_witness :
    isProtectionCounterVariable counterPassedOn 0 (some 3) = true ↔
      (∀ u ∈ counterPassedOn.users (.inst 0),
          isCounterStoreUse counterPassedOn 0 u = true ∨
            isSingleUseLoad counterPassedOn 0 u = true) ∧
      (∃ u ∈ counterPassedOn.users (.inst 0),
          isLoadPassedToUnprotect counterPassedOn 0 3 u = true) :=
  counter_variable_shape counterPassedOn 0 32 3 rfl

/-- One round of the loop of `isProtectionStackTopSaveVariable` on a user of
the slot, in the words of the specification. -/
theorem saveVariableLoop_cons (F : FunctionIR) (var : InstId) (pp : GlobalId)
    (ty : Option Nat) (arr : Bool) (hvar : F.find var = some (.alloca ty arr))
    (u : Instruction) (rest : List Instruction) (acc : Bool)
    (hu : Value.inst var ∈ u.op.operands) :
    saveVariableLoop F pp (u :: rest) acc =
      if (isSaveStoreUse F var pp u || isRestoreLoadUse F var pp u) = true then
        saveVariableLoop F pp rest true
      else none := by
  obtain ⟨id, op⟩ := u
  cases op with
  | store v p =>
    simp only at hu
    simp only [saveVariableLoop, isSaveStoreUse, isRestoreLoadUse]
    by_cases hl : F.asLoad v = some (.global pp)
    · have hp := store_pointer_of_user v p var hu (ne_inst_of_asLoad F v var ty arr hvar _ hl)
      subst hp
      simp [hl]
    · simp [hl]
  | load p =>
    simp only at hu
    have hp := load_pointer_of_user p var hu
    subst hp
    simp only [saveVariableLoop, isSaveStoreUse, isRestoreLoadUse]
    simp
  | _ => simp [saveVariableLoop, isSaveStoreUse, isRestoreLoadUse]

theorem saveVariableLoop_true (F : FunctionIR) (var : InstId) (pp : GlobalId)
    (ty : Option Nat) (arr : Bool) (hvar : F.find var = some (.alloca ty arr))
    (l : List Instruction) (hl : ∀ u ∈ l, Value.inst var ∈ u.op.operands) :
    saveVariableLoop F pp l true = some true ↔
      ∀ u ∈ l, isSaveStoreUse F var pp u = true ∨ isRestoreLoadUse F var pp u = true := by
  induction l with
  | nil => simp [saveVariableLoop]
  | cons u rest ih =>
    have hu := hl u (List.mem_cons_self _ _)
    have hrest : ∀ x ∈ rest, Value.inst var ∈ x.op.operands :=
      fun x hx => hl x (List.mem_cons_of_mem _ hx)
    rw [saveVariableLoop_cons F var pp ty arr hvar u rest true hu]
    by_cases h : (isSaveStoreUse F var pp u || isRestoreLoadUse F var pp u) = true
    · rw [if_pos h, ih hrest]
      simp only [List.forall_mem_cons]
      simp only [Bool.or_eq_true] at h
      exact ⟨fun hr => ⟨h, hr⟩, fun hr => hr.2⟩
    · rw [if_neg h]
      simp only [List.forall_mem_cons]
      simp only [Bool.or_eq_true] at h
      exact ⟨fun hr => (by cases hr), fun hr => absurd hr.1 h⟩

theorem saveVariableLoop_iff (F : FunctionIR) (var : InstId) (pp : GlobalId)
    (ty : Option Nat) (arr : Bool) (hvar : F.find var = some (.alloca ty arr))
    (l : List Instruction) (hl : ∀ u ∈ l, Value.inst var ∈ u.op.operands) :
    saveVariableLoop F pp l false = some true ↔
      l ≠ [] ∧
      ∀ u ∈ l, isSaveStoreUse F var pp u = true ∨ isRestoreLoadUse F var pp u = true := by
  cases l with
  | nil => simp [saveVariableLoop]
  | cons u rest =>
    have hu := hl u (List.mem_cons_self _ _)
    have hrest : ∀ x ∈ rest, Value.inst var ∈ x.op.operands :=
      fun x hx => hl x (List.mem_cons_of_mem _ hx)
    rw [saveVariableLoop_cons F var pp ty arr hvar u rest false hu]
    by_cases h : (isSaveStoreUse F var pp u || isRestoreLoadUse F var pp u) = true
    · rw [if_pos h, saveVariableLoop_true F var pp ty arr hvar rest hrest]
      simp only [List.forall_mem_cons, ne_eq, reduceCtorEq, not_false_eq_true, true_and]
      simp only [Bool.or_eq_true] at h
      exact ⟨fun hr => ⟨h, hr⟩, fun hr => hr.2⟩
    · rw [if_neg h]
      simp only [List.forall_mem_cons, ne_eq, reduceCtorEq, not_false_eq_true, true_and]
      simp only [Bool.or_eq_true] at h
      exact ⟨fun hr => (by cases hr), fun hr => absurd hr.1 h⟩

/-- C20: for a stack slot and a non-null stack-top global,
`isProtectionStackTopSaveVariable` called with an empty cache returns true if
and only if the slot has at least one use and every use of the slot is (a) a
store into the slot of a single-use load of the stack-top global or (b) a
load of the slot whose single user is a store into the stack-top global; with
a null stack-top global it returns false, whatever the cache. -/
theorem save_variable_shape (F : FunctionIR) (var : InstId) (ty : Option Nat) (arr : Bool)
    (pp : GlobalId) (cache : VarBoolCacheTy)
    (hvar : F.find var = some (.alloca ty arr)) :
    ((isProtectionStackTopSaveVariable F var (some pp) []).1 = true ↔
      F.users (.inst var) ≠ [] ∧
      ∀ u ∈ F.users (.inst var),
        isSaveStoreUse F var pp u = true ∨ isRestoreLoadUse F var pp u = true) ∧
    (isProtectionStackTopSaveVariable F var none cache).1 = false := by
  refine ⟨?_, rfl⟩
  rw [← saveVariableLoop_iff F var pp ty arr hvar (F.users (.inst var))
    (fun u hu => ((mem_usersIn _ _ _).mp hu).2)]
  simp only [isProtectionStackTopSaveVariable, List.lookup]
  cases h : saveVariableLoop F pp (F.users (.inst var)) false with
  | none => simp
  | some b => simp

/-- Witness of C20 on the save slot of `saveRestore 1`. -/
theorem save_variable_shape_witness :
    ((isProtectionStackTopSaveVariable (saveRestore 1) 0 (some 0) []).1 = true ↔
      (saveRestore 1).users (.inst 0) ≠ [] ∧
      ∀ u ∈ (saveRestore 1).users (.inst 0),
        isSaveStoreUse (saveRestore 1) 0 0 u = true ∨
          isRestoreLoadUse (saveRestore 1) 0 0 u = true) ∧
    (isProtectionStackTopSaveVariable (saveRestore 1) 0 none []).1 = false :=
  save_variable_shape (saveRestore 1) 0 (some 32) false 0 [] rfl

/-! ### Uniqueness of the counter -/

theorem transfers_counterVar (F : FunctionIR) (L : Limits) (g : GlobalsTy) (e0 e : Env)
    (v : InstId) (h : Transfers F L g e0 e) (hv : e0.b.counterVar = some v) :
    e.b.counterVar = some v := by
  induction h with
  | refl => exact hv
  | nonTerminator e1 e2 i _ hstep ih =>
    rcases (nonTerminator_frame F g i e1 e2 hstep).1 with h1 | ⟨h1, -⟩
    · rw [h1]; exact ih
    · rw [h1] at ih; cases ih
  | terminator e1 e2 t r _ hstep ih =>
    by_cases hret : ∀ w, t.op ≠ .ret w
    · obtain ⟨es, hs, -, -, -, -, hcv, -, -⟩ := terminator_frame F L g t e1 e2 r hret hstep
      have hes : es.b.counterVar = some v := by
        rw [(saturate_cases L e1 es hs).2.2.2.2.2.2.2.1]; exact ih
      rcases hcv with h1 | ⟨h1, -⟩
      · rw [h1]; exact hes
      · rw [h1] at hes; cases hes
    · push_neg at hret
      obtain ⟨w, hw⟩ := hret
      obtain ⟨id, op⟩ := t
      simp only at hw
      subst hw
      rw [(terminator_return_frame F L g id w e1 e2 r hstep).1]
      exact ih

theorem transfers_runBody (F : FunctionIR) (L : Limits) (g : GlobalsTy) (l : List Instruction)
    (e0 e e1 : Env) (h0 : Transfers F L g e0 e) (h : runBody F g l e = some e1) :
    Transfers F L g e0 e1 := by
  induction l generalizing e with
  | nil =>
    simp only [runBody, Option.some.injEq] at h
    subst h
    exact h0
  | cons i rest ih =>
    simp only [runBody] at h
    cases hi : handleBalanceForNonTerminator F g i e with
    | none => simp [hi] at h
    | some e2 =>
      simp only [hi, Option.bind] at h
      exact ih e2 (Transfers.nonTerminator e0 e e2 i h0 hi) h

theorem multiple_counters_call (F : FunctionIR) (g : GlobalsTy) (id lid var v : InstId)
    (uf : FuncId) (args : List Value) (ty : Option Nat) (arr : Bool) (e : Env)
    (hu : g.unprotectFunction = some uf) (hp1 : g.protectFunction ≠ some uf)
    (hp2 : g.protectWithIndexFunction ≠ some uf)
    (hl : F.find lid = some (.load (.inst var)))
    (ha : F.find var = some (.alloca ty arr))
    (hr : (isProtectionCounterVariableCached F var g.unprotectFunction e.counterVarsCache).1 = true)
    (hb : e.b.counterVar = some v) (hne : v ≠ var) :
    ∃ e1, handleBalanceForNonTerminator F g ⟨id, .call (.func uf) (.inst lid :: args)⟩ e = some e1 ∧
      e1.b = e.b ∧
      e1.msg = e.msg ++ [⟨.info,
        "has an unsupported form of unprotect with a variable - multiple counter variables (results will be incorrect)",
        id⟩] := by
  rw [nonTerminator_call]
  obtain ⟨pf, pwf, unf, upf, ppv⟩ := g
  obtain ⟨⟨d, sd, cnt, cs, cv⟩, cc, sc, msg, ri, ds, wl⟩ := e
  simp only at hu hp1 hp2 hb hr
  subst hu hb
  have h1 : ¬ (some uf = pf ∨ some uf = pwf) := by
    rintro (h | h)
    · exact hp1 h.symm
    · exact hp2 h.symm
  have h3 : ((some v : Option InstId).isSome = true ∧ (some v : Option InstId) ≠ some var) :=
    ⟨rfl, fun h => hne (Option.some.inj h)⟩
  simp only [handleCall, getCalledFunction, if_neg h1, if_true, FunctionIR.asLoad, hl,
    FunctionIR.asAlloca, ha, hr, Bool.not_true, Bool.false_eq_true, if_false, if_pos h3, Env.info]
  exact ⟨_, rfl, rfl, rfl⟩

theorem multiple_counters_store (F : FunctionIR) (g : GlobalsTy) (id var v : InstId)
    (val : Value) (ty : Option Nat) (arr : Bool) (e : Env)
    (ha : F.find var = some (.alloca ty arr))
    (hr : (isProtectionCounterVariableCached F var g.unprotectFunction e.counterVarsCache).1 = true)
    (hb : e.b.counterVar = some v) (hne : v ≠ var) :
    ∃ e1, handleBalanceForNonTerminator F g ⟨id, .store val (.inst var)⟩ e = some e1 ∧
      e1.b = e.b ∧
      e1.msg = e.msg ++ [⟨.info,
        "uses multiple pointer protection counters (results will be incorrect)", id⟩] := by
  rw [nonTerminator_store, handleStore_counter F g id var val ty arr e ha hr]
  have h3 : (e.b.counterVar.isSome = true ∧ e.b.counterVar ≠ some var) := by
    rw [hb]; exact ⟨rfl, fun h => hne (Option.some.inj h)⟩
  unfold handleCounterStore
  rw [if_pos h3]
  exact ⟨_, rfl, rfl, rfl⟩

theorem multiple_counters_branch (F : FunctionIR) (L : Limits) (g : GlobalsTy)
    (id var v : InstId) (cond li constOp op0 op1 : Value) (pred : Predicate)
    (succ0 succ1 : BlockId) (e : Env)
    (hcmp : F.asCmp cond = some (pred, op0, op1))
    (hsplit : splitCompareOperands F op0 op1 = some (li, constOp))
    (hvar : (F.asLoad li).bind F.asAlloca = some var)
    (hr : (isProtectionCounterVariableCached F var g.unprotectFunction e.counterVarsCache).1 = true)
    (hb : e.b.counterVar = some v) (hne : v ≠ var)
    (hcount : e.b.count ≤ L.MAX_COUNT) (hdepth : e.b.depth ≤ L.MAX_DEPTH)
    (hneg : e.b.countState = .CS_DIFF ∨ 0 ≤ e.b.depth) :
    ∃ e1, handleBalanceForTerminator F L g ⟨id, .condBr cond succ0 succ1⟩ e = some (false, e1) ∧
      e1.b = e.b ∧ e1.workList = e.workList ∧
      e1.msg = e.msg ++ [⟨.info,
        "uses multiple pointer protection counters (results will be incorrect)", id⟩] := by
  have hs : saturate L e = some e := by
    simp only [saturate, gt_iff_lt, not_lt.mpr hcount, if_false]
  have h1 : ¬ (e.b.depth > L.MAX_DEPTH) := not_lt.mpr hdepth
  have h2 : ¬ (e.b.countState ≠ .CS_DIFF ∧ e.b.depth < 0) := by
    rintro ⟨ha, hb2⟩
    rcases hneg with h | h
    · exact ha h
    · omega
  have h3 : (e.b.counterVar.isSome = true ∧ e.b.counterVar ≠ some var) := by
    rw [hb]; exact ⟨rfl, fun h => hne (Option.some.inj h)⟩
  rw [terminator_unfold F L g _ e e (by intro w; simp) hs, if_neg h1, if_neg h2]
  simp only [hcmp, foldCounterBranch, hsplit, hvar, hr, Bool.not_true, Bool.false_eq_true,
    if_false]
  rw [if_pos h3]
  exact ⟨_, rfl, rfl, rfl, rfl⟩

/-- C18 as stated fails at a counter branch: in `twoCountersCut` the state
that reaches the branch 7 on the second counter `m` has the counter bound to
`n` (slot 0) and depth -1; the terminator transfer prunes the path before it
looks at the branch, so the state and the log come back as they were and no
diagnostic about multiple counters is emitted. -/
theorem multiple_counters_branch_counterexample :
    ∃ e, Transfers twoCountersCut ⟨64, 64⟩ exampleGlobals Env.entry e ∧
      e.b.counterVar = some 0 ∧ e.b.depth = -1 ∧
      twoCountersCut.asCmp (.inst 6) = some (.ICMP_NE, .inst 5, .constInt 32 0) ∧
      (twoCountersCut.asLoad (.inst 5)).bind twoCountersCut.asAlloca = some 1 ∧
      (isProtectionCounterVariableCached twoCountersCut 1 exampleGlobals.unprotectFunction
        e.counterVarsCache).1 = true ∧
      handleBalanceForTerminator twoCountersCut ⟨64, 64⟩ exampleGlobals
        ⟨7, .condBr (.inst 6) 1 2⟩ e = some (true, e) :=
  ⟨(runBody twoCountersCut exampleGlobals ((twoCountersCut.block 0).take 7) Env.entry).getD
      Env.entry,
    transfers_runBody twoCountersCut ⟨64, 64⟩ exampleGlobals ((twoCountersCut.block 0).take 7)
      Env.entry Env.entry _ (Transfers.refl _) (by decide),
    by decide, by decide, by decide, by decide, by decide, by decide⟩

/-- C18 amended: along any finite sequence of balance transfers a bound
counter variable is never rebound and never unbound.  An unprotect call on a
load of a different recognized counter slot and a store to a different
recognized counter slot emit a diagnostic about multiple counters and leave
the balance state unchanged.  A conditional branch on a comparison of a
different recognized counter slot does so, and leaves the successors to the
caller, when the state at the branch has `count ≤ MAX_COUNT`,
`depth ≤ MAX_DEPTH` and is in differential state or has depth at least 0;
otherwise the saturation and cut tests of the terminator transfer act
first. -/
theorem counter_uniqueness (F : FunctionIR) (L : Limits) (g : GlobalsTy) :
    (∀ e0 e v, Transfers F L g e0 e → e0.b.counterVar = some v → e.b.counterVar = some v) ∧
    (∀ (id lid var v : InstId) (uf : FuncId) (args : List Value) (ty : Option Nat) (arr : Bool)
        (e : Env),
      g.unprotectFunction = some uf → g.protectFunction ≠ some uf →
      g.protectWithIndexFunction ≠ some uf →
      F.find lid = some (.load (.inst var)) → F.find var = some (.alloca ty arr) →
      (isProtectionCounterVariableCached F var g.unprotectFunction e.counterVarsCache).1 = true →
      e.b.counterVar = some v → v ≠ var →
      ∃ e1, handleBalanceForNonTerminator F g ⟨id, .call (.func uf) (.inst lid :: args)⟩ e
          = some e1 ∧
        e1.b = e.b ∧
        e1.msg = e.msg ++ [⟨.info,
          "has an unsupported form of unprotect with a variable - multiple counter variables (results will be incorrect)",
          id⟩]) ∧
    (∀ (id var v : InstId) (val : Value) (ty : Option Nat) (arr : Bool) (e : Env),
      F.find var = some (.alloca ty arr) →
      (isProtectionCounterVariableCached F var g.unprotectFunction e.counterVarsCache).1 = true →
      e.b.counterVar = some v → v ≠ var →
      ∃ e1, handleBalanceForNonTerminator F g ⟨id, .store val (.inst var)⟩ e = some e1 ∧
        e1.b = e.b ∧
        e1.msg = e.msg ++ [⟨.info,
          "uses multiple pointer protection counters (results will be incorrect)", id⟩]) ∧
    (∀ (id var v : InstId) (cond li constOp op0 op1 : Value) (pred : Predicate)
        (succ0 succ1 : BlockId) (e : Env),
      F.asCmp cond = some (pred, op0, op1) →
      splitCompareOperands F op0 op1 = some (li, constOp) →
      (F.asLoad li).bind F.asAlloca = some var →
      (isProtectionCounterVariableCached F var g.unprotectFunction e.counterVarsCache).1 = true →
      e.b.counterVar = some v → v ≠ var →
      e.b.count ≤ L.MAX_COUNT → e.b.depth ≤ L.MAX_DEPTH →
      (e.b.countState = .CS_DIFF ∨ 0 ≤ e.b.depth) →
      ∃ e1, handleBalanceForTerminator F L g ⟨id, .condBr cond succ0 succ1⟩ e
          = some (false, e1) ∧
        e1.b = e.b ∧ e1.workList = e.workList ∧
        e1.msg = e.msg ++ [⟨.info,
          "uses multiple pointer protection counters (results will be incorrect)", id⟩]) :=
  ⟨fun e0 e v h hv => transfers_counterVar F L g e0 e v h hv,
   fun id lid var v uf args ty arr e hu hp1 hp2 hl ha hr hb hne =>
     multiple_counters_call F g id lid var v uf args ty arr e hu hp1 hp2 hl ha hr hb hne,
   fun id var v val ty arr e ha hr hb hne =>
     multiple_counters_store F g id var v val ty arr e ha hr hb hne,
   fun id var v cond li constOp op0 op1 pred succ0 succ1 e hcmp hsplit hvar hr hb hne hc hd hn =>
     multiple_counters_branch F L g id var v cond li constOp op0 op1 pred succ0 succ1 e
       hcmp hsplit hvar hr hb hne hc hd hn⟩

/-- Witness of amended C18 on `twoCountersBranch`, the counter being bound to
`n` (slot 0): the state after `int m = 0;` keeps the binding, and the call
`UNPROTECT(m)`, the store `m = 0` and the branch on `m` report multiple
counters and leave the balance state as it is. -/
theorem counter_uniqueness_witness :
    (((handleBalanceForNonTerminator twoCountersBranch exampleGlobals
        ⟨3, .store (.constInt 32 0) (.inst 1)⟩ boundToSlotZero).getD Env.entry).b.counterVar
        = some 0) ∧
    (∃ e1, handleBalanceForNonTerminator twoCountersBranch exampleGlobals
        ⟨10, .call (.func 3) (.inst 9 :: [])⟩ boundToSlotZero = some e1 ∧
      e1.b = boundToSlotZero.b ∧
      e1.msg = boundToSlotZero.msg ++ [⟨.info,
        "has an unsupported form of unprotect with a variable - multiple counter variables (results will be incorrect)",
        10⟩]) ∧
    (∃ e1, handleBalanceForNonTerminator twoCountersBranch exampleGlobals
        ⟨3, .store (.constInt 32 0) (.inst 1)⟩ boundToSlotZero = some e1 ∧
      e1.b = boundToSlotZero.b ∧
      e1.msg = boundToSlotZero.msg ++ [⟨.info,
        "uses multiple pointer protection counters (results will be incorrect)", 3⟩]) ∧
    (∃ e1, handleBalanceForTerminator twoCountersBranch ⟨64, 64⟩ exampleGlobals
        ⟨6, .condBr (.inst 5) 1 2⟩ boundToSlotZero = some (false, e1) ∧
      e1.b = boundToSlotZero.b ∧ e1.workList = boundToSlotZero.workList ∧
      e1.msg = boundToSlotZero.msg ++ [⟨.info,
        "uses multiple pointer protection counters (results will be incorrect)", 6⟩]) :=
  ⟨(counter_uniqueness twoCountersBranch ⟨64, 64⟩ exampleGlobals).1 boundToSlotZero _ 0
      (Transfers.nonTerminator boundToSlotZero boundToSlotZero _
        ⟨3, .store (.constInt 32 0) (.inst 1)⟩ (Transfers.refl _) (by decide)) rfl,
   (counter_uniqueness twoCountersBranch ⟨64, 64⟩ exampleGlobals).2.1 10 9 1 0 3 []
      (some 32) false boundToSlotZero rfl (by decide) (by decide) (by decide) (by decide)
      (by decide) rfl (by decide),
   (counter_uniqueness twoCountersBranch ⟨64, 64⟩ exampleGlobals).2.2.1 3 1 0 (.constInt 32 0)
      (some 32) false boundToSlotZero (by decide) (by decide) rfl (by decide),
   (counter_uniqueness twoCountersBranch ⟨64, 64⟩ exampleGlobals).2.2.2 6 1 0 (.inst 5)
      (.inst 4) (.constInt 32 0) (.inst 4) (.constInt 32 0) .ICMP_NE 1 2 boundToSlotZero
      (by decide) (by decide) (by decide) (by decide) rfl (by decide) (by decide) (by decide)
      (by decide)⟩

/-! ### Memoization of the recognizers -/

theorem lookup_cacheInsert (c : VarBoolCacheTy) (v w : InstId) (r : Bool) :
    (cacheInsert c v r).lookup w =
      if w = v then (match c.lookup v with | some x => some x | none => some r)
      else c.lookup w := by
  unfold cacheInsert
  cases h : c.lookup v with
  | some x =>
    by_cases hw : w = v
    · subst hw; simp [h]
    · simp [hw]
  | none =>
    by_cases hw : w = v
    · subst hw; simp [List.lookup]
    · have : (w == v) = false := by simpa using hw
      simp [List.lookup, this, hw]

theorem counterCache_step (F : FunctionIR) (unp : Option FuncId) (c : VarBoolCacheTy)
    (v : InstId)
    (hc : ∀ w r, c.lookup w = some r → r = isProtectionCounterVariable F w unp) :
    ∀ w r, (isProtectionCounterVariableCached F v unp c).2.lookup w = some r →
      r = isProtectionCounterVariable F w unp := by
  intro w r h
  cases unp with
  | none => exact hc w r h
  | some u =>
    simp only [isProtectionCounterVariableCached] at h
    cases hl : c.lookup v with
    | some x =>
      simp only [hl] at h
      exact hc w r h
    | none =>
      simp only [hl, lookup_cacheInsert] at h
      by_cases hw : w = v
      · subst hw
        simp only [if_true, Option.some.injEq] at h
        exact h.symm
      · rw [if_neg hw] at h
        exact hc w r h

theorem counterCache_fold (F : FunctionIR) (unp : Option FuncId) (vars : List InstId)
    (c : VarBoolCacheTy)
    (hc : ∀ w r, c.lookup w = some r → r = isProtectionCounterVariable F w unp) :
    ∀ w r,
      (vars.foldl (fun c v => (isProtectionCounterVariableCached F v unp c).2) c).lookup w
        = some r →
      r = isProtectionCounterVariable F w unp := by
  induction vars generalizing c with
  | nil => exact hc
  | cons v rest ih => exact ih _ (counterCache_step F unp c v hc)

theorem counter_memoization_sound (F : FunctionIR) (unp : Option FuncId) (vars : List InstId)
    (var : InstId) :
    (isProtectionCounterVariableCached F var unp (counterCacheAfter F unp vars)).1
      = (isProtectionCounterVariableCached F var unp []).1 := by
  have hinv := counterCache_fold F unp vars [] (by intro w r h; simp [List.lookup] at h)
  cases unp with
  | none => rfl
  | some u =>
    simp only [isProtectionCounterVariableCached, List.lookup]
    cases hl : (counterCacheAfter F (some u) vars).lookup var with
    | some x => exact hinv var x hl
    | none => rfl

theorem saveVariableLoop_true_ne (F : FunctionIR) (pp : GlobalId) (l : List Instruction) :
    saveVariableLoop F pp l true ≠ some false := by
  induction l with
  | nil => simp [saveVariableLoop]
  | cons u rest ih =>
    simp only [saveVariableLoop]
    split
    · exact ih
    · split
      · exact ih
      · simp

theorem saveVariableLoop_used (F : FunctionIR) (pp : GlobalId) (l : List Instruction)
    (hl : l ≠ []) : saveVariableLoop F pp l false ≠ some false := by
  cases l with
  | nil => exact absurd rfl hl
  | cons u rest =>
    simp only [saveVariableLoop]
    split
    · exact saveVariableLoop_true_ne F pp rest
    · split
      · exact saveVariableLoop_true_ne F pp rest
      · simp

/-- What the cache of `isProtectionStackTopSaveVariable` holds for a slot:
whether the loop over its users ran to the end. -/
theorem saveCache_step (F : FunctionIR) (pp : GlobalId) (c : VarBoolCacheTy) (v : InstId)
    (hc : ∀ w r, c.lookup w = some r →
      r = (saveVariableLoop F pp (F.users (.inst w)) false).isSome) :
    ∀ w r, (isProtectionStackTopSaveVariable F v (some pp) c).2.lookup w = some r →
      r = (saveVariableLoop F pp (F.users (.inst w)) false).isSome := by
  intro w r h
  simp only [isProtectionStackTopSaveVariable] at h
  cases hl : c.lookup v with
  | some x =>
    simp only [hl] at h
    exact hc w r h
  | none =>
    simp only [hl] at h
    cases hloop : saveVariableLoop F pp (F.users (.inst v)) false with
    | none =>
      simp only [hloop, lookup_cacheInsert, hl] at h
      by_cases hw : w = v
      · subst hw
        simp only [if_true, Option.some.injEq] at h
        simp [hloop, ← h]
      · rw [if_neg hw] at h
        exact hc w r h
    | some b =>
      simp only [hloop, lookup_cacheInsert, hl] at h
      by_cases hw : w = v
      · subst hw
        simp only [if_true, Option.some.injEq] at h
        simp [hloop, ← h]
      · rw [if_neg hw] at h
        exact hc w r h

theorem saveCache_fold (F : FunctionIR) (pp : GlobalId) (vars : List InstId)
    (c : VarBoolCacheTy)
    (hc : ∀ w r, c.lookup w = some r →
      r = (saveVariableLoop F pp (F.users (.inst w)) false).isSome) :
    ∀ w r,
      (vars.foldl (fun c v => (isProtectionStackTopSaveVariable F v (some pp) c).2) c).lookup w
        = some r →
      r = (saveVariableLoop F pp (F.users (.inst w)) false).isSome := by
  induction vars generalizing c with
  | nil => exact hc
  | cons v rest ih => exact ih _ (saveCache_step F pp c v hc)

theorem save_memoization_sound_of_used (F : FunctionIR) (pp : Option GlobalId)
    (vars : List InstId) (var : InstId) (hu : F.users (.inst var) ≠ []) :
    (isProtectionStackTopSaveVariable F var pp (saveCacheAfter F pp vars)).1
      = (isProtectionStackTopSaveVariable F var pp []).1 := by
  cases pp with
  | none => rfl
  | some p =>
    have hinv := saveCache_fold F p vars [] (by intro w r h; simp [List.lookup] at h)
    have hne := saveVariableLoop_used F p (F.users (.inst var)) hu
    simp only [isProtectionStackTopSaveVariable, List.lookup]
    cases hl : (saveCacheAfter F (some p) vars).lookup var with
    | some x =>
      have hx := hinv var x hl
      cases hloop : saveVariableLoop F p (F.users (.inst var)) false with
      | none => simp [hx, hloop]
      | some b =>
        cases b with
        | false => exact absurd hloop hne
        | true => simp [hx, hloop]
    | none =>
      cases hloop : saveVariableLoop F p (F.users (.inst var)) false <;> rfl

/-- C21: memoization of `isProtectionCounterVariable` is sound: on a cache that
the recognizer has filled from the empty cache, every call returns what a
call with the empty cache returns.  For `isProtectionStackTopSaveVariable`
the same holds on every slot that has at least one use.  On the slot of
`unusedSlot`, which has no use, it fails: the first call returns false and
caches true, so that the second call returns true. -/
theorem memoization_of_recognizers :
    (∀ (F : FunctionIR) (unp : Option FuncId) (vars : List InstId) (var : InstId),
      (isProtectionCounterVariableCached F var unp (counterCacheAfter F unp vars)).1
        = (isProtectionCounterVariableCached F var unp []).1) ∧
    (∀ (F : FunctionIR) (pp : Option GlobalId) (vars : List InstId) (var : InstId),
      F.users (.inst var) ≠ [] →
      (isProtectionStackTopSaveVariable F var pp (saveCacheAfter F pp vars)).1
        = (isProtectionStackTopSaveVariable F var pp []).1) ∧
    unusedSlot.find 0 = some (.alloca none false) ∧
    unusedSlot.users (.inst 0) = [] ∧
    isProtectionStackTopSaveVariable unusedSlot 0 (some 0) [] = (false, [(0, true)]) ∧
    saveCacheAfter unusedSlot (some 0) [0] = [(0, true)] ∧
    (isProtectionStackTopSaveVariable unusedSlot 0 (some 0)
      (saveCacheAfter unusedSlot (some 0) [0])).1 = true :=
  ⟨counter_memoization_sound, save_memoization_sound_of_used,
    by decide, by decide, by decide, by decide, by decide⟩

/-- Witness of the parts of C21 that hold: the save slot of `saveRestore 1`
and the counter of `counterPassedOn`, asked a third time. -/
theorem memoization_of_recognizers_witness :
    (isProtectionCounterVariableCached counterPassedOn 0 (some 3)
        (counterCacheAfter counterPassedOn (some 3) [0, 0])).1 = true ∧
    (saveRestore 1).users (.inst 0) ≠ [] ∧
    (isProtectionStackTopSaveVariable (saveRestore 1) 0 (some 0)
        (saveCacheAfter (saveRestore 1) (some 0) [0, 0])).1 = true :=
  ⟨(memoization_of_recognizers.1 counterPassedOn (some 3) [0, 0] 0).trans (by decide),
   by decide,
   (memoization_of_recognizers.2.1 (saveRestore 1) (some 0) [0, 0] 0 (by decide)).trans
     (by decide)⟩

/-! ### The closure of the call graph -/

theorem getD_set_rows (list : AdjacencyListTy) (i a : Nat) (x : AdjacencyListRow)
    (hi : i < list.length) :
    (list.set i x).getD a [] = if a = i then x else list.getD a [] := by
  simp only [List.getD_eq_getElem?_getD, List.getElem?_set]
  by_cases h : a = i
  · subst h; simp [hi]
  · have h2 : ¬ i = a := fun h3 => h h3.symm
    simp [h, h2]

theorem pushBack_eq (list : AdjacencyListTy) (i k : Nat) (hi : i < list.length) :
    pushBack list i k = some (list.set i (list.getD i [] ++ [k])) := by
  simp [pushBack, List.getD_eq_getElem?_getD, List.getElem?_eq_getElem hi]

theorem matGet_set (mat : BoolMatrixTy) (row : List Bool) (i k a b : Nat)
    (hrow : mat[i]? = some row) (hk : k < row.length) :
    matGet (mat.set i (row.set k true)) a b =
      if a = i ∧ b = k then some true else matGet mat a b := by
  have hi : i < mat.length := by
    by_contra h
    rw [List.getElem?_eq_none (not_lt.mp h)] at hrow
    cases hrow
  simp only [matGet, List.getElem?_set]
  by_cases ha : a = i
  · subst ha
    simp only [hi, if_true, true_and, hrow]
    by_cases hb : b = k
    · subst hb; simp [hk]
    · have hb2 : ¬ k = b := fun h => hb h.symm
      simp [hb, hb2]
  · have ha2 : ¬ i = a := fun h => ha h.symm
    simp [ha, ha2]

theorem matSetTrue_eq (mat : BoolMatrixTy) (row : List Bool) (i k : Nat)
    (hrow : mat[i]? = some row) (hk : k < row.length) :
    matSetTrue mat i k = some (mat.set i (row.set k true)) := by
  simp [matSetTrue, hrow, hk]

theorem consistent_row (n : Nat) (mat : BoolMatrixTy) (list : AdjacencyListTy)
    (hc : Consistent n mat list) (i : Nat) (hi : i < n) :
    ∃ row, mat[i]? = some row ∧ row.length = n := by
  obtain ⟨h1, h2, -, -, -⟩ := hc
  have hi2 : i < mat.length := by rw [h1]; exact hi
  exact ⟨mat[i], List.getElem?_eq_getElem hi2, h2 _ (List.getElem_mem hi2)⟩

theorem edge_lt (n : Nat) (mat : BoolMatrixTy) (list : AdjacencyListTy)
    (hc : Consistent n mat list) (i k : Nat) (h : edge list i k) : i < n ∧ k < n := by
  obtain ⟨-, -, h3, h4, -⟩ := hc
  unfold edge at h
  by_cases hi : i < list.length
  · rw [List.getD_eq_getElem _ _ hi] at h
    exact ⟨h3 ▸ hi, h4 _ (List.getElem_mem hi) k h⟩
  · rw [List.getD_eq_default _ _ (not_lt.mp hi)] at h
    cases h

theorem matGet_some (n : Nat) (mat : BoolMatrixTy) (list : AdjacencyListTy)
    (hc : Consistent n mat list) (i k : Nat) (hi : i < n) (hk : k < n) :
    ∃ b, matGet mat i k = some b := by
  obtain ⟨row, hrow, hlen⟩ := consistent_row n mat list hc i hi
  have hk2 : k < row.length := by rw [hlen]; exact hk
  exact ⟨row[k], by simp [matGet, hrow, List.getElem?_eq_getElem hk2]⟩

/-- One execution of `mat[i][k] = true; list[i].push_back(k); added = true`. -/
theorem closure_update (n : Nat) (R : Nat → Nat → Prop) (st : ClosureState) (i k : Nat)
    (hinv : ClosureInv n R st) (hi : i < n) (hk : k < n)
    (hf : matGet st.mat i k = some false) (hR : Relation.TransGen R i k) :
    ∃ m l, matSetTrue st.mat i k = some m ∧ pushBack st.list i k = some l ∧
      ClosureInv n R ⟨m, l, true⟩ ∧
      (∀ a, a ≠ i → l.getD a [] = st.list.getD a []) ∧
      l.getD i [] = st.list.getD i [] ++ [k] ∧
      (falsePairs n m).card < (falsePairs n st.mat).card ∧
      (falseRow n m i).card + 1 ≤ (falseRow n st.mat i).card := by
  obtain ⟨hc, hmono, hsound⟩ := hinv
  obtain ⟨row, hrow, hlen⟩ := consistent_row n _ _ hc i hi
  obtain ⟨h1, h2, h3, h4, h5⟩ := hc
  have hk2 : k < row.length := by rw [hlen]; exact hk
  have hil : i < st.list.length := by rw [h3]; exact hi
  have hget : ∀ a b, matGet (st.mat.set i (row.set k true)) a b =
      if a = i ∧ b = k then some true else matGet st.mat a b :=
    fun a b => matGet_set st.mat row i k a b hrow hk2
  have hedge : ∀ a b, edge (st.list.set i (st.list.getD i [] ++ [k])) a b ↔
      edge st.list a b ∨ (a = i ∧ b = k) := by
    intro a b
    unfold edge
    rw [getD_set_rows _ _ _ _ hil]
    by_cases ha : a = i
    · subst ha; simp
    · simp [ha]
  refine ⟨_, _, matSetTrue_eq _ _ _ _ hrow hk2, pushBack_eq _ _ _ hil, ⟨⟨?_, ?_, ?_, ?_, ?_⟩, ?_, ?_⟩,
    ?_, ?_, ?_, ?_⟩
  · simp [h1]
  · intro r hr
    rcases List.mem_or_eq_of_mem_set hr with h | h
    · exact h2 r h
    · rw [h, List.length_set]; exact hlen
  · simp [h3]
  · intro r hr x hx
    rcases List.mem_or_eq_of_mem_set hr with h | h
    · exact h4 r h x hx
    · rw [h, List.mem_append] at hx
      rcases hx with hx | hx
      · rw [List.getD_eq_getElem _ _ hil] at hx
        exact h4 _ (List.getElem_mem hil) x hx
      · simp only [List.mem_singleton] at hx
        rw [hx]; exact hk
  · intro a b ha hb
    show matGet (st.mat.set i (row.set k true)) a b = some true ↔ _
    rw [hget, hedge]
    by_cases hab : a = i ∧ b = k
    · simp [hab]
    · rw [if_neg hab, h5 a b ha hb]
      simp [hab]
  · intro a b hab
    exact (hedge a b).mpr (Or.inl (hmono a b hab))
  · intro a b hab
    rcases (hedge a b).mp hab with h | ⟨rfl, rfl⟩
    · exact hsound a b h
    · exact hR
  · intro a ha
    show (st.list.set i (st.list.getD i [] ++ [k])).getD a [] = _
    rw [getD_set_rows _ _ _ _ hil, if_neg ha]
  · show (st.list.set i (st.list.getD i [] ++ [k])).getD i [] = _
    rw [getD_set_rows _ _ _ _ hil, if_pos rfl]
  · have hsub : falsePairs n (st.mat.set i (row.set k true)) ⊆ (falsePairs n st.mat).erase (i, k) := by
      intro p hp
      simp only [falsePairs, Finset.mem_filter, Finset.mem_product, Finset.mem_range, hget] at hp
      simp only [falsePairs, Finset.mem_erase, Finset.mem_filter, Finset.mem_product,
        Finset.mem_range]
      obtain ⟨hp1, hp2⟩ := hp
      by_cases hab : p.1 = i ∧ p.2 = k
      · simp [hab] at hp2
      · rw [if_neg hab] at hp2
        refine ⟨?_, hp1, hp2⟩
        intro h
        apply hab
        rw [h]
        exact ⟨rfl, rfl⟩
    have hmem : (i, k) ∈ falsePairs n st.mat := by
      simp [falsePairs, hi, hk, hf]
    have hcard := Finset.card_le_card hsub
    rw [Finset.card_erase_of_mem hmem] at hcard
    have hpos : 0 < (falsePairs n st.mat).card := Finset.card_pos.mpr ⟨_, hmem⟩
    omega
  · have hsub : falseRow n (st.mat.set i (row.set k true)) i ⊆ (falseRow n st.mat i).erase k := by
      intro b hb
      simp only [falseRow, Finset.mem_filter, Finset.mem_range, hget] at hb
      simp only [falseRow, Finset.mem_erase, Finset.mem_filter, Finset.mem_range]
      obtain ⟨hb1, hb2⟩ := hb
      by_cases hab : b = k
      · simp [hab] at hb2
      · simp only [true_and, hab, if_false] at hb2
        exact ⟨hab, hb1, hb2⟩
    have hmem : k ∈ falseRow n st.mat i := by
      simp [falseRow, hk, hf]
    have hcard := Finset.card_le_card hsub
    rw [Finset.card_erase_of_mem hmem] at hcard
    have hpos : 0 < (falseRow n st.mat i).card := Finset.card_pos.mpr ⟨_, hmem⟩
    omega

theorem closureStep_trans (n : Nat) (st st1 st2 : ClosureState)
    (h1 : ClosureStep n st st1) (h2 : ClosureStep n st1 st2) : ClosureStep n st st2 := by
  rcases h1 with rfl | ⟨ha1, hc1⟩
  · exact h2
  · rcases h2 with rfl | ⟨ha2, hc2⟩
    · exact Or.inr ⟨ha1, hc1⟩
    · exact Or.inr ⟨ha2, lt_trans hc2 hc1⟩

theorem closureStep_eq_of_not_added (n : Nat) (st st1 : ClosureState)
    (h : ClosureStep n st st1) (ha : st1.added = false) : st1 = st := by
  rcases h with h | ⟨h, -⟩
  · exact h
  · rw [ha] at h; cases h

/-- The loop over `kidx`: it ends, keeps the invariant, writes only row `i`,
and afterwards every `k ≠ j` of `ks` is in `list[i]`. -/
theorem buildClosureInner_spec (n : Nat) (R : Nat → Nat → Prop) (i j : Nat)
    (ks : List Nat) (st : ClosureState)
    (hinv : ClosureInv n R st) (hi : i < n) (hks : ∀ k ∈ ks, k < n)
    (hR : ∀ k ∈ ks, k ≠ j → Relation.TransGen R i k) :
    ∃ st1, buildClosureInner i j ks st = some st1 ∧ ClosureInv n R st1 ∧
      ClosureStep n st st1 ∧
      (∀ a, a ≠ i → st1.list.getD a [] = st.list.getD a []) ∧
      (∃ new, st1.list.getD i [] = st.list.getD i [] ++ new) ∧
      (st1.list.getD i []).length + (falseRow n st1.mat i).card
        ≤ (st.list.getD i []).length + (falseRow n st.mat i).card ∧
      (∀ k ∈ ks, k ≠ j → edge st1.list i k) := by
  induction ks generalizing st with
  | nil =>
    exact ⟨st, rfl, hinv, Or.inl rfl, fun _ _ => rfl, ⟨[], by simp⟩, le_refl _,
      fun k hk => by cases hk⟩
  | cons k rest ih =>
    have hrest : ∀ x ∈ rest, x < n := fun x hx => hks x (List.mem_cons_of_mem _ hx)
    have hRrest : ∀ x ∈ rest, x ≠ j → Relation.TransGen R i x :=
      fun x hx => hR x (List.mem_cons_of_mem _ hx)
    have hkn : k < n := hks k (List.mem_cons_self _ _)
    by_cases hjk : j = k
    · obtain ⟨st1, h1, h2, h3, h4, h5, h6, h7⟩ := ih st hinv hrest hRrest
      refine ⟨st1, by simp only [buildClosureInner, if_pos hjk]; exact h1, h2, h3, h4, h5, h6, ?_⟩
      intro x hx hxj
      rcases List.mem_cons.mp hx with rfl | hx
      · exact absurd hjk.symm hxj
      · exact h7 x hx hxj
    · obtain ⟨b, hb⟩ := matGet_some n _ _ hinv.1 i k hi hkn
      cases b with
      | true =>
        obtain ⟨st1, h1, h2, h3, h4, h5, h6, h7⟩ := ih st hinv hrest hRrest
        refine ⟨st1, by simp only [buildClosureInner, if_neg hjk, hb]; exact h1, h2, h3, h4, h5,
          h6, ?_⟩
        intro x hx hxj
        rcases List.mem_cons.mp hx with rfl | hx
        · have he : edge st.list i x := (hinv.1.2.2.2.2 i x hi hkn).mp hb
          obtain ⟨new, hnew⟩ := h5
          unfold edge at he ⊢
          rw [hnew]
          exact List.mem_append_left _ he
        · exact h7 x hx hxj
      | false =>
        obtain ⟨m, l, hm, hl, hinv1, hrows, hrow, hcard, hfr⟩ :=
          closure_update n R st i k hinv hi hkn hb
            (hR k (List.mem_cons_self _ _) (fun h => hjk h.symm))
        obtain ⟨st1, h1, h2, h3, h4, h5, h6, h7⟩ := ih ⟨m, l, true⟩ hinv1 hrest hRrest
        refine ⟨st1, by simp only [buildClosureInner, if_neg hjk, hb, hm, hl]; exact h1, h2,
          closureStep_trans n st ⟨m, l, true⟩ st1 (Or.inr ⟨rfl, hcard⟩) h3, ?_, ?_, ?_, ?_⟩
        · intro a ha
          rw [h4 a ha]
          exact hrows a ha
        · obtain ⟨new, hnew⟩ := h5
          refine ⟨k :: new, ?_⟩
          rw [hnew]
          show l.getD i [] ++ new = _
          rw [hrow]
          simp
        · have hlen : (l.getD i []).length = (st.list.getD i []).length + 1 := by
            rw [hrow]; simp
          simp only at h6
          omega
        · intro x hx hxj
          rcases List.mem_cons.mp hx with rfl | hx
          · obtain ⟨new, hnew⟩ := h5
            unfold edge
            rw [hnew]
            apply List.mem_append_left
            show x ∈ l.getD i []
            rw [hrow]
            simp
          · exact h7 x hx hxj

theorem consistent_list_row (n : Nat) (mat : BoolMatrixTy) (list : AdjacencyListTy)
    (hc : Consistent n mat list) (i : Nat) (hi : i < n) :
    list[i]? = some (list.getD i []) := by
  have hil : i < list.length := by rw [hc.2.2.1]; exact hi
  rw [List.getD_eq_getElem _ _ hil, List.getElem?_eq_getElem hil]

theorem edge_of_getElem? (list : AdjacencyListTy) (i idx j : Nat)
    (h : (list.getD i [])[idx]? = some j) : edge list i j := by
  unfold edge
  exact List.getElem?_mem h

/-- What the loop over `kidx` needs of `ks = list[j]`, `j` being in `list[i]`. -/
theorem inner_hyps (n : Nat) (R : Nat → Nat → Prop) (st : ClosureState) (i j : Nat)
    (hinv : ClosureInv n R st) (hij : edge st.list i j) :
    j < n ∧ (∀ k ∈ st.list.getD j [], k < n) ∧
    (∀ k ∈ st.list.getD j [], k ≠ j → Relation.TransGen R i k) := by
  refine ⟨(edge_lt n _ _ hinv.1 i j hij).2, fun k hk => (edge_lt n _ _ hinv.1 j k hk).2, ?_⟩
  intro k hk _
  exact Relation.TransGen.trans (hinv.2.2 i j hij) (hinv.2.2 j k hk)

/-- The loop over `jidx` for row `i`, whatever the fuel: when it ends, the
invariant holds, only row `i` was written, and row `i` needs no further
edge. -/
theorem buildClosureRow_spec (n : Nat) (R : Nat → Nat → Prop) (i : Nat) (hi : i < n) :
    ∀ (fuel jidx : Nat) (st st1 : ClosureState), ClosureInv n R st →
      (∀ idx, idx < jidx → ∀ j, (st.list.getD i [])[idx]? = some j → j ≠ i →
        ∀ k, edge st.list j k → k ≠ j → edge st.list i k) →
      buildClosureRow i fuel jidx st = some st1 →
      ClosureInv n R st1 ∧ ClosureStep n st st1 ∧
      (∀ a, a ≠ i → st1.list.getD a [] = st.list.getD a []) ∧
      (∃ new, st1.list.getD i [] = st.list.getD i [] ++ new) ∧
      (st1.list.getD i []).length + (falseRow n st1.mat i).card
        ≤ (st.list.getD i []).length + (falseRow n st.mat i).card ∧
      RowClosed st1.list i := by
  intro fuel
  induction fuel with
  | zero => intro jidx st st1 _ _ h; simp [buildClosureRow] at h
  | succ fuel ih =>
    intro jidx st st1 hinv hdone h
    have hrow := consistent_list_row n _ _ hinv.1 i hi
    simp only [buildClosureRow, hrow] at h
    cases hj : (st.list.getD i [])[jidx]? with
    | none =>
      simp only [hj, Option.some.injEq] at h
      subst h
      refine ⟨hinv, Or.inl rfl, fun _ _ => rfl, ⟨[], by simp⟩, le_refl _, ?_⟩
      intro j hij hji k hjk hkj
      obtain ⟨idx, hidx⟩ := List.getElem?_of_mem hij
      have hlt : idx < jidx := by
        by_contra hge
        have hlen : (st.list.getD i []).length ≤ jidx := List.getElem?_eq_none_iff.mp hj
        have : (st.list.getD i [])[idx]? = none :=
          List.getElem?_eq_none_iff.mpr (le_trans hlen (not_lt.mp hge))
        rw [this] at hidx
        cases hidx
      exact hdone idx hlt j hidx hji k hjk hkj
    | some j =>
      simp only [hj] at h
      by_cases hij : i = j
      · rw [if_pos hij] at h
        refine ih (jidx + 1) st st1 hinv ?_ h
        intro idx hidx j2 hj2 hj2i k hk hkj
        rcases Nat.lt_succ_iff_lt_or_eq.mp hidx with hlt | heq
        · exact hdone idx hlt j2 hj2 hj2i k hk hkj
        · subst heq
          rw [hj] at hj2
          cases hj2
          exact absurd hij.symm hj2i
      · rw [if_neg hij] at h
        have hedge : edge st.list i j := edge_of_getElem? _ _ _ _ hj
        obtain ⟨hjn, hks, hR⟩ := inner_hyps n R st i j hinv hedge
        have hrowj := consistent_list_row n _ _ hinv.1 j hjn
        simp only [hrowj] at h
        obtain ⟨st2, e1, e2, e3, e4, e5, e6, e7⟩ :=
          buildClosureInner_spec n R i j (st.list.getD j []) st hinv hi hks hR
        simp only [e1] at h
        obtain ⟨new, hnew⟩ := e5
        have hmono : ∀ a b, edge st.list a b → edge st2.list a b := by
          intro a b hab
          unfold edge at hab ⊢
          by_cases ha : a = i
          · subst ha; rw [hnew]; exact List.mem_append_left _ hab
          · rw [e4 a ha]; exact hab
        have hdone2 : ∀ idx, idx < jidx + 1 → ∀ j2, (st2.list.getD i [])[idx]? = some j2 →
            j2 ≠ i → ∀ k, edge st2.list j2 k → k ≠ j2 → edge st2.list i k := by
          intro idx hidx j2 hj2 hj2i k hk hkj
          have hjlt : jidx < (st.list.getD i []).length := by
            by_contra hge
            rw [List.getElem?_eq_none_iff.mpr (not_lt.mp hge)] at hj
            cases hj
          have hidx2 : idx < (st.list.getD i []).length := by omega
          rw [hnew, List.getElem?_append_left hidx2] at hj2
          have hk2 : edge st.list j2 k := by
            unfold edge at hk ⊢
            rw [e4 j2 hj2i] at hk
            exact hk
          rcases Nat.lt_succ_iff_lt_or_eq.mp hidx with hlt | heq
          · exact hmono i k (hdone idx hlt j2 hj2 hj2i k hk2 hkj)
          · subst heq
            rw [hj] at hj2
            cases hj2
            exact e7 k hk2 hkj
        obtain ⟨r1, r2, r3, r4, r5, r6⟩ := ih (jidx + 1) st2 st1 e2 hdone2 h
        refine ⟨r1, closureStep_trans n st st2 st1 e3 r2, ?_, ?_, le_trans r5 e6, r6⟩
        · intro a ha
          rw [r3 a ha, e4 a ha]
        · obtain ⟨new2, hnew2⟩ := r4
          exact ⟨new ++ new2, by rw [hnew2, hnew, List.append_assoc]⟩

/-- The loop over `jidx` ends when the fuel exceeds the length of `list[i]`
plus the number of unset bits of row `i`. -/
theorem buildClosureRow_some (n : Nat) (R : Nat → Nat → Prop) (i : Nat) (hi : i < n) :
    ∀ (fuel jidx : Nat) (st : ClosureState), ClosureInv n R st →
      (st.list.getD i []).length + (falseRow n st.mat i).card - jidx < fuel →
      ∃ st1, buildClosureRow i fuel jidx st = some st1 := by
  intro fuel
  induction fuel with
  | zero => intro jidx st _ h; omega
  | succ fuel ih =>
    intro jidx st hinv hfuel
    have hrow := consistent_list_row n _ _ hinv.1 i hi
    simp only [buildClosureRow, hrow]
    cases hj : (st.list.getD i [])[jidx]? with
    | none => exact ⟨st, rfl⟩
    | some j =>
      have hjlt : jidx < (st.list.getD i []).length := by
        by_contra hge
        rw [List.getElem?_eq_none_iff.mpr (not_lt.mp hge)] at hj
        cases hj
      by_cases hij : i = j
      · simp only [if_pos hij]
        exact ih (jidx + 1) st hinv (by omega)
      · simp only [if_neg hij]
        have hedge : edge st.list i j := edge_of_getElem? _ _ _ _ hj
        obtain ⟨hjn, hks, hR⟩ := inner_hyps n R st i j hinv hedge
        have hrowj := consistent_list_row n _ _ hinv.1 j hjn
        obtain ⟨st2, e1, e2, -, -, -, e6, -⟩ :=
          buildClosureInner_spec n R i j (st.list.getD j []) st hinv hi hks hR
        simp only [hrowj, e1]
        exact ih (jidx + 1) st2 e2 (by omega)

theorem falseRow_congr (n : Nat) (R : Nat → Nat → Prop) (st st1 : ClosureState) (a : Nat)
    (ha : a < n) (h : ClosureInv n R st) (h1 : ClosureInv n R st1)
    (hrow : st1.list.getD a [] = st.list.getD a []) :
    falseRow n st1.mat a = falseRow n st.mat a := by
  unfold falseRow
  apply Finset.filter_congr
  intro b hb
  have hb2 : b < n := Finset.mem_range.mp hb
  have e1 := h1.1.2.2.2.2 a b ha hb2
  have e := h.1.2.2.2.2 a b ha hb2
  unfold edge at e1 e
  rw [hrow] at e1
  rw [not_iff_not, e1, e]

theorem buildClosureRow_slack (n : Nat) (R : Nat → Nat → Prop) (i : Nat) (hi : i < n)
    (fuel jidx : Nat) (st st1 : ClosureState) (hinv : ClosureInv n R st)
    (hdone : ∀ idx, idx < jidx → ∀ j, (st.list.getD i [])[idx]? = some j → j ≠ i →
        ∀ k, edge st.list j k → k ≠ j → edge st.list i k)
    (h : buildClosureRow i fuel jidx st = some st1) :
    ∀ a, a < n → slack n st1 a ≤ slack n st a := by
  obtain ⟨r1, -, r3, -, r5, -⟩ := buildClosureRow_spec n R i hi fuel jidx st st1 hinv hdone h
  intro a ha
  by_cases hai : a = i
  · subst hai; exact r5
  · unfold slack
    rw [falseRow_congr n R st st1 a ha hinv r1 (r3 a hai), r3 a hai]

/-- One round of the outer loop, whatever the fuel: when it ends, the
invariant holds, and if `added` is still unset nothing was written and no row
needs a further edge. -/
theorem buildClosurePass_spec (n : Nat) (R : Nat → Nat → Prop) (rowFuel : Nat) :
    ∀ (todo : Nat) (st st1 : ClosureState), todo ≤ n → ClosureInv n R st →
      buildClosurePass rowFuel n todo st = some st1 →
      ClosureInv n R st1 ∧ ClosureStep n st st1 ∧
      (∀ a, a < n → slack n st1 a ≤ slack n st a) ∧
      (st1.added = false → ∀ i, n - todo ≤ i → i < n → RowClosed st1.list i) := by
  intro todo
  induction todo with
  | zero =>
    intro st st1 _ hinv h
    simp only [buildClosurePass, Option.some.injEq] at h
    subst h
    exact ⟨hinv, Or.inl rfl, fun _ _ => le_refl _, fun _ i h1 h2 => by omega⟩
  | succ todo ih =>
    intro st st1 htodo hinv h
    simp only [buildClosurePass] at h
    have hi : n - (todo + 1) < n := by omega
    cases hrow : buildClosureRow (n - (todo + 1)) rowFuel 0 st with
    | none => simp [hrow] at h
    | some st2 =>
      simp only [hrow] at h
      have hdone : ∀ idx, idx < 0 → ∀ j, (st.list.getD (n - (todo + 1)) [])[idx]? = some j →
          j ≠ n - (todo + 1) → ∀ k, edge st.list j k → k ≠ j →
          edge st.list (n - (todo + 1)) k := fun idx hidx => absurd hidx (Nat.not_lt_zero _)
      obtain ⟨r1, r2, -, -, -, r6⟩ :=
        buildClosureRow_spec n R _ hi rowFuel 0 st st2 hinv hdone hrow
      have rs := buildClosureRow_slack n R _ hi rowFuel 0 st st2 hinv hdone hrow
      obtain ⟨p1, p2, p3, p4⟩ := ih st2 st1 (by omega) r1 h
      refine ⟨p1, closureStep_trans n st st2 st1 r2 p2, fun a ha => le_trans (p3 a ha) (rs a ha), ?_⟩
      intro hadd i hlo hhi
      by_cases hil : n - todo ≤ i
      · exact p4 hadd i hil hhi
      · have hieq : i = n - (todo + 1) := by omega
        have heq := closureStep_eq_of_not_added n st2 st1 p2 hadd
        rw [hieq, heq]
        exact r6

/-- One round of the outer loop ends when the fuel of the loops over `jidx`
exceeds the slack of every row. -/
theorem buildClosurePass_some (n : Nat) (R : Nat → Nat → Prop) (rowFuel : Nat) :
    ∀ (todo : Nat) (st : ClosureState), todo ≤ n → ClosureInv n R st →
      (∀ a, a < n → slack n st a < rowFuel) →
      ∃ st1, buildClosurePass rowFuel n todo st = some st1 := by
  intro todo
  induction todo with
  | zero => intro st _ _ _; exact ⟨st, rfl⟩
  | succ todo ih =>
    intro st htodo hinv hfuel
    have hi : n - (todo + 1) < n := by omega
    have hdone : ∀ idx, idx < 0 → ∀ j, (st.list.getD (n - (todo + 1)) [])[idx]? = some j →
        j ≠ n - (todo + 1) → ∀ k, edge st.list j k → k ≠ j →
        edge st.list (n - (todo + 1)) k := fun idx hidx => absurd hidx (Nat.not_lt_zero _)
    obtain ⟨st2, hrow⟩ := buildClosureRow_some n R _ hi rowFuel 0 st hinv (by
      have := hfuel _ hi
      unfold slack at this
      omega)
    obtain ⟨r1, -, -, -, -, -⟩ := buildClosureRow_spec n R _ hi rowFuel 0 st st2 hinv hdone hrow
    have rs := buildClosureRow_slack n R _ hi rowFuel 0 st st2 hinv hdone hrow
    obtain ⟨st1, h1⟩ := ih st2 (by omega) r1 (fun a ha => lt_of_le_of_lt (rs a ha) (hfuel a ha))
    exact ⟨st1, by simp only [buildClosurePass, hrow]; exact h1⟩

/-- The outer loop, whatever the fuel: when it ends, the invariant holds and
no row needs a further edge. -/
theorem buildClosureLoop_spec (n : Nat) (R : Nat → Nat → Prop) (rowFuel : Nat) :
    ∀ (fuel : Nat) (mat : BoolMatrixTy) (list : AdjacencyListTy)
      (r : BoolMatrixTy × AdjacencyListTy),
      ClosureInv n R ⟨mat, list, false⟩ →
      buildClosureLoop rowFuel n fuel mat list = some r →
      ClosureInv n R ⟨r.1, r.2, false⟩ ∧ (∀ i, i < n → RowClosed r.2 i) := by
  intro fuel
  induction fuel with
  | zero => intro mat list r _ h; simp [buildClosureLoop] at h
  | succ fuel ih =>
    intro mat list r hinv h
    simp only [buildClosureLoop] at h
    cases hp : buildClosurePass rowFuel n n ⟨mat, list, false⟩ with
    | none => simp [hp] at h
    | some st =>
      simp only [hp] at h
      obtain ⟨p1, -, -, p4⟩ := buildClosurePass_spec n R rowFuel n _ st (le_refl _) hinv hp
      by_cases hadd : st.added = true
      · rw [if_pos hadd] at h
        exact ih st.mat st.list r p1 h
      · rw [if_neg hadd] at h
        simp only [Option.some.injEq] at h
        subst h
        exact ⟨p1, fun i hi => p4 (by simpa using hadd) i (by omega) hi⟩

/-- The outer loop ends when its fuel exceeds the number of unset bits. -/
theorem buildClosureLoop_some (n : Nat) (R : Nat → Nat → Prop) (rowFuel : Nat) :
    ∀ (fuel : Nat) (mat : BoolMatrixTy) (list : AdjacencyListTy),
      ClosureInv n R ⟨mat, list, false⟩ →
      (∀ a, a < n → slack n ⟨mat, list, false⟩ a < rowFuel) →
      (falsePairs n mat).card < fuel →
      ∃ r, buildClosureLoop rowFuel n fuel mat list = some r := by
  intro fuel
  induction fuel with
  | zero => intro mat list _ _ h; omega
  | succ fuel ih =>
    intro mat list hinv hslack hfuel
    obtain ⟨st, hp⟩ := buildClosurePass_some n R rowFuel n _ (le_refl _) hinv hslack
    obtain ⟨p1, p2, p3, -⟩ := buildClosurePass_spec n R rowFuel n _ st (le_refl _) hinv hp
    simp only [buildClosureLoop, hp]
    by_cases hadd : st.added = true
    · rw [if_pos hadd]
      rcases p2 with heq | ⟨-, hlt⟩
      · rw [heq] at hadd; cases hadd
      · exact ih st.mat st.list p1 (fun a ha => lt_of_le_of_lt (p3 a ha) (hslack a ha))
          (by simp only at hlt; omega)
    · rw [if_neg hadd]
      exact ⟨_, rfl⟩

theorem exists_bound (n : Nat) (f : Nat → Nat) : ∃ B, ∀ a, a < n → f a < B := by
  induction n with
  | zero => exact ⟨0, fun a ha => absurd ha (Nat.not_lt_zero _)⟩
  | succ n ih =>
    obtain ⟨B, hB⟩ := ih
    refine ⟨max B (f n + 1), fun a ha => ?_⟩
    rcases Nat.lt_succ_iff_lt_or_eq.mp ha with h | h
    · exact lt_of_lt_of_le (hB a h) (le_max_left _ _)
    · subst h
      exact lt_of_lt_of_le (Nat.lt_succ_self _) (le_max_right _ _)

theorem closureInv_entry (n : Nat) (mat : BoolMatrixTy) (list : AdjacencyListTy)
    (hc : Consistent n mat list) : ClosureInv n (edge list) ⟨mat, list, false⟩ :=
  ⟨hc, fun _ _ h => h, fun _ _ h => Relation.TransGen.single h⟩

theorem edge_eq_relationOf (n : Nat) (mat : BoolMatrixTy) (list : AdjacencyListTy)
    (hc : Consistent n mat list) : edge list = relationOf n mat := by
  funext i k
  apply propext
  constructor
  · intro h
    obtain ⟨hi, hk⟩ := edge_lt n mat list hc i k h
    exact ⟨hi, hk, (hc.2.2.2.2 i k hi hk).mpr h⟩
  · rintro ⟨hi, hk, h⟩
    exact (hc.2.2.2.2 i k hi hk).mp h

/-- When no row needs a further edge, the edges are closed under
composition. -/
theorem edge_trans_of_rowClosed (n : Nat) (mat : BoolMatrixTy) (list : AdjacencyListTy)
    (hc : Consistent n mat list) (hcl : ∀ i, i < n → RowClosed list i) (i j k : Nat)
    (hij : edge list i j) (hjk : edge list j k) : edge list i k := by
  by_cases h1 : j = i
  · rw [← h1]; exact hjk
  · by_cases h2 : k = j
    · rw [h2]; exact hij
    · exact hcl i (edge_lt n mat list hc i j hij).1 j hij h1 k hjk h2

theorem transGen_edge_of_rowClosed (n : Nat) (mat : BoolMatrixTy) (list : AdjacencyListTy)
    (hc : Consistent n mat list) (hcl : ∀ i, i < n → RowClosed list i)
    (R : Nat → Nat → Prop) (hR : ∀ i k, R i k → edge list i k) (i k : Nat)
    (h : Relation.TransGen R i k) : edge list i k := by
  induction h with
  | single h1 => exact hR _ _ h1
  | tail _ h2 ih => exact edge_trans_of_rowClosed n mat list hc hcl _ _ _ ih (hR _ _ h2)

/-- What `buildClosure` returns, whatever the fuel. -/
theorem buildClosure_spec (n : Nat) (mat : BoolMatrixTy) (list : AdjacencyListTy)
    (hc : Consistent n mat list) (fuel : Nat) (mat1 : BoolMatrixTy) (list1 : AdjacencyListTy)
    (h : buildClosure fuel mat list n = some (mat1, list1)) :
    Consistent n mat1 list1 ∧ (∀ i, i < n → RowClosed list1 i) ∧
    (∀ i k, edge list1 i k ↔ Relation.TransGen (edge list) i k) := by
  obtain ⟨⟨h1, h2, h3⟩, hcl⟩ :=
    buildClosureLoop_spec n (edge list) fuel fuel mat list (mat1, list1)
      (closureInv_entry n mat list hc) h
  exact ⟨h1, hcl, fun i k =>
    ⟨h3 i k, transGen_edge_of_rowClosed n mat1 list1 h1 hcl (edge list) h2 i k⟩⟩

theorem buildClosure_some (n : Nat) (mat : BoolMatrixTy) (list : AdjacencyListTy)
    (hc : Consistent n mat list) :
    ∃ fuel0, ∀ fuel, fuel0 ≤ fuel → ∃ r, buildClosure fuel mat list n = some r := by
  obtain ⟨B, hB⟩ := exists_bound n (slack n ⟨mat, list, false⟩)
  refine ⟨max B ((falsePairs n mat).card + 1), fun fuel hfuel => ?_⟩
  exact buildClosureLoop_some n (edge list) fuel fuel mat list (closureInv_entry n mat list hc)
    (fun a ha => lt_of_lt_of_le (hB a ha) (le_trans (le_max_left _ _) hfuel))
    (lt_of_lt_of_le (Nat.lt_succ_self _) (le_trans (le_max_right _ _) hfuel))

/-- C22: for every `n` and every relation on the indices below `n` given
consistently as an `n × n` bit matrix and adjacency lists, `buildClosure`
terminates (with enough fuel it returns), and whenever it returns, the matrix
is the transitive closure of the input relation: `mat[i][k]` holds if and only
if the input relation has a path of one or more edges from `i` to `k`; every
input edge is kept, and matrix and adjacency lists are consistent. -/
theorem buildClosure_transitive_closure (n : Nat) (mat : BoolMatrixTy)
    (list : AdjacencyListTy) (hc : Consistent n mat list) :
    (∃ fuel0, ∀ fuel, fuel0 ≤ fuel → ∃ r, buildClosure fuel mat list n = some r) ∧
    (∀ fuel mat1 list1, buildClosure fuel mat list n = some (mat1, list1) →
      (∀ i k, i < n → k < n →
        (matGet mat1 i k = some true ↔ Relation.TransGen (relationOf n mat) i k)) ∧
      (∀ i k, i < n → k < n → matGet mat i k = some true → matGet mat1 i k = some true) ∧
      (∀ i k, edge list i k → edge list1 i k) ∧
      Consistent n mat1 list1) := by
  refine ⟨buildClosure_some n mat list hc, fun fuel mat1 list1 h => ?_⟩
  obtain ⟨h1, -, h3⟩ := buildClosure_spec n mat list hc fuel mat1 list1 h
  have hrel := edge_eq_relationOf n mat list hc
  refine ⟨fun i k hi hk => ?_, fun i k hi hk hm => ?_, fun i k he => ?_, h1⟩
  · rw [h1.2.2.2.2 i k hi hk, h3 i k, hrel]
  · rw [h1.2.2.2.2 i k hi hk, h3 i k]
    exact Relation.TransGen.single ((hc.2.2.2.2 i k hi hk).mp hm)
  · exact (h3 i k).mpr (Relation.TransGen.single he)

theorem consistent_cycle : Consistent 3 cycleMat cycleList := by
  refine ⟨rfl, by decide, rfl, by decide, ?_⟩
  intro i k hi hk
  interval_cases i <;> interval_cases k <;> decide

/-- Witness of C22: the cycle 0 → 1 → 2 → 0 is closed to the full relation on
three indices. -/
theorem buildClosure_transitive_closure_witness :
    Consistent 3 cycleMat cycleList ∧
    buildClosure 4 cycleMat cycleList 3
      = some ([[true, true, true], [true, true, true], [true, true, true]],
              [[1, 2, 0], [2, 0, 1], [0, 1, 2]]) ∧
    Relation.TransGen (relationOf 3 cycleMat) 0 0 :=
  ⟨consistent_cycle, by decide,
   (((buildClosure_transitive_closure 3 cycleMat cycleList consistent_cycle).2 4
      [[true, true, true], [true, true, true], [true, true, true]]
      [[1, 2, 0], [2, 0, 1], [0, 1, 2]]
      (by decide)).1 0 0 (by decide) (by decide)).mp (by decide)⟩

theorem buildClosureInner_closed (i j : Nat) (ks : List Nat) (st : ClosureState)
    (h : ∀ k ∈ ks, k ≠ j → matGet st.mat i k = some true) :
    buildClosureInner i j ks st = some st := by
  induction ks with
  | nil => rfl
  | cons k rest ih =>
    have hrest := ih (fun x hx => h x (List.mem_cons_of_mem _ hx))
    by_cases hjk : j = k
    · simp only [buildClosureInner, if_pos hjk]; exact hrest
    · have hk := h k (List.mem_cons_self _ _) (fun e => hjk e.symm)
      simp only [buildClosureInner, if_neg hjk, hk]; exact hrest

/-- On a state in which no row needs a further edge, the loop over `jidx`
writes nothing; it ends if and only if the fuel exceeds the rounds left. -/
theorem buildClosureRow_closed (n : Nat) (st : ClosureState)
    (hc : Consistent n st.mat st.list) (hcl : ∀ i, i < n → RowClosed st.list i)
    (i : Nat) (hi : i < n) :
    ∀ (fuel jidx : Nat), buildClosureRow i fuel jidx st =
      if (st.list.getD i []).length - jidx < fuel then some st else none := by
  intro fuel
  induction fuel with
  | zero => intro jidx; simp [buildClosureRow]
  | succ fuel ih =>
    intro jidx
    have hrow := consistent_list_row n _ _ hc i hi
    simp only [buildClosureRow, hrow]
    cases hj : (st.list.getD i [])[jidx]? with
    | none =>
      have hlen : (st.list.getD i []).length ≤ jidx := List.getElem?_eq_none_iff.mp hj
      rw [if_pos (by omega)]
    | some j =>
      have hjlt : jidx < (st.list.getD i []).length := by
        by_contra hge
        rw [List.getElem?_eq_none_iff.mpr (not_lt.mp hge)] at hj
        cases hj
      have hcond : ((st.list.getD i []).length - (jidx + 1) < fuel) ↔
          ((st.list.getD i []).length - jidx < fuel + 1) := by omega
      by_cases hij : i = j
      · simp only [if_pos hij, ih (jidx + 1), hcond]
      · have hedge : edge st.list i j := edge_of_getElem? _ _ _ _ hj
        have hjn : j < n := (edge_lt n _ _ hc i j hedge).2
        have hrowj := consistent_list_row n _ _ hc j hjn
        have hin : buildClosureInner i j (st.list.getD j []) st = some st := by
          apply buildClosureInner_closed
          intro k hk hkj
          have hik : edge st.list i k := hcl i hi j hedge (fun e => hij e.symm) k hk hkj
          exact (hc.2.2.2.2 i k hi (edge_lt n _ _ hc i k hik).2).mpr hik
        simp only [if_neg hij, hrowj, hin, ih (jidx + 1), hcond]

theorem buildClosurePass_closed (n : Nat) (st : ClosureState)
    (hc : Consistent n st.mat st.list) (hcl : ∀ i, i < n → RowClosed st.list i)
    (rowFuel : Nat) :
    ∀ (todo : Nat), todo ≤ n →
      (buildClosurePass rowFuel n todo st = some st ∨
        buildClosurePass rowFuel n todo st = none) ∧
      ((∀ a, a < n → (st.list.getD a []).length < rowFuel) →
        buildClosurePass rowFuel n todo st = some st) := by
  intro todo
  induction todo with
  | zero => intro _; exact ⟨Or.inl rfl, fun _ => rfl⟩
  | succ todo ih =>
    intro htodo
    have hi : n - (todo + 1) < n := by omega
    obtain ⟨ih1, ih2⟩ := ih (by omega)
    simp only [buildClosurePass, buildClosureRow_closed n st hc hcl _ hi]
    constructor
    · by_cases hf : (st.list.getD (n - (todo + 1)) []).length - 0 < rowFuel
      · simp only [if_pos hf]; exact ih1
      · simp only [if_neg hf]; exact Or.inr trivial
    · intro hfuel
      have hf : (st.list.getD (n - (todo + 1)) []).length - 0 < rowFuel := by
        have := hfuel _ hi
        omega
      simp only [if_pos hf]
      exact ih2 hfuel

/-- On a matrix and lists in which no row needs a further edge,
`buildClosure` returns them as they are or runs out of fuel. -/
theorem buildClosure_closed (n : Nat) (mat : BoolMatrixTy) (list : AdjacencyListTy)
    (hc : Consistent n mat list) (hcl : ∀ i, i < n → RowClosed list i) (fuel : Nat) :
    (buildClosure fuel mat list n = some (mat, list) ∨ buildClosure fuel mat list n = none) ∧
    ((∀ a, a < n → (list.getD a []).length < fuel) → 0 < fuel →
      buildClosure fuel mat list n = some (mat, list)) := by
  unfold buildClosure
  cases hfuel : fuel with
  | zero => exact ⟨Or.inr rfl, fun _ h => absurd h (Nat.lt_irrefl _)⟩
  | succ f =>
    obtain ⟨p1, p2⟩ := buildClosurePass_closed n ⟨mat, list, false⟩ hc hcl (f + 1) n (le_refl _)
    simp only [buildClosureLoop]
    constructor
    · rcases p1 with h | h
      · simp [h]
      · simp [h]
    · intro hlen _
      simp [p2 hlen]

/-- C23: `buildClosure` is idempotent: run a second time on what it has
returned for a consistent input, it terminates (with enough fuel it returns)
and, whenever it returns, it returns the bit matrix and the adjacency lists
unchanged. -/
theorem buildClosure_idempotent (n : Nat) (mat : BoolMatrixTy) (list : AdjacencyListTy)
    (hc : Consistent n mat list) (fuel : Nat) (mat1 : BoolMatrixTy) (list1 : AdjacencyListTy)
    (h : buildClosure fuel mat list n = some (mat1, list1)) :
    (∃ fuel0, ∀ fuel2, fuel0 ≤ fuel2 → buildClosure fuel2 mat1 list1 n = some (mat1, list1)) ∧
    (∀ fuel2 r, buildClosure fuel2 mat1 list1 n = some r → r = (mat1, list1)) := by
  obtain ⟨h1, h2, -⟩ := buildClosure_spec n mat list hc fuel mat1 list1 h
  constructor
  · obtain ⟨B, hB⟩ := exists_bound n (fun a => (list1.getD a []).length)
    refine ⟨max B 1, fun fuel2 hf => ?_⟩
    exact (buildClosure_closed n mat1 list1 h1 h2 fuel2).2
      (fun a ha => lt_of_lt_of_le (hB a ha) (le_trans (le_max_left _ _) hf))
      (lt_of_lt_of_le Nat.zero_lt_one (le_trans (le_max_right _ _) hf))
  · intro fuel2 r hr
    rcases (buildClosure_closed n mat1 list1 h1 h2 fuel2).1 with e | e
    · rw [e] at hr
      exact (Option.some.inj hr).symm
    · rw [e] at hr
      cases hr

/-- Witness of C23 on the cycle 0 → 1 → 2 → 0: the input is consistent, the
first run returns the full relation, and a second run returns it unchanged. -/
theorem buildClosure_idempotent_witness :
    Consistent 3 cycleMat cycleList ∧
    buildClosure 4 cycleMat cycleList 3
      = some ([[true, true, true], [true, true, true], [true, true, true]],
              [[1, 2, 0], [2, 0, 1], [0, 1, 2]]) ∧
    (∃ fuel0, ∀ fuel2, fuel0 ≤ fuel2 →
      buildClosure fuel2 [[true, true, true], [true, true, true], [true, true, true]]
          [[1, 2, 0], [2, 0, 1], [0, 1, 2]] 3
        = some ([[true, true, true], [true, true, true], [true, true, true]],
                [[1, 2, 0], [2, 0, 1], [0, 1, 2]])) :=
  ⟨consistent_cycle, by decide,
   (buildClosure_idempotent 3 cycleMat cycleList consistent_cycle 4
      [[true, true, true], [true, true, true], [true, true, true]]
      [[1, 2, 0], [2, 0, 1], [0, 1, 2]] (by decide)).1⟩

/-! ### The call graph of the module -/

theorem vectorResize_length {α : Type} (v : List α) (n : Nat) (d : α) :
    (vectorResize v n d).length = n := by
  simp only [vectorResize, List.length_take, List.length_append, List.length_replicate]
  omega

theorem vectorResize_getElem? {α : Type} (v : List α) (n : Nat) (d : α) (a : Nat)
    (hv : v.length ≤ n) :
    (vectorResize v n d)[a]? = if a < v.length then v[a]? else if a < n then some d else none := by
  have htake : vectorResize v n d = v ++ List.replicate (n - v.length) d := by
    unfold vectorResize
    apply List.take_of_length_le
    simp only [List.length_append, List.length_replicate]
    omega
  rw [htake]
  by_cases h1 : a < v.length
  · rw [if_pos h1, List.getElem?_append_left h1]
  · rw [if_neg h1, List.getElem?_append_right (not_lt.mp h1)]
    by_cases h2 : a < n
    · rw [if_pos h2, List.getElem?_replicate, if_pos (by omega)]
    · rw [if_neg h2, List.getElem?_replicate, if_neg (by omega)]

theorem matGet_lt (mat : BoolMatrixTy) (i k : Nat) (b : Bool) (h : matGet mat i k = some b) :
    i < mat.length := by
  by_contra hge
  simp [matGet, List.getElem?_eq_none (not_lt.mp hge)] at h

theorem matGet_of_row (mat : BoolMatrixTy) (row : List Bool) (i k : Nat)
    (h : mat[i]? = some row) : matGet mat i k = row[k]? := by
  simp [matGet, h]

theorem matGet_of_none (mat : BoolMatrixTy) (i k : Nat)
    (h : mat[i]? = none) : matGet mat i k = none := by
  simp [matGet, h]

/-- Both `resize` functions keep the relation and make room for `m` indices. -/
theorem consistent_resize (n m : Nat) (mat : BoolMatrixTy) (list : AdjacencyListTy)
    (hc : Consistent n mat list) (hnm : n ≤ m) :
    Consistent m (resizeMatrix mat m) (resizeList list m) ∧
    (∀ i k, edge (resizeList list m) i k ↔ edge list i k) := by
  obtain ⟨h1, h2, h3, h4, h5⟩ := hc
  have hlist : ∀ a, (resizeList list m).getD a [] = list.getD a [] := by
    intro a
    simp only [resizeList, List.getD_eq_getElem?_getD,
      vectorResize_getElem? list m [] a (by omega)]
    by_cases ha : a < list.length
    · rw [if_pos ha]
    · rw [if_neg ha, List.getElem?_eq_none (not_lt.mp ha)]
      by_cases ha2 : a < m
      · rw [if_pos ha2]; rfl
      · rw [if_neg ha2]
  have hedge : ∀ i k, edge (resizeList list m) i k ↔ edge list i k := by
    intro i k; unfold edge; rw [hlist]
  refine ⟨?_, hedge⟩
  by_cases hle : m ≤ mat.length
  · have hmn : m = n := by omega
    subst hmn
    have hl : resizeList list m = list := by
      unfold resizeList vectorResize
      rw [h3, Nat.sub_self]
      simp only [List.replicate_zero, List.append_nil]
      exact List.take_of_length_le (by omega)
    rw [hl]
    simp only [resizeMatrix, if_pos hle]
    exact ⟨h1, h2, h3, h4, h5⟩
  · simp only [resizeMatrix, if_neg hle]
    have hget : ∀ a b, matGet ((vectorResize mat m []).map (fun row => vectorResize row m false))
        a b = if a < n ∧ b < n then matGet mat a b
              else if a < m ∧ b < m then some false else none := by
      intro a b
      have hmap : ((vectorResize mat m []).map (fun row => vectorResize row m false))[a]? =
          ((vectorResize mat m [])[a]?).map (fun row => vectorResize row m false) :=
        List.getElem?_map _ _ _
      have hres := vectorResize_getElem? mat m [] a (by omega)
      rw [h1] at hres
      by_cases ha : a < n
      · have ha2 : a < mat.length := by omega
        have hrow : (mat[a]).length = n := h2 _ (List.getElem_mem ha2)
        rw [if_pos ha, List.getElem?_eq_getElem ha2] at hres
        have hb1 := vectorResize_getElem? (mat[a]) m false b (by omega)
        rw [hrow] at hb1
        rw [hres] at hmap
        rw [matGet_of_row _ _ a b hmap, hb1,
          matGet_of_row mat _ a b (List.getElem?_eq_getElem ha2)]
        by_cases hb : b < n
        · rw [if_pos hb, if_pos ⟨ha, hb⟩]
        · rw [if_neg hb, if_neg (fun (h : a < n ∧ b < n) => hb h.2)]
          by_cases hb2 : b < m
          · rw [if_pos hb2, if_pos ⟨by omega, hb2⟩]
          · rw [if_neg hb2, if_neg (fun (h : a < m ∧ b < m) => hb2 h.2)]
      · rw [if_neg ha] at hres
        rw [if_neg (fun (h : a < n ∧ b < n) => ha h.1)]
        by_cases ha2 : a < m
        · rw [if_pos ha2] at hres
          have hb1 := vectorResize_getElem? ([] : List Bool) m false b (by simp)
          simp only [List.length_nil, Nat.not_lt_zero, if_false] at hb1
          rw [hres] at hmap
          rw [matGet_of_row _ _ a b hmap, hb1]
          by_cases hb2 : b < m
          · rw [if_pos hb2, if_pos ⟨ha2, hb2⟩]
          · rw [if_neg hb2, if_neg (fun (h : a < m ∧ b < m) => hb2 h.2)]
        · rw [if_neg ha2] at hres
          rw [hres] at hmap
          rw [matGet_of_none _ a b hmap, if_neg (fun (h : a < m ∧ b < m) => ha2 h.1)]
    refine ⟨?_, ?_, ?_, ?_, ?_⟩
    · simp [vectorResize_length]
    · intro row hrow
      simp only [List.mem_map] at hrow
      obtain ⟨r, -, rfl⟩ := hrow
      exact vectorResize_length _ _ _
    · exact vectorResize_length _ _ _
    · intro row hrow k hk
      obtain ⟨a, ha⟩ := List.getElem?_of_mem hrow
      have hrow2 : row = (resizeList list m).getD a [] := by
        rw [List.getD_eq_getElem?_getD, ha]; rfl
      rw [hrow2, hlist] at hk
      have : edge list a k := hk
      have hlt : a < n ∧ k < n := by
        unfold edge at this
        by_cases hal : a < list.length
        · rw [List.getD_eq_getElem _ _ hal] at this
          exact ⟨h3 ▸ hal, h4 _ (List.getElem_mem hal) k this⟩
        · rw [List.getD_eq_default _ _ (not_lt.mp hal)] at this
          cases this
      omega
    · intro i k hi hk
      rw [hget, hedge]
      by_cases hik : i < n ∧ k < n
      · rw [if_pos hik]; exact h5 i k hik.1 hik.2
      · rw [if_neg hik, if_pos ⟨hi, hk⟩]
        constructor
        · intro h; cases h
        · intro h
          exfalso
          apply hik
          unfold edge at h
          by_cases hal : i < list.length
          · rw [List.getD_eq_getElem _ _ hal] at h
            exact ⟨h3 ▸ hal, h4 _ (List.getElem_mem hal) k h⟩
          · rw [List.getD_eq_default _ _ (not_lt.mp hal)] at h
            cases h

/-- One execution of `mat[i][k] = true; list[i].push_back(k)`. -/
theorem record_update (n : Nat) (mat : BoolMatrixTy) (list : AdjacencyListTy) (i k : Nat)
    (hc : Consistent n mat list) (hi : i < n) (hk : k < n) :
    ∃ m l, matSetTrue mat i k = some m ∧ pushBack list i k = some l ∧ Consistent n m l ∧
      (∀ a b, edge l a b ↔ edge list a b ∨ (a = i ∧ b = k)) := by
  obtain ⟨row, hrow, hlen⟩ := consistent_row n _ _ hc i hi
  obtain ⟨h1, h2, h3, h4, h5⟩ := hc
  have hk2 : k < row.length := by rw [hlen]; exact hk
  have hil : i < list.length := by rw [h3]; exact hi
  have hget : ∀ a b, matGet (mat.set i (row.set k true)) a b =
      if a = i ∧ b = k then some true else matGet mat a b :=
    fun a b => matGet_set mat row i k a b hrow hk2
  have hedge : ∀ a b, edge (list.set i (list.getD i [] ++ [k])) a b ↔
      edge list a b ∨ (a = i ∧ b = k) := by
    intro a b
    unfold edge
    rw [getD_set_rows _ _ _ _ hil]
    by_cases ha : a = i
    · subst ha; simp
    · simp [ha]
  refine ⟨_, _, matSetTrue_eq _ _ _ _ hrow hk2, pushBack_eq _ _ _ hil, ⟨?_, ?_, ?_, ?_, ?_⟩, hedge⟩
  · simp [h1]
  · intro r hr
    rcases List.mem_or_eq_of_mem_set hr with h | h
    · exact h2 r h
    · rw [h, List.length_set]; exact hlen
  · simp [h3]
  · intro r hr x hx
    rcases List.mem_or_eq_of_mem_set hr with h | h
    · exact h4 r h x hx
    · rw [h, List.mem_append] at hx
      rcases hx with hx | hx
      · rw [List.getD_eq_getElem _ _ hil] at hx
        exact h4 _ (List.getElem_mem hil) x hx
      · simp only [List.mem_singleton] at hx
        rw [hx]; exact hk
  · intro a b ha hb
    rw [hget, hedge]
    by_cases hab : a = i ∧ b = k
    · simp [hab]
    · rw [if_neg hab, h5 a b ha hb]
      simp [hab]

/-- The edges from signature `i` to the elements of `called` are recorded. -/
theorem recordRow_spec (n i : Nat) (hi : i < n) :
    ∀ (cfs : List Nat) (mat : BoolMatrixTy) (list : AdjacencyListTy),
      Consistent n mat list → (∀ cf ∈ cfs, cf < n) →
      ∃ m l, recordRow i cfs mat list = some (m, l) ∧ Consistent n m l ∧
        (∀ a b, edge l a b ↔ edge list a b ∨ (a = i ∧ b ∈ cfs)) := by
  intro cfs
  induction cfs with
  | nil => intro mat list hc _; exact ⟨mat, list, rfl, hc, by simp⟩
  | cons cf rest ih =>
    intro mat list hc hcfs
    obtain ⟨m, l, hm, hl, hc1, he1⟩ :=
      record_update n mat list i cf hc hi (hcfs cf (List.mem_cons_self _ _))
    obtain ⟨m2, l2, h2, hc2, he2⟩ := ih m l hc1 (fun x hx => hcfs x (List.mem_cons_of_mem _ hx))
    refine ⟨m2, l2, by simp only [recordRow, hm, hl]; exact h2, hc2, ?_⟩
    intro a b
    rw [he2, he1, List.mem_cons]
    constructor
    · rintro ((h | ⟨h1, h2⟩) | ⟨h1, h2⟩)
      · exact Or.inl h
      · exact Or.inr ⟨h1, Or.inl h2⟩
      · exact Or.inr ⟨h1, Or.inr h2⟩
    · rintro (h | ⟨h1, h2 | h2⟩)
      · exact Or.inl (Or.inl h)
      · exact Or.inl (Or.inr ⟨h1, h2⟩)
      · exact Or.inr ⟨h1, h2⟩

theorem consistent_init (n : Nat) :
    Consistent n (List.replicate n (List.replicate n false)) (List.replicate n []) := by
  refine ⟨by simp, ?_, by simp, ?_, ?_⟩
  · intro row hrow
    rw [(List.mem_replicate.mp hrow).2]
    simp
  · intro row hrow k hk
    rw [(List.mem_replicate.mp hrow).2] at hk
    cases hk
  · intro i k hi hk
    have h1 : (List.replicate n (List.replicate n false))[i]? = some (List.replicate n false) := by
      rw [List.getElem?_replicate, if_pos hi]
    have h2 : (List.replicate n ([] : AdjacencyListRow)).getD i [] = [] := by
      rw [List.getD_eq_getElem?_getD, List.getElem?_replicate, if_pos hi]; rfl
    rw [matGet_of_row _ _ i k h1, List.getElem?_replicate, if_pos hk]
    unfold edge
    rw [h2]
    simp

theorem mem_setInsert (set : List Nat) (x y : Nat) :
    y ∈ setInsert set x ↔ y ∈ set ∨ y = x := by
  unfold setInsert
  by_cases h : x ∈ set
  · rw [if_pos h]
    constructor
    · exact Or.inl
    · rintro (h1 | rfl)
      · exact h1
      · exact h
  · rw [if_neg h]; simp

/-- The first loop of `computeCalledAllocators`, whatever the fuel: the call
graph it returns fits the module state it returns. -/
theorem recordEdges_spec {σ : Type} (ops : CalledModuleOps σ) (N : Nat)
    (hops : ops.Interning N) :
    ∀ (fuel i : Nat) (s : σ) (cg : CallGraph) (r : σ × CallGraph),
      cg.WellFormed ops s → recordEdges ops fuel i s cg = some r → r.2.WellFormed ops r.1 := by
  intro fuel
  induction fuel with
  | zero => intro i s cg r _ h; simp [recordEdges] at h
  | succ fuel ih =>
    intro i s cg r hwf h
    simp only [recordEdges] at h
    by_cases hi : i < ops.getNumberOfCalledFunctions s
    · rw [if_pos hi] at h
      by_cases hb : ops.hasAllocatingBody s i = true
      · simp only [hb, Bool.not_true, Bool.false_eq_true, if_false] at h
        obtain ⟨hn, hc, hw⟩ := hwf
        have hmono := hops.2.1 s i
        have hle : cg.nfuncs ≤ ops.getNumberOfCalledFunctions
            (ops.getCalledAndWrappedFunctions s i).1 := by rw [hn]; exact hmono
        obtain ⟨hc1, -⟩ := consistent_resize _ _ _ _ hc hle
        obtain ⟨hw1, -⟩ := consistent_resize _ _ _ _ hw hle
        have hi2 : i < ops.getNumberOfCalledFunctions (ops.getCalledAndWrappedFunctions s i).1 :=
          lt_of_lt_of_le hi hmono
        obtain ⟨cm, cl, ec, hc2, -⟩ := recordRow_spec _ i hi2 _ _ _ hc1 (hops.2.2.1 s i)
        obtain ⟨wm, wl, ew, hw2, -⟩ := recordRow_spec _ i hi2 _ _ _ hw1 (hops.2.2.2 s i)
        simp only [ec, ew] at h
        exact ih _ _ _ r ⟨rfl, hc2, hw2⟩ h
      · simp only [hb, Bool.not_false, if_true] at h
        exact ih _ _ _ r hwf h
    · rw [if_neg hi] at h
      simp only [Option.some.injEq] at h
      subst h
      exact hwf

/-- The first loop of `computeCalledAllocators` ends when the fuel exceeds
the number of signatures that can be interned. -/
theorem recordEdges_some {σ : Type} (ops : CalledModuleOps σ) (N : Nat)
    (hops : ops.Interning N) :
    ∀ (fuel i : Nat) (s : σ) (cg : CallGraph),
      cg.WellFormed ops s → N - i < fuel → ∃ r, recordEdges ops fuel i s cg = some r := by
  intro fuel
  induction fuel with
  | zero => intro i s cg _ h; omega
  | succ fuel ih =>
    intro i s cg hwf hfuel
    simp only [recordEdges]
    by_cases hi : i < ops.getNumberOfCalledFunctions s
    · rw [if_pos hi]
      have hN := hops.1 s
      by_cases hb : ops.hasAllocatingBody s i = true
      · simp only [hb, Bool.not_true, Bool.false_eq_true, if_false]
        obtain ⟨hn, hc, hw⟩ := hwf
        have hmono := hops.2.1 s i
        have hle : cg.nfuncs ≤ ops.getNumberOfCalledFunctions
            (ops.getCalledAndWrappedFunctions s i).1 := by rw [hn]; exact hmono
        obtain ⟨hc1, -⟩ := consistent_resize _ _ _ _ hc hle
        obtain ⟨hw1, -⟩ := consistent_resize _ _ _ _ hw hle
        have hi2 : i < ops.getNumberOfCalledFunctions (ops.getCalledAndWrappedFunctions s i).1 :=
          lt_of_lt_of_le hi hmono
        obtain ⟨cm, cl, ec, hc2, -⟩ := recordRow_spec _ i hi2 _ _ _ hc1 (hops.2.2.1 s i)
        obtain ⟨wm, wl, ew, hw2, -⟩ := recordRow_spec _ i hi2 _ _ _ hw1 (hops.2.2.2 s i)
        simp only [ec, ew]
        exact ih _ _ _ ⟨rfl, hc2, hw2⟩ (by omega)
      · simp only [hb, Bool.not_false, if_true]
        exact ih _ _ _ hwf (by omega)
    · rw [if_neg hi]
      exact ⟨_, rfl⟩

theorem recordEdges_mono {σ : Type} (ops : CalledModuleOps σ) :
    ∀ (fuel fuel2 i : Nat) (s : σ) (cg : CallGraph) (r : σ × CallGraph),
      fuel ≤ fuel2 → recordEdges ops fuel i s cg = some r →
      recordEdges ops fuel2 i s cg = some r := by
  intro fuel
  induction fuel with
  | zero => intro fuel2 i s cg r _ h; simp [recordEdges] at h
  | succ fuel ih =>
    intro fuel2 i s cg r hle h
    obtain ⟨f2, rfl⟩ : ∃ f2, fuel2 = f2 + 1 := ⟨fuel2 - 1, by omega⟩
    simp only [recordEdges] at h ⊢
    by_cases hi : i < ops.getNumberOfCalledFunctions s
    · rw [if_pos hi] at h ⊢
      by_cases hb : ops.hasAllocatingBody s i = true
      · simp only [hb, Bool.not_true, Bool.false_eq_true, if_false] at h ⊢
        cases ec : recordRow i (ops.getCalledAndWrappedFunctions s i).2.1
            (resizeMatrix cg.callsMat
              (ops.getNumberOfCalledFunctions (ops.getCalledAndWrappedFunctions s i).1))
            (resizeList cg.callsList
              (ops.getNumberOfCalledFunctions (ops.getCalledAndWrappedFunctions s i).1)) with
        | none => simp [ec] at h
        | some c =>
          cases ew : recordRow i (ops.getCalledAndWrappedFunctions s i).2.2
              (resizeMatrix cg.wrapsMat
                (ops.getNumberOfCalledFunctions (ops.getCalledAndWrappedFunctions s i).1))
              (resizeList cg.wrapsList
                (ops.getNumberOfCalledFunctions (ops.getCalledAndWrappedFunctions s i).1)) with
          | none => simp [ec, ew] at h
          | some w =>
            simp only [ec, ew] at h ⊢
            exact ih _ _ _ _ r (by omega) h
      · simp only [hb, Bool.not_false, if_true] at h ⊢
        exact ih _ _ _ _ r (by omega) h
    · rw [if_neg hi] at h ⊢
      exact h

/-- The loop that fills in the results: signature `x` is put into the
allocating set when `callsMat[x][gcidx]` holds, and into the set of possible
allocators when `wrapsMat[x][gcidx]` holds and `x` is no known
non-allocator. -/
theorem fillResults_spec {σ : Type} (ops : CalledModuleOps σ) (s : σ) (cg : CallGraph)
    (hc : Consistent cg.nfuncs cg.callsMat cg.callsList)
    (hw : Consistent cg.nfuncs cg.wrapsMat cg.wrapsList) (hgc : ops.gcidx < cg.nfuncs) :
    ∀ (todo : Nat) (res : List Nat × List Nat), todo ≤ cg.nfuncs →
      ∃ res1, fillResults ops s cg todo res = some res1 ∧
        (∀ x, x ∈ res1.1 ↔ x ∈ res.1 ∨
          (cg.nfuncs - todo ≤ x ∧ x < cg.nfuncs ∧ matGet cg.callsMat x ops.gcidx = some true)) ∧
        (∀ x, x ∈ res1.2 ↔ x ∈ res.2 ∨
          (cg.nfuncs - todo ≤ x ∧ x < cg.nfuncs ∧ matGet cg.wrapsMat x ops.gcidx = some true ∧
            ops.isKnownNonAllocator s x = false)) := by
  intro todo
  induction todo with
  | zero =>
    intro res _
    refine ⟨res, rfl, fun x => ?_, fun x => ?_⟩
    · constructor
      · exact Or.inl
      · rintro (h | ⟨h1, h2, -⟩)
        · exact h
        · omega
    · constructor
      · exact Or.inl
      · rintro (h | ⟨h1, h2, -⟩)
        · exact h
        · omega
  | succ todo ih =>
    intro res htodo
    have hi : cg.nfuncs - (todo + 1) < cg.nfuncs := by omega
    obtain ⟨c, hcg⟩ := matGet_some _ _ _ hc _ _ hi hgc
    obtain ⟨w, hwg⟩ := matGet_some _ _ _ hw _ _ hi hgc
    simp only [fillResults, hcg, hwg]
    obtain ⟨res1, h1, h2, h3⟩ := ih
      (if c = true then setInsert res.1 (cg.nfuncs - (todo + 1)) else res.1,
       if w = true then
         (if (!ops.isKnownNonAllocator s (cg.nfuncs - (todo + 1))) = true then
            setInsert res.2 (cg.nfuncs - (todo + 1)) else res.2)
       else res.2) (by omega)
    refine ⟨res1, h1, fun x => ?_, fun x => ?_⟩
    · rw [h2]
      have hsplit : cg.nfuncs - (todo + 1) ≤ x ↔ x = cg.nfuncs - (todo + 1) ∨ cg.nfuncs - todo ≤ x := by
        omega
      cases c with
      | true =>
        simp only [if_true, mem_setInsert]
        constructor
        · rintro ((h | h) | ⟨h4, h5, h6⟩)
          · exact Or.inl h
          · exact Or.inr ⟨by omega, by omega, by rw [h]; exact hcg⟩
          · exact Or.inr ⟨by omega, h5, h6⟩
        · rintro (h | ⟨h4, h5, h6⟩)
          · exact Or.inl (Or.inl h)
          · rcases hsplit.mp h4 with h7 | h7
            · exact Or.inl (Or.inr h7)
            · exact Or.inr ⟨h7, h5, h6⟩
      | false =>
        simp only [Bool.false_eq_true, if_false]
        constructor
        · rintro (h | ⟨h4, h5, h6⟩)
          · exact Or.inl h
          · exact Or.inr ⟨by omega, h5, h6⟩
        · rintro (h | ⟨h4, h5, h6⟩)
          · exact Or.inl h
          · rcases hsplit.mp h4 with h7 | h7
            · rw [h7, hcg] at h6; cases h6
            · exact Or.inr ⟨h7, h5, h6⟩
    · rw [h3]
      have hsplit : cg.nfuncs - (todo + 1) ≤ x ↔ x = cg.nfuncs - (todo + 1) ∨ cg.nfuncs - todo ≤ x := by
        omega
      by_cases hcond : w = true ∧ ops.isKnownNonAllocator s (cg.nfuncs - (todo + 1)) = false
      · obtain ⟨hw1, hk1⟩ := hcond
        subst hw1
        simp only [if_true, hk1, Bool.not_false, mem_setInsert]
        constructor
        · rintro ((h | h) | ⟨h4, h5, h6⟩)
          · exact Or.inl h
          · exact Or.inr ⟨by omega, by omega, by rw [h]; exact ⟨hwg, hk1⟩⟩
          · exact Or.inr ⟨by omega, h5, h6⟩
        · rintro (h | ⟨h4, h5, h6⟩)
          · exact Or.inl (Or.inl h)
          · rcases hsplit.mp h4 with h7 | h7
            · exact Or.inl (Or.inr h7)
            · exact Or.inr ⟨h7, h5, h6⟩
      · have hres : (if w = true then
            (if (!ops.isKnownNonAllocator s (cg.nfuncs - (todo + 1))) = true then
              setInsert res.2 (cg.nfuncs - (todo + 1)) else res.2)
            else res.2) = res.2 := by
          cases w with
          | false => simp
          | true =>
            cases hk : ops.isKnownNonAllocator s (cg.nfuncs - (todo + 1)) with
            | false => exact absurd ⟨rfl, hk⟩ hcond
            | true => simp
        rw [hres]
        constructor
        · rintro (h | ⟨h4, h5, h6⟩)
          · exact Or.inl h
          · exact Or.inr ⟨by omega, h5, h6⟩
        · rintro (h | ⟨h4, h5, h6, h8⟩)
          · exact Or.inl h
          · rcases hsplit.mp h4 with h7 | h7
            · exfalso
              apply hcond
              rw [h7, hwg] at h6
              rw [h7] at h8
              exact ⟨Option.some.inj h6, h8⟩
            · exact Or.inr ⟨h7, h5, h6, h8⟩

theorem recordEdges_count {σ : Type} (ops : CalledModuleOps σ) (N : Nat)
    (hops : ops.Interning N) :
    ∀ (fuel i : Nat) (s : σ) (cg : CallGraph) (r : σ × CallGraph),
      recordEdges ops fuel i s cg = some r →
      ops.getNumberOfCalledFunctions s ≤ ops.getNumberOfCalledFunctions r.1 := by
  intro fuel
  induction fuel with
  | zero => intro i s cg r h; simp [recordEdges] at h
  | succ fuel ih =>
    intro i s cg r h
    simp only [recordEdges] at h
    by_cases hi : i < ops.getNumberOfCalledFunctions s
    · rw [if_pos hi] at h
      by_cases hb : ops.hasAllocatingBody s i = true
      · simp only [hb, Bool.not_true, Bool.false_eq_true, if_false] at h
        split at h
        · exact le_trans (hops.2.1 s i) (ih _ _ _ r h)
        · cases h
      · simp only [hb, Bool.not_false, if_true] at h
        exact ih _ _ _ r h
    · rw [if_neg hi] at h
      simp only [Option.some.injEq] at h
      subst h
      exact le_refl _

theorem transGen_relationOf_lt (n : Nat) (mat : BoolMatrixTy) (a b : Nat)
    (h : Relation.TransGen (relationOf n mat) a b) : a < n := by
  induction h with
  | single h1 => exact h1.1
  | tail _ _ ih => exact ih

theorem not_transGen_of_no_edge (R : Nat → Nat → Prop) (a b : Nat) (h : ∀ k, ¬ R a k) :
    ¬ Relation.TransGen R a b := by
  intro ht
  induction ht with
  | single h1 => exact h _ h1
  | tail _ _ ih => exact ih

/-- What `computeCalledAllocators` returns, whatever the fuel. -/
theorem computeCalledAllocators_spec {σ : Type} (ops : CalledModuleOps σ) (N : Nat) (s : σ)
    (hops : ops.Interning N) (hgc : ops.gcidx < ops.getNumberOfCalledFunctions s)
    (fuel : Nat) (res : List Nat × List Nat)
    (h : computeCalledAllocators ops fuel s = some res) :
    ∃ s1 cg,
      recordEdges ops fuel 0 s (CallGraph.init (ops.getNumberOfCalledFunctions s))
        = some (s1, cg) ∧
      (∀ x, x ∈ res.1 ↔ x = ops.gcidx ∨
        Relation.TransGen (relationOf cg.nfuncs cg.callsMat) x ops.gcidx) ∧
      (∀ x, x ∈ res.2 ↔ x = ops.gcidx ∨
        (Relation.TransGen (relationOf cg.nfuncs cg.wrapsMat) x ops.gcidx ∧
          ops.isKnownNonAllocator s1 x = false)) := by
  unfold computeCalledAllocators at h
  cases hr : recordEdges ops fuel 0 s (CallGraph.init (ops.getNumberOfCalledFunctions s)) with
  | none => simp [hr] at h
  | some r =>
    obtain ⟨s1, cg⟩ := r
    simp only [hr] at h
    have hwf0 : (CallGraph.init (ops.getNumberOfCalledFunctions s)).WellFormed ops s :=
      ⟨rfl, consistent_init _, consistent_init _⟩
    obtain ⟨hn, hc, hw⟩ := recordEdges_spec ops N hops fuel 0 s _ _ hwf0 hr
    have hcount := recordEdges_count ops N hops fuel 0 s _ _ hr
    simp only at hn hc hw hcount
    have hgc1 : ops.gcidx < cg.nfuncs := by omega
    cases hbc : buildClosure fuel cg.callsMat cg.callsList cg.nfuncs with
    | none => simp [hbc] at h
    | some c =>
      cases hbw : buildClosure fuel cg.wrapsMat cg.wrapsList cg.nfuncs with
      | none => simp [hbc, hbw] at h
      | some w =>
        simp only [hbc, hbw] at h
        obtain ⟨c1, c2, -, c4⟩ :=
          (buildClosure_transitive_closure _ _ _ hc).2 fuel c.1 c.2 hbc
        obtain ⟨w1, w2, -, w4⟩ :=
          (buildClosure_transitive_closure _ _ _ hw).2 fuel w.1 w.2 hbw
        obtain ⟨res1, hf, hf1, hf2⟩ :=
          fillResults_spec ops s1 ⟨cg.nfuncs, c.1, c.2, w.1, w.2⟩ c4 w4 hgc1 cg.nfuncs ([], [])
            (le_refl _)
        simp only [hf, Option.some.injEq] at h
        subst h
        refine ⟨s1, cg, rfl, fun x => ?_, fun x => ?_⟩
        · simp only [mem_setInsert, hf1, List.not_mem_nil, false_or, Nat.sub_self, Nat.zero_le,
            true_and]
          constructor
          · rintro (⟨hx, hm⟩ | hx)
            · exact Or.inr ((c1 x _ hx hgc1).mp hm)
            · exact Or.inl hx
          · rintro (hx | ht)
            · exact Or.inr hx
            · have hx := transGen_relationOf_lt _ _ _ _ ht
              exact Or.inl ⟨hx, (c1 x _ hx hgc1).mpr ht⟩
        · simp only [mem_setInsert, hf2, List.not_mem_nil, false_or, Nat.sub_self, Nat.zero_le,
            true_and]
          constructor
          · rintro (⟨hx, hm, hk⟩ | hx)
            · exact Or.inr ⟨(w1 x _ hx hgc1).mp hm, hk⟩
            · exact Or.inl hx
          · rintro (hx | ⟨ht, hk⟩)
            · exact Or.inr hx
            · have hx := transGen_relationOf_lt _ _ _ _ ht
              exact Or.inl ⟨hx, (w1 x _ hx hgc1).mpr ht, hk⟩

/-- With enough fuel `computeCalledAllocators` returns. -/
theorem computeCalledAllocators_some {σ : Type} (ops : CalledModuleOps σ) (N : Nat) (s : σ)
    (hops : ops.Interning N) (hgc : ops.gcidx < ops.getNumberOfCalledFunctions s) :
    ∃ fuel0, ∀ fuel, fuel0 ≤ fuel → ∃ res, computeCalledAllocators ops fuel s = some res := by
  have hwf0 : (CallGraph.init (ops.getNumberOfCalledFunctions s)).WellFormed ops s :=
    ⟨rfl, consistent_init _, consistent_init _⟩
  obtain ⟨⟨s1, cg⟩, hr⟩ := recordEdges_some ops N hops (N + 1) 0 s _ hwf0 (by omega)
  obtain ⟨hn, hc, hw⟩ := recordEdges_spec ops N hops (N + 1) 0 s _ _ hwf0 hr
  have hcount := recordEdges_count ops N hops (N + 1) 0 s _ _ hr
  simp only at hn hc hw hcount
  have hgc1 : ops.gcidx < cg.nfuncs := by omega
  obtain ⟨f2, hf2⟩ := (buildClosure_transitive_closure _ _ _ hc).1
  obtain ⟨f3, hf3⟩ := (buildClosure_transitive_closure _ _ _ hw).1
  refine ⟨max (N + 1) (max f2 f3), fun fuel hfuel => ?_⟩
  have h1 : N + 1 ≤ fuel := le_trans (le_max_left _ _) hfuel
  have h2 : f2 ≤ fuel := le_trans (le_trans (le_max_left _ _) (le_max_right _ _)) hfuel
  have h3 : f3 ≤ fuel := le_trans (le_trans (le_max_right _ _) (le_max_right _ _)) hfuel
  obtain ⟨c, hbc⟩ := hf2 fuel h2
  obtain ⟨w, hbw⟩ := hf3 fuel h3
  obtain ⟨-, -, -, c4⟩ := (buildClosure_transitive_closure _ _ _ hc).2 fuel c.1 c.2 hbc
  obtain ⟨-, -, -, w4⟩ := (buildClosure_transitive_closure _ _ _ hw).2 fuel w.1 w.2 hbw
  obtain ⟨res1, hf, -, -⟩ :=
    fillResults_spec ops s1 ⟨cg.nfuncs, c.1, c.2, w.1, w.2⟩ c4 w4 hgc1 cg.nfuncs ([], [])
      (le_refl _)
  refine ⟨(setInsert res1.1 ops.gcidx, setInsert res1.2 ops.gcidx), ?_⟩
  unfold computeCalledAllocators
  simp only [recordEdges_mono ops (N + 1) fuel 0 s _ _ h1 hr, hbc, hbw, hf]

theorem fourSignatures_interning (deny : List Nat) : (fourSignatures deny).Interning 4 := by
  refine ⟨fun _ => le_refl _, fun _ _ => le_refl _, fun _ i j hj => ?_, fun _ i j hj => ?_⟩
  · simp only [fourSignatures] at hj ⊢
    split_ifs at hj <;> simp_all
  · simp only [fourSignatures] at hj ⊢
    split_ifs at hj <;> simp_all

/-- C24 as stated fails in its two examples.  In `fourSignatures [2]` the
function `f` (2) has a wraps edge and a calls edge to `g` (1), which reaches
the GC signature 0 in both relations, but `f` is a known non-allocator: it is
in the allocating set and not in the set of possible allocators.  In
`gcCallsBack` the GC signature 0 has only a calls edge, to `g` (1), and no
wraps edge, and it is in the set of possible allocators. -/
theorem called_allocators_counterexample :
    (computeCalledAllocators (fourSignatures [2]) 5 () = some ([1, 2, 3, 0], [1, 0]) ∧
      recordEdges (fourSignatures [2]) 5 0 () (CallGraph.init 4) = some ((),
        ⟨4, [[false, false, false, false], [true, false, false, false],
             [false, true, false, false], [false, true, false, false]],
            [[], [0], [1], [1]],
            [[false, false, false, false], [true, false, false, false],
             [false, true, false, false], [false, false, false, false]],
            [[], [0], [1], []]⟩) ∧
      (fourSignatures [2]).isKnownNonAllocator () 2 = true ∧
      2 ∈ [1, 2, 3, 0] ∧ 2 ∉ [1, 0]) ∧
    (computeCalledAllocators gcCallsBack 5 () = some ([0, 1], [1, 0]) ∧
      recordEdges gcCallsBack 5 0 () (CallGraph.init 2) = some ((),
        ⟨2, [[false, true], [true, false]], [[1], [0]],
            [[false, false], [true, false]], [[], [0]]⟩) ∧
      gcCallsBack.gcidx = 0 ∧ 0 ∈ [1, 0]) := by
  decide

/-- C24 amended: `computeCalledAllocators` terminates (with enough fuel it
returns), and whenever it returns, a signature is in the allocating set if and
only if it is the GC signature or reaches the GC signature in the transitive
closure of the recorded calls edges, and it is in the set of possible
allocators if and only if it is the GC signature or reaches the GC signature
in the transitive closure of the recorded wraps edges and is no known
non-allocator.  Hence a function `f` that is no known non-allocator and has a
wraps edge and a calls edge to `g`, where `g` reaches the GC signature in both
relations, is in both sets, while a signature `h` other than the GC signature
with a calls edge to `g` and no wraps edge is in the allocating set and not in
the set of possible allocators. -/
theorem called_allocators_sets {σ : Type} (ops : CalledModuleOps σ) (N : Nat) (s : σ)
    (hops : ops.Interning N) (hgc : ops.gcidx < ops.getNumberOfCalledFunctions s) :
    (∃ fuel0, ∀ fuel, fuel0 ≤ fuel → ∃ res, computeCalledAllocators ops fuel s = some res) ∧
    (∀ fuel res, computeCalledAllocators ops fuel s = some res →
      ∃ s1 cg,
        recordEdges ops fuel 0 s (CallGraph.init (ops.getNumberOfCalledFunctions s))
          = some (s1, cg) ∧
        (∀ x, x ∈ res.1 ↔ x = ops.gcidx ∨
          Relation.TransGen (relationOf cg.nfuncs cg.callsMat) x ops.gcidx) ∧
        (∀ x, x ∈ res.2 ↔ x = ops.gcidx ∨
          (Relation.TransGen (relationOf cg.nfuncs cg.wrapsMat) x ops.gcidx ∧
            ops.isKnownNonAllocator s1 x = false)) ∧
        (∀ f g, relationOf cg.nfuncs cg.wrapsMat f g → relationOf cg.nfuncs cg.callsMat f g →
          Relation.TransGen (relationOf cg.nfuncs cg.callsMat) g ops.gcidx →
          Relation.TransGen (relationOf cg.nfuncs cg.wrapsMat) g ops.gcidx →
          ops.isKnownNonAllocator s1 f = false → f ∈ res.1 ∧ f ∈ res.2) ∧
        (∀ h g, relationOf cg.nfuncs cg.callsMat h g →
          Relation.TransGen (relationOf cg.nfuncs cg.callsMat) g ops.gcidx →
          (∀ k, ¬ relationOf cg.nfuncs cg.wrapsMat h k) → h ≠ ops.gcidx →
          h ∈ res.1 ∧ h ∉ res.2)) := by
  refine ⟨computeCalledAllocators_some ops N s hops hgc, fun fuel res h => ?_⟩
  obtain ⟨s1, cg, hr, h1, h2⟩ := computeCalledAllocators_spec ops N s hops hgc fuel res h
  refine ⟨s1, cg, hr, h1, h2, ?_, ?_⟩
  · intro f g hw hc hgc1 hgw hk
    exact ⟨(h1 f).mpr (Or.inr (Relation.TransGen.head hc hgc1)),
      (h2 f).mpr (Or.inr ⟨Relation.TransGen.head hw hgw, hk⟩)⟩
  · intro x g hc hgc1 hnow hx
    refine ⟨(h1 x).mpr (Or.inr (Relation.TransGen.head hc hgc1)), fun hmem => ?_⟩
    rcases (h2 x).mp hmem with h3 | ⟨h3, -⟩
    · exact hx h3
    · exact not_transGen_of_no_edge _ _ _ hnow h3

/-- Witness of amended C24 on `fourSignatures []`, where nothing is a known
non-allocator. -/
theorem called_allocators_sets_witness :
    (fourSignatures []).Interning 4 ∧
    (fourSignatures []).gcidx < (fourSignatures []).getNumberOfCalledFunctions () ∧
    computeCalledAllocators (fourSignatures []) 5 () = some ([1, 2, 3, 0], [1, 2, 0]) ∧
    (∃ fuel0, ∀ fuel, fuel0 ≤ fuel →
      ∃ res, computeCalledAllocators (fourSignatures []) fuel () = some res) :=
  ⟨fourSignatures_interning [], by decide, by decide,
   (called_allocators_sets (fourSignatures []) 4 () (fourSignatures_interning []) (by decide)).1⟩

/-! ### The transfers of the allocator engine -/

theorem find_erase (m : VarOriginsTy) (var v : InstId) :
    VarOriginsTy.find (VarOriginsTy.erase m var) v =
      if v = var then none else VarOriginsTy.find m v := by
  induction m with
  | nil => simp [VarOriginsTy.erase, VarOriginsTy.find]
  | cons e rest ih =>
    obtain ⟨k, o⟩ := e
    unfold VarOriginsTy.erase at ih ⊢
    by_cases hk : k = var
    · subst hk
      simp only [List.filter, ne_eq, not_true_eq_false, decide_False, VarOriginsTy.find]
      rw [ih]
      by_cases hv : v = k
      · subst hv; simp
      · have : ¬ k = v := fun h => hv h.symm
        simp [hv, this]
    · simp only [List.filter, ne_eq, hk, not_false_eq_true, decide_True, VarOriginsTy.find]
      rw [ih]
      by_cases hv : v = var
      · subst hv; simp [hk]
      · simp [hv]

theorem find_place (m : VarOriginsTy) (var v : InstId) (o : CalledFunctionsOrderedSetTy)
    (h : VarOriginsTy.find m var = none) :
    VarOriginsTy.find (VarOriginsTy.place var o m) v =
      if v = var then some o else VarOriginsTy.find m v := by
  induction m with
  | nil =>
    simp only [VarOriginsTy.place, VarOriginsTy.find]
    by_cases hv : v = var
    · subst hv; simp
    · have : ¬ var = v := fun h => hv h.symm
      simp [hv, this]
  | cons e rest ih =>
    obtain ⟨k, o2⟩ := e
    simp only [VarOriginsTy.find] at h
    by_cases hk : k = var
    · simp [hk] at h
    · rw [if_neg hk] at h
      simp only [VarOriginsTy.place]
      by_cases hlt : var < k
      · rw [if_pos hlt]
        simp only [VarOriginsTy.find]
        by_cases hv : v = var
        · subst hv; simp
        · have : ¬ var = v := fun h => hv h.symm
          simp [hv, this]
      · rw [if_neg hlt]
        simp only [VarOriginsTy.find]
        rw [ih h]
        by_cases hv : v = var
        · subst hv; simp [hk]
        · simp [hv]

theorem find_insert_erase (m : VarOriginsTy) (var v : InstId)
    (o : CalledFunctionsOrderedSetTy) :
    VarOriginsTy.find (VarOriginsTy.insert (VarOriginsTy.erase m var) var o) v =
      if v = var then some o else VarOriginsTy.find m v := by
  have h : VarOriginsTy.find (VarOriginsTy.erase m var) var = none := by
    rw [find_erase]; simp
  unfold VarOriginsTy.insert
  rw [h]
  simp only
  rw [find_place _ _ _ _ h, find_erase]
  by_cases hv : v = var
  · simp [hv]
  · simp [hv]

theorem visitInstruction_store {γ : Type} (a : AnalysisTy γ) (id : InstId) (v p : Value)
    (s : CAllocStateTy) (called : CalledFunctionsOrderedSetTy) (g : γ) :
    (visitInstruction a ⟨id, .store v p⟩ (s, called, g)).1.varOrigins =
      (handleStoreOrigins a ⟨id, .store v p⟩
        { s with
          intGuards := (a.guards.handleIntGuardsForNonTerminator g ⟨id, .store v p⟩
            s.intGuards).2,
          sexpGuards := (a.guards.handleSEXPGuardsForNonTerminator
            (a.guards.handleIntGuardsForNonTerminator g ⟨id, .store v p⟩ s.intGuards).1
            ⟨id, .store v p⟩ s.sexpGuards).2 }).1 := by
  simp only [visitInstruction]
  split
  · rfl
  · split <;> [split; skip] <;> rfl

theorem asLoad_of_find_load (F : FunctionIR) (lid : InstId) (p : Value)
    (h : F.find lid = some (.load p)) : F.asLoad (.inst lid) = some p := by
  simp [FunctionIR.asLoad, h]

theorem asAlloca_of_find_alloca (F : FunctionIR) (slot : InstId) (ty : Option Nat) (arr : Bool)
    (h : F.find slot = some (.alloca ty arr)) : F.asAlloca (.inst slot) = some slot := by
  simp [FunctionIR.asAlloca, h]

/-- C25, as far as the code has it: in a function returning SEXP, the transfer
for `store slot <- load(other_slot)`, `slot` being possibly returned, changes
the origins of no other slot, and for `slot ≠ other_slot` it leaves
`var_origins[slot]` equal to the value `var_origins[other_slot]` had before
(absent if it was absent).  For `slot = other_slot` it leaves
`var_origins[slot]` absent, whatever it was before: the entry is erased before
it is looked up. -/
theorem store_load_origins {γ : Type} (a : AnalysisTy γ) (id lid slot other : InstId)
    (ty1 ty2 : Option Nat) (arr1 arr2 : Bool) (s : CAllocStateTy)
    (called : CalledFunctionsOrderedSetTy) (g : γ)
    (htrack : a.trackOrigins = true)
    (hslot : a.F.find slot = some (.alloca ty1 arr1))
    (hother : a.F.find other = some (.alloca ty2 arr2))
    (hload : a.F.find lid = some (.load (.inst other)))
    (hret : slot ∈ a.possiblyReturnedVars) :
    (slot ≠ other →
      VarOriginsTy.find
        (visitInstruction a ⟨id, .store (.inst lid) (.inst slot)⟩ (s, called, g)).1.varOrigins slot
        = VarOriginsTy.find s.varOrigins other) ∧
    (slot = other →
      VarOriginsTy.find
        (visitInstruction a ⟨id, .store (.inst lid) (.inst slot)⟩ (s, called, g)).1.varOrigins slot
        = none) ∧
    (∀ v, v ≠ slot →
      VarOriginsTy.find
        (visitInstruction a ⟨id, .store (.inst lid) (.inst slot)⟩ (s, called, g)).1.varOrigins v
        = VarOriginsTy.find s.varOrigins v) := by
  rw [visitInstruction_store]
  simp only [handleStoreOrigins, htrack, Bool.not_true, Bool.false_eq_true, if_false,
    asAlloca_of_find_alloca _ _ _ _ hslot, hret, not_true_eq_false,
    asLoad_of_find_load _ _ _ hload, asAlloca_of_find_alloca _ _ _ _ hother, find_erase]
  by_cases hso : other = slot
  · subst hso
    simp only [if_true, ne_eq, not_true_eq_false, IsEmpty.forall_iff, forall_true_left, true_and]
    refine ⟨by rw [find_erase]; simp, fun v hv => ?_⟩
    rw [find_erase, if_neg hv]
  · rw [if_neg hso]
    have hso2 : ¬ slot = other := fun h => hso h.symm
    cases hf : VarOriginsTy.find s.varOrigins other with
    | none =>
      simp only [find_erase]
      refine ⟨fun _ => by simp, fun h => absurd h hso2, fun v hv => by simp [hv]⟩
    | some o =>
      simp only [find_insert_erase]
      refine ⟨fun _ => by simp, fun h => absurd h hso2, fun v hv => by simp [hv]⟩

/-- The failing input of C25: on `x = x` in `selfAssign`, `x` holding the
origin `allocVector()`, the entry of `x` is absent after the store; and the
analysis of `selfAssign` does not find that the function wraps
`allocVector()`, which the analysis of `copyAssign` does. -/
theorem store_load_origins_witness :
    VarOriginsTy.find [(0, [allocVectorSig])] 0 = some [allocVectorSig] ∧
    VarOriginsTy.find
      (visitInstruction (exampleAnalysis selfAssign 3000) ⟨4, .store (.inst 3) (.inst 0)⟩
        (⟨0, [], [], [], [(0, [allocVectorSig])]⟩, [], ())).1.varOrigins 0 = none ∧
    getCalledAndWrappedFunctions (exampleAnalysis selfAssign 3000) 2 ()
      = some (some ([allocVectorSig], [])) ∧
    getCalledAndWrappedFunctions (exampleAnalysis copyAssign 3000) 2 ()
      = some (some ([allocVectorSig], [allocVectorSig])) :=
  ⟨by decide,
   (store_load_origins (exampleAnalysis selfAssign 3000) 4 3 0 0 none none false false
      ⟨0, [], [], [], [(0, [allocVectorSig])]⟩ [] () rfl (by decide) (by decide) (by decide)
      (by decide)).2.1 rfl,
   by decide, by decide⟩

theorem asLoad_none_of_called (cm : CalledModuleTy) (F : FunctionIR) (v : Value)
    (sg : Option SEXPGuardsTy) (tgt : CalledFunctionTy)
    (h : cm.getCalledFunction F v sg = some tgt) : F.asLoad v = none := by
  cases v with
  | inst id =>
    simp only [CalledModuleTy.getCalledFunction] at h
    cases hf : F.find id with
    | none => simp [hf] at h
    | some op =>
      cases op <;> simp [hf] at h <;> simp [FunctionIR.asLoad, hf]
  | _ => simp [CalledModuleTy.getCalledFunction] at h

/-- C26: in a function returning SEXP, for every allocator state and every
possibly-returned slot, the transfer for `store slot <- call(...)`, the call
resolving to the signature `tgt` under the SEXP guards of the state, sets
`var_origins[slot]` to exactly `{tgt}` when the function of `tgt` is a possible
allocator and otherwise removes the entry of `slot`; the origins of every
other slot are unchanged. -/
theorem store_call_origins {γ : Type} (a : AnalysisTy γ) (id slot : InstId) (v : Value)
    (ty : Option Nat) (arr : Bool) (s : CAllocStateTy)
    (called : CalledFunctionsOrderedSetTy) (g : γ) (tgt : CalledFunctionTy)
    (htrack : a.trackOrigins = true)
    (hslot : a.F.find slot = some (.alloca ty arr))
    (hret : slot ∈ a.possiblyReturnedVars)
    (htgt : a.cm.getCalledFunction a.F v
      (some (a.guards.handleSEXPGuardsForNonTerminator
        (a.guards.handleIntGuardsForNonTerminator g ⟨id, .store v (.inst slot)⟩ s.intGuards).1
        ⟨id, .store v (.inst slot)⟩ s.sexpGuards).2) = some tgt) :
    VarOriginsTy.find
        (visitInstruction a ⟨id, .store v (.inst slot)⟩ (s, called, g)).1.varOrigins slot
      = (if a.cm.isPossibleAllocator tgt.fn = true then some [tgt] else none) ∧
    (∀ w, w ≠ slot →
      VarOriginsTy.find
        (visitInstruction a ⟨id, .store v (.inst slot)⟩ (s, called, g)).1.varOrigins w
        = VarOriginsTy.find s.varOrigins w) := by
  rw [visitInstruction_store]
  simp only [handleStoreOrigins, htrack, Bool.not_true, Bool.false_eq_true, if_false,
    asAlloca_of_find_alloca _ _ _ _ hslot, hret, not_true_eq_false,
    asLoad_none_of_called _ _ _ _ _ htgt, htgt]
  by_cases hp : a.cm.isPossibleAllocator tgt.fn = true
  · simp only [hp, if_true, find_insert_erase]
    exact ⟨by simp, fun w hw => by simp [hw]⟩
  · simp only [hp, if_false, find_erase, Bool.false_eq_true]
    exact ⟨by simp, fun w hw => by simp [hw]⟩

/-- Witness of C26: `x = allocVector()` in `copyAssign`. -/
theorem store_call_origins_witness :
    VarOriginsTy.find
        (visitInstruction (exampleAnalysis copyAssign 3000) ⟨3, .store (.inst 2) (.inst 0)⟩
          (⟨0, [], [], [], [(0, [⟨9, [none]⟩]), (1, [⟨9, [none]⟩])]⟩, [], ())).1.varOrigins 0
      = some [allocVectorSig] :=
  (store_call_origins (exampleAnalysis copyAssign 3000) 3 0 (.inst 2) none false
    ⟨0, [], [], [], [(0, [⟨9, [none]⟩]), (1, [⟨9, [none]⟩])]⟩ [] () allocVectorSig rfl (by decide)
    (by decide) (by decide)).1.trans (by decide)

theorem mem_insert_signature (set : CalledFunctionsOrderedSetTy) (x y : CalledFunctionTy) :
    y ∈ CalledFunctionsOrderedSetTy.insert set x ↔ y ∈ set ∨ y = x := by
  unfold CalledFunctionsOrderedSetTy.insert
  by_cases h : x ∈ set
  · rw [if_pos h]
    constructor
    · exact Or.inl
    · rintro (h1 | rfl)
      · exact h1
      · exact h
  · rw [if_neg h]; simp

theorem mem_insertAll_signature (xs : List CalledFunctionTy) :
    ∀ (set : CalledFunctionsOrderedSetTy) (y : CalledFunctionTy),
      y ∈ CalledFunctionsOrderedSetTy.insertAll set xs ↔ y ∈ set ∨ y ∈ xs := by
  induction xs with
  | nil => intro set y; simp [CalledFunctionsOrderedSetTy.insertAll]
  | cons x rest ih =>
    intro set y
    have h := ih (CalledFunctionsOrderedSetTy.insert set x) y
    unfold CalledFunctionsOrderedSetTy.insertAll at h ⊢
    rw [List.foldl_cons, h, mem_insert_signature, List.mem_cons]
    constructor
    · rintro ((h1 | h1) | h1)
      · exact Or.inl h1
      · exact Or.inr (Or.inl h1)
      · exact Or.inr (Or.inr h1)
    · rintro (h1 | h1 | h1)
      · exact Or.inl (Or.inl h1)
      · exact Or.inl (Or.inr h1)
      · exact Or.inr h1

/-- What the handling of `return v` adds to `wrapped`. -/
theorem handleReturn_spec {γ : Type} (a : AnalysisTy γ) (id : InstId) (v : Value)
    (s : CAllocStateTy) (wrapped : CalledFunctionsOrderedSetTy)
    (htrack : a.trackOrigins = true) :
    ∃ w, handleReturn a ⟨id, .ret (some v)⟩ s wrapped = some w ∧
      ∀ x, x ∈ w ↔ x ∈ wrapped ∨
        (∃ slot o, (a.F.asLoad v).bind a.F.asAlloca = some slot ∧
          VarOriginsTy.find s.varOrigins slot = some o ∧ x ∈ o) ∨
        (a.cm.getCalledFunction a.F v (some s.sexpGuards) = some x ∧
          a.cm.isPossibleAllocator x.fn = true) := by
  simp only [handleReturn, htrack, Bool.not_true, Bool.false_eq_true, if_false]
  have hw1 : ∀ x, x ∈ (match (a.F.asLoad v).bind a.F.asAlloca with
      | some src =>
        match VarOriginsTy.find s.varOrigins src with
        | some knownOrigins => CalledFunctionsOrderedSetTy.insertAll wrapped knownOrigins
        | none => wrapped
      | none => wrapped) ↔ x ∈ wrapped ∨
        (∃ slot o, (a.F.asLoad v).bind a.F.asAlloca = some slot ∧
          VarOriginsTy.find s.varOrigins slot = some o ∧ x ∈ o) := by
    intro x
    cases hl : (a.F.asLoad v).bind a.F.asAlloca with
    | none => simp
    | some src =>
      cases hf : VarOriginsTy.find s.varOrigins src with
      | none => simp [hf]
      | some o => simp [hf, mem_insertAll_signature]
  cases hc : a.cm.getCalledFunction a.F v (some s.sexpGuards) with
  | none =>
    refine ⟨_, rfl, fun x => ⟨fun h => ?_, fun h => ?_⟩⟩
    · rcases (hw1 x).mp h with h1 | h1
      · exact Or.inl h1
      · exact Or.inr (Or.inl h1)
    · rcases h with h1 | h1 | ⟨h1, -⟩
      · exact (hw1 x).mpr (Or.inl h1)
      · exact (hw1 x).mpr (Or.inr h1)
      · cases h1
  | some tgt =>
    by_cases hp : a.cm.isPossibleAllocator tgt.fn = true
    · simp only [hp, if_true]
      refine ⟨_, rfl, fun x => ⟨fun h => ?_, fun h => ?_⟩⟩
      · rcases (mem_insert_signature _ _ _).mp h with h1 | h1
        · rcases (hw1 x).mp h1 with h2 | h2
          · exact Or.inl h2
          · exact Or.inr (Or.inl h2)
        · exact Or.inr (Or.inr ⟨by rw [h1], by rw [h1]; exact hp⟩)
      · apply (mem_insert_signature _ _ _).mpr
        rcases h with h1 | h1 | ⟨h1, -⟩
        · exact Or.inl ((hw1 x).mpr (Or.inl h1))
        · exact Or.inl ((hw1 x).mpr (Or.inr h1))
        · exact Or.inr (Option.some.inj h1).symm
    · simp only [hp, if_false, Bool.false_eq_true]
      refine ⟨_, rfl, fun x => ⟨fun h => ?_, fun h => ?_⟩⟩
      · rcases (hw1 x).mp h with h1 | h1
        · exact Or.inl h1
        · exact Or.inr (Or.inl h1)
      · rcases h with h1 | h1 | ⟨h1, h2⟩
        · exact (hw1 x).mpr (Or.inl h1)
        · exact (hw1 x).mpr (Or.inr h1)
        · rw [← Option.some.inj h1] at h2
          exact absurd h2 hp

theorem add_fields {γ : Type} (e : EngineTy γ) (s : CAllocStateTy) :
    (e.add s).called = e.called ∧ (e.add s).wrapped = e.wrapped ∧
    (e.add s).guardState = e.guardState := by
  unfold EngineTy.add
  split <;> exact ⟨rfl, rfl, rfl⟩

theorem addStates_fields {γ : Type} (s : CAllocStateTy)
    (l : List (BlockId × IntGuardsTy × SEXPGuardsTy)) :
    ∀ (e : EngineTy γ), (addStates s l e).called = e.called ∧
      (addStates s l e).wrapped = e.wrapped ∧ (addStates s l e).guardState = e.guardState := by
  induction l with
  | nil => intro e; exact ⟨rfl, rfl, rfl⟩
  | cons x rest ih =>
    intro e
    obtain ⟨bb, ig, sg⟩ := x
    simp only [addStates]
    obtain ⟨h1, h2, h3⟩ := ih (e.add { s with bb := bb, intGuards := ig, sexpGuards := sg })
    obtain ⟨a1, a2, a3⟩ := add_fields e { s with bb := bb, intGuards := ig, sexpGuards := sg }
    exact ⟨h1.trans a1, h2.trans a2, h3.trans a3⟩

theorem addSuccessorStates_fields {γ : Type} (a : AnalysisTy γ) (t : Instruction)
    (s : CAllocStateTy) (e : EngineTy γ) :
    (addSuccessorStates a t s e).called = e.called ∧
    (addSuccessorStates a t s e).wrapped = e.wrapped := by
  unfold addSuccessorStates
  simp only
  split
  · exact ⟨(addStates_fields _ _ _).1, (addStates_fields _ _ _).2.1⟩
  · split
    · refine ⟨?_, ?_⟩
      · rw [(addStates_fields _ _ _).1]
        exact (addStates_fields _ _ _).1
      · rw [(addStates_fields _ _ _).2.1]
        exact (addStates_fields _ _ _).2.1
    · refine ⟨?_, ?_⟩
      · rw [(addStates_fields _ _ _).1, (addStates_fields _ _ _).1]
        exact (addStates_fields _ _ _).1
      · rw [(addStates_fields _ _ _).2.1, (addStates_fields _ _ _).2.1]
        exact (addStates_fields _ _ _).2.1

/-- A round that processes a block: what becomes of `called` and `wrapped`. -/
theorem engineRound_process {γ : Type} (a : AnalysisTy γ) (e : EngineTy γ)
    (s : CAllocStateTy) (rest : List CAllocStateTy) (t : Instruction)
    (w : CalledFunctionsOrderedSetTy)
    (hw : e.workList = s :: rest) (herr : s.bb ∉ a.errorBasicBlocks)
    (hcap : e.doneSet.length ≤ a.MAX_STATES)
    (ht : getTerminator (a.F.block s.bb) = some t)
    (hr : handleReturn a t
      ((a.F.block s.bb).foldl (fun st i => visitInstruction a i st)
        (s, e.called, e.guardState)).1 e.wrapped = some w) :
    ∃ e1, engineRound a e = .next e1 ∧ e1.wrapped = w ∧
      e1.called = ((a.F.block s.bb).foldl (fun st i => visitInstruction a i st)
        (s, e.called, e.guardState)).2.1 := by
  have hcap2 : ¬ (e.doneSet.length > a.MAX_STATES) := not_lt.mpr hcap
  simp only [engineRound, hw, herr, if_false, hcap2, ht, hr]
  exact ⟨_, rfl, (addSuccessorStates_fields _ _ _ _).2, (addSuccessorStates_fields _ _ _ _).1⟩

/-- C27: in a function returning SEXP, when the engine processes a block that
ends in `return v`, the set `wrapped` after the round holds what it held
before, every signature of `var_origins[slot]` of the state at the return
when `v` is `load(slot)`, and the signature of `v` when `v` is a direct call
whose function is a possible allocator, and nothing else. -/
theorem return_wrapped {γ : Type} (a : AnalysisTy γ) (e : EngineTy γ)
    (s : CAllocStateTy) (rest : List CAllocStateTy) (id : InstId) (v : Value)
    (htrack : a.trackOrigins = true)
    (hw : e.workList = s :: rest) (herr : s.bb ∉ a.errorBasicBlocks)
    (hcap : e.doneSet.length ≤ a.MAX_STATES)
    (ht : getTerminator (a.F.block s.bb) = some ⟨id, .ret (some v)⟩) :
    ∃ e1, engineRound a e = .next e1 ∧
      ∀ x, x ∈ e1.wrapped ↔ x ∈ e.wrapped ∨
        (∃ slot o, (a.F.asLoad v).bind a.F.asAlloca = some slot ∧
          VarOriginsTy.find ((a.F.block s.bb).foldl (fun st i => visitInstruction a i st)
            (s, e.called, e.guardState)).1.varOrigins slot = some o ∧ x ∈ o) ∨
        (a.cm.getCalledFunction a.F v
            (some ((a.F.block s.bb).foldl (fun st i => visitInstruction a i st)
              (s, e.called, e.guardState)).1.sexpGuards) = some x ∧
          a.cm.isPossibleAllocator x.fn = true) := by
  obtain ⟨w, hr, hmem⟩ := handleReturn_spec a id v
    ((a.F.block s.bb).foldl (fun st i => visitInstruction a i st)
      (s, e.called, e.guardState)).1 e.wrapped htrack
  obtain ⟨e1, h1, h2, -⟩ := engineRound_process a e s rest _ w hw herr hcap ht hr
  exact ⟨e1, h1, fun x => by rw [h2]; exact hmem x⟩

/-- Witness of C27: the round that processes the block of `copyAssign` adds
the origin of `y` to `wrapped`. -/
theorem return_wrapped_witness :
    ∃ e1, engineRound (exampleAnalysis copyAssign 3000) (EngineTy.init ()) = .next e1 ∧
      allocVectorSig ∈ e1.wrapped := by
  obtain ⟨e1, h1, h2⟩ := return_wrapped (exampleAnalysis copyAssign 3000) (EngineTy.init ())
    ⟨0, [], [], [], []⟩ [] 7 (.inst 6) rfl (by decide) (by decide) (by decide) (by decide)
  exact ⟨e1, h1, (h2 allocVectorSig).mpr (Or.inr (Or.inl ⟨1, [allocVectorSig], by decide,
    by decide, by decide⟩))⟩

/-! ### The worklist loop of the allocator engine -/

theorem add_lengths {γ : Type} (e : EngineTy γ) (s : CAllocStateTy) :
    ∃ k, k ≤ 1 ∧ (e.add s).doneSet.length = e.doneSet.length + k ∧
      (e.add s).workList.length = e.workList.length + k ∧
      (k = 0 → (e.add s).doneSet = e.doneSet) := by
  unfold EngineTy.add
  split
  · exact ⟨0, by omega, rfl, rfl, fun _ => rfl⟩
  · exact ⟨1, le_refl _, by simp, by simp, fun h => by omega⟩

theorem addStates_lengths {γ : Type} (s : CAllocStateTy)
    (l : List (BlockId × IntGuardsTy × SEXPGuardsTy)) :
    ∀ (e : EngineTy γ), ∃ k, k ≤ l.length ∧
      (addStates s l e).doneSet.length = e.doneSet.length + k ∧
      (addStates s l e).workList.length = e.workList.length + k ∧
      (k = 0 → (addStates s l e).doneSet = e.doneSet) := by
  induction l with
  | nil => intro e; exact ⟨0, le_refl _, rfl, rfl, fun _ => rfl⟩
  | cons x rest ih =>
    intro e
    obtain ⟨bb, ig, sg⟩ := x
    simp only [addStates]
    obtain ⟨k1, h1, h2, h3, h4⟩ :=
      add_lengths e { s with bb := bb, intGuards := ig, sexpGuards := sg }
    obtain ⟨k2, g1, g2, g3, g4⟩ :=
      ih (e.add { s with bb := bb, intGuards := ig, sexpGuards := sg })
    refine ⟨k1 + k2, by simp only [List.length_cons]; omega, by omega, by omega, fun h => ?_⟩
    rw [g4 (by omega), h4 (by omega)]

/-- The end of a round adds `k` states to the done-set and to the worklist. -/
theorem addSuccessorStates_lengths {γ : Type} (a : AnalysisTy γ) (t : Instruction)
    (s : CAllocStateTy) (e : EngineTy γ) :
    ∃ k, (addSuccessorStates a t s e).doneSet.length = e.doneSet.length + k ∧
      (addSuccessorStates a t s e).workList.length = e.workList.length + k ∧
      (k = 0 → (addSuccessorStates a t s e).doneSet = e.doneSet) ∧
      (∀ B, a.AddsAtMost B → t ∈ a.F.insts → k ≤ B) := by
  unfold addSuccessorStates
  simp only
  generalize hr1 : a.guards.handleSEXPGuardsForTerminator e.guardState t s.bb s.intGuards
    s.sexpGuards = r1
  obtain ⟨k1, a1, a2, a3, a4⟩ := addStates_lengths
    ({ s with intGuards := r1.2.2.1.1, sexpGuards := r1.2.2.1.2 }) r1.2.2.2
    ({ e with guardState := r1.1 })
  simp only at a2 a3 a4
  split
  · refine ⟨k1, a2, a3, a4, fun B hB ht => ?_⟩
    have := hB t ht e.guardState s.bb s.intGuards s.sexpGuards e.guardState s.bb s.intGuards
      s.sexpGuards
    rw [hr1] at this
    omega
  · generalize hr2 : a.guards.handleIntGuardsForTerminator
      (addStates { s with intGuards := r1.2.2.1.1, sexpGuards := r1.2.2.1.2 } r1.2.2.2
        { e with guardState := r1.1 }).guardState t s.bb r1.2.2.1.1 r1.2.2.1.2 = r2
    obtain ⟨k2, b1, b2, b3, b4⟩ := addStates_lengths
      ({ s with intGuards := r2.2.2.1.1, sexpGuards := r2.2.2.1.2 }) r2.2.2.2
      ({ (addStates { s with intGuards := r1.2.2.1.1, sexpGuards := r1.2.2.1.2 } r1.2.2.2
        { e with guardState := r1.1 }) with guardState := r2.1 })
    simp only at b2 b3 b4
    have hB12 : ∀ B, a.AddsAtMost B → t ∈ a.F.insts →
        k1 + k2 + t.op.successors.length ≤ B := by
      intro B hB ht
      have := hB t ht e.guardState s.bb s.intGuards s.sexpGuards
        (addStates { s with intGuards := r1.2.2.1.1, sexpGuards := r1.2.2.1.2 } r1.2.2.2
          { e with guardState := r1.1 }).guardState s.bb r1.2.2.1.1 r1.2.2.1.2
      rw [hr1, hr2] at this
      omega
    split
    · refine ⟨k1 + k2, ?_, ?_, fun h => ?_, fun B hB ht => ?_⟩
      · rw [b2, a2]; omega
      · rw [b3, a3]; omega
      · rw [b4 (by omega)]; exact a4 (by omega)
      · have := hB12 B hB ht; omega
    · obtain ⟨k3, c1, c2, c3, c4⟩ := addStates_lengths
        ({ s with intGuards := r2.2.2.1.1, sexpGuards := r2.2.2.1.2 })
        (t.op.successors.map (fun succ => (succ, r2.2.2.1.1, r2.2.2.1.2)))
        (addStates ({ s with intGuards := r2.2.2.1.1, sexpGuards := r2.2.2.1.2 }) r2.2.2.2
          ({ (addStates { s with intGuards := r1.2.2.1.1, sexpGuards := r1.2.2.1.2 } r1.2.2.2
            { e with guardState := r1.1 }) with guardState := r2.1 }))
      rw [List.length_map] at c1
      simp only at c2 c3 c4
      refine ⟨k1 + k2 + k3, ?_, ?_, fun h => ?_, fun B hB ht => ?_⟩
      · rw [c2, b2, a2]; omega
      · rw [c3, b3, a3]; omega
      · rw [c4 (by omega), b4 (by omega)]; exact a4 (by omega)
      · have := hB12 B hB ht; omega

theorem getTerminator_mem (F : FunctionIR) (bb : BlockId) (t : Instruction)
    (h : getTerminator (F.block bb) = some t) : t ∈ F.insts := by
  unfold getTerminator at h
  cases hl : (F.block bb).getLast? with
  | none => simp [hl] at h
  | some t2 =>
    simp only [hl] at h
    split at h
    · simp only [Option.some.injEq] at h
      subst h
      have hmem : t2 ∈ F.block bb := List.mem_of_getLast?_eq_some hl
      unfold FunctionIR.block at hmem
      unfold FunctionIR.insts
      rw [List.mem_flatten]
      refine ⟨F.blocks.getD bb [], ?_, hmem⟩
      by_cases hb : bb < F.blocks.length
      · rw [List.getD_eq_getElem _ _ hb]
        exact List.getElem_mem hb
      · rw [List.getD_eq_default _ _ (not_lt.mp hb)] at hmem
        cases hmem
    · cases h

/-- A round after which the loop goes on: it has popped one state, and it has
added `k` states to the done-set and the worklist, `k` being 0 unless the
done-set held at most `MAX_STATES` states. -/
theorem engineRound_next {γ : Type} (a : AnalysisTy γ) (e e1 : EngineTy γ)
    (h : engineRound a e = .next e1) :
    ∃ s rest k, e.workList = s :: rest ∧
      e1.doneSet.length = e.doneSet.length + k ∧
      e1.workList.length = rest.length + k ∧
      (k = 0 → e1.doneSet = e.doneSet) ∧
      (k ≠ 0 → e.doneSet.length ≤ a.MAX_STATES) ∧
      (∀ B, a.AddsAtMost B → k ≤ B) := by
  unfold engineRound at h
  cases hw : e.workList with
  | nil =>
    simp only [hw] at h
    split at h <;> cases h
  | cons s rest =>
    simp only [hw] at h
    refine ⟨s, rest, ?_⟩
    by_cases herr : s.bb ∈ a.errorBasicBlocks
    · simp only [herr, if_true, RoundTy.next.injEq] at h
      subst h
      exact ⟨0, rfl, rfl, rfl, fun _ => rfl, fun h => absurd rfl h, fun _ _ => Nat.zero_le _⟩
    · simp only [herr, if_false] at h
      by_cases hcap : e.doneSet.length > a.MAX_STATES
      · simp only [hcap, if_true] at h
        split at h
        · cases h
        · split at h <;> cases h
      · simp only [hcap, if_false] at h
        have hcap2 : e.doneSet.length ≤ a.MAX_STATES := not_lt.mp hcap
        cases ht : getTerminator (a.F.block s.bb) with
        | none => simp [ht] at h
        | some t =>
          simp only [ht] at h
          have htm := getTerminator_mem _ _ _ ht
          cases hr : handleReturn a t
              ((a.F.block s.bb).foldl (fun st i => visitInstruction a i st)
                (s, e.called, e.guardState)).1 e.wrapped with
          | none => simp [hr] at h
          | some w =>
            simp only [hr, RoundTy.next.injEq] at h
            subst h
            obtain ⟨k, h1, h2, h3, h4⟩ := addSuccessorStates_lengths a t
              ((a.F.block s.bb).foldl (fun st i => visitInstruction a i st)
                (s, e.called, e.guardState)).1
              ({ workList := rest, doneSet := e.doneSet,
                 called := ((a.F.block s.bb).foldl (fun st i => visitInstruction a i st)
                   (s, e.called, e.guardState)).2.1,
                 wrapped := w,
                 guardState := ((a.F.block s.bb).foldl (fun st i => visitInstruction a i st)
                   (s, e.called, e.guardState)).2.2 } : EngineTy γ)
            exact ⟨k, rfl, h1, h2, h3, fun _ => hcap2, fun B hB => h4 B hB htm⟩

/-- Every round after which the loop goes on makes the measure smaller. -/
theorem engineMeasure_decreases {γ : Type} (a : AnalysisTy γ) (e e1 : EngineTy γ)
    (h : engineRound a e = .next e1) :
    Prod.Lex (· < ·) (· < ·) (engineMeasure a e1) (engineMeasure a e) := by
  obtain ⟨s, rest, k, hw, hd, hwl, -, hk, -⟩ := engineRound_next a e e1 h
  rw [Prod.lex_def]
  unfold engineMeasure
  simp only
  by_cases hk0 : k = 0
  · right
    subst hk0
    rw [hd, hwl, hw]
    simp
  · left
    have := hk hk0
    omega

/-- The worklist loop ends, from every state of the engine. -/
theorem engineLoop_terminates {γ : Type} (a : AnalysisTy γ) (e : EngineTy γ) :
    ∃ fuel, engineLoop a fuel e ≠ none := by
  have wf : WellFounded (fun e1 e2 : EngineTy γ =>
      Prod.Lex (· < ·) (· < ·) (engineMeasure a e1) (engineMeasure a e2)) :=
    InvImage.wf (engineMeasure a) (WellFounded.prod_lex wellFounded_lt wellFounded_lt)
  induction e using wf.induction with
  | _ e ih =>
    cases hr : engineRound a e with
    | next e1 =>
      obtain ⟨fuel, hf⟩ := ih e1 (engineMeasure_decreases a e e1 hr)
      exact ⟨fuel + 1, by simp only [engineLoop, hr]; exact hf⟩
    | returned c w => exact ⟨1, by simp [engineLoop, hr]⟩
    | aborted => exact ⟨1, by simp [engineLoop, hr]⟩

theorem init_doneSet {γ : Type} (g : γ) : (EngineTy.init g).doneSet.length = 1 := by
  simp [EngineTy.init, EngineTy.add]

/-- The done-set holds at most `MAX_STATES + B` states after any number of
rounds. -/
theorem engineAfter_bound {γ : Type} (a : AnalysisTy γ) (B : Nat) (hB : a.AddsAtMost B) :
    ∀ (n : Nat) (e e2 : EngineTy γ), e.doneSet.length ≤ a.MAX_STATES + B →
      engineAfter a n e = some e2 → e2.doneSet.length ≤ a.MAX_STATES + B := by
  intro n
  induction n with
  | zero =>
    intro e e2 he h
    simp only [engineAfter, Option.some.injEq] at h
    subst h
    exact he
  | succ n ih =>
    intro e e2 he h
    simp only [engineAfter] at h
    cases hr : engineRound a e with
    | next e1 =>
      simp only [hr] at h
      obtain ⟨s, rest, k, -, hd, -, -, hk, hkB⟩ := engineRound_next a e e1 hr
      refine ih e1 e2 ?_ h
      by_cases hk0 : k = 0
      · omega
      · have := hk hk0
        have := hkB B hB
        omega
    | returned c w => simp [hr] at h
    | aborted => simp [hr] at h

/-! ### The engine on a chain of blocks -/

theorem chain_block_zero (M : Nat) : (chain M).block 0 =
    [⟨0, .call (.func 9) [.constInt 32 0]⟩, ⟨1, .call (.func 10) []⟩, ⟨2, .br 1⟩] := rfl

theorem chain_block (M k : Nat) (h1 : 1 ≤ k) (h2 : k < M) :
    (chain M).block k = [⟨k + 2, .br (k + 1)⟩] := by
  obtain ⟨j, rfl⟩ : ∃ j, k = j + 1 := ⟨k - 1, by omega⟩
  have hj : j < M - 1 := by omega
  simp only [FunctionIR.block, chain, List.getD_cons_succ]
  rw [List.getD_eq_getElem?_getD, List.getElem?_append_left (by simpa using hj)]
  simp [List.getElem?_range' _ _ hj]
  exact Nat.add_comm 1 j

theorem chain_block_last (M : Nat) (h1 : 1 ≤ M) :
    (chain M).block M = [⟨M + 2, .ret (some (.argument 0))⟩] := by
  obtain ⟨j, rfl⟩ : ∃ j, M = j + 1 := ⟨M - 1, by omega⟩
  simp only [FunctionIR.block, chain, List.getD_cons_succ]
  rw [List.getD_eq_getElem?_getD, List.getElem?_append_right (by simp)]
  simp

theorem chain_mem (M : Nat) (i : Instruction) (h : i ∈ (chain M).insts) :
    i = ⟨0, .call (.func 9) [.constInt 32 0]⟩ ∨ i = ⟨1, .call (.func 10) []⟩ ∨
    (2 ≤ i.id ∧ ((∃ d, i.op = .br d) ∨ i.op = .ret (some (.argument 0)))) := by
  simp only [FunctionIR.insts, chain, List.flatten_cons, List.mem_append, List.mem_cons,
    List.mem_flatten, List.mem_map, List.mem_singleton, List.not_mem_nil, or_false] at h
  rcases h with (h | h | h) | ⟨l, hl, hi⟩
  · exact Or.inl h
  · exact Or.inr (Or.inl h)
  · subst h; exact Or.inr (Or.inr ⟨le_refl _, Or.inl ⟨_, rfl⟩⟩)
  · rcases hl with ⟨k, -, rfl⟩ | rfl
    · simp only [List.mem_singleton] at hi
      subst hi
      exact Or.inr (Or.inr ⟨by simp, Or.inl ⟨_, rfl⟩⟩)
    · simp only [List.mem_singleton] at hi
      subst hi
      exact Or.inr (Or.inr ⟨by simp, Or.inr rfl⟩)

theorem find_mem (F : FunctionIR) (id : InstId) (op : Instr) (h : F.find id = some op) :
    ∃ i, i ∈ F.insts ∧ i.id = id ∧ i.op = op := by
  unfold FunctionIR.find at h
  cases hf : F.insts.find? (fun i => i.id = id) with
  | none => simp [hf] at h
  | some i =>
    simp only [hf, Option.map_some', Option.some.injEq] at h
    exact ⟨i, List.mem_of_find?_eq_some hf, by simpa using List.find?_some hf, h⟩

theorem chain_find_zero (M : Nat) :
    (chain M).find 0 = some (.call (.func 9) [.constInt 32 0]) := by
  simp [FunctionIR.find, FunctionIR.insts, chain]

theorem chain_find_one (M : Nat) : (chain M).find 1 = some (.call (.func 10) []) := by
  simp [FunctionIR.find, FunctionIR.insts, chain]

theorem chain_not_called (M : Nat) (id : InstId) (h : 2 ≤ id) (cm : CalledModuleTy)
    (sg : Option SEXPGuardsTy) : cm.getCalledFunction (chain M) (.inst id) sg = none := by
  unfold CalledModuleTy.getCalledFunction
  cases hf : (chain M).find id with
  | none => simp [hf]
  | some op =>
    obtain ⟨i, hi, hid, hop⟩ := find_mem _ _ _ hf
    rcases chain_mem M i hi with rfl | rfl | ⟨-, ⟨d, hd⟩ | hd⟩
    · simp only at hid; subst hid; exact absurd h (by decide)
    · simp only at hid; subst hid; exact absurd h (by decide)
    · rw [hd] at hop; subst hop; simp [hf]
    · rw [hd] at hop; subst hop; simp [hf]

theorem chain_first_round (M X : Nat) (hX : 1 ≤ X) :
    engineRound (exampleAnalysis (chain M) X) (EngineTy.init ()) =
      .next ⟨[chainState 1], chainDone 1, [gcSig, allocVectorSig], [], ()⟩ := by
  have hcap : ¬ (1 > X) := by omega
  have h2 := chain_not_called M 2 (le_refl _) exampleModule (some [])
  have h0 : exampleModule.getCalledFunction (chain M) (.inst 0) (some []) = some gcSig := by
    simp [CalledModuleTy.getCalledFunction, chain_find_zero, getCalledFunction,
      CalledModuleTy.argInfoOf, FunctionIR.asLoad, exampleModule, gcSig]
  have h1 : exampleModule.getCalledFunction (chain M) (.inst 1) (some []) = some allocVectorSig := by
    simp [CalledModuleTy.getCalledFunction, chain_find_one, getCalledFunction, allocVectorSig]
  have hA0 : exampleModule.isAllocating gcSig.fn = true := by decide
  have hA1 : exampleModule.isAllocating allocVectorSig.fn = true := by decide
  have hins : CalledFunctionsOrderedSetTy.insert (CalledFunctionsOrderedSetTy.insert [] gcSig)
      allocVectorSig = [gcSig, allocVectorSig] := by decide
  simp [engineRound, EngineTy.init, EngineTy.add, exampleAnalysis, hcap, chain_block_zero,
    visitInstruction, handleStoreOrigins, noGuards, h0, h1, h2, getTerminator,
    Instr.isTerminator, handleReturn, addSuccessorStates, addStates, Instr.successors,
    CAllocPackedStateTy_equal, chainState, chainDone, hA0, hA1, hins]

theorem mem_instsWithParent (F : FunctionIR) (p : BlockId) (i : Instruction) :
    (p, i) ∈ F.instsWithParent ↔ p < F.blocks.length ∧ i ∈ F.block p := by
  unfold FunctionIR.instsWithParent FunctionIR.block
  simp only [List.mem_flatten, List.mem_map]
  constructor
  · rintro ⟨l, ⟨⟨q, b⟩, hb, rfl⟩, hi⟩
    simp only [List.mem_map, Prod.mk.injEq] at hi
    obtain ⟨j, hj, rfl, rfl⟩ := hi
    have hq := List.mk_mem_enum_iff_getElem?.mp hb
    obtain ⟨hlt, hget⟩ := List.getElem?_eq_some.mp hq
    refine ⟨hlt, ?_⟩
    rw [List.getD_eq_getElem _ _ hlt, hget]
    exact hj
  · rintro ⟨hlt, hi⟩
    rw [List.getD_eq_getElem _ _ hlt] at hi
    refine ⟨_, ⟨(p, F.blocks[p]), List.mk_mem_enum_iff_getElem?.mpr (List.getElem?_eq_getElem hlt),
      rfl⟩, ?_⟩
    simp only [List.mem_map, Prod.mk.injEq, true_and, exists_eq_right]
    exact hi

theorem block_subset_insts (F : FunctionIR) (p : BlockId) (i : Instruction)
    (h : i ∈ F.block p) : i ∈ F.insts := by
  unfold FunctionIR.block at h
  unfold FunctionIR.insts
  by_cases hb : p < F.blocks.length
  · rw [List.getD_eq_getElem _ _ hb] at h
    exact List.mem_flatten.mpr ⟨_, List.getElem_mem hb, h⟩
  · rw [List.getD_eq_default _ _ (not_lt.mp hb)] at h
    cases h

theorem fallbackSweep_no_calls {γ : Type} (a : AnalysisTy γ) (oa ow : Bool) :
    ∀ (l : List (BlockId × Instruction))
      (res : CalledFunctionsOrderedSetTy × CalledFunctionsOrderedSetTy),
      (∀ x, x ∈ l → ∀ c args, x.2.op ≠ .call c args) →
      fallbackSweep a oa ow l res = some res := by
  intro l
  induction l with
  | nil => intro res _; rfl
  | cons x rest ih =>
    intro res h
    obtain ⟨p, i⟩ := x
    have hrest := ih res (fun y hy => h y (List.mem_cons_of_mem _ hy))
    have hi := h (p, i) (List.mem_cons_self _ _)
    unfold fallbackSweep
    split
    · exact hrest
    · cases hop : i.op with
      | call c args => exact absurd hop (hi c args)
      | _ => simp only [hrest]

theorem chainDone_length (k : Nat) : (chainDone k).length = k + 1 := by
  induction k with
  | zero => rfl
  | succ k ih => simp [chainDone, ih]

theorem chainDone_bb (k : Nat) : ∀ d, d ∈ chainDone k → d.bb ≤ k := by
  induction k with
  | zero =>
    intro d hd
    simp only [chainDone, List.mem_singleton] at hd
    subst hd
    exact le_refl _
  | succ k ih =>
    intro d hd
    simp only [chainDone, List.mem_cons] at hd
    rcases hd with rfl | hd
    · exact le_refl _
    · exact Nat.le_succ_of_le (ih d hd)

theorem chainDone_fresh (k : Nat) :
    (chainDone k).any (fun d => CAllocPackedStateTy_equal d (chainState (k + 1))) = false := by
  rw [List.any_eq_false]
  intro d hd
  have hbb := chainDone_bb k d hd
  have hne : d.bb ≠ (chainState (k + 1)).bb := by
    show d.bb ≠ k + 1
    exact Nat.ne_of_lt (Nat.lt_succ_of_le hbb)
  simp [CAllocPackedStateTy_equal, hne]

theorem chain_round (M X k : Nat) (h1 : 1 ≤ k) (h2 : k < M) (h3 : k < X)
    (c w : CalledFunctionsOrderedSetTy) :
    engineRound (exampleAnalysis (chain M) X) ⟨[chainState k], chainDone k, c, w, ()⟩ =
      .next ⟨[chainState (k + 1)], chainDone (k + 1), c, w, ()⟩ := by
  have hcap : ¬ (k + 1 > X) := by omega
  have hnc := chain_not_called M (k + 2) (Nat.le_add_left 2 k) exampleModule (some [])
  have hfresh := chainDone_fresh k
  have hblock : (chain M).block (chainState k).bb = [⟨k + 2, .br (k + 1)⟩] :=
    chain_block M k h1 h2
  simp only [chainState] at hblock hfresh
  simp [engineRound, EngineTy.add, exampleAnalysis, hcap, hblock, chainDone_length,
    visitInstruction, handleStoreOrigins, noGuards, hnc, getTerminator,
    Instr.isTerminator, handleReturn, addSuccessorStates, addStates, Instr.successors,
    chainState, chainDone, hfresh]

theorem engineAfter_add {γ : Type} (a : AnalysisTy γ) :
    ∀ (n m : Nat) (e e1 : EngineTy γ), engineAfter a n e = some e1 →
      engineAfter a (n + m) e = engineAfter a m e1 := by
  intro n
  induction n with
  | zero =>
    intro m e e1 h
    simp only [engineAfter, Option.some.injEq] at h
    subst h
    rw [Nat.zero_add]
  | succ n ih =>
    intro m e e1 h
    rw [Nat.succ_add]
    simp only [engineAfter] at h ⊢
    cases hr : engineRound a e with
    | next e2 =>
      simp only [hr] at h ⊢
      exact ih m e2 e1 h
    | returned c w => simp [hr] at h
    | aborted => simp [hr] at h

theorem engineLoop_after {γ : Type} (a : AnalysisTy γ) :
    ∀ (n f : Nat) (e e1 : EngineTy γ), engineAfter a n e = some e1 →
      engineLoop a (n + f) e = engineLoop a f e1 := by
  intro n
  induction n with
  | zero =>
    intro f e e1 h
    simp only [engineAfter, Option.some.injEq] at h
    subst h
    rw [Nat.zero_add]
  | succ n ih =>
    intro f e e1 h
    rw [Nat.succ_add]
    simp only [engineAfter] at h
    simp only [engineLoop]
    cases hr : engineRound a e with
    | next e2 =>
      simp only [hr] at h ⊢
      exact ih f e2 e1 h
    | returned c w => simp [hr] at h
    | aborted => simp [hr] at h

/-- The engine on `chain M` after `k` rounds, none of which has found more
than `MAX_STATES` states: the worklist holds the state of block `k`, the
done-set the states of the blocks `0` to `k`. -/
theorem chain_after (M X k : Nat) (h1 : 1 ≤ k) (h2 : k ≤ M) (h3 : k ≤ X) :
    engineAfter (exampleAnalysis (chain M) X) k (EngineTy.init ()) =
      some ⟨[chainState k], chainDone k, [gcSig, allocVectorSig], [], ()⟩ := by
  induction k with
  | zero => omega
  | succ k ih =>
    by_cases hk : k = 0
    · subst hk
      simp only [engineAfter, chain_first_round M X h3]
    · rw [engineAfter_add _ k 1 _ _ (ih (by omega) (by omega) (by omega))]
      simp only [engineAfter, chain_round M X k (by omega) (by omega) (by omega)]

theorem enumFrom_no_calls (bs : List (List Instruction))
    (h : ∀ b, b ∈ bs → ∀ i, i ∈ b → ∀ c args, i.op ≠ .call c args) (n : Nat) :
    ∀ x, x ∈ ((List.enumFrom n bs).map (fun b => b.2.map (fun i => (b.1, i)))).flatten →
      ∀ c args, x.2.op ≠ .call c args := by
  intro x hx
  simp only [List.mem_flatten, List.mem_map] at hx
  obtain ⟨l, ⟨⟨q, b⟩, hb, rfl⟩, hi⟩ := hx
  simp only [List.mem_map] at hi
  obtain ⟨i, hi, rfl⟩ := hi
  exact h b ((List.mem_enumFrom hb).2.2 ▸ List.getElem_mem _) i hi

/-- The round of the engine on `chain M` that finds `M + 1` states in the
done-set, `MAX_STATES` being `M`: the sweep adds nothing to `wrapped`. -/
theorem chain_fallback (M : Nat) :
    engineRound (exampleAnalysis (chain M) M)
        ⟨[chainState M], chainDone M, [gcSig, allocVectorSig], [], ()⟩ =
      .returned [gcSig, allocVectorSig] [] := by
  have hcap : M + 1 > M := Nat.lt_succ_self M
  have h0 : exampleModule.getCalledFunction (chain M) (.inst 0) none = some gcSig := by
    simp [CalledModuleTy.getCalledFunction, chain_find_zero, getCalledFunction,
      CalledModuleTy.argInfoOf, FunctionIR.asLoad, exampleModule, gcSig]
  have h1 : exampleModule.getCalledFunction (chain M) (.inst 1) none = some allocVectorSig := by
    simp [CalledModuleTy.getCalledFunction, chain_find_one, getCalledFunction, allocVectorSig]
  have hA : exampleModule.isAllocating 20 = true := by decide
  have hP : exampleModule.isPossibleAllocator 20 = false := by decide
  have hA0 : exampleModule.isAllocating 9 = true := by decide
  have hA1 : exampleModule.isAllocating 10 = true := by decide
  have hins0 : CalledFunctionsOrderedSetTy.insert [gcSig, allocVectorSig] gcSig
      = [gcSig, allocVectorSig] := by decide
  have hins1 : CalledFunctionsOrderedSetTy.insert [gcSig, allocVectorSig] allocVectorSig
      = [gcSig, allocVectorSig] := by decide
  have htail := fallbackSweep_no_calls (exampleAnalysis (chain M) M) true false _
    ([gcSig, allocVectorSig], [])
    (enumFrom_no_calls
      ((List.range' 1 (M - 1)).map (fun k => [(⟨k + 2, .br (k + 1)⟩ : Instruction)]) ++
        [[⟨M + 2, .ret (some (.argument 0))⟩]])
      (by
        intro b hb i hi c args
        simp only [List.mem_append, List.mem_map, List.mem_singleton] at hb
        rcases hb with ⟨k, -, rfl⟩ | rfl
        · simp only [List.mem_singleton] at hi
          subst hi
          simp
        · simp only [List.mem_singleton] at hi
          subst hi
          simp) 1)
  simp only [exampleAnalysis, chain] at htail
  simp only [chain] at h0 h1
  simp [engineRound, exampleAnalysis, chainState, chainDone_length, hcap, hA, hP,
    FunctionIR.instsWithParent, chain, List.enum_cons, fallbackSweep, h0, h1,
    getCalledFunction, hA0, hA1, hins0, hins1, htail]

/-- The whole analysis of `chain M` with `MAX_STATES = M`. -/
theorem chain_result_fallback (M : Nat) (hM : 1 ≤ M) :
    getCalledAndWrappedFunctions (exampleAnalysis (chain M) M) (M + 1) () =
      some (some ([gcSig, allocVectorSig], [])) := by
  have hb : (exampleAnalysis (chain M) M).F.blocks.length ≠ 0 := by
    simp [exampleAnalysis, chain]
  unfold getCalledAndWrappedFunctions
  rw [if_neg hb, engineLoop_after _ M 1 _ _ (chain_after M M M hM (le_refl _) (le_refl _))]
  simp only [engineLoop, chain_fallback]

/-- The whole analysis of `chain M` with `MAX_STATES` above `M`. -/
theorem chain_result_normal (M X : Nat) (hM : 1 ≤ M) (hX : M < X) :
    getCalledAndWrappedFunctions (exampleAnalysis (chain M) X) (M + 2) () =
      some (some ([gcSig, allocVectorSig], [gcSig])) := by
  have hb : (exampleAnalysis (chain M) X).F.blocks.length ≠ 0 := by
    simp [exampleAnalysis, chain]
  have hcap : ¬ (M + 1 > X) := by omega
  have hnc := chain_not_called M (M + 2) (Nat.le_add_left 2 M) exampleModule (some [])
  have hblock : (chain M).block (chainState M).bb = [⟨M + 2, .ret (some (.argument 0))⟩] :=
    chain_block_last M hM
  simp only [chainState] at hblock
  have hret : exampleModule.getCalledFunction (chain M) (.argument 0) (some []) = none := rfl
  have hlast : engineRound (exampleAnalysis (chain M) X)
      ⟨[chainState M], chainDone M, [gcSig, allocVectorSig], [], ()⟩ =
      .next ⟨[], chainDone M, [gcSig, allocVectorSig], [], ()⟩ := by
    simp [engineRound, exampleAnalysis, hcap, hblock, chainDone_length,
      visitInstruction, handleStoreOrigins, noGuards, hnc, getTerminator,
      Instr.isTerminator, handleReturn, addSuccessorStates, addStates, Instr.successors,
      chainState, FunctionIR.asLoad, hret]
  have hexit : engineRound (exampleAnalysis (chain M) X)
      ⟨[], chainDone M, [gcSig, allocVectorSig], [], ()⟩ =
      .returned [gcSig, allocVectorSig] [gcSig] := by
    have hgc : exampleModule.getCalledGCFunction = gcSig := by decide
    simp [engineRound, hgc, exampleAnalysis, CalledFunctionsOrderedSetTy.insert]
  unfold getCalledAndWrappedFunctions
  rw [if_neg hb, engineLoop_after _ M 2 _ _ (chain_after M X M hM (le_refl _) (le_of_lt hX))]
  simp only [engineLoop, hlast, hexit]

/-! ### The end of the analysis of a function -/

/-- A run of the loop that returns has reached, after some rounds, a state of
the engine in which the round returns. -/
theorem engineLoop_result {γ : Type} (a : AnalysisTy γ) :
    ∀ (fuel : Nat) (e : EngineTy γ) (c w : CalledFunctionsOrderedSetTy),
      engineLoop a fuel e = some (some (c, w)) →
      ∃ n e1, engineAfter a n e = some e1 ∧ engineRound a e1 = .returned c w := by
  intro fuel
  induction fuel with
  | zero => intro e c w h; simp [engineLoop] at h
  | succ fuel ih =>
    intro e c w h
    simp only [engineLoop] at h
    cases hr : engineRound a e with
    | next e2 =>
      simp only [hr] at h
      obtain ⟨n, e1, h1, h2⟩ := ih e2 c w h
      exact ⟨n + 1, e1, by simp only [engineAfter, hr]; exact h1, h2⟩
    | returned c2 w2 =>
      simp only [hr, Option.some.injEq, Prod.mk.injEq] at h
      obtain ⟨rfl, rfl⟩ := h
      exact ⟨0, e, rfl, hr⟩
    | aborted => simp [hr] at h

/-- The two ways in which a round returns: the worklist is empty, or the
state popped is not on an error path and the done-set holds more than
`MAX_STATES` states. -/
theorem engineRound_returned {γ : Type} (a : AnalysisTy γ) (e : EngineTy γ)
    (c w : CalledFunctionsOrderedSetTy) (h : engineRound a e = .returned c w) :
    (e.workList = [] ∧ c = e.called ∧
      w = (if (a.trackOrigins && decide (a.cm.getCalledGCFunction ∈ e.called)) = true then
        CalledFunctionsOrderedSetTy.insert e.wrapped a.cm.getCalledGCFunction else e.wrapped)) ∨
    (∃ s rest, e.workList = s :: rest ∧ s.bb ∉ a.errorBasicBlocks ∧
      a.MAX_STATES < e.doneSet.length) := by
  unfold engineRound at h
  cases hw : e.workList with
  | nil =>
    left
    simp only [hw] at h
    split at h
    · rename_i hc
      simp only [RoundTy.returned.injEq] at h
      exact ⟨rfl, h.1.symm, by rw [if_pos hc]; exact h.2.symm⟩
    · rename_i hc
      simp only [RoundTy.returned.injEq] at h
      exact ⟨rfl, h.1.symm, by rw [if_neg hc]; exact h.2.symm⟩
  | cons s rest =>
    right
    simp only [hw] at h
    refine ⟨s, rest, rfl, ?_⟩
    by_cases herr : s.bb ∈ a.errorBasicBlocks
    · simp only [herr, if_true] at h
      cases h
    · refine ⟨herr, ?_⟩
      by_cases hcap : e.doneSet.length > a.MAX_STATES
      · exact hcap
      · simp only [herr, if_false, hcap] at h
        split at h
        · cases h
        · split at h <;> cases h

/-- C28, as far as the code has it: the analysis of a function that returns an
SEXP ends, and when it returns `called` and `wrapped` with the GC signature in
`called`, the GC signature is in `wrapped` too, unless the analysis has ended
in the fallback: some round has popped a state with more than `MAX_STATES`
states in the done-set. -/
theorem gc_exception {γ : Type} (a : AnalysisTy γ) (g : γ)
    (htrack : a.trackOrigins = true) :
    (∃ fuel, getCalledAndWrappedFunctions a fuel g ≠ none) ∧
    ∀ fuel c w, getCalledAndWrappedFunctions a fuel g = some (some (c, w)) →
      a.cm.getCalledGCFunction ∈ c →
      a.cm.getCalledGCFunction ∈ w ∨
        ∃ n e, engineAfter a n (EngineTy.init g) = some e ∧
          a.MAX_STATES < e.doneSet.length := by
  constructor
  · unfold getCalledAndWrappedFunctions
    by_cases hb : a.F.blocks.length = 0
    · exact ⟨0, by simp [hb]⟩
    · obtain ⟨fuel, hf⟩ := engineLoop_terminates a (EngineTy.init g)
      exact ⟨fuel, by rw [if_neg hb]; exact hf⟩
  · intro fuel c w hres hgc
    unfold getCalledAndWrappedFunctions at hres
    by_cases hb : a.F.blocks.length = 0
    · rw [if_pos hb] at hres
      simp only [Option.some.injEq, Prod.mk.injEq] at hres
      rw [← hres.1] at hgc
      cases hgc
    · rw [if_neg hb] at hres
      obtain ⟨n, e, hafter, hround⟩ := engineLoop_result a fuel _ c w hres
      rcases engineRound_returned a e c w hround with ⟨-, hc, hw⟩ | ⟨s, rest, -, -, hlen⟩
      · left
        rw [hc] at hgc
        have hcond : (a.trackOrigins && decide (a.cm.getCalledGCFunction ∈ e.called)) = true := by
          simp [htrack, hgc]
        rw [if_pos hcond] at hw
        rw [hw]
        exact (mem_insert_signature _ _ _).mpr (Or.inr rfl)
      · exact Or.inr ⟨n, e, hafter, hlen⟩

/-- The failing input of C28: `chain 3` analysed with `MAX_STATES = 3`.  The
analysis returns with the GC signature in `called` and an empty `wrapped`, and
it has ended in the fallback; with `MAX_STATES = 4` the analysis of the same
function returns the GC signature in `wrapped`.  The same holds of
`chain 3000` with `MAX_STATES = 3000` and `3001`. -/
theorem gc_exception_witness :
    getCalledAndWrappedFunctions (exampleAnalysis (chain 3) 3) 4 ()
      = some (some ([gcSig, allocVectorSig], [])) ∧
    exampleModule.getCalledGCFunction = gcSig ∧
    getCalledAndWrappedFunctions (exampleAnalysis (chain 3) 4) 5 ()
      = some (some ([gcSig, allocVectorSig], [gcSig])) ∧
    getCalledAndWrappedFunctions (exampleAnalysis (chain 3000) 3000) 3001 ()
      = some (some ([gcSig, allocVectorSig], [])) ∧
    getCalledAndWrappedFunctions (exampleAnalysis (chain 3000) 3001) 3002 ()
      = some (some ([gcSig, allocVectorSig], [gcSig])) ∧
    ∃ n e, engineAfter (exampleAnalysis (chain 3) 3) n (EngineTy.init ()) = some e ∧
      3 < e.doneSet.length :=
  ⟨chain_result_fallback 3 (by decide), by decide, chain_result_normal 3 4 (by decide) (by decide),
   chain_result_fallback 3000 (by norm_num), chain_result_normal 3000 3001 (by norm_num)
     (by norm_num),
   ((gc_exception (exampleAnalysis (chain 3) 3) () rfl).2 4 [gcSig, allocVectorSig] []
      (chain_result_fallback 3 (by decide)) (by decide)).resolve_left (by decide)⟩

/-! ### The flow-insensitive fallback -/

theorem sweptCall_cons_skip {γ : Type} (a : AnalysisTy γ) (p : BlockId) (i : Instruction)
    (rest : List (BlockId × Instruction)) (test : FuncId → Bool) (x : CalledFunctionTy)
    (h : p ∈ a.errorBasicBlocks ∨ ∀ c args, i.op ≠ .call c args) :
    SweptCall a ((p, i) :: rest) test x ↔ SweptCall a rest test x := by
  constructor
  · rintro ⟨q, j, f, args, hmem, hq, hop, ht, hx⟩
    rcases List.mem_cons.mp hmem with heq | hmem
    · simp only [Prod.mk.injEq] at heq
      obtain ⟨rfl, rfl⟩ := heq
      rcases h with h | h
      · exact absurd h hq
      · exact absurd hop (h _ _)
    · exact ⟨q, j, f, args, hmem, hq, hop, ht, hx⟩
  · rintro ⟨q, j, f, args, hmem, hq, hop, ht, hx⟩
    exact ⟨q, j, f, args, List.mem_cons_of_mem _ hmem, hq, hop, ht, hx⟩

theorem sweptCall_cons_call {γ : Type} (a : AnalysisTy γ) (p : BlockId) (i : Instruction)
    (rest : List (BlockId × Instruction)) (test : FuncId → Bool) (x : CalledFunctionTy)
    (f : FuncId) (args : List Value) (hp : p ∉ a.errorBasicBlocks)
    (hop : i.op = .call (.func f) args) :
    SweptCall a ((p, i) :: rest) test x ↔
      (test f = true ∧ x = ⟨f, args.map (a.cm.argInfoOf a.F none)⟩) ∨
        SweptCall a rest test x := by
  constructor
  · rintro ⟨q, j, f2, args2, hmem, hq, hop2, ht, hx⟩
    rcases List.mem_cons.mp hmem with heq | hmem
    · simp only [Prod.mk.injEq] at heq
      obtain ⟨rfl, rfl⟩ := heq
      rw [hop] at hop2
      simp only [Instr.call.injEq, Value.func.injEq] at hop2
      obtain ⟨rfl, rfl⟩ := hop2
      exact Or.inl ⟨ht, hx⟩
    · exact Or.inr ⟨q, j, f2, args2, hmem, hq, hop2, ht, hx⟩
  · rintro (⟨ht, hx⟩ | ⟨q, j, f2, args2, hmem, hq, hop2, ht, hx⟩)
    · exact ⟨p, i, f, args, List.mem_cons_self _ _, hp, hop, ht, hx⟩
    · exact ⟨q, j, f2, args2, List.mem_cons_of_mem _ hmem, hq, hop2, ht, hx⟩

/-- What the sweep returns when every call outside the error basic blocks is a
direct call. -/
theorem fallbackSweep_spec {γ : Type} (a : AnalysisTy γ) (oa ow : Bool) :
    ∀ (l : List (BlockId × Instruction))
      (res : CalledFunctionsOrderedSetTy × CalledFunctionsOrderedSetTy),
      (∀ p i, (p, i) ∈ l → p ∉ a.errorBasicBlocks → ∀ callee args,
        i.op = .call callee args → (∃ f, callee = .func f) ∧ a.F.find i.id = some i.op) →
      ∃ r, fallbackSweep a oa ow l res = some r ∧
        (∀ x, x ∈ r.1 ↔ x ∈ res.1 ∨ (oa = true ∧ SweptCall a l a.cm.isAllocating x)) ∧
        (∀ x, x ∈ r.2 ↔ x ∈ res.2 ∨ (ow = true ∧ SweptCall a l a.cm.isPossibleAllocator x)) := by
  intro l
  induction l with
  | nil =>
    intro res _
    refine ⟨res, rfl, fun x => ?_, fun x => ?_⟩
    · constructor
      · exact Or.inl
      · rintro (h | ⟨-, q, j, f, args, hmem, -⟩)
        · exact h
        · cases hmem
    · constructor
      · exact Or.inl
      · rintro (h | ⟨-, q, j, f, args, hmem, -⟩)
        · exact h
        · cases hmem
  | cons y rest ih =>
    intro res h
    obtain ⟨p, i⟩ := y
    have hrest : ∀ q j, (q, j) ∈ rest → q ∉ a.errorBasicBlocks → ∀ callee args,
        j.op = .call callee args → (∃ f, callee = .func f) ∧ a.F.find j.id = some j.op :=
      fun q j hm => h q j (List.mem_cons_of_mem _ hm)
    by_cases hp : p ∈ a.errorBasicBlocks
    · obtain ⟨r, hr, h1, h2⟩ := ih res hrest
      refine ⟨r, ?_, fun x => ?_, fun x => ?_⟩
      · unfold fallbackSweep
        rw [if_pos hp]
        exact hr
      · rw [sweptCall_cons_skip a p i rest _ x (Or.inl hp)]
        exact h1 x
      · rw [sweptCall_cons_skip a p i rest _ x (Or.inl hp)]
        exact h2 x
    · cases hop : i.op with
      | call callee args =>
        obtain ⟨⟨f, rfl⟩, hfind⟩ := h p i (List.mem_cons_self _ _) hp callee args hop
        rw [hop] at hfind
        have hct : a.cm.getCalledFunction a.F (.inst i.id) none
            = some ⟨f, args.map (a.cm.argInfoOf a.F none)⟩ := by
          simp [CalledModuleTy.getCalledFunction, hfind, getCalledFunction]
        obtain ⟨r, hr, h1, h2⟩ := ih
          ((if (oa && a.cm.isAllocating f) = true then
              CalledFunctionsOrderedSetTy.insert res.1 ⟨f, args.map (a.cm.argInfoOf a.F none)⟩
            else res.1),
           (if (ow && a.cm.isPossibleAllocator f) = true then
              CalledFunctionsOrderedSetTy.insert res.2 ⟨f, args.map (a.cm.argInfoOf a.F none)⟩
            else res.2)) hrest
        refine ⟨r, ?_, fun x => ?_, fun x => ?_⟩
        · unfold fallbackSweep
          rw [if_neg hp]
          simp only [hop, hct, getCalledFunction]
          exact hr
        · rw [sweptCall_cons_call a p i rest _ x f args hp hop, h1 x]
          simp only
          by_cases hc : (oa && a.cm.isAllocating f) = true
          · rw [if_pos hc, mem_insert_signature]
            simp only [Bool.and_eq_true] at hc
            constructor
            · rintro ((hx | hx) | ⟨ho, hs⟩)
              · exact Or.inl hx
              · exact Or.inr ⟨hc.1, Or.inl ⟨hc.2, hx⟩⟩
              · exact Or.inr ⟨ho, Or.inr hs⟩
            · rintro (hx | ⟨ho, ⟨-, hx⟩ | hs⟩)
              · exact Or.inl (Or.inl hx)
              · exact Or.inl (Or.inr hx)
              · exact Or.inr ⟨ho, hs⟩
          · rw [if_neg hc]
            simp only [Bool.and_eq_true, not_and] at hc
            constructor
            · rintro (hx | ⟨ho, hs⟩)
              · exact Or.inl hx
              · exact Or.inr ⟨ho, Or.inr hs⟩
            · rintro (hx | ⟨ho, ⟨ht, -⟩ | hs⟩)
              · exact Or.inl hx
              · exact absurd ht (hc ho)
              · exact Or.inr ⟨ho, hs⟩
        · rw [sweptCall_cons_call a p i rest _ x f args hp hop, h2 x]
          simp only
          by_cases hc : (ow && a.cm.isPossibleAllocator f) = true
          · rw [if_pos hc, mem_insert_signature]
            simp only [Bool.and_eq_true] at hc
            constructor
            · rintro ((hx | hx) | ⟨ho, hs⟩)
              · exact Or.inl hx
              · exact Or.inr ⟨hc.1, Or.inl ⟨hc.2, hx⟩⟩
              · exact Or.inr ⟨ho, Or.inr hs⟩
            · rintro (hx | ⟨ho, ⟨-, hx⟩ | hs⟩)
              · exact Or.inl (Or.inl hx)
              · exact Or.inl (Or.inr hx)
              · exact Or.inr ⟨ho, hs⟩
          · rw [if_neg hc]
            simp only [Bool.and_eq_true, not_and] at hc
            constructor
            · rintro (hx | ⟨ho, hs⟩)
              · exact Or.inl hx
              · exact Or.inr ⟨ho, Or.inr hs⟩
            · rintro (hx | ⟨ho, ⟨ht, -⟩ | hs⟩)
              · exact Or.inl hx
              · exact absurd ht (hc ho)
              · exact Or.inr ⟨ho, hs⟩
      | _ =>
        obtain ⟨r, hr, h1, h2⟩ := ih res hrest
        refine ⟨r, ?_, fun x => ?_, fun x => ?_⟩
        · unfold fallbackSweep
          rw [if_neg hp]
          simp only [hop]
          exact hr
        · rw [sweptCall_cons_skip a p i rest _ x (Or.inr (by rw [hop]; intro c args hc; cases hc))]
          exact h1 x
        · rw [sweptCall_cons_skip a p i rest _ x (Or.inr (by rw [hop]; intro c args hc; cases hc))]
          exact h2 x

/-- C29 as stated fails.  In `chain 3`, analysed with `MAX_STATES = 3`, the
done-set holds 4 states after 3 rounds and the analysis ends in the fallback;
`allocVector();` in the entry block is a direct call of a possible allocator,
yet the returned `wrapped` is empty: the analysed function is not flagged as a
possible allocator.  In `errorBranch`, analysed with `MAX_STATES = 1`, the
done-set holds 3 states after one round; `mkString();` in block 1 is a direct
call of a function that may allocate and is a possible allocator, yet its
signature is in neither returned set: block 1 is an error basic block.  The
analysis of `chain 3000` with `MAX_STATES = 3000` returns what that of `chain 3`
returns. -/
theorem fallback_sweep_counterexample :
    ((engineAfter (exampleAnalysis (chain 3) 3) 3 (EngineTy.init ())).map
        (fun e => e.doneSet.length) = some 4 ∧
      getCalledAndWrappedFunctions (exampleAnalysis (chain 3) 3) 4 ()
        = some (some ([gcSig, allocVectorSig], [])) ∧
      (0, (⟨1, .call (.func 10) []⟩ : Instruction)) ∈ (chain 3).instsWithParent ∧
      exampleModule.isPossibleAllocator 10 = true ∧
      exampleModule.getCalledFunction (chain 3) (.inst 1) none = some allocVectorSig ∧
      allocVectorSig ∉ ([] : CalledFunctionsOrderedSetTy) ∧
      getCalledAndWrappedFunctions (exampleAnalysis (chain 3000) 3000) 3001 ()
        = some (some ([gcSig, allocVectorSig], []))) ∧
    ((engineAfter errorBranchAnalysis 1 (EngineTy.init ())).map
        (fun e => e.doneSet.length) = some 3 ∧
      getCalledAndWrappedFunctions errorBranchAnalysis 2 ()
        = some (some ([gcSig, allocVectorSig], [allocVectorSig])) ∧
      (1, (⟨2, .call (.func 11) []⟩ : Instruction)) ∈ errorBranch.instsWithParent ∧
      errorBranchAnalysis.cm.isAllocating 11 = true ∧
      errorBranchAnalysis.cm.isPossibleAllocator 11 = true ∧
      errorBranchAnalysis.cm.getCalledFunction errorBranch (.inst 2) none = some ⟨11, []⟩ ∧
      (⟨11, []⟩ : CalledFunctionTy) ∉ [gcSig, allocVectorSig] ∧
      (⟨11, []⟩ : CalledFunctionTy) ∉ [allocVectorSig]) := by
  refine ⟨⟨?_, chain_result_fallback 3 (by decide), by decide, by decide, by decide, by decide,
      chain_result_fallback 3000 (by norm_num)⟩,
    ⟨by decide, by decide, by decide, by decide, by decide, by decide, by decide, by decide⟩⟩
  rw [chain_after 3 3 3 (by decide) (by decide) (by decide)]
  rfl

/-- C29 amended: when a state that is not on an error path is popped while the
done-set holds more than `MAX_STATES` states, and every call instruction
outside the error basic blocks is a direct call, the analysis returns, and a
signature is in the returned `called` exactly when it was registered before
or the analysed function is itself flagged as allocating and the signature is
that of a direct call instruction of the function, outside the error basic
blocks, whose target may allocate; it is in the returned `wrapped` exactly
when it was there before or the analysed function is itself flagged as a
possible allocator and the signature is that of such a call whose target is
a possible allocator. -/
theorem fallback_sweep {γ : Type} (a : AnalysisTy γ) (e : EngineTy γ) (s : CAllocStateTy)
    (rest : List CAllocStateTy)
    (hw : e.workList = s :: rest) (herr : s.bb ∉ a.errorBasicBlocks)
    (hcap : a.MAX_STATES < e.doneSet.length)
    (hdirect : ∀ p i, (p, i) ∈ a.F.instsWithParent → p ∉ a.errorBasicBlocks → ∀ callee args,
      i.op = .call callee args → (∃ f, callee = .func f) ∧ a.F.find i.id = some i.op) :
    ∃ c w, engineRound a e = .returned c w ∧
      (∀ x, x ∈ c ↔ x ∈ e.called ∨
        (a.cm.isAllocating a.fn = true ∧
          SweptCall a a.F.instsWithParent a.cm.isAllocating x)) ∧
      (∀ x, x ∈ w ↔ x ∈ e.wrapped ∨
        (a.cm.isPossibleAllocator a.fn = true ∧
          SweptCall a a.F.instsWithParent a.cm.isPossibleAllocator x)) := by
  have hcap2 : e.doneSet.length > a.MAX_STATES := hcap
  unfold engineRound
  simp only [hw, herr, if_false, hcap2, if_true]
  by_cases hflags : (!a.cm.isAllocating a.fn && !a.cm.isPossibleAllocator a.fn) = true
  · rw [if_pos hflags]
    simp only [Bool.and_eq_true, Bool.not_eq_true'] at hflags
    refine ⟨_, _, rfl, fun x => ?_, fun x => ?_⟩
    · simp [hflags.1]
    · simp [hflags.2]
  · rw [if_neg hflags]
    obtain ⟨r, hr, h1, h2⟩ := fallbackSweep_spec a (a.cm.isAllocating a.fn)
      (a.cm.isPossibleAllocator a.fn) a.F.instsWithParent (e.called, e.wrapped) hdirect
    rw [hr]
    exact ⟨_, _, rfl, h1, h2⟩

/-- Witness of C29: the fallback on `errorBranch` after the first round; the
signature of `allocVector();` in block 2 is in both returned sets. -/
theorem fallback_sweep_witness :
    ∃ c w, engineRound errorBranchAnalysis
        ⟨[⟨2, [], [], [], []⟩, ⟨1, [], [], [], []⟩],
         [⟨2, [], [], [], []⟩, ⟨1, [], [], [], []⟩, ⟨0, [], [], [], []⟩], [gcSig], [], ()⟩
        = .returned c w ∧ allocVectorSig ∈ c ∧ allocVectorSig ∈ w := by
  obtain ⟨c, w, h, hc, hw⟩ := fallback_sweep errorBranchAnalysis
    ⟨[⟨2, [], [], [], []⟩, ⟨1, [], [], [], []⟩],
     [⟨2, [], [], [], []⟩, ⟨1, [], [], [], []⟩, ⟨0, [], [], [], []⟩], [gcSig], [], ()⟩
    ⟨2, [], [], [], []⟩ [⟨1, [], [], [], []⟩] rfl (by decide) (by decide)
    (by
      intro p i hmem hp callee args hop
      simp only [FunctionIR.instsWithParent, errorBranchAnalysis, errorBranch, List.enum_cons,
        List.enumFrom_cons, List.enumFrom_nil, List.map_cons, List.map_nil, List.flatten_cons,
        List.flatten_nil, List.cons_append, List.nil_append, List.mem_cons, Prod.mk.injEq,
        List.not_mem_nil, or_false] at hmem
      rcases hmem with ⟨rfl, rfl⟩ | ⟨rfl, rfl⟩ | ⟨rfl, rfl⟩ | ⟨rfl, rfl⟩ | ⟨rfl, rfl⟩ | ⟨rfl, rfl⟩
      all_goals first
        | (cases hop; exact ⟨⟨_, rfl⟩, by decide⟩)
        | cases hop)
  exact ⟨c, w, h,
    (hc allocVectorSig).mpr (Or.inr ⟨by decide, 2, ⟨4, .call (.func 10) []⟩, 10, [],
      by decide, by decide, rfl, by decide, by decide⟩),
    (hw allocVectorSig).mpr (Or.inr ⟨by decide, 2, ⟨4, .call (.func 10) []⟩, 10, [],
      by decide, by decide, rfl, by decide, by decide⟩)⟩

/-! ### Termination of the worklist loop and the size of the done-set -/

/-- C30 as stated fails in its bound: in the analysis of `chain 3` with
`MAX_STATES = 3` the loop is still running after 3 rounds, with one state on
the worklist and 4 states in the done-set; in the analysis of `chain 3000`
with `MAX_STATES = 3000` it is still running after 3000 rounds, with 3001
states in the done-set. -/
theorem done_set_bound_counterexample :
    (exampleAnalysis (chain 3) 3).MAX_STATES = 3 ∧
    (engineAfter (exampleAnalysis (chain 3) 3) 3 (EngineTy.init ())).map
      (fun e => (e.workList.length, e.doneSet.length)) = some (1, 4) ∧
    (exampleAnalysis (chain 3000) 3000).MAX_STATES = 3000 ∧
    (engineAfter (exampleAnalysis (chain 3000) 3000) 3000 (EngineTy.init ())).map
      (fun e => (e.workList.length, e.doneSet.length)) = some (1, 3001) := by
  refine ⟨rfl, ?_, rfl, ?_⟩
  · rw [chain_after 3 3 3 (by decide) (by decide) (by decide)]
    rfl
  · rw [chain_after 3000 3000 3000 (by norm_num) (le_refl _) (le_refl _)]
    simp only [Option.map_some', List.length_singleton, chainDone_length]

/-- C30 amended: for every function, the worklist loop of
`getCalledAndWrappedFunctions` ends after finitely many rounds, and, `B`
being a bound on the states one round can add and `MAX_STATES` being
positive, at no point during the analysis does the done-set hold more than
`MAX_STATES + B` states; once it holds more than `MAX_STATES` states, no round
adds a state to it. -/
theorem worklist_loop_terminates_bounded {γ : Type} (a : AnalysisTy γ) (g : γ) (B : Nat)
    (hB : a.AddsAtMost B) (hM : 0 < a.MAX_STATES) :
    (∃ fuel, getCalledAndWrappedFunctions a fuel g ≠ none) ∧
    ∀ n e, engineAfter a n (EngineTy.init g) = some e →
      e.doneSet.length ≤ a.MAX_STATES + B ∧
      (a.MAX_STATES < e.doneSet.length →
        ∀ e1, engineRound a e = .next e1 → e1.doneSet = e.doneSet) := by
  constructor
  · unfold getCalledAndWrappedFunctions
    by_cases hb : a.F.blocks.length = 0
    · exact ⟨0, by simp [hb]⟩
    · obtain ⟨fuel, hf⟩ := engineLoop_terminates a (EngineTy.init g)
      exact ⟨fuel, by rw [if_neg hb]; exact hf⟩
  · intro n e hafter
    refine ⟨engineAfter_bound a B hB n (EngineTy.init g) e ?_ hafter, ?_⟩
    · rw [init_doneSet]
      omega
    · intro hlen e1 hr
      obtain ⟨s, rest, k, -, -, -, hk0, hk, -⟩ := engineRound_next a e e1 hr
      by_cases hz : k = 0
      · exact hk0 hz
      · have := hk hz
        omega

/-- Witness of C30: the analysis of `chain 3` with `MAX_STATES = 3`, in which a
round adds at most one state. -/
theorem worklist_loop_terminates_bounded_witness :
    (exampleAnalysis (chain 3) 3).AddsAtMost 1 ∧
    (∃ fuel, getCalledAndWrappedFunctions (exampleAnalysis (chain 3) 3) fuel () ≠ none) ∧
    (chainDone 3).length ≤ 3 + 1 := by
  have hB : (exampleAnalysis (chain 3) 3).AddsAtMost 1 := by
    intro t ht g bb ig sg g2 bb2 ig2 sg2
    have hs : ∀ i, i ∈ (chain 3).insts → i.op.successors.length ≤ 1 := by decide
    have h1 := hs t ht
    simp only [exampleAnalysis, noGuards, List.length_nil, Nat.zero_add]
    exact h1
  have h := worklist_loop_terminates_bounded (exampleAnalysis (chain 3) 3) () 1 hB (by decide)
  exact ⟨hB, h.1, (h.2 3 _ (chain_after 3 3 3 (by decide) (by decide) (by decide))).1⟩

/-! ### Signatures and their argument-infos -/

theorem argInfoOf_eq_rules (cm : CalledModuleTy) (F : FunctionIR) (guards : SEXPGuardsTy)
    (arg : Value) : cm.argInfoOf F (some guards) arg = argInfoByRules cm F guards arg := by
  unfold CalledModuleTy.argInfoOf argInfoByRules symbolOfGlobalLoad symbolOfGuardedSlot
  cases hl : F.asLoad arg with
  | none => simp
  | some src =>
    cases src with
    | global gv =>
      cases hg : cm.symbolsMap.lookup gv with
      | none => simp [FunctionIR.asAlloca, hg]
      | some name => simp [hg]
    | inst id =>
      cases ha : F.asAlloca (.inst id) with
      | none => simp [ha]
      | some var =>
        cases hv : guards.lookup var with
        | none => simp [ha, hv]
        | some gd => cases gd <;> simp [getSEXPGuardState, ha, hv]
    | _ => simp [FunctionIR.asAlloca]

/-- C31: for every direct call instruction and every SEXP-guard state,
`getCalledFunction` returns the signature of the callee whose argument-info
is, for each actual, what the first applicable rule gives, in the order: load
of a global of the symbol table, load of a stack slot whose guard fact is a
symbol, call of the symbol-intern primitive with a constant, otherwise
unknown.  For a value that is not a call instruction and for an indirect call
it returns no signature. -/
theorem argument_info_rules (cm : CalledModuleTy) (F : FunctionIR) (guards : SEXPGuardsTy) :
    (∀ id f args, F.find id = some (.call (.func f) args) →
      cm.getCalledFunction F (.inst id) (some guards)
        = some ⟨f, args.map (argInfoByRules cm F guards)⟩) ∧
    (∀ arg, argInfoByRules cm F guards arg =
      (if (symbolOfGlobalLoad cm F arg).isSome then symbolOfGlobalLoad cm F arg
       else if (symbolOfGuardedSlot F guards arg).isSome then symbolOfGuardedSlot F guards arg
       else if (cm.isInstallConstantCall arg).isSome then cm.isInstallConstantCall arg
       else none)) ∧
    (∀ v, (∀ id callee args, v = .inst id → F.find id ≠ some (.call callee args)) →
      cm.getCalledFunction F v (some guards) = none) ∧
    (∀ id callee args, F.find id = some (.call callee args) → (∀ f, callee ≠ .func f) →
      cm.getCalledFunction F (.inst id) (some guards) = none) := by
  refine ⟨?_, ?_, ?_, ?_⟩
  · intro id f args h
    simp only [CalledModuleTy.getCalledFunction, h, getCalledFunction, Option.some.injEq,
      CalledFunctionTy.mk.injEq, true_and]
    exact List.map_congr_left (fun arg _ => argInfoOf_eq_rules cm F guards arg)
  · intro arg
    unfold argInfoByRules
    cases h1 : symbolOfGlobalLoad cm F arg with
    | some n => simp
    | none =>
      cases h2 : symbolOfGuardedSlot F guards arg with
      | some n => simp
      | none => cases h3 : cm.isInstallConstantCall arg <;> simp
  · intro v h
    cases v with
    | inst id =>
      simp only [CalledModuleTy.getCalledFunction]
      cases hf : F.find id with
      | none => rfl
      | some op =>
        cases op with
        | call callee args => exact absurd hf (h id callee args rfl)
        | _ => rfl
    | _ => rfl
  · intro id callee args h hc
    simp only [CalledModuleTy.getCalledFunction, h]
    cases callee with
    | func f => exact absurd rfl (hc f)
    | _ => rfl

/-- C32 as stated fails for a call of a variadic function: in `variadicCall`
the call `Rprintf(fmt, n)` of function 12, which has one formal parameter,
resolves to a signature with two argument-infos, both unknown, which is not
the context-free signature of function 12. -/
theorem signature_length_counterexample :
    variadicModule.arg_size 12 = 1 ∧
    variadicModule.getCalledFunction variadicCall (.inst 0) (some [])
      = some ⟨12, [none, none]⟩ ∧
    variadicModule.getCalledFunctionOf 12 = ⟨12, [none]⟩ ∧
    (⟨12, [none, none]⟩ : CalledFunctionTy) ≠ variadicModule.getCalledFunctionOf 12 := by
  decide

/-- C32 amended: the signature that `getCalledFunction(Function*)` produces
carries one argument-info per formal parameter of the function, and the
signature that `getCalledFunction` produces at a call site carries one
argument-info per actual argument of the call; so a call site that passes as
many actuals as its callee has formal parameters, all of them unknown,
resolves to the context-free signature of its callee. -/
theorem signature_length (cm : CalledModuleTy) (F : FunctionIR) (sg : Option SEXPGuardsTy)
    (id : InstId) (f : FuncId) (args : List Value)
    (hcall : F.find id = some (.call (.func f) args)) :
    (cm.getCalledFunctionOf f).argInfo.length = cm.arg_size f ∧
    (∃ sig, cm.getCalledFunction F (.inst id) sg = some sig ∧ sig.fn = f ∧
      sig.argInfo.length = args.length ∧
      (args.length = cm.arg_size f → (∀ x, x ∈ sig.argInfo → x = none) →
        sig = cm.getCalledFunctionOf f)) := by
  refine ⟨by simp [CalledModuleTy.getCalledFunctionOf], ?_⟩
  refine ⟨⟨f, args.map (cm.argInfoOf F sg)⟩, ?_, rfl, by simp, ?_⟩
  · simp [CalledModuleTy.getCalledFunction, hcall, getCalledFunction]
  · intro hlen hall
    simp only [CalledModuleTy.getCalledFunctionOf, CalledFunctionTy.mk.injEq, true_and]
    rw [← hlen]
    exact List.eq_replicate_iff.mpr ⟨by simp, hall⟩

/-- Witness of C32: the call `gc(0)` in `chain 3` passes one actual to the GC
function, which has one formal parameter. -/
theorem signature_length_witness :
    ∃ sig, exampleModule.getCalledFunction (chain 3) (.inst 0) none = some sig ∧
      sig.argInfo.length = 1 ∧ sig = exampleModule.getCalledFunctionOf 9 := by
  obtain ⟨-, sig, h1, -, h2, h3⟩ := signature_length exampleModule (chain 3) none 0 9
    [.constInt 32 0] (by decide)
  have hsig : sig = gcSig := by
    have h0 : exampleModule.getCalledFunction (chain 3) (.inst 0) none = some gcSig := by decide
    rw [h0] at h1
    exact (Option.some.inj h1).symm
  exact ⟨sig, h1, h2, h3 (by decide) (by rw [hsig]; decide)⟩

/-! ### Unsupported forms of unprotect -/

theorem emitted_self (e : Env) : emitted e e = [] := by
  simp [emitted]

/-- C33, as far as the code has it: a call of the unprotect primitive whose
argument is neither an integer constant nor a load of a recognized counter
slot leaves the balance state and the count of refinable infos unchanged; it
emits the info "has an unsupported form of unprotect with a variable" when the
argument is a load of a stack slot, and it emits nothing when the argument is
anything else. -/
theorem unprotect_unsupported_form (F : FunctionIR) (g : GlobalsTy) (u : FuncId) (id : InstId)
    (v : Value) (rest : List Value) (e : Env)
    (hu : g.unprotectFunction = some u) (hp : g.protectFunction ≠ some u)
    (hpi : g.protectWithIndexFunction ≠ some u)
    (hv : v.isConstantInt = false)
    (hnot : ∀ var, (F.asLoad v).bind F.asAlloca = some var →
      (isProtectionCounterVariableCached F var g.unprotectFunction e.counterVarsCache).1 = false) :
    ∃ e1, handleBalanceForNonTerminator F g ⟨id, .call (.func u) (v :: rest)⟩ e = some e1 ∧
      e1.b = e.b ∧ e1.refinableInfos = e.refinableInfos ∧
      emitted e e1 =
        (if ((F.asLoad v).bind F.asAlloca).isSome = true then
          [⟨.info,
            "has an unsupported form of unprotect with a variable (results will be incorrect)",
            id⟩]
         else []) := by
  have hp1 : ¬ (some u = g.protectFunction) := fun h => hp h.symm
  have hp2 : ¬ (some u = g.protectWithIndexFunction) := fun h => hpi h.symm
  rw [nonTerminator_call]
  cases v with
  | constInt w bits => cases hv
  | inst lid =>
    cases hl : F.asLoad (.inst lid) with
    | none =>
      exact ⟨e, by simp [handleCall, getCalledFunction, hp1, hp2, hu, hl], rfl, rfl,
        by simp [emitted_self]⟩
    | some varValue =>
      cases ha : F.asAlloca varValue with
      | none =>
        exact ⟨e, by simp [handleCall, getCalledFunction, hp1, hp2, hu, hl, ha], rfl, rfl,
          by simp [emitted_self, ha]⟩
      | some var =>
        have hr := hnot var (by simp [hl, ha])
        rw [hu] at hr
        refine ⟨({ e with counterVarsCache :=
            (isProtectionCounterVariableCached F var (some u) e.counterVarsCache).2 } : Env).info
          "has an unsupported form of unprotect with a variable (results will be incorrect)" id,
          by simp [handleCall, getCalledFunction, hp1, hp2, hu, hl, ha, hr], rfl, rfl, ?_⟩
        simp [emitted, Env.info, ha]
  | constOther t =>
    exact ⟨e, by simp [handleCall, getCalledFunction, hp1, hp2, hu, FunctionIR.asLoad], rfl, rfl,
      by simp [emitted_self, FunctionIR.asLoad]⟩
  | global gl =>
    exact ⟨e, by simp [handleCall, getCalledFunction, hp1, hp2, hu, FunctionIR.asLoad], rfl, rfl,
      by simp [emitted_self, FunctionIR.asLoad]⟩
  | func f =>
    exact ⟨e, by simp [handleCall, getCalledFunction, hp1, hp2, hu, FunctionIR.asLoad], rfl, rfl,
      by simp [emitted_self, FunctionIR.asLoad]⟩
  | argument k =>
    exact ⟨e, by simp [handleCall, getCalledFunction, hp1, hp2, hu, FunctionIR.asLoad], rfl, rfl,
      by simp [emitted_self, FunctionIR.asLoad]⟩

/-- The failing input of C33: in `unprotectForms` the transfer of
`UNPROTECT(n + 1)` emits nothing at all, whereas the transfer of
`UNPROTECT(m)` emits the info about the unsupported form. -/
theorem unprotect_unsupported_form_witness :
    (∃ e1, handleBalanceForNonTerminator unprotectForms exampleGlobals
        ⟨8, .call (.func 3) [.inst 7]⟩ Env.entry = some e1 ∧ e1.b = Env.entry.b ∧
      emitted Env.entry e1 = []) ∧
    (∃ e1, handleBalanceForNonTerminator unprotectForms exampleGlobals
        ⟨5, .call (.func 3) [.inst 4]⟩ Env.entry = some e1 ∧ e1.b = Env.entry.b ∧
      emitted Env.entry e1 =
        [⟨.info,
          "has an unsupported form of unprotect with a variable (results will be incorrect)",
          5⟩]) := by
  constructor
  · obtain ⟨e1, h1, h2, -, h3⟩ := unprotect_unsupported_form unprotectForms exampleGlobals 3 8
      (.inst 7) [] Env.entry rfl (by decide) (by decide) rfl
      (by
        intro var h
        have h0 : (unprotectForms.asLoad (.inst 7)).bind unprotectForms.asAlloca = none := by
          decide
        rw [h0] at h
        cases h)
    exact ⟨e1, h1, h2, by rw [h3]; decide⟩
  · obtain ⟨e1, h1, h2, -, h3⟩ := unprotect_unsupported_form unprotectForms exampleGlobals 3 5
      (.inst 4) [] Env.entry rfl (by decide) (by decide) rfl
      (by
        intro var h
        have hvar : var = 0 := by
          have h0 : (unprotectForms.asLoad (.inst 4)).bind unprotectForms.asAlloca = some 0 := by
            decide
          rw [h0] at h
          exact (Option.some.inj h).symm
        subst hvar
        decide)
    exact ⟨e1, h1, h2, by rw [h3]; decide⟩

/-! ### Saturation and the balance transfers -/

theorem saturate_eq_sat (L : Limits) (e : Env) (hx : e.b.countState = .CS_EXACT)
    (hc : e.b.count > L.MAX_COUNT) : saturate L e = some e.sat := by
  simp [saturate, hc, hx, Env.sat, BalanceStateTy.sat]

theorem sat_protect (F : FunctionIR) (g : GlobalsTy) (e : Env) (c : Instruction)
    (hc : isProtectCall g c = true) :
    ∃ e1 e2, handleBalanceForNonTerminator F g c e = some e1 ∧
      handleBalanceForNonTerminator F g c e.sat = some e2 ∧
      e1.b.sat.depth = e2.b.depth ∧ e2.b.countState = .CS_DIFF := by
  have hcall : ∃ callee args, c.op = .call callee args := by
    obtain ⟨id, op⟩ := c
    cases op <;> simp [isProtectCall] at hc ⊢
  obtain ⟨callee, args, hop⟩ := hcall
  obtain ⟨id, op⟩ := c
  simp only at hop
  subst hop
  rw [nonTerminator_call, nonTerminator_call, handleCall_protect F g _ e hc,
    handleCall_protect F g _ e.sat hc]
  refine ⟨_, _, rfl, rfl, ?_, rfl⟩
  simp only [Env.debug, Env.sat, BalanceStateTy.sat]
  ring

theorem handleCall_unprotect_const_b (F : FunctionIR) (g : GlobalsTy) (e : Env) (u : FuncId)
    (id : InstId) (w bits k : Nat) (rest : List Value)
    (hu : g.unprotectFunction = some u) (hp : g.protectFunction ≠ some u)
    (hpi : g.protectWithIndexFunction ≠ some u) (hk : getZExtValue w bits = some k) :
    ∃ e1,
      handleBalanceForNonTerminator F g ⟨id, .call (.func u) (.constInt w bits :: rest)⟩ e
        = some e1 ∧
      e1.b = { e.b with depth := e.b.depth - castToInt k } := by
  have hp1 : ¬ (some u = g.protectFunction) := fun h => hp h.symm
  have hp2 : ¬ (some u = g.protectWithIndexFunction) := fun h => hpi h.symm
  rw [nonTerminator_call]
  simp only [handleCall, getCalledFunction, hp1, hp2, or_self, if_false, hu, if_true, hk]
  split
  · exact ⟨_, rfl, rfl⟩
  · exact ⟨_, rfl, rfl⟩

theorem handleCall_unprotect_ptr_b (F : FunctionIR) (g : GlobalsTy) (e : Env) (p : FuncId)
    (id : InstId) (args : List Value)
    (hptr : g.unprotectPtrFunction = some p) (hp : g.protectFunction ≠ some p)
    (hpi : g.protectWithIndexFunction ≠ some p) (hu : g.unprotectFunction ≠ some p) :
    ∃ e1, handleBalanceForNonTerminator F g ⟨id, .call (.func p) args⟩ e = some e1 ∧
      e1.b = { e.b with depth := e.b.depth - 1 } := by
  have hp1 : ¬ (some p = g.protectFunction) := fun h => hp h.symm
  have hp2 : ¬ (some p = g.protectWithIndexFunction) := fun h => hpi h.symm
  have hp3 : ¬ (some p = g.unprotectFunction) := fun h => hu h.symm
  rw [nonTerminator_call]
  simp only [handleCall, getCalledFunction, hp1, hp2, hp3, or_self, if_false, hptr, if_true]
  split
  · exact ⟨_, rfl, rfl⟩
  · exact ⟨_, rfl, rfl⟩

theorem handleStore_counter_add_b (F : FunctionIR) (g : GlobalsTy) (e : Env)
    (id aid v : InstId) (op0 op1 : Value) (w bits : Nat) (c : Int) (ty : Option Nat) (arr : Bool)
    (ha : F.find v = some (.alloca ty arr))
    (hr : (isProtectionCounterVariableCached F v g.unprotectFunction e.counterVarsCache).1 = true)
    (hbin : F.find aid = some (.binop .Add op0 op1))
    (hops : (op0 = .constInt w bits ∧ F.asLoad op1 = some (.inst v)) ∨
      (op1 = .constInt w bits ∧ op0.isConstantInt = false ∧ F.asLoad op0 = some (.inst v)))
    (hc : getSExtValue w bits = some c)
    (hcv : e.b.counterVar = some v) (hn : e.b.countState ≠ .CS_NONE) :
    ∃ e1, handleBalanceForNonTerminator F g ⟨id, .store (.inst aid) (.inst v)⟩ e = some e1 ∧
      e1.b = (if e.b.countState = .CS_EXACT then { e.b with count := e.b.count + c }
              else { e.b with depth := e.b.depth - c }) := by
  have hcv2 : ¬ (e.b.counterVar.isSome = true ∧ e.b.counterVar ≠ some v) := by simp [hcv]
  rw [nonTerminator_store, handleStore_counter F g id v _ ty arr e ha hr]
  have hops2 : (if op0.isConstantInt = true then some (op0, op1)
      else if op1.isConstantInt = true then some (op1, op0) else none)
      = some (.constInt w bits, if op0 = .constInt w bits then op1 else op0) := by
    rcases hops with ⟨rfl, -⟩ | ⟨rfl, h0, -⟩
    · simp [Value.isConstantInt]
    · have hne : op0 ≠ .constInt w bits := by
        rintro rfl
        simp [Value.isConstantInt] at h0
      rw [if_neg (by rw [h0]; simp), if_pos (by simp [Value.isConstantInt]), if_neg hne]
  have hload : F.asLoad (if op0 = .constInt w bits then op1 else op0) = some (.inst v) := by
    rcases hops with ⟨rfl, h1⟩ | ⟨rfl, h0, h1⟩
    · simpa using h1
    · have hne : op0 ≠ .constInt w bits := by
        rintro rfl
        simp [Value.isConstantInt] at h0
      rw [if_neg hne]
      exact h1
  simp only [handleCounterStore, hcv2, if_false, FunctionIR.asBinaryOperator, hbin, hops2, hload,
    if_true, hn, hc, Env.debug]
  cases hs : e.b.countState with
  | CS_NONE => exact absurd hs hn
  | CS_EXACT =>
    simp only [if_true]
    split
    · exact ⟨_, rfl, by simp [Env.info, Env.incRefinable, hcv]⟩
    · exact ⟨_, rfl, by simp [hcv]⟩
  | CS_DIFF =>
    simp only [reduceCtorEq, if_false, ne_eq, not_true_eq_false]
    exact ⟨_, rfl, by simp [hcv]⟩


theorem handleCall_unprotect_counter_b (F : FunctionIR) (g : GlobalsTy) (e : Env) (u : FuncId)
    (id lid v : InstId) (rest : List Value) (ty : Option Nat) (arr : Bool)
    (hu : g.unprotectFunction = some u) (hp : g.protectFunction ≠ some u)
    (hpi : g.protectWithIndexFunction ≠ some u)
    (hl : F.find lid = some (.load (.inst v))) (ha : F.find v = some (.alloca ty arr))
    (hr : (isProtectionCounterVariableCached F v g.unprotectFunction e.counterVarsCache).1 = true)
    (hcv : e.b.counterVar = some v) (hn : e.b.countState ≠ .CS_NONE) :
    ∃ e1, handleBalanceForNonTerminator F g ⟨id, .call (.func u) (.inst lid :: rest)⟩ e
        = some e1 ∧
      e1.b = (if e.b.countState = .CS_EXACT then { e.b with depth := e.b.depth - e.b.count }
              else { e.b with countState := .CS_NONE }) := by
  rw [nonTerminator_call,
    handleCall_unprotect_counter F g u id lid v rest ty arr e hu hp hpi hl ha hr (Or.inr hcv),
    if_neg hn]
  by_cases hx : e.b.countState = .CS_EXACT
  · rw [if_pos hx, if_pos hx]
    split
    · exact ⟨_, rfl, by simp [hcv]⟩
    · exact ⟨_, rfl, by simp [hcv]⟩
  · rw [if_neg hx, if_neg hx]
    split
    · exact ⟨_, rfl, by simp [hcv]⟩
    · exact ⟨_, rfl, by simp [hcv]⟩

/-- C36: saturation commutes with the balance transfers.  For every state `s`
in count state exact with the counter bound (to slot `v`), `sat(s)` is what
the saturation step of the terminator transfer makes of `s`; for each of the
transfers protect, unprotect with a constant, unprotect-pointer and
`counter += c`, the transfer is defined on `s` and on `sat(s)`, the depth of
`sat(t(s))` is the depth of `t(sat(s))`, and both are in count state
differential; and the depth after `UNPROTECT(counter)` on `s` is the depth
after it on `sat(s)`. -/
theorem saturation_commutes (F : FunctionIR) (g : GlobalsTy) (e : Env) (v : InstId)
    (hx : e.b.countState = .CS_EXACT) (hcv : e.b.counterVar = some v) :
    (∀ L : Limits, e.b.count > L.MAX_COUNT → saturate L e = some e.sat) ∧
    (∀ c, isProtectCall g c = true →
      ∃ e1 e2, handleBalanceForNonTerminator F g c e = some e1 ∧
        handleBalanceForNonTerminator F g c e.sat = some e2 ∧
        e1.b.sat.depth = e2.b.depth ∧ e1.b.sat.countState = .CS_DIFF ∧
        e2.b.countState = .CS_DIFF) ∧
    (∀ u id w bits k rest, g.unprotectFunction = some u → g.protectFunction ≠ some u →
      g.protectWithIndexFunction ≠ some u → getZExtValue w bits = some k →
      ∃ e1 e2,
        handleBalanceForNonTerminator F g ⟨id, .call (.func u) (.constInt w bits :: rest)⟩ e
          = some e1 ∧
        handleBalanceForNonTerminator F g ⟨id, .call (.func u) (.constInt w bits :: rest)⟩ e.sat
          = some e2 ∧
        e1.b.sat.depth = e2.b.depth ∧ e1.b.sat.countState = .CS_DIFF ∧
        e2.b.countState = .CS_DIFF) ∧
    (∀ p id args, g.unprotectPtrFunction = some p → g.protectFunction ≠ some p →
      g.protectWithIndexFunction ≠ some p → g.unprotectFunction ≠ some p →
      ∃ e1 e2, handleBalanceForNonTerminator F g ⟨id, .call (.func p) args⟩ e = some e1 ∧
        handleBalanceForNonTerminator F g ⟨id, .call (.func p) args⟩ e.sat = some e2 ∧
        e1.b.sat.depth = e2.b.depth ∧ e1.b.sat.countState = .CS_DIFF ∧
        e2.b.countState = .CS_DIFF) ∧
    (∀ id aid op0 op1 w bits c ty arr, F.find v = some (.alloca ty arr) →
      (isProtectionCounterVariableCached F v g.unprotectFunction e.counterVarsCache).1 = true →
      F.find aid = some (.binop .Add op0 op1) →
      ((op0 = .constInt w bits ∧ F.asLoad op1 = some (.inst v)) ∨
        (op1 = .constInt w bits ∧ op0.isConstantInt = false ∧ F.asLoad op0 = some (.inst v))) →
      getSExtValue w bits = some c →
      ∃ e1 e2,
        handleBalanceForNonTerminator F g ⟨id, .store (.inst aid) (.inst v)⟩ e = some e1 ∧
        handleBalanceForNonTerminator F g ⟨id, .store (.inst aid) (.inst v)⟩ e.sat = some e2 ∧
        e1.b.sat.depth = e2.b.depth ∧ e1.b.sat.countState = .CS_DIFF ∧
        e2.b.countState = .CS_DIFF) ∧
    (∀ u id lid rest ty arr, g.unprotectFunction = some u → g.protectFunction ≠ some u →
      g.protectWithIndexFunction ≠ some u → F.find lid = some (.load (.inst v)) →
      F.find v = some (.alloca ty arr) →
      (isProtectionCounterVariableCached F v g.unprotectFunction e.counterVarsCache).1 = true →
      ∃ e1 e2,
        handleBalanceForNonTerminator F g ⟨id, .call (.func u) (.inst lid :: rest)⟩ e = some e1 ∧
        handleBalanceForNonTerminator F g ⟨id, .call (.func u) (.inst lid :: rest)⟩ e.sat
          = some e2 ∧
        e1.b.depth = e2.b.depth) := by
  have hsx : e.sat.b.countState = .CS_DIFF := rfl
  have hsn : e.sat.b.countState ≠ .CS_NONE := by rw [hsx]; simp
  have hsnx : ¬ (e.sat.b.countState = .CS_EXACT) := by rw [hsx]; simp
  have hn : e.b.countState ≠ .CS_NONE := by rw [hx]; simp
  have hscv : e.sat.b.counterVar = some v := hcv
  refine ⟨fun L hc => saturate_eq_sat L e hx hc, ?_, ?_, ?_, ?_, ?_⟩
  · intro c hc
    obtain ⟨e1, e2, h1, h2, h3, h4⟩ := sat_protect F g e c hc
    exact ⟨e1, e2, h1, h2, h3, rfl, h4⟩
  · intro u id w bits k rest hu hp hpi hk
    obtain ⟨e1, h1, b1⟩ := handleCall_unprotect_const_b F g e u id w bits k rest hu hp hpi hk
    obtain ⟨e2, h2, b2⟩ := handleCall_unprotect_const_b F g e.sat u id w bits k rest hu hp hpi hk
    refine ⟨e1, e2, h1, h2, ?_, rfl, by rw [b2]; rfl⟩
    rw [b1, b2]
    simp only [BalanceStateTy.sat, Env.sat]
    ring
  · intro p id args hptr hp hpi hu
    obtain ⟨e1, h1, b1⟩ := handleCall_unprotect_ptr_b F g e p id args hptr hp hpi hu
    obtain ⟨e2, h2, b2⟩ := handleCall_unprotect_ptr_b F g e.sat p id args hptr hp hpi hu
    refine ⟨e1, e2, h1, h2, ?_, rfl, by rw [b2]; rfl⟩
    rw [b1, b2]
    simp only [BalanceStateTy.sat, Env.sat]
    ring
  · intro id aid op0 op1 w bits c ty arr ha hr hbin hops hc
    obtain ⟨e1, h1, b1⟩ := handleStore_counter_add_b F g e id aid v op0 op1 w bits c ty arr ha hr
      hbin hops hc hcv hn
    obtain ⟨e2, h2, b2⟩ := handleStore_counter_add_b F g e.sat id aid v op0 op1 w bits c ty arr
      ha hr hbin hops hc hscv hsn
    rw [if_pos hx] at b1
    rw [if_neg hsnx] at b2
    refine ⟨e1, e2, h1, h2, ?_, rfl, by rw [b2]; rfl⟩
    rw [b1, b2]
    simp only [BalanceStateTy.sat, Env.sat]
    ring
  · intro u id lid rest ty arr hu hp hpi hl ha hr
    obtain ⟨e1, h1, b1⟩ := handleCall_unprotect_counter_b F g e u id lid v rest ty arr hu hp hpi
      hl ha hr hcv hn
    obtain ⟨e2, h2, b2⟩ := handleCall_unprotect_counter_b F g e.sat u id lid v rest ty arr hu hp
      hpi hl ha hr hscv hsn
    rw [if_pos hx] at b1
    rw [if_neg hsnx] at b2
    refine ⟨e1, e2, h1, h2, ?_⟩
    rw [b1, b2]
    rfl

/-- Witness of C36: the state with depth 5 and count 2, the counter being
slot 0 of `counterIdiom 1`.  `PROTECT(a)` leads to depth 6, and to depth 4
from the saturated state; `n++` keeps the depth 5 and makes the count 3, and
leads to depth 2 from the saturated state; `UNPROTECT(n)` leads to depth 3
from both. -/
theorem saturation_commutes_witness :
    exactFiveTwo.b.countState = .CS_EXACT ∧ exactFiveTwo.b.counterVar = some 0 ∧
    exactFiveTwo.sat.b = ⟨3, -1, -1, .CS_DIFF, some 0⟩ ∧
    (handleBalanceForNonTerminator (counterIdiom 1) exampleGlobals
        ⟨2, .call (.func 1) [.argument 0]⟩ exactFiveTwo).map (fun e1 => e1.b.depth) = some 6 ∧
    (handleBalanceForNonTerminator (counterIdiom 1) exampleGlobals
        ⟨2, .call (.func 1) [.argument 0]⟩ exactFiveTwo.sat).map (fun e2 => e2.b.depth)
      = some 4 ∧
    (handleBalanceForNonTerminator (counterIdiom 1) exampleGlobals
        ⟨5, .store (.inst 4) (.inst 0)⟩ exactFiveTwo).map (fun e1 => (e1.b.depth, e1.b.count))
      = some (5, 3) ∧
    (handleBalanceForNonTerminator (counterIdiom 1) exampleGlobals
        ⟨5, .store (.inst 4) (.inst 0)⟩ exactFiveTwo.sat).map (fun e2 => e2.b.depth)
      = some 2 ∧
    (∃ e1 e2, handleBalanceForNonTerminator (counterIdiom 1) exampleGlobals
        ⟨5, .store (.inst 4) (.inst 0)⟩ exactFiveTwo = some e1 ∧
      handleBalanceForNonTerminator (counterIdiom 1) exampleGlobals
        ⟨5, .store (.inst 4) (.inst 0)⟩ exactFiveTwo.sat = some e2 ∧
      e1.b.sat.depth = e2.b.depth ∧ e1.b.sat.countState = .CS_DIFF ∧
      e2.b.countState = .CS_DIFF) ∧
    (∃ e1 e2, handleBalanceForNonTerminator (counterIdiom 1) exampleGlobals
        ⟨10, .call (.func 3) [.inst 9]⟩ exactFiveTwo = some e1 ∧
      handleBalanceForNonTerminator (counterIdiom 1) exampleGlobals
        ⟨10, .call (.func 3) [.inst 9]⟩ exactFiveTwo.sat = some e2 ∧
      e1.b.depth = e2.b.depth) :=
  ⟨rfl, rfl, by decide, by decide, by decide, by decide, by decide,
   (saturation_commutes (counterIdiom 1) exampleGlobals exactFiveTwo 0 rfl rfl).2.2.2.2.1
     5 4 (.inst 3) (.constInt 32 1) 32 1 1 (some 32) false (by decide) (by decide) (by decide)
     (Or.inr ⟨rfl, rfl, by decide⟩) (by decide),
   (saturation_commutes (counterIdiom 1) exampleGlobals exactFiveTwo 0 rfl rfl).2.2.2.2.2
     3 10 9 [] (some 32) false rfl (by decide) (by decide) (by decide) (by decide) (by decide)⟩

/-! ### The assertions of the balance transfers -/

theorem countState_cases (c : CountState) (h1 : c ≠ .CS_NONE) (h2 : c ≠ .CS_EXACT) :
    c = .CS_DIFF := by
  cases c
  · exact absurd rfl h1
  · exact absurd rfl h2
  · rfl

/-- The call transfer fails only when the call of unprotect has no argument or
its constant argument does not fit 64 bits: the assertion
`countState == CS_DIFF` is not among the causes. -/
theorem handleCall_none (F : FunctionIR) (g : GlobalsTy) (i : Instruction) (e : Env)
    (h : handleCall F g i e = none) :
    ∃ callee args, i.op = .call callee args ∧
      (args = [] ∨ ∃ w bits rest, args = .constInt w bits :: rest ∧
        getZExtValue w bits = none) := by
  obtain ⟨id, op⟩ := i
  cases op with
  | call callee args =>
    refine ⟨callee, args, rfl, ?_⟩
    cases args with
    | nil => exact Or.inl rfl
    | cons a rest =>
      right
      simp only [handleCall] at h
      split at h
      · cases h
      · split at h
        · cases h
        · split at h
          · cases a with
            | constInt w bits =>
              refine ⟨w, bits, rest, rfl, ?_⟩
              simp only at h
              cases hz : getZExtValue w bits with
              | none => rfl
              | some k =>
                simp only [hz] at h
                split at h <;> cases h
            | inst lid =>
              exfalso
              simp only at h
              split at h
              · cases h
              · split at h
                · cases h
                · split at h
                  · cases h
                  · split at h
                    · cases h
                    · split at h
                      · cases h
                      · split at h
                        · split at h <;> cases h
                        · rename_i hn hx
                          split at h
                          · rename_i hd
                            exact hd (countState_cases _ hn hx)
                          · split at h <;> cases h
            | constOther t => simp [FunctionIR.asLoad] at h
            | global gl => simp [FunctionIR.asLoad] at h
            | func f => simp [FunctionIR.asLoad] at h
            | argument k => simp [FunctionIR.asLoad] at h
          · split at h
            · split at h <;> cases h
            · cases h
  | _ => simp [handleCall] at h

/-- The counter part of the store transfer fails only when a constant does not
fit 64 bits: the assertion `countState == CS_DIFF` is not among the causes. -/
theorem handleCounterStore_none (F : FunctionIR) (i : Instruction) (v : Value) (var : InstId)
    (e : Env) (h : handleCounterStore F i v var e = none) :
    ∃ w bits, getSExtValue w bits = none ∧
      (v = .constInt w bits ∨ ∃ op0 op1, F.asBinaryOperator v = some (.Add, op0, op1) ∧
        (op0 = .constInt w bits ∨ op1 = .constInt w bits)) := by
  unfold handleCounterStore at h
  split at h
  · cases h
  · simp only at h
    split at h
    · rename_i w bits
      split at h
      · cases h
      · cases hz : getSExtValue w bits with
        | none => exact ⟨w, bits, hz, Or.inl rfl⟩
        | some c =>
          simp only [hz] at h
          split at h <;> cases h
    · split at h
      · rename_i op0 op1 hbin
        split at h
        · rename_i w bits nonConstOp hops
          have hmem : op0 = .constInt w bits ∨ op1 = .constInt w bits := by
            by_cases h0 : op0.isConstantInt = true
            · rw [if_pos h0] at hops
              simp only [Option.some.injEq, Prod.mk.injEq] at hops
              exact Or.inl hops.1
            · rw [if_neg h0] at hops
              by_cases h1 : op1.isConstantInt = true
              · rw [if_pos h1] at hops
                simp only [Option.some.injEq, Prod.mk.injEq] at hops
                exact Or.inr hops.1
              · rw [if_neg h1] at hops
                cases hops
          split at h
          · split at h
            · cases h
            · rename_i hn
              cases hz : getSExtValue w bits with
              | none => exact ⟨w, bits, hz, Or.inr ⟨op0, op1, hbin, hmem⟩⟩
              | some c =>
                exfalso
                simp only [hz] at h
                split at h
                · split at h <;> cases h
                · rename_i hx
                  split at h
                  · rename_i hd
                    exact hd (countState_cases _ hn hx)
                  · cases h
          · cases h
        · cases h
      · cases h

/-- The store transfer fails only when a constant does not fit 64 bits. -/
theorem handleStore_none (F : FunctionIR) (g : GlobalsTy) (i : Instruction) (e : Env)
    (h : handleStore F g i e = none) :
    ∃ v p w bits, i.op = .store v p ∧ getSExtValue w bits = none ∧
      (v = .constInt w bits ∨ ∃ op0 op1, F.asBinaryOperator v = some (.Add, op0, op1) ∧
        (op0 = .constInt w bits ∨ op1 = .constInt w bits)) := by
  obtain ⟨id, op⟩ := i
  cases op with
  | store v p =>
    simp only [handleStore] at h
    split at h
    · split at h
      · split at h
        · cases h
        · split at h <;> cases h
      · cases h
    · split at h
      · cases h
      · split at h
        · obtain ⟨w, bits, h1, h2⟩ := handleCounterStore_none F _ v _ _ h
          exact ⟨v, p, w, bits, rfl, h1, h2⟩
        · cases h
  | _ => simp [handleStore] at h

/-- C37: in every balance state reached from the entry state by balance
transfers, a count state other than exact implies `count = -1`.  Therefore,
for `MAX_COUNT ≥ -1`, whenever the test `count > MAX_COUNT` succeeds the state
is in count state exact, and the saturation step does not fail on its
assertion.  The call transfer and the store transfer fail, in any state, only
on a missing argument or on a constant that does not fit 64 bits: never on
their assertion `countState == CS_DIFF`. -/
theorem assertions_hold (F : FunctionIR) (L : Limits) (g : GlobalsTy) (e0 e : Env)
    (h0 : e0.b = BalanceStateTy.entry) (h : Transfers F L g e0 e) (hM : -1 ≤ L.MAX_COUNT) :
    (e.b.countState ≠ .CS_EXACT → e.b.count = -1) ∧
    (e.b.count > L.MAX_COUNT → e.b.countState = .CS_EXACT) ∧
    (∃ es, saturate L e = some es) ∧
    (∀ i, handleCall F g i e = none →
      ∃ callee args, i.op = .call callee args ∧
        (args = [] ∨ ∃ w bits rest, args = .constInt w bits :: rest ∧
          getZExtValue w bits = none)) ∧
    (∀ i, handleStore F g i e = none →
      ∃ v p w bits, i.op = .store v p ∧ getSExtValue w bits = none ∧
        (v = .constInt w bits ∨ ∃ op0 op1, F.asBinaryOperator v = some (.Add, op0, op1) ∧
          (op0 = .constInt w bits ∨ op1 = .constInt w bits))) := by
  have hinv := transfers_invariant F L g e0 e h (by rw [h0]; exact entry_invariant)
  have hexact : e.b.count > L.MAX_COUNT → e.b.countState = .CS_EXACT := by
    intro hc
    by_contra hne
    have := hinv.2.1 hne
    omega
  refine ⟨hinv.2.1, hexact, ?_, fun i => handleCall_none F g i e,
    fun i => handleStore_none F g i e⟩
  unfold saturate
  by_cases hc : e.b.count > L.MAX_COUNT
  · rw [if_pos hc]
    have hx := hexact hc
    exact ⟨e.sat, by simp [hx, Env.sat, BalanceStateTy.sat]⟩
  · rw [if_neg hc]
    exact ⟨e, rfl⟩

/-- Witness of C37: the state after `int n = 65;` in `saturatedIdiom`, with
`MAX_COUNT = 64`: the test of the saturation step succeeds, the state is in
count state exact, and the step gives a state. -/
theorem assertions_hold_witness :
    Env.entry.b = BalanceStateTy.entry ∧ (-1 : Int) ≤ (⟨64, 64⟩ : Limits).MAX_COUNT ∧
    ∃ e, handleBalanceForNonTerminator saturatedIdiom exampleGlobals
        ⟨1, .store (.constInt 32 65) (.inst 0)⟩ Env.entry = some e ∧
      e.b.count = 65 ∧ e.b.countState = .CS_EXACT ∧
      ∃ es, saturate ⟨64, 64⟩ e = some es := by
  refine ⟨rfl, by decide, ?_⟩
  have hstep : handleBalanceForNonTerminator saturatedIdiom exampleGlobals
      ⟨1, .store (.constInt 32 65) (.inst 0)⟩ Env.entry
      = some (({ Env.entry with
          b := { Env.entry.b with count := 65, countState := .CS_EXACT, counterVar := some 0 },
          counterVarsCache := [(0, true)] } : Env).debug "setting counter to a constant" 1) := by
    decide
  obtain ⟨-, hx, hs, -, -⟩ := assertions_hold saturatedIdiom ⟨64, 64⟩ exampleGlobals Env.entry _
    rfl (Transfers.nonTerminator Env.entry Env.entry _ ⟨1, .store (.constInt 32 65) (.inst 0)⟩
      (Transfers.refl _) hstep) (by decide)
  exact ⟨_, hstep, rfl, hx (by decide), hs⟩

/-! ### The library name derived by the FFI checker -/

theorem lastSeparator_none (l : List Char) :
    ∀ (i : Nat) (sep : Int), '/' ∉ l → lastSeparator l i sep = sep := by
  induction l with
  | nil => intro i sep _; rfl
  | cons c rest ih =>
    intro i sep h
    simp only [List.mem_cons, not_or] at h
    have hc : c ≠ '/' := fun hc => h.1 hc.symm
    simp only [lastSeparator, if_neg hc]
    exact ih (i + 1) sep h.2

theorem lastSeparator_split (pre s : List Char) (hs : '/' ∉ s) :
    ∀ (i : Nat) (sep : Int),
      lastSeparator (pre ++ '/' :: s) i sep = ((i + pre.length : Nat) : Int) := by
  induction pre with
  | nil =>
    intro i sep
    simp only [List.nil_append, lastSeparator, if_true, List.length_nil, Nat.add_zero]
    exact lastSeparator_none s (i + 1) i hs
  | cons c pre ih =>
    intro i sep
    show lastSeparator (pre ++ '/' :: s) (i + 1) (if c = '/' then (i : Int) else sep)
      = ((i + (c :: pre).length : Nat) : Int)
    rw [ih (i + 1), List.length_cons]
    congr 1
    omega

theorem exists_last_slash (l : List Char) (h : '/' ∈ l) :
    ∃ pre s, l = pre ++ '/' :: s ∧ '/' ∉ s := by
  have hr : '/' ∈ l.reverse := List.mem_reverse.mpr h
  obtain ⟨as, bs, hab, hna⟩ := List.eq_append_cons_of_mem hr
  refine ⟨bs.reverse, as.reverse, ?_, fun hm => hna (List.mem_reverse.mp hm)⟩
  have := congrArg List.reverse hab
  simpa using this

theorem rtakeWhile_split (pre s : List Char) (hs : '/' ∉ s) :
    afterLastSlash (pre ++ '/' :: s) = s := by
  unfold afterLastSlash List.rtakeWhile
  have hall : ∀ a ∈ s.reverse, (fun c : Char => decide (c ≠ '/')) a = true := by
    intro a ha
    have : a ≠ '/' := fun h => hs (h ▸ List.mem_reverse.mp ha)
    simpa using this
  rw [List.reverse_append, List.reverse_cons, List.append_assoc,
    List.takeWhile_append_of_pos hall]
  simp

theorem afterLastSlash_of_not_mem (l : List Char) (h : '/' ∉ l) : afterLastSlash l = l := by
  unfold afterLastSlash
  rw [List.rtakeWhile_eq_self_iff]
  intro x hx
  have : x ≠ '/' := fun hx2 => h (hx2 ▸ hx)
  simpa using this

/-- The first part of `main`: the string after `s += sep + 1` is the text
after the last `/`. -/
theorem afterSeparator_eq (arg : List Char) :
    (if lastSeparator arg 0 (-1) ≠ -1 then arg.drop (lastSeparator arg 0 (-1) + 1).toNat
      else arg) = afterLastSlash arg := by
  by_cases h : '/' ∈ arg
  · obtain ⟨pre, s, rfl, hs⟩ := exists_last_slash arg h
    rw [lastSeparator_split pre s hs, rtakeWhile_split pre s hs]
    have hne : ((0 + pre.length : Nat) : Int) ≠ -1 := by omega
    rw [if_pos hne]
    have hn : (((0 + pre.length : Nat) : Int) + 1).toNat = pre.length + 1 := by omega
    rw [hn]
    simp
  · rw [lastSeparator_none arg 0 (-1) h, afterLastSlash_of_not_mem arg h]
    simp

theorem find_suffix_cons (sufs : List (List Char)) (c : Char) (rest : List Char)
    (h : ∀ suf, suf ∈ sufs → suf ≠ c :: rest) :
    sufs.find? (fun suf => suf.isSuffixOf (c :: rest))
      = sufs.find? (fun suf => suf.isSuffixOf rest) := by
  induction sufs with
  | nil => rfl
  | cons x xs ih =>
    have hx : x.isSuffixOf (c :: rest) = x.isSuffixOf rest := by
      rw [Bool.eq_iff_iff]
      simp only [List.isSuffixOf_iff_suffix, List.suffix_cons_iff]
      constructor
      · rintro (h1 | h1)
        · exact absurd h1 (h x (List.mem_cons_self _ _))
        · exact h1
      · exact Or.inr
    simp only [List.find?_cons, hx]
    rw [ih (fun suf hs => h suf (List.mem_cons_of_mem _ hs))]

theorem removeFirstSuffix_cons (sufs : List (List Char)) (c : Char) (rest : List Char)
    (h : ∀ suf, suf ∈ sufs → suf ≠ c :: rest) :
    removeFirstSuffix sufs (c :: rest) = c :: removeFirstSuffix sufs rest := by
  unfold removeFirstSuffix
  rw [find_suffix_cons sufs c rest h]
  cases hf : sufs.find? (fun suf => suf.isSuffixOf rest) with
  | none => rfl
  | some suf =>
    have hsuf : suf <:+ rest := by
      have := List.find?_some hf
      simpa using this
    have hle := hsuf.length_le
    simp only [List.length_cons]
    rw [Nat.succ_sub hle, List.take_succ_cons]

/-- The second part of `main`: the name copied is the string with the first
of the suffixes `.so.bc`, `.so`, `.bc` that it ends with removed. -/
theorem copyName_eq (s : List Char) :
    copyName s = removeFirstSuffix [sobcSuffix, soSuffix, bcSuffix] s := by
  induction s with
  | nil => rfl
  | cons c rest ih =>
    by_cases h : c :: rest = soSuffix ∨ c :: rest = bcSuffix ∨ c :: rest = sobcSuffix
    · simp only [copyName, if_pos h]
      rcases h with h | h | h <;> rw [h] <;> decide
    · simp only [copyName, if_neg h]
      rw [ih, removeFirstSuffix_cons]
      intro suf hs
      simp only [List.mem_cons, List.mem_singleton, List.not_mem_nil, or_false] at hs
      simp only [not_or] at h
      rcases hs with rfl | rfl | rfl
      · exact fun hx => h.2.2 hx.symm
      · exact fun hx => h.1 hx.symm
      · exact fun hx => h.2.1 hx.symm

theorem copyName_length (s : List Char) : (copyName s).length ≤ s.length := by
  induction s with
  | nil => simp [copyName]
  | cons c rest ih =>
    simp only [copyName]
    split
    · simp
    · simp only [List.length_cons]
      omega

theorem afterLastSlash_length (arg : List Char) : (afterLastSlash arg).length ≤ arg.length :=
  (List.rtakeWhile_suffix _ _).length_le

/-- C34 as stated fails: for the argument `lib/pkg.so.bc` the library name
derived in `main` is `pkg`, whereas the text after the last `/` with the
first suffix of the list `.so`, `.bc`, `.so.bc` that it ends with removed is
`pkg.so` (the text ends with `.bc`, not with `.so`). -/
theorem library_name_counterexample :
    libraryName 4096 ['l', 'i', 'b', '/', 'p', 'k', 'g', '.', 's', 'o', '.', 'b', 'c']
      = some ['p', 'k', 'g'] ∧
    removeFirstSuffix [soSuffix, bcSuffix, sobcSuffix]
        (afterLastSlash ['l', 'i', 'b', '/', 'p', 'k', 'g', '.', 's', 'o', '.', 'b', 'c'])
      = ['p', 'k', 'g', '.', 's', 'o'] := by
  decide

/-- C34 amended: for every last argument shorter than `PATH_MAX`, the
library name derived in `main` is the text after the last `/` of the argument
(the whole argument if it has none) with the first suffix of the list
`.so.bc`, `.so`, `.bc` that this text ends with removed, and that text
unchanged if it ends with none of them; unless the text ends with `.so.bc`,
this is what the list `.so`, `.bc`, `.so.bc` gives. -/
theorem library_name (PATH_MAX : Nat) (arg : List Char) (hlen : arg.length < PATH_MAX)
    (hP : PATH_MAX ≤ 2 ^ 31) :
    libraryName PATH_MAX arg
      = some (removeFirstSuffix [sobcSuffix, soSuffix, bcSuffix] (afterLastSlash arg)) ∧
    (¬ sobcSuffix <:+ afterLastSlash arg →
      removeFirstSuffix [sobcSuffix, soSuffix, bcSuffix] (afterLastSlash arg)
        = removeFirstSuffix [soSuffix, bcSuffix, sobcSuffix] (afterLastSlash arg)) := by
  constructor
  · have h31 : ¬ (arg.length ≥ 2 ^ 31) := by omega
    unfold libraryName
    rw [if_neg h31]
    simp only
    rw [afterSeparator_eq, copyName_eq]
    have hl : (removeFirstSuffix [sobcSuffix, soSuffix, bcSuffix] (afterLastSlash arg)).length
        < PATH_MAX := by
      rw [← copyName_eq]
      have h1 := copyName_length (afterLastSlash arg)
      have h2 := afterLastSlash_length arg
      omega
    rw [if_pos hl]
  · intro hno
    have hf : sobcSuffix.isSuffixOf (afterLastSlash arg) = false := by
      rw [Bool.eq_false_iff]
      intro h
      exact hno (List.isSuffixOf_iff_suffix.mp h)
    unfold removeFirstSuffix
    simp only [List.find?_cons, hf, List.find?_nil]

/-- Witness of C34: the argument `lib/pkg.so`, with `PATH_MAX = 4096`. -/
theorem library_name_witness :
    libraryName 4096 ['l', 'i', 'b', '/', 'p', 'k', 'g', '.', 's', 'o'] = some ['p', 'k', 'g'] :=
  (library_name 4096 ['l', 'i', 'b', '/', 'p', 'k', 'g', '.', 's', 'o'] (by decide)
    (by norm_num)).1.trans (by decide)

/-! ### The check of the registration table -/

theorem checkParams_eq (isSEXP : TypeId → Bool) (fname funName : String) (l : List TypeId) :
    ∀ i, checkParams isSEXP fname funName i l =
      ((l.enumFrom i).filter (fun p => isSEXP p.2 = false)).map
        (fun p => TableMessage.paramNotSEXP fname funName (p.1 + 1)) := by
  induction l with
  | nil => intro i; rfl
  | cons t rest ih =>
    intro i
    simp only [checkParams, List.enumFrom_cons, ih (i + 1)]
    cases ht : isSEXP t <;> simp [List.filter_cons, ht]

theorem checkEntry_wellFormed (isSEXP : TypeId → Bool) (c : CallEntry)
    (hname : c.name.length ≠ 0) (harity : (getSExtValue c.width c.bits).isSome = true) :
    checkEntry isSEXP (.constantExpr (.globalString (some c.name)))
      (.constantExpr (.function c.fn)) (.constantInt c.width c.bits)
      = some (true, entryReports isSEXP c) := by
  obtain ⟨a, ha⟩ := Option.isSome_iff_exists.mp harity
  have hc : c.arity = a := by simp [CallEntry.arity, ha]
  have hcond : (a > -1 ∧ a ≠ (c.fn.paramTypes.length : Int))
      ↔ (0 ≤ a ∧ a ≠ (c.fn.paramTypes.length : Int)) := by
    constructor <;> rintro ⟨h1, h2⟩ <;> exact ⟨by omega, h2⟩
  simp only [checkEntry, ha, entryName, hname, if_false, entryFunction, entryReports, hc,
    checkParams_eq, List.enum, Option.some.injEq, Prod.mk.injEq, true_and]
  have hA : (if (!isSEXP c.fn.returnType) = true then
        [TableMessage.notSEXPReturn c.name c.fn.name] else [])
      = (if isSEXP c.fn.returnType = false then
        [TableMessage.notSEXPReturn c.name c.fn.name] else []) := by
    cases isSEXP c.fn.returnType <;> simp
  have hB : (if a > -1 ∧ a ≠ (c.fn.paramTypes.length : Int) then
        [TableMessage.arityMismatch c.name c.fn.name (c.fn.paramTypes.length : Int) a] else [])
      = (if 0 ≤ a ∧ a ≠ (c.fn.paramTypes.length : Int) then
        [TableMessage.arityMismatch c.name c.fn.name (c.fn.paramTypes.length : Int) a]
        else []) := by
    by_cases h : 0 ≤ a ∧ a ≠ (c.fn.paramTypes.length : Int)
    · rw [if_pos h, if_pos (hcond.mpr h)]
    · rw [if_neg h, if_neg (fun h2 => h (hcond.mp h2))]
  rw [hA, hB]

theorem checkTableLoop_wellFormed (isSEXP : TypeId → Bool) (nfuns : Nat) :
    ∀ (es : List CallEntry) (i : Nat) (log : List TableMessage),
      (∀ c, c ∈ es → c.name.length ≠ 0 ∧ (getSExtValue c.width c.bits).isSome = true) →
      i + es.length + 1 = nfuns →
      checkTableLoop isSEXP nfuns i (es.map CallEntry.toEntry ++ [.other]) log
        = some (true, log ++ es.flatMap (entryReports isSEXP)) := by
  intro es
  induction es with
  | nil =>
    intro i log _ hn
    have hlt : i < nfuns := by simp at hn; omega
    have hlast : i = nfuns - 1 := by simp at hn; omega
    simp [checkTableLoop, hlt, hlast]
  | cons c rest ih =>
    intro i log hwf hn
    have hlt : i < nfuns := by simp at hn; omega
    obtain ⟨h1, h2⟩ := hwf c (List.mem_cons_self _ _)
    simp only [List.map_cons, List.cons_append, checkTableLoop, hlt, not_true_eq_false, if_false,
      CallEntry.toEntry, checkEntry_wellFormed isSEXP c h1 h2]
    have hrec := ih (i + 1) (log ++ entryReports isSEXP c)
      (fun d hd => hwf d (List.mem_cons_of_mem _ hd)) (by simp at hn ⊢; omega)
    show checkTableLoop isSEXP nfuns (i + 1) (List.map CallEntry.toEntry rest ++ [TableEntry.other])
      (log ++ entryReports isSEXP c) = _
    rw [hrec]
    simp [List.flatMap_cons]

theorem checkEntry_false (isSEXP : TypeId → Bool) (name fn arity : TableField)
    (msgs : List TableMessage) (h : checkEntry isSEXP name fn arity = some (false, msgs)) :
    (∀ w bits, arity ≠ .constantInt w bits) ∨ (entryName name).length = 0 ∨
      entryFunction fn = none := by
  cases arity with
  | constantInt w bits =>
    right
    simp only [checkEntry] at h
    cases hz : getSExtValue w bits with
    | none => simp [hz] at h
    | some a =>
      simp only [hz] at h
      by_cases hn : (entryName name).length = 0
      · exact Or.inl hn
      · right
        rw [if_neg hn] at h
        cases hf : entryFunction fn with
        | none => rfl
        | some f => simp [hf] at h
  | constantExpr o => exact Or.inl (fun w bits hx => by cases hx)
  | other => exact Or.inl (fun w bits hx => by cases hx)

theorem checkTableLoop_false (isSEXP : TypeId → Bool) (nfuns : Nat) :
    ∀ (ca : List TableEntry) (i : Nat) (log log1 : List TableMessage),
      checkTableLoop isSEXP nfuns i ca log = some (false, log1) →
      ∃ j entry, j < nfuns ∧ i ≤ j ∧ ca[j - i]? = some entry ∧
        TableEntry.Malformed nfuns j entry := by
  intro ca
  induction ca with
  | nil =>
    intro i log log1 h
    simp only [checkTableLoop] at h
    split at h <;> simp at h
  | cons entry rest ih =>
    intro i log log1 h
    simp only [checkTableLoop] at h
    by_cases hlt : i < nfuns
    · simp only [hlt, not_true_eq_false, if_false] at h
      cases entry with
      | other =>
        simp only at h
        by_cases hl : i = nfuns - 1
        · simp [hl] at h
        · exact ⟨i, .other, hlt, le_refl _, by simp, hl⟩
      | constantStruct name fn arity =>
        simp only at h
        cases hc : checkEntry isSEXP name fn arity with
        | none => simp [hc] at h
        | some r =>
          obtain ⟨b, msgs⟩ := r
          cases b with
          | true =>
            simp only [hc] at h
            obtain ⟨j, e1, h1, h2, h3, h4⟩ := ih (i + 1) _ log1 h
            refine ⟨j, e1, h1, by omega, ?_, h4⟩
            have hj : j - i = (j - (i + 1)) + 1 := by omega
            rw [hj, List.getElem?_cons_succ]
            exact h3
          | false =>
            exact ⟨i, .constantStruct name fn arity, hlt, le_refl _, by simp,
              checkEntry_false isSEXP name fn arity msgs hc⟩
    · simp [hlt] at h

/-- C35: for every `.Call` table that is a constant array of well-formed
entries followed by a terminating NULL entry, `checkTable` returns true and
writes, after the line with the number of elements, for each entry in turn
and for nothing else: a return-type error if and only if the return type of
the function is not SEXP, an arity error if and only if the declared arity is
at least 0 and differs from the number of parameters of the function, and one
parameter error for exactly each parameter that is not SEXP-typed.  On a
constant array it returns false only when an entry is malformed: a non-struct
entry before the last position, a non-constant arity, an empty name, or a
missing function. -/
theorem checkTable_reports (isSEXP : TypeId → Bool) (es : List CallEntry)
    (hwf : ∀ c, c ∈ es → c.name.length ≠ 0 ∧ (getSExtValue c.width c.bits).isSome = true)
    (hlen : es.length + 1 < 2 ^ 31) :
    checkTable isSEXP (.constantExprOfGlobal (some (es.length + 1))
        (some (es.map CallEntry.toEntry ++ [.other])))
      = some (true, .functions ((es.length + 1 : Nat) : Int) :: es.flatMap (entryReports isSEXP)) ∧
    (∀ n ca log, n < 2 ^ 31 →
      checkTable isSEXP (.constantExprOfGlobal (some n) (some ca)) = some (false, log) →
      ∃ i entry, i < n ∧ ca[i]? = some entry ∧ TableEntry.Malformed n i entry) := by
  constructor
  · have hc : castToInt (es.length + 1) = ((es.length + 1 : Nat) : Int) :=
      castToInt_of_lt _ hlen
    have hne : ¬ (castToInt (es.length + 1) = -1) := by rw [hc]; omega
    have hmod : (es.length + 1) % 2 ^ 32 = es.length + 1 := Nat.mod_eq_of_lt (by omega)
    simp only [checkTable, hne, if_false, hmod]
    rw [checkTableLoop_wellFormed isSEXP _ es 0 _ hwf (by omega), hc]
    simp
  · intro n ca log hn h
    have hc : castToInt n = (n : Int) := castToInt_of_lt _ hn
    have hne : ¬ (castToInt n = -1) := by rw [hc]; omega
    have hmod : n % 2 ^ 32 = n := Nat.mod_eq_of_lt (by omega)
    simp only [checkTable, hne, if_false, hmod] at h
    obtain ⟨j, entry, h1, -, h3, h4⟩ := checkTableLoop_false isSEXP n ca 0 _ log h
    exact ⟨j, entry, h1, by simpa using h3, h4⟩

/-- Witness of C35: on `exampleTable` the function returns true and writes
the number of elements and the three errors of the entry `bad`. -/
theorem checkTable_reports_witness :
    checkTable (fun t => decide (t = 1)) (.constantExprOfGlobal (some 3)
        (some (exampleTable.map CallEntry.toEntry ++ [.other])))
      = some (true, [.functions 3, .notSEXPReturn "bad" "do_bad",
          .arityMismatch "bad" "do_bad" 2 3, .paramNotSEXP "bad" "do_bad" 2]) :=
  (checkTable_reports (fun t => decide (t = 1)) exampleTable (by decide) (by decide)).1.trans
    (by decide)

/-! ### The assertion of the fallback -/

/-- When the sweep goes through: every call instruction outside the error
basic blocks resolves to a signature and has a called function. -/
theorem fallbackSweep_isSome {γ : Type} (a : AnalysisTy γ) (oa ow : Bool) :
    ∀ (l : List (BlockId × Instruction))
      (res : CalledFunctionsOrderedSetTy × CalledFunctionsOrderedSetTy),
      (∃ r, fallbackSweep a oa ow l res = some r) ↔
      ∀ p i, (p, i) ∈ l → p ∉ a.errorBasicBlocks → ∀ callee args,
        i.op = .call callee args →
        (a.cm.getCalledFunction a.F (.inst i.id) none).isSome = true ∧
          (getCalledFunction callee).isSome = true := by
  intro l
  induction l with
  | nil =>
    intro res
    constructor
    · intro _ p i hm
      cases hm
    · intro _
      exact ⟨res, rfl⟩
  | cons y rest ih =>
    intro res
    obtain ⟨q, j⟩ := y
    by_cases hq : q ∈ a.errorBasicBlocks
    · have hsweep : fallbackSweep a oa ow ((q, j) :: rest) res = fallbackSweep a oa ow rest res := by
        rw [fallbackSweep, if_pos hq]
      rw [hsweep, ih res]
      constructor
      · intro h p i hm hp
        rcases List.mem_cons.mp hm with heq | hm
        · simp only [Prod.mk.injEq] at heq
          exact absurd (heq.1 ▸ hq) hp
        · exact h p i hm hp
      · intro h p i hm
        exact h p i (List.mem_cons_of_mem _ hm)
    · cases hop : j.op with
      | call callee args =>
        cases hct : a.cm.getCalledFunction a.F (.inst j.id) none with
        | none =>
          have hsweep : fallbackSweep a oa ow ((q, j) :: rest) res = none := by
            rw [fallbackSweep, if_neg hq]
            simp only [hop, hct]
          rw [hsweep]
          constructor
          · rintro ⟨r, hr⟩
            cases hr
          · intro h
            have := (h q j (List.mem_cons_self _ _) hq callee args hop).1
            rw [hct] at this
            cases this
        | some ct =>
          cases ht : getCalledFunction callee with
          | none =>
            have hsweep : fallbackSweep a oa ow ((q, j) :: rest) res = none := by
              rw [fallbackSweep, if_neg hq]
              simp only [hop, hct, ht]
            rw [hsweep]
            constructor
            · rintro ⟨r, hr⟩
              cases hr
            · intro h
              have := (h q j (List.mem_cons_self _ _) hq callee args hop).2
              rw [ht] at this
              cases this
          | some t =>
            have hsweep : fallbackSweep a oa ow ((q, j) :: rest) res
                = fallbackSweep a oa ow rest
                    ((if (oa && a.cm.isAllocating t) = true then
                        CalledFunctionsOrderedSetTy.insert res.1 ct else res.1),
                     (if (ow && a.cm.isPossibleAllocator t) = true then
                        CalledFunctionsOrderedSetTy.insert res.2 ct else res.2)) := by
              rw [fallbackSweep, if_neg hq]
              simp only [hop, hct, ht]
            rw [hsweep, ih]
            constructor
            · intro h p i hm hp callee2 args2 hop2
              rcases List.mem_cons.mp hm with heq | hm
              · simp only [Prod.mk.injEq] at heq
                obtain ⟨rfl, rfl⟩ := heq
                rw [hop] at hop2
                simp only [Instr.call.injEq] at hop2
                obtain ⟨rfl, rfl⟩ := hop2
                rw [hct, ht]
                exact ⟨rfl, rfl⟩
              · exact h p i hm hp callee2 args2 hop2
            · intro h p i hm
              exact h p i (List.mem_cons_of_mem _ hm)
      | _ =>
        have hsweep : fallbackSweep a oa ow ((q, j) :: rest) res
            = fallbackSweep a oa ow rest res := by
          rw [fallbackSweep, if_neg hq]
          simp only [hop]
        rw [hsweep, ih res]
        constructor
        · intro h p i hm hp callee args hop2
          rcases List.mem_cons.mp hm with heq | hm
          · simp only [Prod.mk.injEq] at heq
            obtain ⟨rfl, rfl⟩ := heq
            rw [hop] at hop2
            cases hop2
          · exact h p i hm hp callee args hop2
        · intro h p i hm
          exact h p i (List.mem_cons_of_mem _ hm)

theorem indirectChain_block (M k : Nat) (h1 : 1 ≤ k) (h2 : k < M) :
    (indirectChain M).block k = [⟨k + 2, .br (k + 1)⟩] := by
  obtain ⟨j, rfl⟩ : ∃ j, k = j + 1 := ⟨k - 1, by omega⟩
  have hj : j < M - 1 := by omega
  simp only [FunctionIR.block, indirectChain, List.getD_cons_succ]
  rw [List.getD_eq_getElem?_getD, List.getElem?_append_left (by simpa using hj)]
  simp [List.getElem?_range' _ _ hj]
  exact Nat.add_comm 1 j

theorem indirectChain_mem (M : Nat) (i : Instruction) (h : i ∈ (indirectChain M).insts) :
    i = ⟨0, .call (.func 9) [.constInt 32 0]⟩ ∨ i = ⟨1, .call (.argument 1) []⟩ ∨
    (2 ≤ i.id ∧ ((∃ d, i.op = .br d) ∨ i.op = .ret (some (.argument 0)))) := by
  simp only [FunctionIR.insts, indirectChain, List.flatten_cons, List.mem_append, List.mem_cons,
    List.mem_flatten, List.mem_map, List.mem_singleton, List.not_mem_nil, or_false] at h
  rcases h with (h | h | h) | ⟨l, hl, hi⟩
  · exact Or.inl h
  · exact Or.inr (Or.inl h)
  · subst h; exact Or.inr (Or.inr ⟨le_refl _, Or.inl ⟨_, rfl⟩⟩)
  · rcases hl with ⟨k, -, rfl⟩ | rfl
    · simp only [List.mem_singleton] at hi
      subst hi
      exact Or.inr (Or.inr ⟨by simp, Or.inl ⟨_, rfl⟩⟩)
    · simp only [List.mem_singleton] at hi
      subst hi
      exact Or.inr (Or.inr ⟨by simp, Or.inr rfl⟩)

theorem indirectChain_find_zero (M : Nat) :
    (indirectChain M).find 0 = some (.call (.func 9) [.constInt 32 0]) := by
  simp [FunctionIR.find, FunctionIR.insts, indirectChain]

theorem indirectChain_not_called (M : Nat) (id : InstId) (h : 1 ≤ id) (cm : CalledModuleTy)
    (sg : Option SEXPGuardsTy) :
    cm.getCalledFunction (indirectChain M) (.inst id) sg = none := by
  unfold CalledModuleTy.getCalledFunction
  cases hf : (indirectChain M).find id with
  | none => simp [hf]
  | some op =>
    obtain ⟨i, hi, hid, hop⟩ := find_mem _ _ _ hf
    rcases indirectChain_mem M i hi with rfl | rfl | ⟨-, ⟨d, hd⟩ | hd⟩
    · simp only at hid; subst hid; exact absurd h (by decide)
    · simp only at hop; subst hop; simp [hf, getCalledFunction]
    · rw [hd] at hop; subst hop; simp [hf]
    · rw [hd] at hop; subst hop; simp [hf]

/-- A round of the engine on a block that is a single branch to the next
block, in a function without guard variables. -/
theorem br_round (F : FunctionIR) (X k : Nat) (j : InstId)
    (c w : CalledFunctionsOrderedSetTy)
    (hblock : F.block k = [⟨j, .br (k + 1)⟩])
    (hnc : exampleModule.getCalledFunction F (.inst j) (some []) = none) (h3 : k < X) :
    engineRound (exampleAnalysis F X) ⟨[chainState k], chainDone k, c, w, ()⟩ =
      .next ⟨[chainState (k + 1)], chainDone (k + 1), c, w, ()⟩ := by
  have hcap : ¬ (k + 1 > X) := by omega
  have hfresh := chainDone_fresh k
  have hblock2 : F.block (chainState k).bb = [⟨j, .br (k + 1)⟩] := hblock
  simp only [chainState] at hblock2 hfresh
  simp [engineRound, EngineTy.add, exampleAnalysis, hcap, hblock2, chainDone_length,
    visitInstruction, handleStoreOrigins, noGuards, hnc, getTerminator,
    Instr.isTerminator, handleReturn, addSuccessorStates, addStates, Instr.successors,
    chainState, chainDone, hfresh]

theorem indirectChain_first_round (M X : Nat) (hX : 1 ≤ X) :
    engineRound (exampleAnalysis (indirectChain M) X) (EngineTy.init ()) =
      .next ⟨[chainState 1], chainDone 1, [gcSig], [], ()⟩ := by
  have hcap : ¬ (1 > X) := by omega
  have h1 := indirectChain_not_called M 1 (le_refl _) exampleModule (some [])
  have h2 := indirectChain_not_called M 2 (by decide) exampleModule (some [])
  have h0 : exampleModule.getCalledFunction (indirectChain M) (.inst 0) (some []) = some gcSig := by
    simp [CalledModuleTy.getCalledFunction, indirectChain_find_zero, getCalledFunction,
      CalledModuleTy.argInfoOf, FunctionIR.asLoad, exampleModule, gcSig]
  have hA0 : exampleModule.isAllocating gcSig.fn = true := by decide
  have hins : CalledFunctionsOrderedSetTy.insert [] gcSig = [gcSig] := by decide
  have hb0 : (indirectChain M).block 0 =
      [⟨0, .call (.func 9) [.constInt 32 0]⟩, ⟨1, .call (.argument 1) []⟩, ⟨2, .br 1⟩] := rfl
  simp [engineRound, EngineTy.init, EngineTy.add, exampleAnalysis, hcap, hb0,
    visitInstruction, handleStoreOrigins, noGuards, h0, h1, h2, getTerminator,
    Instr.isTerminator, handleReturn, addSuccessorStates, addStates, Instr.successors,
    CAllocPackedStateTy_equal, chainState, chainDone, hA0, hins]

theorem indirectChain_after (M X k : Nat) (h1 : 1 ≤ k) (h2 : k ≤ M) (h3 : k ≤ X) :
    engineAfter (exampleAnalysis (indirectChain M) X) k (EngineTy.init ()) =
      some ⟨[chainState k], chainDone k, [gcSig], [], ()⟩ := by
  induction k with
  | zero => omega
  | succ k ih =>
    by_cases hk : k = 0
    · subst hk
      simp only [engineAfter, indirectChain_first_round M X h3]
    · rw [engineAfter_add _ k 1 _ _ (ih (by omega) (by omega) (by omega))]
      simp only [engineAfter, br_round (indirectChain M) X k (k + 2) _ _
        (indirectChain_block M k (by omega) (by omega))
        (indirectChain_not_called M (k + 2) (Nat.le_add_left 1 (k + 1)) exampleModule (some []))
        (by omega)]

theorem indirectChain_swept (M : Nat) :
    (0, (⟨1, .call (.argument 1) []⟩ : Instruction)) ∈ (indirectChain M).instsWithParent := by
  rw [mem_instsWithParent]
  exact ⟨by simp [indirectChain], by simp [FunctionIR.block, indirectChain]⟩

/-- C38, as far as the code has it: a round that pops a state that is not on
an error path while the done-set holds more than `MAX_STATES` states, in the
analysis of a function flagged as allocating or as a possible allocator, stops
on a failed assertion if and only if some call instruction outside the error
basic blocks does not resolve to a signature or has no called function; and an
instruction that is a call resolves to a signature if and only if it is a
direct call. -/
theorem fallback_assertion {γ : Type} (a : AnalysisTy γ) (e : EngineTy γ) (s : CAllocStateTy)
    (rest : List CAllocStateTy)
    (hw : e.workList = s :: rest) (herr : s.bb ∉ a.errorBasicBlocks)
    (hcap : a.MAX_STATES < e.doneSet.length)
    (hflags : a.cm.isAllocating a.fn = true ∨ a.cm.isPossibleAllocator a.fn = true) :
    (engineRound a e = .aborted ↔
      ∃ p i callee args, (p, i) ∈ a.F.instsWithParent ∧ p ∉ a.errorBasicBlocks ∧
        i.op = .call callee args ∧
        (a.cm.getCalledFunction a.F (.inst i.id) none = none ∨
          getCalledFunction callee = none)) ∧
    (∀ id callee args sg, a.F.find id = some (.call callee args) →
      ((a.cm.getCalledFunction a.F (.inst id) sg).isSome = true ↔ ∃ f, callee = .func f)) := by
  constructor
  · have hcap2 : e.doneSet.length > a.MAX_STATES := hcap
    have hfl : ¬ ((!a.cm.isAllocating a.fn && !a.cm.isPossibleAllocator a.fn) = true) := by
      rcases hflags with h | h <;> simp [h]
    have hiff := fallbackSweep_isSome a (a.cm.isAllocating a.fn) (a.cm.isPossibleAllocator a.fn)
      a.F.instsWithParent (e.called, e.wrapped)
    have hround : engineRound a e =
        (match fallbackSweep a (a.cm.isAllocating a.fn) (a.cm.isPossibleAllocator a.fn)
            a.F.instsWithParent (e.called, e.wrapped) with
          | some res => .returned res.1 res.2
          | none => .aborted) := by
      unfold engineRound
      simp only [hw, herr, if_false, hcap2, if_true]
      rw [if_neg hfl]
    rw [hround]
    cases hs : fallbackSweep a (a.cm.isAllocating a.fn) (a.cm.isPossibleAllocator a.fn)
        a.F.instsWithParent (e.called, e.wrapped) with
    | none =>
      refine ⟨fun _ => ?_, fun _ => rfl⟩
      by_contra hno
      have hall : ∀ p i, (p, i) ∈ a.F.instsWithParent → p ∉ a.errorBasicBlocks →
          ∀ callee args, i.op = .call callee args →
          (a.cm.getCalledFunction a.F (.inst i.id) none).isSome = true ∧
            (getCalledFunction callee).isSome = true := by
        intro p i hm hp callee args hop
        constructor
        · cases hx : a.cm.getCalledFunction a.F (.inst i.id) none with
          | some x => rfl
          | none => exact absurd ⟨p, i, callee, args, hm, hp, hop, Or.inl hx⟩ hno
        · cases hx : getCalledFunction callee with
          | some x => rfl
          | none => exact absurd ⟨p, i, callee, args, hm, hp, hop, Or.inr hx⟩ hno
      obtain ⟨r, hr⟩ := hiff.mpr hall
      rw [hs] at hr
      cases hr
    | some r =>
      refine ⟨fun h => (by cases h), ?_⟩
      rintro ⟨p, i, callee, args, hm, hp, hop, hx⟩
      have hboth := hiff.mp ⟨r, hs⟩ p i hm hp callee args hop
      rcases hx with hx | hx
      · rw [hx] at hboth
        cases hboth.1
      · rw [hx] at hboth
        cases hboth.2
  · intro id callee args sg hfind
    simp only [CalledModuleTy.getCalledFunction, hfind]
    cases callee with
    | func f => simp [getCalledFunction]
    | _ => simp [getCalledFunction]

/-- The failing input of C38: `indirectChain 3` analysed with
`MAX_STATES = 3`.  After three rounds the done-set holds 4 states; the round
that pops the state of block 3 stops on the failed assertion, because the
call `fp()` in block 0 resolves to no signature; so does the whole analysis,
also that of `indirectChain 3000` with `MAX_STATES = 3000`. -/
theorem fallback_assertion_witness :
    engineAfter (exampleAnalysis (indirectChain 3) 3) 3 (EngineTy.init ())
      = some ⟨[chainState 3], chainDone 3, [gcSig], [], ()⟩ ∧
    engineRound (exampleAnalysis (indirectChain 3) 3)
      ⟨[chainState 3], chainDone 3, [gcSig], [], ()⟩ = .aborted ∧
    exampleModule.getCalledFunction (indirectChain 3) (.inst 1) none = none ∧
    getCalledAndWrappedFunctions (exampleAnalysis (indirectChain 3) 3) 4 () = some none ∧
    getCalledAndWrappedFunctions (exampleAnalysis (indirectChain 3000) 3000) 3001 ()
      = some none := by
  have hround : ∀ M, engineRound (exampleAnalysis (indirectChain M) M)
      ⟨[chainState M], chainDone M, [gcSig], [], ()⟩ = .aborted := by
    intro M
    refine (fallback_assertion (exampleAnalysis (indirectChain M) M)
      ⟨[chainState M], chainDone M, [gcSig], [], ()⟩ (chainState M) [] rfl
      (by simp [exampleAnalysis]) (by simp [exampleAnalysis, chainDone_length])
      (Or.inl (show exampleModule.isAllocating 20 = true by decide))).1.mpr ?_
    exact ⟨0, ⟨1, .call (.argument 1) []⟩, .argument 1, [], indirectChain_swept M,
      by simp [exampleAnalysis], rfl, Or.inr rfl⟩
  have hres : ∀ M, 1 ≤ M →
      getCalledAndWrappedFunctions (exampleAnalysis (indirectChain M) M) (M + 1) ()
        = some none := by
    intro M hM
    have hb : (exampleAnalysis (indirectChain M) M).F.blocks.length ≠ 0 := by
      simp [exampleAnalysis, indirectChain]
    unfold getCalledAndWrappedFunctions
    rw [if_neg hb, engineLoop_after _ M 1 _ _
      (indirectChain_after M M M hM (le_refl _) (le_refl _))]
    simp only [engineLoop, hround M]
  exact ⟨indirectChain_after 3 3 3 (by decide) (by decide) (by decide), hround 3,
    indirectChain_not_called 3 1 (le_refl _) exampleModule none, hres 3 (by decide),
    hres 3000 (by norm_num)⟩

end Rchk
